import Mathlib

/-!
# WeensyOS kernel (`src/kernel/kernel.cc`): memory manager and process table

A shallow embedding of the kernel's physical page allocator, page-table
manipulation, `fork`, `exit`/`kill`, `page_alloc` and the page-fault handler,
followed by theorems about them.

Conventions of the embedding.

* Kernel state is passed explicitly.  A function that can stop at a failed
  `assert`, a panic or a wild access returns `Except Halt _`.
* Physical memory is a function from byte address to byte value, and the
  `physpages` array is a function from page number to reference count.
* Page tables are kept as values (`x86_64_pagetable`) inside the process
  descriptor that owns them; the bytes of the pages that hold them are not
  interpreted.
* The constants of `kernel.hh` and the function
  `allocatable_physical_address` are not part of `src/`; they are the fields
  of `Config`.
-/

namespace WeensyOS

/-! ## Constants and configuration -/

/-- Size of a page in bytes (`u-lib.hh`: "a multiple of PAGESIZE == 4096"). -/
def PAGESIZE : Nat := 4096

/-- Mask selecting the offset of an address inside its page. -/
def PAGEOFFMASK : Nat := PAGESIZE - 1

/-- The constants and the page classification that `kernel.cc` takes from
`kernel.hh` and `k-hardware.cc`. -/
structure Config where
  /-- Number of physical pages (`NPAGES`). -/
  NPAGES : Nat
  /-- Size of physical memory in bytes (`MEMSIZE_PHYSICAL`). -/
  MEMSIZE_PHYSICAL : Nat
  /-- Size of a process's virtual address space in bytes (`MEMSIZE_VIRTUAL`). -/
  MEMSIZE_VIRTUAL : Nat
  /-- First address of the process-private region (`PROC_START_ADDR`). -/
  PROC_START_ADDR : Nat
  /-- Address of the console page (`CONSOLE_ADDR`). -/
  CONSOLE_ADDR : Nat
  /-- Number of process slots (`PID_MAX`). -/
  PID_MAX : Nat
  /-- Classification of a physical address as available for process use. -/
  allocatable_physical_address : Nat → Bool

/-- Number of virtual pages below `MEMSIZE_VIRTUAL`: the number of iterations of
the loops `for (...; it.va() < MEMSIZE_VIRTUAL; it += PAGESIZE)` that start at
address 0. -/
def Config.NVPAGES (cfg : Config) : Nat :=
  (cfg.MEMSIZE_VIRTUAL + PAGESIZE - 1) / PAGESIZE

/-- Ways in which the kernel stops instead of returning. -/
inductive Halt where
  /-- A failed `assert`. -/
  | assertion
  /-- A call of `proc_panic` / `panic`. -/
  | panic
  /-- An access through a null or dangling pointer made by the kernel itself. -/
  | fault
deriving DecidableEq, Repr

/-! ## Physical memory and the page allocator -/

/-- Physical memory together with the `physpages` array. -/
structure Memory where
  /-- Reference count `physpages[pn].refcount` of page number `pn`. -/
  physpages : Nat → Nat
  /-- Contents of physical memory, one value per byte address. -/
  bytes : Nat → Nat

/-- Result of `memset(p, c, n)` on a byte map. -/
def memset (b : Nat → Nat) (p c n : Nat) : Nat → Nat :=
  fun a => if p ≤ a ∧ a < p + n then c else b a

/-- Result of `memcpy(dst, src, n)` on a byte map (the ranges do not overlap
where the kernel uses it). -/
def memcpy (b : Nat → Nat) (dst src n : Nat) : Nat → Nat :=
  fun a => if dst ≤ a ∧ a < dst + n then b (src + (a - dst)) else b a

/-- The scan of `kalloc`: `tries` iterations remain and `pageno` is the page
looked at next.  Returns the address (0 for `nullptr`) and the new memory. -/
def kalloc_scan (cfg : Config) (m : Memory) : Nat → Nat → Nat × Memory
  | 0, _ => (0, m)
  | tries + 1, pageno =>
    let pa := pageno * PAGESIZE
    if cfg.allocatable_physical_address pa && m.physpages pageno == 0 then
      (pa, { physpages := Function.update m.physpages pageno (m.physpages pageno + 1),
             bytes := memset m.bytes pa 0xCC PAGESIZE })
    else
      kalloc_scan cfg m tries ((pageno + 1) % cfg.NPAGES)

/-- The function `kalloc(sz)`: returns the address of the allocated page, or 0
(`nullptr`) on failure, and the new memory. -/
def kalloc (cfg : Config) (m : Memory) (sz : Nat) : Nat × Memory :=
  if sz > PAGESIZE then (0, m) else kalloc_scan cfg m cfg.NPAGES 0

/-- The function `kfree(kptr)`. -/
def kfree (m : Memory) (kptr : Nat) : Except Halt Memory :=
  if kptr == 0 then .ok m
  else if ¬ (m.physpages (kptr / PAGESIZE) > 0) then .error Halt.assertion
  else if ¬ (kptr % PAGESIZE == 0) then .error Halt.assertion
  else
    let pn := kptr / PAGESIZE
    .ok { m with physpages := Function.update m.physpages pn (m.physpages pn - 1) }

/-! ## Page tables -/

/-- Modelled from the spec: the permission set of a page-table entry,
"{present, writable, user-accessible, copy-on-write-pending}".  The bit
constants `PTE_P`, `PTE_W`, `PTE_U` (`x86-64.h`) and `PTE_C` (`kernel.hh`) are
declared outside `src/`; a permission word is kept as its four flags. -/
structure Perm where
  /-- Flag `PTE_P`: present. -/
  P : Bool
  /-- Flag `PTE_W`: writable. -/
  W : Bool
  /-- Flag `PTE_U`: user-accessible. -/
  U : Bool
  /-- Flag `PTE_C`: copy-on-write-pending. -/
  C : Bool
deriving DecidableEq, Repr

/-- The permission word 0. -/
def Perm.zero : Perm := ⟨false, false, false, false⟩

/-- Bitwise or of two permission words. -/
def Perm.or (a b : Perm) : Perm := ⟨a.P || b.P, a.W || b.W, a.U || b.U, a.C || b.C⟩

/-- Bitwise and of two permission words. -/
def Perm.and (a b : Perm) : Perm := ⟨a.P && b.P, a.W && b.W, a.U && b.U, a.C && b.C⟩

/-- A permission word used as a C condition: true when it is not 0. -/
def Perm.nonzero (a : Perm) : Bool := a.P || a.W || a.U || a.C

instance : OrOp Perm := ⟨Perm.or⟩
instance : AndOp Perm := ⟨Perm.and⟩

/-- Permission bit "present". -/
def PTE_P : Perm := ⟨true, false, false, false⟩
/-- Permission bit "writable". -/
def PTE_W : Perm := ⟨false, true, false, false⟩
/-- Permission bit "user-accessible". -/
def PTE_U : Perm := ⟨false, false, true, false⟩
/-- Permission bit "copy-on-write-pending". -/
def PTE_C : Perm := ⟨false, false, false, true⟩
/-- The word `PTE_P | PTE_W | PTE_U`. -/
def PTE_PWU : Perm := PTE_P ||| PTE_W ||| PTE_U

/-- One page-table entry: a physical address and a permission word. -/
structure pageentry where
  /-- Physical address the entry points to. -/
  pa : Nat
  /-- Permission word of the entry. -/
  perm : Perm
deriving DecidableEq, Repr

/-- The all-zero entry of a freshly cleared page-table page. -/
def pageentry.zero : pageentry := ⟨0, Perm.zero⟩

/-- A page-table-structure page below the top-level page: its level (3, 2 or
1), the index of the region of the address space it covers, and its physical
address. -/
structure ptpage where
  /-- Level of the page in the four-level tree (3, 2 or 1). -/
  level : Nat
  /-- Index of the covered region: `va >> (12 + 9 * level)`. -/
  index : Nat
  /-- Physical address of the page. -/
  addr : Nat
deriving DecidableEq, Repr

/-- Modelled from the spec: a per-process page table (`x86_64_pagetable`,
`x86-64.h` is not in `src/`).  "Entries map a page-aligned virtual address to a
physical address plus a permission set", and the table owns its top-level page
and the "page-table-structure pages" that `map` allocates "on demand". -/
structure x86_64_pagetable where
  /-- Physical address of the top-level page: the value of the C pointer. -/
  addr : Nat
  /-- The lower-level structure pages, in the order they were allocated. -/
  dirs : List ptpage
  /-- The entry for each virtual page number. -/
  entry : Nat → pageentry

/-- The table with the entry for virtual page number `v` replaced by `e`. -/
def x86_64_pagetable.set_entry (pt : x86_64_pagetable) (v : Nat) (e : pageentry) :
    x86_64_pagetable :=
  { pt with entry := Function.update pt.entry v e }

/-- The structure pages that a walk to `va` passes through, top-down, in the
x86-64 four-level layout (512 entries per page). -/
def ptpath (va : Nat) : List (Nat × Nat) :=
  [(3, va / 2 ^ 39), (2, va / 2 ^ 30), (1, va / 2 ^ 21)]

/-- Whether the table already has the structure page of this level and index. -/
def x86_64_pagetable.has_dir (pt : x86_64_pagetable) (lk : Nat × Nat) : Bool :=
  pt.dirs.any (fun d => d.level == lk.1 && d.index == lk.2)

/-- Modelled from the spec: `vmiter::perm()` (`k-vmiter.hh` is not in `src/`):
the permission word of the entry for `va`, 0 unless it is present. -/
def vmiter_perm (pt : x86_64_pagetable) (va : Nat) : Perm :=
  if (pt.entry (va / PAGESIZE)).perm.P then (pt.entry (va / PAGESIZE)).perm else Perm.zero

/-- Modelled from the spec: `vmiter::present()`, "is this virtual address
present". -/
def vmiter_present (pt : x86_64_pagetable) (va : Nat) : Bool :=
  (vmiter_perm pt va).P

/-- Modelled from the spec: `vmiter::writable()`, present and writable. -/
def vmiter_writable (pt : x86_64_pagetable) (va : Nat) : Bool :=
  (vmiter_perm pt va).P && (vmiter_perm pt va).W

/-- Modelled from the spec: `vmiter::user()`, present and user-accessible. -/
def vmiter_user (pt : x86_64_pagetable) (va : Nat) : Bool :=
  (vmiter_perm pt va).P && (vmiter_perm pt va).U

/-- The value `(uintptr_t) -1` that `vmiter::pa()` gives for an unmapped
address. -/
def NO_PA : Nat := 2 ^ 64 - 1

/-- Modelled from the spec: `vmiter::pa()`: the physical address `va` maps to,
`-1` when the entry is not present. -/
def vmiter_pa (pt : x86_64_pagetable) (va : Nat) : Nat :=
  if (pt.entry (va / PAGESIZE)).perm.P then (pt.entry (va / PAGESIZE)).pa + va % PAGESIZE
  else NO_PA

/-- Modelled from the spec: `vmiter::kptr()`: the kernel pointer for `va`,
`nullptr` when the entry is not present. -/
def vmiter_kptr (pt : x86_64_pagetable) (va : Nat) : Nat :=
  if (pt.entry (va / PAGESIZE)).perm.P then vmiter_pa pt va else 0

/-- Modelled from the spec: the walk of `vmiter::try_map` down the levels
still missing for its address, "allocating intermediate page-table-structure
pages on demand from the Physical Page Allocator".  Returns whether every
level is now there; on exhaustion the pages allocated so far stay in the
table ("partially-built intermediate structures may remain allocated"). -/
def try_map_walk (cfg : Config) :
    List (Nat × Nat) → Memory → x86_64_pagetable → Bool × Memory × x86_64_pagetable
  | [], m, pt => (true, m, pt)
  | lk :: rest, m, pt =>
    if pt.has_dir lk then try_map_walk cfg rest m pt
    else
      let r := kalloc cfg m PAGESIZE
      if r.1 == 0 then (false, r.2, pt)
      else
        try_map_walk cfg rest { r.2 with bytes := memset r.2.bytes r.1 0 PAGESIZE }
          { pt with dirs := pt.dirs ++ [⟨lk.1, lk.2, r.1⟩] }

/-- Whether a `vmiter` for `va` stands at the lowest level of the table: every
structure page on the path exists.  That is so in particular where the entry
is present, because a present entry lies in an existing lowest-level page. -/
def vmiter_level0 (pt : x86_64_pagetable) (va : Nat) : Bool :=
  (pt.entry (va / PAGESIZE)).perm.P || (ptpath va).all pt.has_dir

/-- Modelled from the spec: `vmiter::try_map(pa, perm)` at address `va`:
"installs or replaces one page-table-entry".  Returns 0 on success and -1 when
a structure page could not be allocated.  A mapping with permission word 0
creates no structure page and is written only where the lowest level
exists. -/
def try_map (cfg : Config) (m : Memory) (pt : x86_64_pagetable) (va pa : Nat) (perm : Perm) :
    Int × Memory × x86_64_pagetable :=
  if vmiter_level0 pt va then (0, m, pt.set_entry (va / PAGESIZE) ⟨pa, perm⟩)
  else if perm.nonzero then
    let w := try_map_walk cfg (ptpath va) m pt
    if w.1 then (0, w.2.1, w.2.2.set_entry (va / PAGESIZE) ⟨pa, perm⟩)
    else (-1, w.2.1, w.2.2)
  else (0, m, pt)

/-- Modelled from the spec: `vmiter::map(pa, perm)`: `try_map` followed by
the assertion that it succeeded. -/
def vmiter_map (cfg : Config) (m : Memory) (pt : x86_64_pagetable) (va pa : Nat) (perm : Perm) :
    Except Halt (Memory × x86_64_pagetable) :=
  let r := try_map cfg m pt va pa perm
  if r.1 == 0 then .ok r.2 else .error Halt.assertion

/-- Modelled from the spec: `kalloc_pagetable()`: "allocates a fresh page
table", a zeroed page from `kalloc` with no entry present; `none` stands for
`nullptr`. -/
def kalloc_pagetable (cfg : Config) (m : Memory) : Option x86_64_pagetable × Memory :=
  let r := kalloc cfg m PAGESIZE
  if r.1 == 0 then (none, r.2)
  else (some ⟨r.1, [], fun _ => pageentry.zero⟩,
        { r.2 with bytes := memset r.2.bytes r.1 0 PAGESIZE })

/-! ## Process descriptors and kernel state -/

/-- Process states (`kernel.hh`). -/
inductive procstate where
  /-- Slot `P_FREE`. -/
  | P_FREE
  /-- Slot `P_RUNNABLE`. -/
  | P_RUNNABLE
  /-- Slot `P_FAULTED`. -/
  | P_FAULTED
deriving DecidableEq, Repr

export procstate (P_FREE P_RUNNABLE P_FAULTED)

/-- The saved registers that `kernel.cc` reads or writes. -/
structure regstate where
  /-- Register `%rax`: syscall number and return value. -/
  reg_rax : Nat
  /-- Register `%rdi`: first syscall argument. -/
  reg_rdi : Nat
  /-- Register `%rip`. -/
  reg_rip : Nat
  /-- Register `%rsp`. -/
  reg_rsp : Nat
  /-- Interrupt number of the trap. -/
  reg_intno : Nat
  /-- Error code of the trap. -/
  reg_errcode : Nat
deriving DecidableEq, Repr

/-- A process descriptor (`struct proc`). -/
structure proc where
  /-- Process id (the slot's index once `kernel_start` has run). -/
  pid : Nat
  /-- Process state. -/
  state : procstate
  /-- Saved registers. -/
  regs : regstate
  /-- The process's page table, `none` for `nullptr`. -/
  pagetable : Option x86_64_pagetable

/-- The kernel's global state. -/
structure Kernel where
  /-- The array `ptable[PID_MAX]`. -/
  ptable : Nat → proc
  /-- Index in `ptable` of the descriptor `current` points to. -/
  current : Nat
  /-- The array `physpages` and physical memory. -/
  memory : Memory
  /-- The counter `ticks`. -/
  ticks : Nat
  /-- The kernel's own page table `kernel_pagetable`. -/
  kernel_pagetable : x86_64_pagetable

/-- The page-aligned addresses `0, PAGESIZE, ...` below `MEMSIZE_VIRTUAL`, in
the order the loops `for (vmiter it(pt, 0); it.va() < MEMSIZE_VIRTUAL;
it += PAGESIZE)` visit them. -/
def Config.vas (cfg : Config) : List Nat :=
  (List.range cfg.NVPAGES).map (fun i => i * PAGESIZE)

/-- The kernel state with the descriptor of slot `i` replaced. -/
def Kernel.set_proc (k : Kernel) (i : Nat) (p : proc) : Kernel :=
  { k with ptable := Function.update k.ptable i p }

/-! ## Teardown: `sys_exit` -/

/-- First loop of `sys_exit`: `kfree` of every user-accessible page other than
the one at `CONSOLE_ADDR`, over the given addresses. -/
def sys_exit_pages (cfg : Config) (pgtbl : x86_64_pagetable) :
    List Nat → Memory → Except Halt Memory
  | [], m => .ok m
  | va :: rest, m =>
    if vmiter_user pgtbl va && va != cfg.CONSOLE_ADDR then
      match kfree m (vmiter_kptr pgtbl va) with
      | .error e => .error e
      | .ok m1 => sys_exit_pages cfg pgtbl rest m1
    else sys_exit_pages cfg pgtbl rest m

/-- Second loop of `sys_exit`: `kfree` of every page-table-structure page that
`ptiter` visits. -/
def sys_exit_dirs : List ptpage → Memory → Except Halt Memory
  | [], m => .ok m
  | d :: rest, m =>
    match kfree m d.addr with
    | .error e => .error e
    | .ok m1 => sys_exit_dirs rest m1

/-- The function `sys_exit(pid)`: returns 0 and the state after teardown, or
-1 and the unchanged state. -/
def sys_exit (cfg : Config) (k : Kernel) (pid : Int) : Except Halt (Int × Kernel) :=
  if pid ≥ 0 && pid < cfg.PID_MAX && (k.ptable pid.toNat).state != P_FREE then
    match (k.ptable pid.toNat).pagetable with
    | none => .error Halt.fault
    | some pgtbl =>
      match sys_exit_pages cfg pgtbl cfg.vas k.memory with
      | .error e => .error e
      | .ok m1 =>
        match sys_exit_dirs pgtbl.dirs m1 with
        | .error e => .error e
        | .ok m2 =>
          match kfree m2 pgtbl.addr with
          | .error e => .error e
          | .ok m3 =>
            .ok (0, { k with memory := m3 }.set_proc pid.toNat
              { k.ptable pid.toNat with state := P_FREE, pagetable := none })
  else .ok (-1, k)

/-! ## `sys_fork` -/

/-- The search loop of `sys_fork`: the lowest `k` in `1 .. PID_MAX - 1` whose
slot is free, 0 when there is none. -/
def sys_fork_find (cfg : Config) (k : Kernel) : Nat :=
  ((List.range' 1 (cfg.PID_MAX - 1)).find? (fun i => (k.ptable i).state == P_FREE)).getD 0

/-- What the copy loop of `sys_fork` does to the parent's table at `va`: the
entry becomes `PTE_P | PTE_U | PTE_C` when it was writable, user-accessible and
not the console page. -/
def sys_fork_src (cfg : Config) (m : Memory) (src : x86_64_pagetable) (va : Nat) :
    Except Halt (Memory × x86_64_pagetable) :=
  let perms := PTE_P ||| PTE_U
  if (vmiter_writable src va || (vmiter_perm src va &&& PTE_C).nonzero)
      && vmiter_user src va && vmiter_pa src va != cfg.CONSOLE_ADDR then
    let perms := perms ||| PTE_C
    if vmiter_writable src va then vmiter_map cfg m src va (vmiter_pa src va) perms
    else .ok (m, src)
  else .ok (m, src)

/-- The increment `++physpages[srcit.pa() / PAGESIZE].refcount` of `sys_fork`,
made for a present user-accessible page other than the console page. -/
def sys_fork_ref (cfg : Config) (m : Memory) (src : x86_64_pagetable) (va : Nat) : Memory :=
  if vmiter_user src va && vmiter_present src va && vmiter_pa src va != cfg.CONSOLE_ADDR then
    let pn := vmiter_pa src va / PAGESIZE
    { m with physpages := Function.update m.physpages pn (m.physpages pn + 1) }
  else m

/-- The copy loop of `sys_fork` over the given addresses.  The flag is false
when a `try_map` into the child's table failed; the loop stops there. -/
def sys_fork_loop (cfg : Config) :
    List Nat → Memory → x86_64_pagetable → x86_64_pagetable →
      Except Halt (Bool × Memory × x86_64_pagetable × x86_64_pagetable)
  | [], m, src, dst => .ok (true, m, src, dst)
  | va :: rest, m, src, dst =>
    match sys_fork_src cfg m src va with
    | .error e => .error e
    | .ok (m1, src1) =>
      let m2 := sys_fork_ref cfg m1 src1 va
      if vmiter_present src1 va then
        let r := try_map cfg m2 dst va (vmiter_pa src1 va) (vmiter_perm src1 va)
        if r.1 != 0 then .ok (false, r.2.1, src1, r.2.2)
        else sys_fork_loop cfg rest r.2.1 src1 r.2.2
      else sys_fork_loop cfg rest m2 src1 dst

/-- The function `sys_fork()`: returns the child's pid or -1, and the new
state. -/
def sys_fork (cfg : Config) (k : Kernel) : Except Halt (Int × Kernel) :=
  let new_id := sys_fork_find cfg k
  if new_id < 1 then .ok (-1, k)
  else
    let a := kalloc_pagetable cfg k.memory
    let k1 : Kernel := { k with memory := a.2 }.set_proc new_id
      { k.ptable new_id with pagetable := a.1 }
    match a.1 with
    | none => .ok (-1, k1)
    | some dst0 =>
      match (k1.ptable (k1.ptable k1.current).pid).pagetable with
      | none => .error Halt.fault
      | some src0 =>
        match sys_fork_loop cfg cfg.vas k1.memory src0 dst0 with
        | .error e => .error e
        | .ok (ok, m, src, dst) =>
          let parent := (k1.ptable k1.current).pid
          let k2 : Kernel := (({ k1 with memory := m }.set_proc parent
            { k1.ptable parent with pagetable := some src }).set_proc new_id
            { k1.ptable new_id with pagetable := some dst })
          if ok then
            let regs : regstate := { (k2.ptable k2.current).regs with reg_rax := 0 }
            .ok (new_id, k2.set_proc new_id
              { k2.ptable new_id with regs := regs, state := P_RUNNABLE })
          else
            match sys_exit cfg k2 new_id with
            | .error e => .error e
            | .ok (r, k3) => if r == 0 then .ok (-1, k3) else .error Halt.assertion

/-! ## `syscall_page_alloc` -/

/-- The function `syscall_page_alloc(addr)` for the current process: returns 0
or -1 and the new state. -/
def syscall_page_alloc (cfg : Config) (k : Kernel) (addr : Nat) : Except Halt (Int × Kernel) :=
  if (addr &&& PAGEOFFMASK) != 0 || addr < cfg.PROC_START_ADDR || addr ≥ cfg.MEMSIZE_VIRTUAL then
    .ok (-1, k)
  else
    let a := kalloc cfg k.memory PAGESIZE
    if a.1 == 0 then .ok (-1, { k with memory := a.2 })
    else
      match (k.ptable k.current).pagetable with
      | none => .error Halt.fault
      | some pt =>
        let r := try_map cfg a.2 pt addr a.1 (PTE_P ||| PTE_U ||| PTE_W)
        if r.1 == 0 then
          let m : Memory := { r.2.1 with bytes := memset r.2.1.bytes a.1 0 PAGESIZE }
          .ok (0, { k with memory := m }.set_proc k.current
            { k.ptable k.current with pagetable := some r.2.2 })
        else .error Halt.assertion

/-! ## `exception` -/

/-- Interrupt number of a page fault (`x86-64.h`). -/
def INT_PF : Nat := 14
/-- First interrupt number of the hardware interrupts (`x86-64.h`). -/
def INT_IRQ : Nat := 32
/-- Hardware interrupt line of the timer (`x86-64.h`). -/
def IRQ_TIMER : Nat := 0
/-- The bit of a page-fault error code that `kernel.cc` tests with `PTE_U`:
the access came from user mode. -/
def PFERR_USER : Nat := 4

/-- The helper `round_down(x, m)`. -/
def round_down (x m : Nat) : Nat := x - x % m

/-- How a trap handler hands control back: `run(p)` or `schedule()`. -/
inductive Next where
  /-- The call `run(&ptable[p])`. -/
  | run (p : Nat)
  /-- The call `schedule()`. -/
  | schedule
deriving DecidableEq, Repr

/-- The end of `exception`: "Return to the current process (or run something
else)". -/
def exception_return (k : Kernel) : Kernel × Next :=
  if (k.ptable k.current).state == P_RUNNABLE then (k, Next.run k.current)
  else (k, Next.schedule)

/-- The copying branch of the page-fault case of `exception`: the entry at
`rdaddr` is copy-on-write-pending and the reference count of its page is
not 1.  When `kalloc` fails the code tears the process down and then goes on
to `memcpy(nullptr, ...)`; address 0 is mapped with no permission even for the
kernel (`kernel_start`), so that path ends in a kernel fault. -/
def exception_cow_copy (cfg : Config) (k : Kernel) (pt : x86_64_pagetable) (rdaddr : Nat) :
    Except Halt (Kernel × Next) :=
  let pg := kalloc cfg k.memory PAGESIZE
  if pg.1 == 0 then
    match sys_exit cfg { k with memory := pg.2 } (k.ptable k.current).pid with
    | .error e => .error e
    | .ok (r, _) => if r == 0 then .error Halt.fault else .error Halt.assertion
  else
    let pn := vmiter_pa pt rdaddr / PAGESIZE
    let m1 : Memory :=
      { physpages := Function.update pg.2.physpages pn (pg.2.physpages pn - 1),
        bytes := memcpy pg.2.bytes pg.1 (vmiter_kptr pt rdaddr) PAGESIZE }
    let temp2 := try_map cfg m1 pt rdaddr pg.1 PTE_PWU
    let k1 : Kernel := { k with memory := temp2.2.1 }.set_proc k.current
      { k.ptable k.current with pagetable := some temp2.2.2 }
    if temp2.1 != 0 then
      match kfree k1.memory pg.1 with
      | .error e => .error e
      | .ok m2 =>
        match sys_exit cfg { k1 with memory := m2 } (k1.ptable k1.current).pid with
        | .error e => .error e
        | .ok (r, k2) => if r == 0 then .ok (exception_return k2) else .error Halt.assertion
    else .ok (exception_return k1)

/-- The function `exception(regs)`; `cr2` is the value `rdcr2()` returns, the
faulting address.  The display calls (`memshow`, `console_show_cursor`) and
`check_keyboard` are left out. -/
def exception (cfg : Config) (k0 : Kernel) (regs : regstate) (cr2 : Nat) :
    Except Halt (Kernel × Next) :=
  let k := k0.set_proc k0.current { k0.ptable k0.current with regs := regs }
  if regs.reg_intno == INT_IRQ + IRQ_TIMER then
    .ok ({ k with ticks := k.ticks + 1 }, Next.schedule)
  else if regs.reg_intno == INT_PF then
    let rdaddr := round_down cr2 PAGESIZE
    match (k.ptable k.current).pagetable with
    | none => .error Halt.fault
    | some tableau =>
      if (vmiter_perm tableau rdaddr &&& PTE_C).nonzero then
        if k.memory.physpages (vmiter_pa tableau rdaddr / PAGESIZE) == 1 then
          match vmiter_map cfg k.memory tableau rdaddr (vmiter_pa tableau rdaddr) PTE_PWU with
          | .error e => .error e
          | .ok (m, pt1) =>
            .ok (exception_return ({ k with memory := m }.set_proc k.current
              { k.ptable k.current with pagetable := some pt1 }))
        else exception_cow_copy cfg k tableau rdaddr
      else if regs.reg_errcode &&& PFERR_USER == 0 then .error Halt.panic
      else
        .ok (exception_return
          (k.set_proc k.current { k.ptable k.current with state := P_FAULTED }))
  else .error Halt.panic

/-! ## `process_setup` and `kernel_start` -/

/-- One loadable segment of a program image: what `program_image_segment`
exposes to `process_setup`. -/
structure segment where
  /-- Virtual address of the segment. -/
  va : Nat
  /-- Size of the segment in memory. -/
  size : Nat
  /-- The segment's bytes in the image, by offset. -/
  data : Nat → Nat
  /-- Number of bytes the image holds for the segment. -/
  data_size : Nat
  /-- Whether the segment is writable. -/
  writable : Bool

/-- A program image: its loadable segments and its entry point. -/
structure program_image where
  /-- The loadable segments, in order. -/
  segs : List segment
  /-- The entry point. -/
  entry : Nat

/-- The page-aligned addresses `a0, a0 + PAGESIZE, ...` below `stop`. -/
def page_range (a0 stop : Nat) : List Nat :=
  (List.range ((stop - a0 + PAGESIZE - 1) / PAGESIZE)).map (fun i => a0 + i * PAGESIZE)

/-- First loop of `process_setup`: copy the kernel's mappings below
`PROC_START_ADDR` into the new table with `map`. -/
def process_setup_kernel (cfg : Config) (kpt : x86_64_pagetable) :
    List Nat → Memory → x86_64_pagetable → Except Halt (Memory × x86_64_pagetable)
  | [], m, dst => .ok (m, dst)
  | va :: rest, m, dst =>
    match vmiter_map cfg m dst va (vmiter_pa kpt va) (vmiter_perm kpt va) with
    | .error e => .error e
    | .ok (m1, dst1) => process_setup_kernel cfg kpt rest m1 dst1

/-- The inner loop of `process_setup` for one segment: a fresh page for every
page of the segment, mapped user-accessible and writable iff the segment is. -/
def process_setup_pages (cfg : Config) (writable : Bool) :
    List Nat → Memory → x86_64_pagetable → Except Halt (Memory × x86_64_pagetable)
  | [], m, pt => .ok (m, pt)
  | a :: rest, m, pt =>
    let ptr := kalloc cfg m PAGESIZE
    if ptr.1 == 0 then .error Halt.assertion
    else
      let perms := if !writable then PTE_P ||| PTE_U else PTE_P ||| PTE_W ||| PTE_U
      match vmiter_map cfg ptr.2 pt a ptr.1 perms with
      | .error e => .error e
      | .ok (m1, pt1) => process_setup_pages cfg writable rest m1 pt1

/-- The loop of `process_setup` that allocates and maps all segments. -/
def process_setup_segs (cfg : Config) :
    List segment → Memory → x86_64_pagetable → Except Halt (Memory × x86_64_pagetable)
  | [], m, pt => .ok (m, pt)
  | seg :: rest, m, pt =>
    match process_setup_pages cfg seg.writable
        (page_range (round_down seg.va PAGESIZE) (seg.va + seg.size)) m pt with
    | .error e => .error e
    | .ok (m1, pt1) => process_setup_segs cfg rest m1 pt1

/-- The loop of `process_setup` that copies "instructions and data from
program image into process memory": `memset` of the whole segment to 0 and
`memcpy` of the image's bytes, both starting at the physical address of the
segment's first byte. -/
def process_setup_copy (pt : x86_64_pagetable) : List segment → (Nat → Nat) → (Nat → Nat)
  | [], b => b
  | seg :: rest, b =>
    let ptr := vmiter_pa pt seg.va
    let b1 := memset b ptr 0 seg.size
    process_setup_copy pt rest
      (fun a => if ptr ≤ a ∧ a < ptr + seg.data_size then seg.data (a - ptr) else b1 a)

/-- The register state `init_process` leaves in a descriptor. -/
def regstate.init : regstate := ⟨0, 0, 0, 0, 0, 0⟩

/-- The function `process_setup(pid, program_name)`, with the program image
named by `program_name` passed as `pgm`.

The page table is kept as a value of its own and the copy loop writes to
`bytes` only.  The kernel's copy runs over `seg.size()` consecutive physical
bytes, so when the pages of a segment do not follow one another in physical
memory it also writes over whatever lies between them, which can be a page of
the table just built.  The table returned here is the table the loops above
the copy have built; it is the table of the kernel exactly when every copy
stays inside the pages of its segment (`kernel_start_inside`).  The
statements about the user mappings of a process and the reference counts of
the pages they reach are made for those boots. -/
def process_setup (cfg : Config) (k : Kernel) (pid : Nat) (pgm : program_image) :
    Except Halt Kernel :=
  let a := kalloc_pagetable cfg k.memory
  match a.1 with
  | none => .error Halt.fault
  | some pt0 =>
    match process_setup_kernel cfg k.kernel_pagetable (page_range 0 cfg.PROC_START_ADDR)
        a.2 pt0 with
    | .error e => .error e
    | .ok (m1, pt1) =>
      match process_setup_segs cfg pgm.segs m1 pt1 with
      | .error e => .error e
      | .ok (m2, pt2) =>
        let m3 : Memory := { m2 with bytes := process_setup_copy pt2 pgm.segs m2.bytes }
        let stack_addr := cfg.MEMSIZE_VIRTUAL - PAGESIZE
        let newp := kalloc cfg m3 PAGESIZE
        if newp.1 == 0 then .error Halt.assertion
        else
          match vmiter_map cfg newp.2 pt2 stack_addr newp.1 (PTE_P ||| PTE_W ||| PTE_U) with
          | .error e => .error e
          | .ok (m4, pt3) =>
            let regs : regstate :=
              { regstate.init with reg_rip := pgm.entry, reg_rsp := stack_addr + PAGESIZE }
            .ok ({ k with memory := m4 }.set_proc pid
              { k.ptable pid with regs := regs, pagetable := some pt3, state := P_RUNNABLE })

/-- The loop of `kernel_start` that "(re-)initializes" the kernel page table
with identity mappings. -/
def kernel_start_map (cfg : Config) :
    List Nat → Memory → x86_64_pagetable → Except Halt (Memory × x86_64_pagetable)
  | [], m, kpt => .ok (m, kpt)
  | addr :: rest, m, kpt =>
    let perm :=
      if addr == 0 then Perm.zero
      else if addr < cfg.PROC_START_ADDR && addr != cfg.CONSOLE_ADDR then PTE_P ||| PTE_W
      else PTE_P ||| PTE_W ||| PTE_U
    let temp1 := try_map cfg m kpt addr addr perm
    if temp1.1 == 0 then kernel_start_map cfg rest temp1.2.1 temp1.2.2
    else .error Halt.assertion

/-- The calls `process_setup(1, ...)`, `process_setup(2, ...)`, ... of
`kernel_start`, one per program to load. -/
def kernel_start_procs (cfg : Config) : List program_image → Nat → Kernel → Except Halt Kernel
  | [], _, k => .ok k
  | pgm :: rest, pid, k =>
    match process_setup cfg k pid pgm with
    | .error e => .error e
    | .ok k1 => kernel_start_procs cfg rest (pid + 1) k1

/-- The state in which `kernel_start` begins: the zero-initialised globals
`ptable`, `physpages` and `ticks`, with the kernel page table `kpt` and the
memory contents `bytes` that boot left. -/
def boot_state (kpt : x86_64_pagetable) (bytes : Nat → Nat) : Kernel :=
  { ptable := fun _ => ⟨0, P_FREE, regstate.init, none⟩,
    current := 0,
    memory := ⟨fun _ => 0, bytes⟩,
    ticks := 0,
    kernel_pagetable := kpt }

/-- The function `kernel_start(command)` up to its final `run(&ptable[1])`.
`programs` are the images loaded as processes 1, 2, ...: the one named by
`command`, or the four allocators. -/
def kernel_start (cfg : Config) (kpt : x86_64_pagetable) (bytes : Nat → Nat)
    (programs : List program_image) : Except Halt Kernel :=
  let k0 := boot_state kpt bytes
  match kernel_start_map cfg (page_range 0 cfg.MEMSIZE_PHYSICAL) k0.memory kpt with
  | .error e => .error e
  | .ok (m, kpt1) =>
    let k1 : Kernel :=
      { k0 with
        ticks := 1, memory := m, kernel_pagetable := kpt1,
        ptable := fun i =>
          if i < cfg.PID_MAX then { k0.ptable i with pid := i, state := P_FREE }
          else k0.ptable i }
    match kernel_start_procs cfg programs 1 k1 with
    | .error e => .error e
    | .ok k2 =>
      if (k2.ptable 1).state == P_RUNNABLE then .ok { k2 with current := 1 }
      else .error Halt.assertion

/-! ## Reachable states -/

/-- The kernel states reachable from boot: `kernel_start` with its
`process_setup` calls, then any sequence of scheduler choices and of traps
taken by the running process: page allocations, forks, exits, kills, handled
exceptions (page faults resolved by copy-on-write, faults that mark the
process faulted, timer interrupts) and register saves at trap entry. -/
inductive Reachable (cfg : Config) : Kernel → Prop where
  | boot (kpt : x86_64_pagetable) (bytes : Nat → Nat) (programs : List program_image)
      (k : Kernel) : kernel_start cfg kpt bytes programs = .ok k → Reachable cfg k
  | page_alloc (k k1 : Kernel) (addr : Nat) (r : Int) :
      Reachable cfg k → (k.ptable k.current).state = P_RUNNABLE →
      syscall_page_alloc cfg k addr = .ok (r, k1) → Reachable cfg k1
  | fork (k k1 : Kernel) (r : Int) :
      Reachable cfg k → (k.ptable k.current).state = P_RUNNABLE →
      sys_fork cfg k = .ok (r, k1) → Reachable cfg k1
  | exit (k k1 : Kernel) (r : Int) :
      Reachable cfg k → (k.ptable k.current).state = P_RUNNABLE →
      sys_exit cfg k (k.ptable k.current).pid = .ok (r, k1) → Reachable cfg k1
  | kill (k k1 : Kernel) (pid r : Int) :
      Reachable cfg k → (k.ptable k.current).state = P_RUNNABLE →
      sys_exit cfg k pid = .ok (r, k1) → Reachable cfg k1
  | exception (k k1 : Kernel) (regs : regstate) (cr2 : Nat) (n : Next) :
      Reachable cfg k → (k.ptable k.current).state = P_RUNNABLE →
      exception cfg k regs cr2 = .ok (k1, n) → Reachable cfg k1
  | save (k : Kernel) (regs : regstate) :
      Reachable cfg k → (k.ptable k.current).state = P_RUNNABLE →
      Reachable cfg (k.set_proc k.current { k.ptable k.current with regs := regs })
  | run (k : Kernel) (p : Nat) :
      Reachable cfg k → p < cfg.PID_MAX → (k.ptable p).state = P_RUNNABLE →
      Reachable cfg { k with current := p }

/-! ## Vocabulary of the statements -/

/-- A page that `kalloc` may hand out: classified allocatable, reference
count 0. -/
def free_page (cfg : Config) (m : Memory) (pn : Nat) : Bool :=
  cfg.allocatable_physical_address (pn * PAGESIZE) && m.physpages pn == 0

/-- The memory after `kalloc` has taken page `pn`. -/
def Memory.take (m : Memory) (pn : Nat) : Memory :=
  { physpages := Function.update m.physpages pn (m.physpages pn + 1),
    bytes := memset m.bytes (pn * PAGESIZE) 0xCC PAGESIZE }

/-- Page numbers of a list of structure pages. -/
def dir_pages (l : List ptpage) : List Nat := l.map (fun d => d.addr / PAGESIZE)

/-- What the copy loop of `sys_fork` leaves in the parent's table for an entry
`e`: a present, writable, user-accessible entry not pointing at the console
page becomes `PTE_P | PTE_U | PTE_C`; every other entry stays. -/
def sys_fork_entry (cfg : Config) (e : pageentry) : pageentry :=
  if e.perm.P && e.perm.W && e.perm.U && e.pa != cfg.CONSOLE_ADDR then
    ⟨e.pa, PTE_P ||| PTE_U ||| PTE_C⟩
  else e

/-- Whether entry `e` is one for which `sys_fork` increments the reference count
of page number `X`: present, user-accessible, not pointing at the console
page, and pointing into page `X`. -/
def fork_counts (cfg : Config) (e : pageentry) (X : Nat) : Bool :=
  e.perm.P && e.perm.U && e.pa != cfg.CONSOLE_ADDR && e.pa / PAGESIZE == X

/-- Whether the first loop of `sys_exit` decrements the reference count of page
number `X` when it visits `va` in table `pt`: the entry is user-accessible,
`va` is not `CONSOLE_ADDR`, and the entry's page is a non-null address inside
page `X`. -/
def exit_counts (cfg : Config) (pt : x86_64_pagetable) (va X : Nat) : Bool :=
  vmiter_user pt va && va != cfg.CONSOLE_ADDR && vmiter_kptr pt va != 0
    && vmiter_kptr pt va / PAGESIZE == X

/-- The number of decrements `sys_exit` makes on page number `X` when it
tears down table `pt`: one per user-accessible mapping it frees, one per
structure page at `X`, one if `X` holds the top-level page. -/
def exit_owned (cfg : Config) (pt : x86_64_pagetable) (X : Nat) : Nat :=
  cfg.vas.countP (fun va => exit_counts cfg pt va X) + (dir_pages pt.dirs).count X
    + (if X = pt.addr / PAGESIZE then 1 else 0)

/-- Whether table `pt` maps `va` present and user-accessible onto page number
`X`, the console page excepted. -/
def maps_page (cfg : Config) (pt : x86_64_pagetable) (va X : Nat) : Bool :=
  vmiter_user pt va && vmiter_pa pt va != cfg.CONSOLE_ADDR && vmiter_pa pt va / PAGESIZE == X

/-- The value of `f` at the page table of a descriptor that is not free; 0 for
a free slot or a null table pointer. -/
def proc_count (f : x86_64_pagetable → Nat) (p : proc) : Nat :=
  if p.state = P_FREE then 0
  else match p.pagetable with
    | none => 0
    | some pt => f pt

/-- The number of pairs (non-free process, page-aligned address below
`MEMSIZE_VIRTUAL`) whose entry is present, user-accessible, not the console
page, and targets page number `X`. -/
def mapping_count (cfg : Config) (k : Kernel) (X : Nat) : Nat :=
  ((List.range cfg.PID_MAX).map (fun i =>
    proc_count (fun pt => cfg.vas.countP (fun va => maps_page cfg pt va X)) (k.ptable i))).sum

/-- The number of uses table `pt` makes of page number `X`: its counted user
mappings of `X`, its structure pages at `X`, its top-level page at `X`. -/
def owned (cfg : Config) (pt : x86_64_pagetable) (X : Nat) : Nat :=
  cfg.vas.countP (fun va => maps_page cfg pt va X) + (dir_pages pt.dirs).count X
    + (if X = pt.addr / PAGESIZE then 1 else 0)

/-- The number of uses the tables of all non-free processes make of page
number `X`. -/
def owned_count (cfg : Config) (k : Kernel) (X : Nat) : Nat :=
  ((List.range cfg.PID_MAX).map (fun i => proc_count (fun pt => owned cfg pt X) (k.ptable i))).sum

/-- The shape of a process's page table that the kernel maintains: a
copy-on-write-pending entry is user-accessible, does not point at the console
page and lies below `MEMSIZE_VIRTUAL`; and a user-accessible entry at an
address other than `CONSOLE_ADDR` does not point at the console page. -/
def table_ok (cfg : Config) (pt : x86_64_pagetable) : Prop :=
  (∀ v, (pt.entry v).perm.P = true → (pt.entry v).perm.C = true →
    (pt.entry v).perm.U = true ∧ (pt.entry v).pa ≠ cfg.CONSOLE_ADDR ∧ v < cfg.NVPAGES) ∧
  (∀ v, v < cfg.NVPAGES → (pt.entry v).perm.P = true → (pt.entry v).perm.U = true →
    v * PAGESIZE ≠ cfg.CONSOLE_ADDR → (pt.entry v).pa ≠ cfg.CONSOLE_ADDR)

/-- The shape of the kernel's page table below `PROC_START_ADDR` after
`kernel_start`: the only user-accessible page is the console's, mapped onto
itself, and no entry is copy-on-write-pending. -/
def kernel_table_ok (cfg : Config) (kpt : x86_64_pagetable) : Prop :=
  ∀ va ∈ page_range 0 cfg.PROC_START_ADDR,
    (vmiter_user kpt va = true → va = cfg.CONSOLE_ADDR ∧ vmiter_pa kpt va = cfg.CONSOLE_ADDR) ∧
    (vmiter_perm kpt va).C = false

/-- The invariant of the kernel state behind the reference counts: every
page's count covers the uses the live page tables make of it, every live
table has the shape `table_ok`, the kernel table has the shape
`kernel_table_ok`, every slot's pid is its index, and `current` is a slot. -/
structure Inv (cfg : Config) (k : Kernel) : Prop where
  /-- Reference counts cover the uses. -/
  counts : ∀ X, owned_count cfg k X ≤ k.memory.physpages X
  /-- Live tables are well-shaped. -/
  tables : ∀ i pt, (k.ptable i).state ≠ P_FREE → (k.ptable i).pagetable = some pt →
    table_ok cfg pt
  /-- The kernel table is well-shaped. -/
  kernel : kernel_table_ok cfg k.kernel_pagetable
  /-- Every slot's pid is its index. -/
  pids : ∀ i, i < cfg.PID_MAX → (k.ptable i).pid = i
  /-- The current descriptor is a slot of the table. -/
  cur : k.current < cfg.PID_MAX

/-- The assumptions on the configuration under which the kernel is built:
address 0 and the console page are not allocatable, the process region starts
inside physical memory, and there are at least two process slots. -/
structure Config.valid (cfg : Config) : Prop where
  /-- Address 0 is reserved. -/
  null_reserved : cfg.allocatable_physical_address 0 = false
  /-- The console page is reserved. -/
  console_reserved : cfg.allocatable_physical_address cfg.CONSOLE_ADDR = false
  /-- The kernel's identity mapping covers everything below `PROC_START_ADDR`. -/
  proc_start_le : cfg.PROC_START_ADDR ≤ cfg.MEMSIZE_PHYSICAL
  /-- Slot 1 exists. -/
  two_slots : 1 < cfg.PID_MAX

/-- The configuration of the kernel as built.  The sizes are those of
`kernel.hh`; the reserved ranges are the ones the layout comment at the top of
`kernel.cc` marks: the null page, kernel code, data and stack in
`[0x40000, 0x80000)`, and I/O memory in `[0xA0000, 0x100000)`. -/
def weensyos : Config :=
  { NPAGES := 512,
    MEMSIZE_PHYSICAL := 0x200000,
    MEMSIZE_VIRTUAL := 0x300000,
    PROC_START_ADDR := 0x100000,
    CONSOLE_ADDR := 0xB8000,
    PID_MAX := 16,
    allocatable_physical_address := fun pa =>
      pa != 0 && !(0x40000 ≤ pa && pa < 0x80000) && !(0xA0000 ≤ pa && pa < 0x100000)
        && pa < 0x200000 }

/-- A memory in which every reference count is 0 and every byte is 0. -/
def Memory.empty : Memory := ⟨fun _ => 0, fun _ => 0⟩

/-! ## Concrete states -/

/-- A kernel page table as boot leaves it: its structure pages for the first
2 MiB are in the kernel's data, no entry is set yet. -/
def kpt0 : x86_64_pagetable :=
  ⟨0x50000, [⟨3, 0, 0x51000⟩, ⟨2, 0, 0x52000⟩, ⟨1, 0, 0x53000⟩], fun _ => pageentry.zero⟩

/-- A program image with one writable one-page segment at `PROC_START_ADDR`,
all zero. -/
def img0 : program_image := ⟨[⟨0x100000, 0x1000, fun _ => 0, 0, true⟩], 0x100000⟩

/-- A descriptor table with process 1 runnable on table `pt` and every other
slot free with a null table pointer. -/
def one_proc (pt : x86_64_pagetable) : Nat → proc :=
  fun i => if i = 1 then ⟨1, P_RUNNABLE, regstate.init, some pt⟩
    else ⟨i, P_FREE, regstate.init, none⟩

/-- A small page table with its top-level page at 0x1000 and its structure
pages at 0x2000, 0x3000, 0x4000 and 0x7000: a kernel-only page at 0x8000, the
console page, a writable data page at `PROC_START_ADDR` (physical page
0x5000) and a read-only page after it (physical page 0x6000). -/
def pt_small : x86_64_pagetable :=
  ⟨0x1000, [⟨3, 0, 0x2000⟩, ⟨2, 0, 0x3000⟩, ⟨1, 0, 0x4000⟩, ⟨1, 1, 0x7000⟩],
    fun v =>
      if v = 8 then ⟨0x8000, PTE_P ||| PTE_W⟩
      else if v = 0xB8 then ⟨0xB8000, PTE_P ||| PTE_W ||| PTE_U⟩
      else if v = 0x100 then ⟨0x5000, PTE_P ||| PTE_W ||| PTE_U⟩
      else if v = 0x101 then ⟨0x6000, PTE_P ||| PTE_U⟩
      else pageentry.zero⟩

/-- A state of the kernel as built in which process 1 runs on `pt_small`;
pages 1 to 7 have reference count 1, every other page 0, and memory is all
zero. -/
def k_small : Kernel :=
  { ptable := one_proc pt_small,
    current := 1,
    memory := ⟨fun n => if 1 ≤ n ∧ n ≤ 7 then 1 else 0, fun _ => 0⟩,
    ticks := 1,
    kernel_pagetable := kpt0 }

/-- The state after process 1 of `k_small` has called `sys_fork`. -/
def k_small_fork : Kernel := ((sys_fork weensyos k_small).toOption.map Prod.snd).getD k_small

/-- The state `k_small` with memory almost exhausted: page 8 is the only page
whose reference count is 0. -/
def k_tight : Kernel :=
  { k_small with memory := ⟨fun n => if n = 8 then 0 else 1, fun _ => 0⟩ }

/-- The state after process 1 of `k_small` has called
`syscall_page_alloc(0x102000)`. -/
def k_small_alloc : Kernel :=
  ((syscall_page_alloc weensyos k_small 0x102000).toOption.map Prod.snd).getD k_small

/-- The state after process 1 has called `syscall_page_alloc(0x102000)` a
second time. -/
def k_small_alloc2 : Kernel :=
  ((syscall_page_alloc weensyos k_small_alloc 0x102000).toOption.map Prod.snd).getD k_small

/-- The registers of a trap for a page fault: a write from user mode to a
present page. -/
def regs_pf : regstate := { regstate.init with reg_intno := INT_PF, reg_errcode := 7 }

/-- The state `k_small_fork` once the scheduler has picked the child,
process 2. -/
def k_small_child : Kernel := { k_small_fork with current := 2 }

/-- The state after the child has taken a page fault on a write to address
0x100000, the data page it shares with its parent. -/
def k_small_cow : Kernel :=
  ((exception weensyos k_small_child regs_pf 0x100000).toOption.map Prod.fst).getD k_small

/-- The state `k_small_fork` after the child has been torn down and the
parent, alone again, takes a page fault on a write to address 0x100000. -/
def k_small_alone : Kernel :=
  ((sys_exit weensyos k_small_fork 2).toOption.map Prod.snd).getD k_small

/-- The state in which `kernel_start` hands over to process 1 when it boots the
kernel as built with the one program `img0`. -/
def k_boot : Kernel := (kernel_start weensyos kpt0 (fun _ => 0) [img0]).toOption.getD k_small

/-- The halt, if any, in which a kernel function ended. -/
def halted {α : Type} (r : Except Halt α) : Option Halt :=
  match r with
  | .error e => some e
  | .ok _ => none

/-! ## `schedule` and `run` -/

/-- The function `run(p)`: `assert(p->state == P_RUNNABLE)`, then
`current = p`; the return to user mode is left out. -/
def run (k : Kernel) (p : Nat) : Except Halt Kernel :=
  if (k.ptable p).state == P_RUNNABLE then .ok { k with current := p }
  else .error Halt.assertion

/-- The loop of `schedule()`: `pid = (pid + 1) % PID_MAX`, stop at the first
slot met that is runnable.  `fuel` bounds the number of iterations looked at;
`none` says that none of them met a runnable slot. -/
def schedule_loop (cfg : Config) (k : Kernel) : Nat → Nat → Option Nat
  | 0, _ => none
  | fuel + 1, pid =>
    if (k.ptable ((pid + 1) % cfg.PID_MAX)).state == P_RUNNABLE then
      some ((pid + 1) % cfg.PID_MAX)
    else schedule_loop cfg k fuel ((pid + 1) % cfg.PID_MAX)

/-- The function `schedule()` observed for `fuel` iterations of its loop: the
result of the `run` it makes, `none` while it is still spinning. -/
def schedule (cfg : Config) (k : Kernel) (fuel : Nat) : Option (Except Halt Kernel) :=
  (schedule_loop cfg k fuel (k.ptable k.current).pid).map (run k)

/-! ## Reference definition of `kalloc` -/

/-- The allocator as the specification words it: a request above one page
fails; otherwise the lowest-numbered page that is classified allocatable and
has reference count 0 is returned, its count set to 1 and its 4096 bytes filled
with 0xCC; without such a page the request fails and nothing changes. -/
def kalloc_ref (cfg : Config) (m : Memory) (sz : Nat) : Nat × Memory :=
  if sz > PAGESIZE then (0, m)
  else
    match (List.range cfg.NPAGES).find? (fun pn =>
        cfg.allocatable_physical_address (pn * PAGESIZE) && m.physpages pn == 0) with
    | none => (0, m)
    | some pn =>
      (pn * PAGESIZE,
        ⟨fun X => if X = pn then 1 else m.physpages X,
         fun a => if pn * PAGESIZE ≤ a ∧ a < pn * PAGESIZE + 4096 then 0xCC else m.bytes a⟩)

/-! ## Well-formed page tables -/

/-- The shape of the pages of a process's table: the top-level page and the
structure pages are non-null page-aligned pages other than the console page,
and an entry that is user-accessible at an address other than `CONSOLE_ADDR`
points at a non-null page-aligned address. -/
def table_wf (cfg : Config) (pt : x86_64_pagetable) : Prop :=
  (pt.addr ≠ 0 ∧ pt.addr % PAGESIZE = 0 ∧ pt.addr ≠ cfg.CONSOLE_ADDR) ∧
  (∀ d ∈ pt.dirs, d.addr ≠ 0 ∧ d.addr % PAGESIZE = 0 ∧ d.addr ≠ cfg.CONSOLE_ADDR) ∧
  (∀ v, v < cfg.NVPAGES → (pt.entry v).perm.P = true → (pt.entry v).perm.U = true →
    v * PAGESIZE ≠ cfg.CONSOLE_ADDR → (pt.entry v).pa ≠ 0 ∧ (pt.entry v).pa % PAGESIZE = 0)

/-- A second invariant of the kernel state: every non-free slot has a table,
that table is well-formed, and slot 0 is free. -/
structure Wf (cfg : Config) (k : Kernel) : Prop where
  /-- A non-free slot has a table. -/
  live : ∀ i, (k.ptable i).state ≠ P_FREE → (k.ptable i).pagetable ≠ none
  /-- Live tables are well-formed. -/
  tables : ∀ i pt, (k.ptable i).state ≠ P_FREE → (k.ptable i).pagetable = some pt →
    table_wf cfg pt
  /-- Slot 0 is never used. -/
  slot0 : (k.ptable 0).state = P_FREE

/-- The pages of a table are pairwise distinct: its top-level page and its
structure pages. -/
def table_nd (pt : x86_64_pagetable) : Prop :=
  (pt.addr / PAGESIZE :: dir_pages pt.dirs).Nodup

/-- A third invariant of the kernel state: the pages of every live table are
pairwise distinct. -/
def Nd (k : Kernel) : Prop :=
  ∀ i pt, (k.ptable i).state ≠ P_FREE → (k.ptable i).pagetable = some pt → table_nd pt

/-! ## More concrete states -/

/-- The state `k_small` with every slot from 1 on in use. -/
def k_crowded : Kernel :=
  { k_small with ptable := fun i =>
      if i = 0 then ⟨0, P_FREE, regstate.init, none⟩
      else ⟨i, P_RUNNABLE, regstate.init, some pt_small⟩ }

/-- A small configuration for concrete runs: 16 physical pages, of which page
0, the kernel's pages 1 to 4 and the console page 5 are reserved; the process
region is `[0x8000, 0xC000)`; 4 process slots. -/
def tiny : Config :=
  { NPAGES := 16,
    MEMSIZE_PHYSICAL := 0x10000,
    MEMSIZE_VIRTUAL := 0xC000,
    PROC_START_ADDR := 0x8000,
    CONSOLE_ADDR := 0x5000,
    PID_MAX := 4,
    allocatable_physical_address := fun pa => 0x6000 ≤ pa && pa < 0x10000 }

/-- The kernel page table of the small configuration as boot leaves it: its
structure pages are in the kernel's pages, no entry is set yet. -/
def kpt_tiny : x86_64_pagetable :=
  ⟨0x1000, [⟨3, 0, 0x2000⟩, ⟨2, 0, 0x3000⟩, ⟨1, 0, 0x4000⟩], fun _ => pageentry.zero⟩

/-- A program image for the small configuration: one writable one-page segment
at `0x8000`, all zero. -/
def img_tiny : program_image := ⟨[⟨0x8000, 0x1000, fun _ => 0, 0, true⟩], 0x8000⟩

/-- The small configuration after boot with the one program `img_tiny`:
process 1 owns pages 6 to 11. -/
def k_tiny_boot : Kernel :=
  (kernel_start tiny kpt_tiny (fun _ => 0) [img_tiny]).toOption.getD k_small

/-- The small configuration after process 1 has forked: child 2 owns pages 12
to 15, shares the data page 10 and the stack page 11 with its parent, and no
page is free. -/
def k_tiny_fork : Kernel :=
  ((sys_fork tiny k_tiny_boot).toOption.map Prod.snd).getD k_small

/-- The state `k_tiny_fork` once the scheduler has picked the child. -/
def k_tiny_child : Kernel := { k_tiny_fork with current := 2 }

/-- The small configuration after the child has been killed: process 1 is
alone again, its data page still copy-on-write-pending with count 1. -/
def k_tiny_alone : Kernel :=
  ((sys_exit tiny k_tiny_fork 2).toOption.map Prod.snd).getD k_small

/-- The registers of a trap for a page fault taken in kernel mode: a write to a
present page, the user bit of the error code clear. -/
def regs_kpf : regstate := { regstate.init with reg_intno := INT_PF, reg_errcode := 3 }

/-! ## Reading through a page table, and a state that crosses a table boundary -/

/-- The byte a process reads at virtual address `va`: the byte of physical
memory at the address its table translates `va` to. -/
def read_va (pt : x86_64_pagetable) (bytes : Nat → Nat) (va : Nat) : Nat :=
  bytes (vmiter_pa pt va)

/-- The small configuration with the virtual address space of the kernel as
built, `[0, 0x300000)`, so that the process region crosses the 2 MiB boundary
at which a new lowest-level page-table page starts. -/
def wide : Config :=
  { NPAGES := 16,
    MEMSIZE_PHYSICAL := 0x10000,
    MEMSIZE_VIRTUAL := 0x300000,
    PROC_START_ADDR := 0x8000,
    CONSOLE_ADDR := 0x5000,
    PID_MAX := 4,
    allocatable_physical_address := fun pa => 0x6000 ≤ pa && pa < 0x10000 }

/-- A program image with one read-only segment of three pages at `0x1FF000`,
every byte of which is 7 in the image. -/
def img_wide : program_image := ⟨[⟨0x1FF000, 0x3000, fun _ => 7, 0x3000, false⟩], 0x1FF000⟩

/-- The state in which `kernel_start` hands over to process 1 when it boots
the configuration `wide` with the one program `img_wide`. -/
def k_wide_boot : Kernel :=
  (kernel_start wide kpt_tiny (fun _ => 0) [img_wide]).toOption.getD k_small

/-! ## `syscall` -/

/-- The system call numbers.  They are defined outside `src/` (`lib.hh`) and
are taken as parameters. -/
structure Sysno where
  /-- The number `SYSCALL_PANIC`. -/
  SYSCALL_PANIC : Nat
  /-- The number `SYSCALL_GETPID`. -/
  SYSCALL_GETPID : Nat
  /-- The number `SYSCALL_YIELD`. -/
  SYSCALL_YIELD : Nat
  /-- The number `SYSCALL_PAGE_ALLOC`. -/
  SYSCALL_PAGE_ALLOC : Nat
  /-- The number `SYSCALL_FORK`. -/
  SYSCALL_FORK : Nat
  /-- The number `SYSCALL_EXIT`. -/
  SYSCALL_EXIT : Nat
  /-- The number `SYSCALL_KILL`. -/
  SYSCALL_KILL : Nat

/-- The case labels of the `switch` in `syscall` are pairwise different, as C
requires. -/
def Sysno.valid (sc : Sysno) : Prop :=
  [sc.SYSCALL_PANIC, sc.SYSCALL_GETPID, sc.SYSCALL_YIELD, sc.SYSCALL_PAGE_ALLOC,
    sc.SYSCALL_FORK, sc.SYSCALL_EXIT, sc.SYSCALL_KILL].Nodup

/-- A numbering of the system calls for concrete runs. -/
def sysno0 : Sysno := ⟨3, 1, 2, 4, 5, 6, 7⟩

/-- How `syscall` hands control back: it returns a value to the trap path, or
it calls `schedule()`. -/
inductive SysNext where
  /-- The statement `return v`. -/
  | ret (v : Nat)
  /-- The call `schedule()`. -/
  | schedule
deriving DecidableEq, Repr

/-- Conversion of an `int` to `uintptr_t`. -/
def to_uintptr (x : Int) : Nat := (x % 2 ^ 64).toNat

/-- Conversion of a `uintptr_t` to `pid_t`, a 32-bit signed integer. -/
def to_pid_t (x : Nat) : Int :=
  if x % 2 ^ 32 < 2 ^ 31 then (x % 2 ^ 32 : Nat) else (x % 2 ^ 32 : Nat) - 2 ^ 32

/-- The function `syscall(regs)`.  The display calls and `check_keyboard` are
left out. -/
def syscall (cfg : Config) (sc : Sysno) (k0 : Kernel) (regs : regstate) :
    Except Halt (Kernel × SysNext) :=
  let k := k0.set_proc k0.current { k0.ptable k0.current with regs := regs }
  if regs.reg_rax == sc.SYSCALL_PANIC then .error Halt.panic
  else if regs.reg_rax == sc.SYSCALL_GETPID then
    .ok (k, SysNext.ret (to_uintptr (k.ptable k.current).pid))
  else if regs.reg_rax == sc.SYSCALL_YIELD then
    .ok (k.set_proc k.current
      { k.ptable k.current with regs := { (k.ptable k.current).regs with reg_rax := 0 } },
      SysNext.schedule)
  else if regs.reg_rax == sc.SYSCALL_PAGE_ALLOC then
    match syscall_page_alloc cfg k (k.ptable k.current).regs.reg_rdi with
    | .error e => .error e
    | .ok (r, k1) => .ok (k1, SysNext.ret (to_uintptr r))
  else if regs.reg_rax == sc.SYSCALL_FORK then
    match sys_fork cfg k with
    | .error e => .error e
    | .ok (r, k1) => .ok (k1, SysNext.ret (to_uintptr r))
  else if regs.reg_rax == sc.SYSCALL_EXIT then
    match sys_exit cfg k (k.ptable k.current).pid with
    | .error e => .error e
    | .ok (r, k1) => if r == 0 then .ok (k1, SysNext.schedule) else .error Halt.assertion
  else if regs.reg_rax == sc.SYSCALL_KILL then
    match sys_exit cfg k (to_pid_t (k.ptable k.current).regs.reg_rdi) with
    | .error e => .error e
    | .ok (r, k1) => .ok (k1, SysNext.ret (to_uintptr r))
  else .error Halt.panic

/-- The registers of a `kill` system call with argument `pid`, under the
numbering `sysno0`. -/
def regs_kill (pid : Nat) : regstate := { regstate.init with reg_rax := 7, reg_rdi := pid }

/-! ## Consecutive invocations of `schedule` -/

/-- The slots resumed by `n` consecutive invocations of `schedule()`, each
observed for `PID_MAX` iterations of its loop; `none` when one of them has not
resumed a process by then. -/
def schedule_trace (cfg : Config) : Nat → Kernel → Option (List Nat)
  | 0, _ => some []
  | n + 1, k =>
    match schedule cfg k cfg.PID_MAX with
    | some (.ok k1) => (schedule_trace cfg n k1).map (fun l => k1.current :: l)
    | _ => none

/-- The runnable slots, in increasing order. -/
def runnable_slots (cfg : Config) (k : Kernel) : List Nat :=
  (List.range cfg.PID_MAX).filter (fun i => (k.ptable i).state == P_RUNNABLE)

/-- The registers of a trap for a timer interrupt. -/
def regs_timer : regstate := { regstate.init with reg_intno := INT_IRQ + IRQ_TIMER }

/-! ## Further invariants of the kernel state -/

/-- A fourth invariant of the kernel state: a free slot has a null table
pointer. -/
def Fr (k : Kernel) : Prop :=
  ∀ i, (k.ptable i).state = P_FREE → (k.ptable i).pagetable = none

/-- Every reference count is 0 or 1: the state of the counts while only
`kalloc` has touched them. -/
def Le1 (m : Memory) : Prop := ∀ X, m.physpages X ≤ 1

/-- A fifth invariant of the kernel state: a present, user-accessible,
writable entry of a live table, below `MEMSIZE_VIRTUAL` and not pointing at the
console page, points at a page whose reference count is at most 1. -/
def Excl (cfg : Config) (k : Kernel) : Prop :=
  ∀ i pt v, i < cfg.PID_MAX → (k.ptable i).state ≠ P_FREE →
    (k.ptable i).pagetable = some pt → v < cfg.NVPAGES →
    (pt.entry v).perm.P = true → (pt.entry v).perm.U = true → (pt.entry v).perm.W = true →
    (pt.entry v).pa ≠ cfg.CONSOLE_ADDR →
    k.memory.physpages ((pt.entry v).pa / PAGESIZE) ≤ 1

/-- The kernel states reachable from the state `k0`: any sequence of scheduler
choices and of traps taken by the running process, as in `Reachable`. -/
inductive Reachable_from (cfg : Config) (k0 : Kernel) : Kernel → Prop where
  | start : Reachable_from cfg k0 k0
  | page_alloc (k k1 : Kernel) (addr : Nat) (r : Int) :
      Reachable_from cfg k0 k → (k.ptable k.current).state = P_RUNNABLE →
      syscall_page_alloc cfg k addr = .ok (r, k1) → Reachable_from cfg k0 k1
  | fork (k k1 : Kernel) (r : Int) :
      Reachable_from cfg k0 k → (k.ptable k.current).state = P_RUNNABLE →
      sys_fork cfg k = .ok (r, k1) → Reachable_from cfg k0 k1
  | exit (k k1 : Kernel) (r : Int) :
      Reachable_from cfg k0 k → (k.ptable k.current).state = P_RUNNABLE →
      sys_exit cfg k (k.ptable k.current).pid = .ok (r, k1) → Reachable_from cfg k0 k1
  | kill (k k1 : Kernel) (pid r : Int) :
      Reachable_from cfg k0 k → (k.ptable k.current).state = P_RUNNABLE →
      sys_exit cfg k pid = .ok (r, k1) → Reachable_from cfg k0 k1
  | exception (k k1 : Kernel) (regs : regstate) (cr2 : Nat) (n : Next) :
      Reachable_from cfg k0 k → (k.ptable k.current).state = P_RUNNABLE →
      exception cfg k regs cr2 = .ok (k1, n) → Reachable_from cfg k0 k1
  | save (k : Kernel) (regs : regstate) :
      Reachable_from cfg k0 k → (k.ptable k.current).state = P_RUNNABLE →
      Reachable_from cfg k0 (k.set_proc k.current { k.ptable k.current with regs := regs })
  | run (k : Kernel) (p : Nat) :
      Reachable_from cfg k0 k → p < cfg.PID_MAX → (k.ptable p).state = P_RUNNABLE →
      Reachable_from cfg k0 { k with current := p }

/-- The copy of segment `seg` stays inside the pages mapped for it in `pt`: the
image holds no more bytes than the segment has in memory, and the pages of the
segment follow one another in physical memory, so that the `seg.size` bytes
from the physical address of the segment's first byte are the bytes of the
segment. -/
def segment_inside (pt : x86_64_pagetable) (seg : segment) : Bool :=
  decide (seg.data_size ≤ seg.size) &&
  (page_range (round_down seg.va PAGESIZE) (seg.va + seg.size)).all (fun a =>
    vmiter_pa pt a ==
      vmiter_pa pt (round_down seg.va PAGESIZE) + (a - round_down seg.va PAGESIZE))

/-- The table that `process_setup` has built when it reaches its copy loop:
the fresh table after the loop over the kernel's mappings and the loop over
the segments; `none` when `process_setup` stops before. -/
def process_setup_table (cfg : Config) (k : Kernel) (pgm : program_image) :
    Option x86_64_pagetable :=
  let a := kalloc_pagetable cfg k.memory
  match a.1 with
  | none => none
  | some pt0 =>
    match process_setup_kernel cfg k.kernel_pagetable (page_range 0 cfg.PROC_START_ADDR)
        a.2 pt0 with
    | .error _ => none
    | .ok (m1, pt1) =>
      match process_setup_segs cfg pgm.segs m1 pt1 with
      | .error _ => none
      | .ok (_, pt2) => some pt2

/-- Every copy of `process_setup(pid, pgm)` in state `k` stays inside its
segment. -/
def process_setup_inside (cfg : Config) (k : Kernel) (pgm : program_image) : Bool :=
  match process_setup_table cfg k pgm with
  | none => true
  | some pt2 => pgm.segs.all (segment_inside pt2)

/-- Every copy of the `process_setup` calls of `kernel_start` stays inside its
segment. -/
def kernel_start_procs_inside (cfg : Config) : List program_image → Nat → Kernel → Bool
  | [], _, _ => true
  | pgm :: rest, pid, k =>
    process_setup_inside cfg k pgm &&
      match process_setup cfg k pid pgm with
      | .error _ => true
      | .ok k1 => kernel_start_procs_inside cfg rest (pid + 1) k1

/-- Every copy of a segment made while `kernel_start` loads `programs` stays
inside the pages allocated for the segment. -/
def kernel_start_inside (cfg : Config) (kpt : x86_64_pagetable) (bytes : Nat → Nat)
    (programs : List program_image) : Bool :=
  let k0 := boot_state kpt bytes
  match kernel_start_map cfg (page_range 0 cfg.MEMSIZE_PHYSICAL) k0.memory kpt with
  | .error _ => true
  | .ok (m, kpt1) =>
    let k1 : Kernel :=
      { k0 with
        ticks := 1, memory := m, kernel_pagetable := kpt1,
        ptable := fun i =>
          if i < cfg.PID_MAX then { k0.ptable i with pid := i, state := P_FREE }
          else k0.ptable i }
    kernel_start_procs_inside cfg programs 1 k1

/-! ## A process that maps a page of its own at `CONSOLE_ADDR` -/

/-- A program image for the small configuration with its segment at
`CONSOLE_ADDR`: one writable one-page segment at `0x5000`. -/
def img_con : program_image := ⟨[⟨0x5000, 0x1000, fun _ => 0, 0, true⟩], 0x5000⟩

/-- The small configuration after boot with the one program `img_con`. -/
def k_con_boot : Kernel :=
  (kernel_start tiny kpt_tiny (fun _ => 0) [img_con]).toOption.getD k_small

/-- The state `k_con_boot` after process 1 has forked. -/
def k_con_fork : Kernel :=
  ((sys_fork tiny k_con_boot).toOption.map Prod.snd).getD k_small

/-! ## Images whose copy runs over a page-table page -/

/-- A program image like `img_wide`, one read-only segment of three pages at
`0x1FF000`, whose bytes repeat the eight bytes, lowest first, of the 64-bit
word `target + 7`: for a page-aligned `target`, the x86-64 page-table entry
for the page at `target` with the bits present (1), writable (2) and
user-accessible (4). -/
def img_over (target : Nat) : program_image :=
  ⟨[⟨0x1FF000, 0x3000, fun i => (target + 7) / 256 ^ (i % 8) % 256, 0x3000, false⟩], 0x1FF000⟩

/-- The eight bytes of physical memory from address `a`, lowest first, as one
64-bit word. -/
def word_at (bytes : Nat → Nat) (a : Nat) : Nat :=
  ((List.range 8).map (fun j => bytes (a + j) * 256 ^ j)).sum

/-- The configuration `wide` after boot with the one program
`img_over 0xF000`. -/
def k_over_boot : Kernel :=
  (kernel_start wide kpt_tiny (fun _ => 0) [img_over 0xF000]).toOption.getD k_small

/-- The configuration `wide` with 32 physical pages instead of 16, of which
pages 6 to 31 are allocatable. -/
def wide32 : Config :=
  { wide with
    NPAGES := 32,
    MEMSIZE_PHYSICAL := 0x20000,
    allocatable_physical_address := fun pa => 0x6000 ≤ pa && pa < 0x20000 }

/-- The configuration `wide32` after boot with the two programs
`img_over 0x13000` and `img_tiny`. -/
def k_over2_boot : Kernel :=
  (kernel_start wide32 kpt_tiny (fun _ => 0) [img_over 0x13000, img_tiny]).toOption.getD k_small

/-- The state `k_over2_boot` after the scheduler has chosen process 2 and
process 2 has forked. -/
def k_over2_fork : Kernel :=
  ((sys_fork wide32 { k_over2_boot with current := 2 }).toOption.map Prod.snd).getD k_small

end WeensyOS

namespace M61

/-!
# The debugging memory allocator (`src/memory/m61.cc`)

A shallow embedding of `m61_malloc`, `m61_realloc`, `m61_free` and
`m61_calloc`.

* The allocator's globals (`gstats`, `freed_addresses`, `active_addresses`,
  the buffer) are the fields of `Heap`, passed explicitly.
* A `std::map` keyed by address is a list of pairs sorted by key; iteration
  order, `lower_bound` and `upper_bound` are read off the sorted list.
* Values of type `size_t`, `uintptr_t` and `unsigned long long` are natural
  numbers below `2 ^ 64`; sums and differences that the code computes in those
  types are taken modulo `2 ^ 64`.
* A call of `abort()`, a division by zero and an access outside the buffer end
  the run: the functions return `Except Abort _`.
-/

/-! ## Constants and machine arithmetic -/

/-- The largest value of `size_t`. -/
def SIZE_MAX : Nat := 2 ^ 64 - 1

/-- The largest value of `uintptr_t`. -/
def UINTPTR_MAX : Nat := 2 ^ 64 - 1

/-- The size of the buffer, `default_buffer.size`: 8 MiB. -/
def buffer_size : Nat := 8 <<< 20

/-- The value of `alignof(std::max_align_t)` on x86-64. -/
def alignment : Nat := 16

/-- Unsigned 64-bit addition. -/
def add64 (a b : Nat) : Nat := (a + b) % 2 ^ 64

/-- Unsigned 64-bit subtraction. -/
def sub64 (a b : Nat) : Nat := (a % 2 ^ 64 + 2 ^ 64 - b % 2 ^ 64) % 2 ^ 64

/-- Ways in which a run of the allocator ends without returning. -/
inductive Abort where
  /-- The report "invalid free of pointer ..., double free", then `abort()`. -/
  | double_free
  /-- The report "invalid free of pointer ..., not in heap", then `abort()`. -/
  | not_in_heap
  /-- The report "invalid free of pointer ..., not allocated", then `abort()`. -/
  | not_allocated
  /-- The report "detected wild write during free of pointer ...", then
  `abort()`. -/
  | wild_write
  /-- The report "invalid realloc of pointer ..., not allocated", then
  `abort()`. -/
  | invalid_realloc
  /-- A read or write at an address outside the buffer. -/
  | wild_access
  /-- An integer division by zero. -/
  | div_by_zero
  /-- A failed `assert` of a test program. -/
  | assertion
deriving DecidableEq, Repr

/-! ## Statistics -/

/-- The structure `m61_statistics`, with the fields `gstats` is initialised
with. -/
structure m61_statistics where
  /-- Number of active allocations. -/
  nactive : Nat
  /-- Number of bytes in active allocations. -/
  active_size : Nat
  /-- Number of allocations, total. -/
  ntotal : Nat
  /-- Number of bytes in allocations, total. -/
  total_size : Nat
  /-- Number of failed allocation attempts. -/
  nfail : Nat
  /-- Number of bytes in failed allocation attempts. -/
  fail_size : Nat
  /-- Smallest address in any region ever allocated. -/
  heap_min : Nat
  /-- Largest address in any region ever allocated. -/
  heap_max : Nat
deriving DecidableEq, Repr

/-- The initial value of `gstats`. -/
def gstats0 : m61_statistics := ⟨0, 0, 0, 0, 0, 0, UINTPTR_MAX, 0⟩

/-- The statistics after a failed request of `sz` bytes: `++gstats.nfail;
gstats.fail_size += sz`. -/
def stat_fail (g : m61_statistics) (sz : Nat) : m61_statistics :=
  { g with nfail := add64 g.nfail 1, fail_size := add64 g.fail_size sz }

/-- The statistics after `m61_malloc` has placed `sz` bytes at `fptr`. -/
def stat_alloc (g : m61_statistics) (fptr sz : Nat) : m61_statistics :=
  let ntotal := add64 g.ntotal 1
  let heap_min1 := if ntotal == 1 then fptr else g.heap_min
  let heap_min2 := if heap_min1 > fptr then fptr else heap_min1
  let heap_max := if g.heap_max < add64 fptr sz then add64 fptr sz else g.heap_max
  { nactive := add64 g.nactive 1, active_size := add64 g.active_size sz,
    ntotal := ntotal, total_size := add64 g.total_size sz,
    nfail := g.nfail, fail_size := g.fail_size,
    heap_min := heap_min2, heap_max := heap_max }

/-! ## Maps keyed by address -/

/-- The member function `std::map::find`: the value stored under key `k`. -/
def map_find {β : Type} (m : List (Nat × β)) (k : Nat) : Option β :=
  (m.find? (fun e => e.1 == k)).map Prod.snd

/-- The member function `std::map::insert`: the pair is put at its place in
key order; a map that already has the key is left as it is. -/
def map_insert {β : Type} : List (Nat × β) → Nat → β → List (Nat × β)
  | [], k, v => [(k, v)]
  | e :: rest, k, v =>
    if k < e.1 then (k, v) :: e :: rest
    else if k == e.1 then e :: rest
    else e :: map_insert rest k v

/-- The member function `std::map::erase` by key. -/
def map_erase {β : Type} (m : List (Nat × β)) (k : Nat) : List (Nat × β) :=
  m.filter (fun e => e.1 != k)

/-- An assignment through an iterator, `it->second = v` for the entry under
key `k`. -/
def map_set {β : Type} (m : List (Nat × β)) (k : Nat) (v : β) : List (Nat × β) :=
  m.map (fun e => if e.1 == k then (e.1, v) else e)

/-! ## The heap -/

/-- The record `properties` kept for each active allocation.  The fields
`file` and `line` only appear in messages and are left out. -/
structure properties where
  /-- The requested size. -/
  actual_size : Nat
  /-- The padding after the requested bytes. -/
  padding_size : Nat
deriving DecidableEq, Repr

/-- The global state of the allocator. -/
structure Heap where
  /-- The statistics `gstats`. -/
  gstats : m61_statistics
  /-- The map `freed_addresses`: start address and length of each free block. -/
  freed_addresses : List (Nat × Nat)
  /-- The map `active_addresses`: start address and record of each active
  allocation. -/
  active_addresses : List (Nat × properties)
  /-- The address `default_buffer.buffer`, which is also `first_heap`. -/
  buffer : Nat
  /-- The contents of memory, one value per byte address. -/
  bytes : Nat → Nat

/-- The state after static initialisation with the buffer mapped at address
`buffer`: one free block that is the whole buffer, no allocation, and the
zero-filled memory `mmap` hands out. -/
def Heap.init (buffer : Nat) : Heap :=
  { gstats := gstats0,
    freed_addresses := [(buffer, buffer_size)],
    active_addresses := [],
    buffer := buffer,
    bytes := fun _ => 0 }

/-- Whether the `n` bytes from address `a` lie inside the buffer. -/
def Heap.inside (s : Heap) (a n : Nat) : Bool :=
  decide (s.buffer ≤ a) && decide (a + n ≤ s.buffer + buffer_size)

/-- The padding `m61_malloc` and `m61_realloc` compute for a request of `sz`
bytes. -/
def padding_of (sz : Nat) : Nat :=
  let padding := alignment - sz % alignment
  if padding == 0 then alignment - add64 sz 1 % alignment else padding

/-! ## `m61_malloc` -/

/-- The function `m61_malloc(sz, file, line)`: returns the pointer (0 for
`nullptr`) and the new state.  The loop over `freed_addresses` is the search
for the first block, in address order, of at least `sz + padding` bytes. -/
def m61_malloc (s : Heap) (sz : Nat) : Except Abort (Nat × Heap) :=
  if sz == SIZE_MAX || sz ≥ buffer_size then
    .ok (0, { s with gstats := stat_fail s.gstats sz })
  else
    let padding := padding_of sz
    match s.freed_addresses.find? (fun e => e.2 ≥ sz + padding) with
    | none => .ok (0, { s with gstats := stat_fail s.gstats sz })
    | some (fptr, o_size) =>
      let size_left := o_size - (sz + padding)
      let fa1 :=
        if size_left > 0 then
          map_insert s.freed_addresses (add64 (add64 fptr sz) padding) size_left
        else s.freed_addresses
      let fa2 := map_erase fa1 fptr
      let aa := map_insert s.active_addresses fptr ⟨sz, padding⟩
      let magicptr := add64 fptr sz
      if !s.inside magicptr 1 then .error Abort.wild_access
      else
        let b := Function.update s.bytes magicptr 61
        if fptr != 0 then
          .ok (fptr, { s with gstats := stat_alloc s.gstats fptr sz,
                              freed_addresses := fa2, active_addresses := aa, bytes := b })
        else
          .ok (0, { s with gstats := stat_fail s.gstats sz,
                           freed_addresses := fa2, active_addresses := aa, bytes := b })

/-! ## `m61_free` -/

/-- The step "Coalesce down" of `m61_free`: `prev_block` is the last free block
that starts below `ptr`; it is merged when it is not the first block of the
map and ends exactly at `ptr`.  Returns the new map, the new `ptr` and the new
`total_free_size`. -/
def m61_free_down (fa : List (Nat × Nat)) (ptr total : Nat) : List (Nat × Nat) × Nat × Nat :=
  let below := fa.filter (fun e => e.1 < ptr)
  match below.getLast? with
  | none => (fa, ptr, total)
  | some prev_block =>
    if below.length != 1 && prev_block.1 == sub64 ptr prev_block.2 then
      (map_erase fa prev_block.1, prev_block.1, add64 total prev_block.2)
    else (fa, ptr, total)

/-- The loop "Coalesce up" of `m61_free` over the free blocks that start above
`ptr`, in address order: while the next block starts at `ptr +
total_free_size` it is erased and its length added. -/
def m61_free_up (ptr : Nat) : List (Nat × Nat) → List (Nat × Nat) → Nat → List (Nat × Nat) × Nat
  | [], fa, total => (fa, total)
  | next_block :: rest, fa, total =>
    if next_block.1 == add64 ptr total then
      m61_free_up ptr rest (map_erase fa (add64 ptr total)) (add64 total next_block.2)
    else (fa, total)

/-- The function `m61_free(ptr, file, line)`. -/
def m61_free (s : Heap) (ptr : Nat) : Except Abort Heap :=
  if ptr == 0 then .ok s
  else if (map_find s.freed_addresses ptr).isSome then .error Abort.double_free
  else if ptr < s.buffer || ptr > add64 s.buffer buffer_size then .error Abort.not_in_heap
  else
    match map_find s.active_addresses ptr with
    | none => .error Abort.not_allocated
    | some it =>
      let magicptrcheck := add64 ptr it.actual_size
      if !s.inside magicptrcheck 1 then .error Abort.wild_access
      else if s.bytes magicptrcheck != 61 then .error Abort.wild_write
      else
        let total_free_size := add64 it.actual_size it.padding_size
        let d := m61_free_down s.freed_addresses ptr total_free_size
        let u :=
          if (d.1.filter (fun e => e.1 ≤ d.2.1)).isEmpty then (d.1, d.2.2)
          else m61_free_up d.2.1 (d.1.filter (fun e => e.1 > d.2.1)) d.1 d.2.2
        let g : m61_statistics :=
          { s.gstats with nactive := sub64 s.gstats.nactive 1,
                          active_size := sub64 s.gstats.active_size it.actual_size }
        .ok { s with gstats := g,
                     freed_addresses := map_insert u.1 d.2.1 u.2,
                     active_addresses := map_erase s.active_addresses ptr }

/-! ## `m61_realloc` -/

/-- The function `m61_realloc(ptr, sz, file, line)`: returns the pointer (0
for `nullptr`) and the new state.  The `memcpy` of the moving branch reads
`sz` bytes from the old block and writes them to the new one; it is taken to
read all of them before it writes. -/
def m61_realloc (s : Heap) (ptr sz : Nat) : Except Abort (Nat × Heap) :=
  if sz == 0 then (m61_free s ptr).map (fun s1 => (0, s1))
  else if ptr == 0 then m61_malloc s sz
  else
    match map_find s.active_addresses ptr with
    | none => .error Abort.invalid_realloc
    | some it =>
      let old_size := add64 it.actual_size it.padding_size
      let padding := padding_of sz
      let new_aligned_sz := add64 sz padding
      if new_aligned_sz ≤ old_size then
        let aa := map_set s.active_addresses ptr ⟨sz, padding⟩
        let diff := old_size - new_aligned_sz
        let g : m61_statistics :=
          { s.gstats with
            active_size := add64 s.gstats.active_size (sub64 new_aligned_sz old_size) }
        if diff > 0 then
          let fa := map_insert s.freed_addresses (add64 ptr new_aligned_sz) diff
          let magicptr := add64 ptr sz
          if !s.inside magicptr 1 then .error Abort.wild_access
          else
            .ok (ptr, { s with gstats := g, freed_addresses := fa, active_addresses := aa,
                               bytes := Function.update s.bytes magicptr 61 })
        else .ok (ptr, { s with gstats := g, active_addresses := aa })
      else
        match m61_malloc s sz with
        | .error e => .error e
        | .ok (nptr, s1) =>
          if nptr != 0 then
            match m61_free s1 ptr with
            | .error e => .error e
            | .ok s2 =>
              if !s2.inside ptr sz || !s2.inside nptr sz then .error Abort.wild_access
              else
                .ok (nptr, { s2 with bytes := fun a =>
                  if nptr ≤ a ∧ a < nptr + sz then s2.bytes (ptr + (a - nptr)) else s2.bytes a })
          else .ok (nptr, s1)

/-! ## `m61_calloc` -/

/-- The function `m61_calloc(count, sz, file, line)`.  Its first test computes
`SIZE_MAX / sz`. -/
def m61_calloc (s : Heap) (count sz : Nat) : Except Abort (Nat × Heap) :=
  if sz == 0 then .error Abort.div_by_zero
  else if count > SIZE_MAX / sz || (sz * count) % 2 ^ 64 ≥ buffer_size then
    .ok (0, { s with gstats := stat_fail s.gstats sz })
  else
    match m61_malloc s ((count * sz) % 2 ^ 64) with
    | .error e => .error e
    | .ok (ptr, s1) =>
      if ptr != 0 then
        if !s1.inside ptr ((count * sz) % 2 ^ 64) then .error Abort.wild_access
        else
          .ok (ptr, { s1 with bytes := fun a =>
            if ptr ≤ a ∧ a < ptr + (count * sz) % 2 ^ 64 then 0 else s1.bytes a })
      else .ok (ptr, s1)

/-! ## Reachable states -/

/-- The allocator states a program can reach: static initialisation with the
buffer mapped at a non-null page-aligned address, then any sequence of calls
of `m61_malloc`, `m61_calloc`, `m61_realloc` and `m61_free` that return, and
of stores by the program into the requested bytes of an active allocation. -/
inductive Reachable : Heap → Prop where
  | init (buffer : Nat) :
      0 < buffer → buffer % 4096 = 0 → buffer + buffer_size < 2 ^ 64 →
      Reachable (Heap.init buffer)
  | malloc (s s1 : Heap) (sz p : Nat) :
      Reachable s → sz < 2 ^ 64 → m61_malloc s sz = .ok (p, s1) → Reachable s1
  | calloc (s s1 : Heap) (count sz p : Nat) :
      Reachable s → count < 2 ^ 64 → sz < 2 ^ 64 → m61_calloc s count sz = .ok (p, s1) →
      Reachable s1
  | realloc (s s1 : Heap) (ptr sz p : Nat) :
      Reachable s → ptr < 2 ^ 64 → sz < 2 ^ 64 → m61_realloc s ptr sz = .ok (p, s1) →
      Reachable s1
  | free (s s1 : Heap) (ptr : Nat) :
      Reachable s → ptr < 2 ^ 64 → m61_free s ptr = .ok s1 → Reachable s1
  | store (s : Heap) (p i v : Nat) (it : properties) :
      Reachable s → map_find s.active_addresses p = some it → i < it.actual_size → v < 256 →
      Reachable { s with bytes := Function.update s.bytes (p + i) v }

/-- An invariant of the reachable states: the buffer lies at a non-null
address away from the top of the address space, every free block and every
active block (its recorded length taken as the code computes it, modulo
`2 ^ 64`) lies inside the buffer, and every record holds the padding the code
computes for its requested size. -/
structure Inv (s : Heap) : Prop where
  /-- The buffer is not at address 0. -/
  base_pos : 0 < s.buffer
  /-- The end of the buffer is representable. -/
  base_hi : s.buffer + buffer_size < 2 ^ 64
  /-- Free blocks lie inside the buffer. -/
  freed_in : ∀ e ∈ s.freed_addresses,
    s.buffer ≤ e.1 ∧ e.1 + e.2 ≤ s.buffer + buffer_size
  /-- Active blocks lie inside the buffer. -/
  active_in : ∀ e ∈ s.active_addresses,
    s.buffer ≤ e.1 ∧ e.1 + add64 e.2.actual_size e.2.padding_size ≤ s.buffer + buffer_size
  /-- Recorded paddings are the ones computed from the recorded sizes. -/
  active_pad : ∀ e ∈ s.active_addresses,
    e.2.padding_size = 16 - e.2.actual_size % 16 ∧ e.2.actual_size < 2 ^ 64

/-! ## Vocabulary of the statements -/

/-- The padding in the words of the statements: `pad(n) = 16 - (n mod 16)`. -/
def pad (n : Nat) : Nat := 16 - n % 16

/-- The sum of the requested sizes of the active allocations. -/
def active_sum (s : Heap) : Nat := (s.active_addresses.map (fun e => e.2.actual_size)).sum

/-- The abort, if any, in which a run ended. -/
def aborted {α : Type} (r : Except Abort α) : Option Abort :=
  match r with
  | .error e => some e
  | .ok _ => none

/-! ## Test programs and other concrete runs -/

/-- An address at which `mmap` may place the buffer. -/
def buffer0 : Nat := 0x7f0000000000

/-- The state after `m61_malloc(10)` on the fresh heap. -/
def heap10 : Heap :=
  ((m61_malloc (Heap.init buffer0) 10).toOption.map Prod.snd).getD (Heap.init buffer0)

/-- The test program `test54.cc` up to its call of `m61_print_statistics`:
`m61_malloc(10)`, `m61_realloc(ptr, 2)`, `m61_free(new_ptr)`, with its
assertions. -/
def test54 : Except Abort Heap := do
  let (ptr, s1) ← m61_malloc (Heap.init buffer0) 10
  if ptr == 0 then throw Abort.assertion
  let (new_ptr, s2) ← m61_realloc s1 ptr 2
  if new_ptr == 0 then throw Abort.assertion
  if new_ptr != ptr then throw Abort.assertion
  m61_free s2 new_ptr

/-- The first two calls of `test54.cc`: `m61_malloc(10)`, then
`m61_realloc(ptr, 2)`. -/
def test54_realloc : Except Abort (Nat × Heap) := do
  let (ptr, s1) ← m61_malloc (Heap.init buffer0) 10
  m61_realloc s1 ptr 2

/-- The test program `test55.cc` up to its call of `m61_print_statistics`:
`m61_malloc(10)`, `m61_realloc(ptr, 20)`, `m61_free(new_ptr)`, with its
assertions. -/
def test55 : Except Abort Heap := do
  let (ptr, s1) ← m61_malloc (Heap.init buffer0) 10
  if ptr == 0 then throw Abort.assertion
  let (new_ptr, s2) ← m61_realloc s1 ptr 20
  if new_ptr == 0 then throw Abort.assertion
  if new_ptr == ptr then throw Abort.assertion
  m61_free s2 new_ptr

/-- The first two calls of `test55.cc`: `m61_malloc(10)`, then
`m61_realloc(ptr, 20)`. -/
def test55_realloc : Except Abort (Nat × Heap) := do
  let (ptr, s1) ← m61_malloc (Heap.init buffer0) 10
  m61_realloc s1 ptr 20

/-- The run `m61_malloc(20)`, `m61_realloc(ptr, 2)`, `m61_free(ptr)`: a block
of 32 bytes shrunk in place to 16. -/
def shrink_run : Except Abort Heap := do
  let (ptr, s1) ← m61_malloc (Heap.init buffer0) 20
  let (new_ptr, s2) ← m61_realloc s1 ptr 2
  m61_free s2 new_ptr

/-- The state after `p1 = m61_malloc(40)` on the fresh heap: a block of 48
bytes at the start of the buffer. -/
def tail1 : Heap :=
  ((m61_malloc (Heap.init buffer0) 40).toOption.map Prod.snd).getD (Heap.init buffer0)

/-- The state `tail1` after `m61_malloc(8388528)`: a block of 8388544 bytes
that leaves 16 bytes free at the end of the buffer. -/
def tail2 : Heap := ((m61_malloc tail1 8388528).toOption.map Prod.snd).getD (Heap.init buffer0)

/-- The state `tail2` after `p3 = m61_malloc(10)`: `p3` is the address of the
last 16 bytes of the buffer. -/
def tail3 : Heap := ((m61_malloc tail2 10).toOption.map Prod.snd).getD (Heap.init buffer0)

/-- The state `tail3` after `m61_free(p1)`: the first 48 bytes of the buffer
are the one free block. -/
def tail4 : Heap := (m61_free tail3 buffer0).toOption.getD (Heap.init buffer0)

/-! ## Blocks, alignment, and more concrete runs -/

/-- The block of an active allocation in the words of the statements:
the addresses `[p, p + size + padding)`. -/
def active_block (e : Nat × properties) (a : Nat) : Prop :=
  e.1 ≤ a ∧ a < e.1 + e.2.actual_size + e.2.padding_size

/-- The block of an entry of the free list: the addresses `[p, p + length)`. -/
def free_block (e : Nat × Nat) (a : Nat) : Prop :=
  e.1 ≤ a ∧ a < e.1 + e.2

/-- A second invariant of the reachable states: the buffer starts at a
multiple of 16, and so does every free block and every active allocation. -/
structure Aligned (s : Heap) : Prop where
  /-- The buffer starts at a multiple of 16. -/
  base : s.buffer % 16 = 0
  /-- Free blocks start at multiples of 16. -/
  freed : ∀ e ∈ s.freed_addresses, e.1 % 16 = 0
  /-- Active allocations start at multiples of 16. -/
  active : ∀ e ∈ s.active_addresses, e.1 % 16 = 0

/-- The state after `q = m61_malloc(10)` and `p = m61_malloc(10)` on the fresh
heap: `q` is the start of the buffer and `p` is 16 bytes above it. -/
def heap10_10 : Heap := ((m61_malloc heap10 10).toOption.map Prod.snd).getD (Heap.init buffer0)

/-- The state `heap10_10` after `m61_realloc(p, 2 ^ 64 - 16)`. -/
def heap_wrap : Heap :=
  ((m61_realloc heap10_10 (buffer0 + 16) (2 ^ 64 - 16)).toOption.map Prod.snd).getD
    (Heap.init buffer0)

/-- The state after `m61_malloc(1)` on the fresh heap. -/
def heap1 : Heap := ((m61_malloc (Heap.init buffer0) 1).toOption.map Prod.snd).getD (Heap.init buffer0)

/-- The state `heap1` after `m61_free` of its one allocation. -/
def heap1_freed : Heap := (m61_free heap1 buffer0).toOption.getD (Heap.init buffer0)

end M61

namespace TxIo61

/-!
# The transactional I/O library (`src/fTx/io61.cc`): `io61_read`

A shallow embedding of `io61_fdopen`, `io61_fill` and `io61_read`.

* The file behind the descriptor is a value `OsFile`: its bytes, the offset of
  the descriptor, and the errors with which the next calls of `read` fail.
* Values of type `off_t` and `ssize_t` are integers, values of type `size_t`
  natural numbers below `2 ^ 64`; the conversions between them are explicit.
* The caller's buffer and `cbuf` are functions from index to byte.
* A failed `assert` ends the run: the functions return `Except Abort _`.  The
  loop of `io61_read` is observed for a bounded number of iterations.
-/

/-! ## Constants and conversions -/

/-- The open mode `O_RDONLY` (`fcntl.h`). -/
def O_RDONLY : Nat := 0
/-- The open mode `O_WRONLY` (`fcntl.h`). -/
def O_WRONLY : Nat := 1
/-- The mask `O_ACCMODE` (`fcntl.h`). -/
def O_ACCMODE : Nat := 3
/-- The error number `EINTR` (`errno.h`). -/
def EINTR : Nat := 4
/-- The error number `EAGAIN` (`errno.h`). -/
def EAGAIN : Nat := 11
/-- The size of the cache, `io61_file::cbufsz`. -/
def cbufsz : Nat := 8192

/-- Conversion of a signed 64-bit value to `size_t`. -/
def to_size_t (x : Int) : Nat := (x % 2 ^ 64).toNat

/-- Conversion of a `size_t` value to `ssize_t`. -/
def to_ssize_t (n : Nat) : Int :=
  if n % 2 ^ 64 < 2 ^ 63 then (n % 2 ^ 64 : Nat) else (n % 2 ^ 64 : Nat) - 2 ^ 64

/-- Ways in which a run ends without returning. -/
inductive Abort where
  /-- A failed `assert`. -/
  | assertion
deriving DecidableEq, Repr

/-! ## The file behind the descriptor -/

/-- The operating system's side of an open file descriptor. -/
structure OsFile where
  /-- The bytes of the file. -/
  data : List Nat
  /-- The file offset of the descriptor. -/
  off : Nat
  /-- The error numbers with which the next calls of `read` fail, in order;
  once the list is empty `read` succeeds. -/
  errs : List Nat
  /-- Whether `lseek` works on the descriptor. -/
  seekable : Bool
  /-- Whether `mmap` of the file succeeds. -/
  mappable : Bool
deriving DecidableEq, Repr

/-- The system call `read(fd, buf, n)`: the return value, `errno`, the bytes
read and the new state of the descriptor. -/
def os_read (os : OsFile) (n : Nat) : Int × Nat × List Nat × OsFile :=
  match os.errs with
  | e :: rest => (-1, e, [], { os with errs := rest })
  | [] =>
    let chunk := (os.data.drop os.off).take n
    (chunk.length, 0, chunk, { os with off := os.off + chunk.length })

/-! ## `io61_file` -/

/-- The structure `io61_file`, without the fields for synchronisation. -/
structure io61_file where
  /-- Open mode. -/
  mode : Nat
  /-- Is this file seekable? -/
  seekable : Bool
  /-- The single-slot cache, by index. -/
  cbuf : Nat → Nat
  /-- Offset of first character in `cbuf`. -/
  tag : Int
  /-- Next offset to read or write. -/
  pos_tag : Int
  /-- Offset one past last valid character in `cbuf`. -/
  end_tag : Int
  /-- Has cache been written? -/
  dirty : Bool
  /-- Is cache in positioned mode? -/
  positioned : Bool
  /-- Whether `map_addr` is a mapping of the file (`map_addr != MAP_FAILED`). -/
  mapped : Bool
  /-- The field `st.st_size`: the size of the file when it was opened. -/
  st_size : Int

/-- The function `io61_fdopen(fd, mode)`; `cbuf0` is the indeterminate initial
content of the cache. -/
def io61_fdopen (os : OsFile) (mode : Nat) (cbuf0 : Nat → Nat) : io61_file :=
  let off : Int := if os.seekable then (os.off : Int) else -1
  let t : Int := if off != -1 then off else 0
  { mode := mode &&& O_ACCMODE, seekable := off != -1, cbuf := cbuf0,
    tag := t, pos_tag := t, end_tag := t,
    dirty := false, positioned := false,
    mapped := os.mappable, st_size := os.data.length }

/-- The loop of `io61_fill` over the pending errors of `read`: a call that
fails with `EINTR` or `EAGAIN` is repeated, any other failure returns -1, and
a successful `read` fills the cache and advances `end_tag`. -/
def io61_fill_loop (f : io61_file) (os : OsFile) : List Nat → Int × io61_file × OsFile
  | [] =>
    let r := os_read { os with errs := [] } cbufsz
    (0, { f with cbuf := fun i => r.2.2.1.getD i (f.cbuf i), end_tag := f.end_tag + r.1 },
      r.2.2.2)
  | e :: rest =>
    if e != EINTR && e != EAGAIN then (-1, f, { os with errs := rest })
    else io61_fill_loop f os rest

/-- The function `io61_fill(f)`. -/
def io61_fill (f : io61_file) (os : OsFile) : Except Abort (Int × io61_file × OsFile) :=
  if f.tag == f.end_tag && f.pos_tag == f.end_tag then .ok (io61_fill_loop f os os.errs)
  else .error Abort.assertion

/-! ## `io61_read` -/

/-- The result of `memcpy(&buf[at], src, n)` on the caller's buffer, where
`src i` is the `i`-th byte of the source. -/
def copy_out (buf : Nat → Nat) (start : Nat) (src : Nat → Nat) (n : Nat) : Nat → Nat :=
  fun i => if start ≤ i ∧ i < start + n then src (i - start) else buf i

/-- The loop `while (nread != sz)` of `io61_read`, observed for `fuel`
iterations: the return value, the caller's buffer, the file and the
descriptor; `none` while the loop is still running. -/
def io61_read_loop (sz : Nat) :
    Nat → io61_file → OsFile → (Nat → Nat) → Nat →
      Option (Except Abort (Int × (Nat → Nat) × io61_file × OsFile))
  | 0, _, _, _, _ => none
  | fuel + 1, f, os, buf, nread =>
    if nread == sz then some (.ok (to_ssize_t nread, buf, f, os))
    else
      let copy := fun (f1 : io61_file) (os1 : OsFile) =>
        let nleft := to_size_t (f1.end_tag - f1.pos_tag)
        let ncopy := min ((sz + 2 ^ 64 - nread) % 2 ^ 64) nleft
        io61_read_loop sz fuel { f1 with pos_tag := f1.pos_tag + ncopy } os1
          (copy_out buf nread (fun i => f1.cbuf ((f1.pos_tag - f1.tag).toNat + i)) ncopy)
          ((nread + ncopy) % 2 ^ 64)
      if f.pos_tag == f.end_tag then
        match io61_fill f os with
        | .error e => some (.error e)
        | .ok (r, f1, os1) =>
          if r == -1 && nread == 0 then some (.ok (-1, buf, f1, os1))
          else if f1.pos_tag == f1.end_tag then some (.ok (to_ssize_t nread, buf, f1, os1))
          else copy f1 os1
      else copy f os

/-- The function `io61_read(f, buf, sz)`, its loop observed for `fuel`
iterations.  A mapped file is read at `map_addr + pos_tag`; past the end of
the file the mapping holds zero bytes. -/
def io61_read (f : io61_file) (os : OsFile) (buf : Nat → Nat) (sz : Nat) (fuel : Nat) :
    Option (Except Abort (Int × (Nat → Nat) × io61_file × OsFile)) :=
  if f.positioned then some (.error Abort.assertion)
  else if f.mapped then
    let bytes_to_copy := to_ssize_t (min sz (to_size_t (f.st_size - f.pos_tag)))
    let buf1 := copy_out buf 0 (fun i => os.data.getD (f.pos_tag.toNat + i) 0)
      (to_size_t bytes_to_copy)
    io61_read_loop sz fuel { f with pos_tag := f.pos_tag + bytes_to_copy } os buf1
      (to_size_t bytes_to_copy)
  else io61_read_loop sz fuel f os buf 0

/-! ## Concrete runs -/

/-- A regular file of 10 bytes, freshly opened: offset 0, no pending errors,
seekable and mappable. -/
def file10 : OsFile := ⟨[1, 2, 3, 4, 5, 6, 7, 8, 9, 10], 0, [], true, true⟩

/-- The `io61_file` that `io61_fdopen` returns for `file10` opened read-only. -/
def f10 : io61_file := io61_fdopen file10 O_RDONLY (fun _ => 0)

/-- The `io61_file` after `io61_read(f, buf, 100)` on `f10`. -/
def f10_read : io61_file :=
  (((io61_read f10 file10 (fun _ => 0) 100 2).bind Except.toOption).map
    (fun r => r.2.2.1)).getD f10

/-- The value a run returned, if it returned. -/
def returned {α β : Type} (r : Option (Except Abort (α × β))) : Option α :=
  (r.bind Except.toOption).map Prod.fst

end TxIo61

namespace CacheIo61

/-!
# The cached I/O library (`src/cache/io61.cc`): `io61_flush`

A shallow embedding of `io61_flush`.

* The descriptor is a value `OsOut`: the bytes it has accepted so far and the
  outcomes of the next calls of `write`.
* Values of type `off_t` and `ssize_t` are integers, values of type `size_t`
  natural numbers below `2 ^ 64`.
* A failed `assert` ends the run; the loop is observed for a bounded number of
  iterations.
-/

/-- The open mode `O_RDONLY` (`fcntl.h`). -/
def O_RDONLY : Nat := 0
/-- The open mode `O_WRONLY` (`fcntl.h`). -/
def O_WRONLY : Nat := 1
/-- The error number `EINTR` (`errno.h`). -/
def EINTR : Nat := 4
/-- The error number `EIO` (`errno.h`). -/
def EIO : Nat := 5
/-- The error number `EAGAIN` (`errno.h`). -/
def EAGAIN : Nat := 11
/-- The size of the cache, `io61_file::bufsize`. -/
def bufsize : Nat := 4096

/-- Conversion of a signed 64-bit value to `size_t`. -/
def to_size_t (x : Int) : Nat := (x % 2 ^ 64).toNat

/-- Conversion of a `size_t` value to `ssize_t`. -/
def to_ssize_t (n : Nat) : Int :=
  if n % 2 ^ 64 < 2 ^ 63 then (n % 2 ^ 64 : Nat) else (n % 2 ^ 64 : Nat) - 2 ^ 64

/-- Ways in which a run ends without returning. -/
inductive Abort where
  /-- A failed `assert`. -/
  | assertion
deriving DecidableEq, Repr

/-- What a call of `write` does. -/
inductive WriteOutcome where
  /-- The call accepts at most `n` of the bytes offered. -/
  | accept (n : Nat)
  /-- The call fails with the error number `errno`. -/
  | fail (errno : Nat)
deriving DecidableEq, Repr

/-- The operating system's side of a descriptor open for writing. -/
structure OsOut where
  /-- The bytes accepted so far, in order. -/
  written : List Nat
  /-- The outcomes of the next calls of `write`, in order; once the list is
  empty every call accepts all it is offered. -/
  script : List WriteOutcome
deriving DecidableEq, Repr

/-- The system call `write(fd, buf, count)` with `bytes` the `count` bytes at
`buf`: the return value, `errno` and the new state of the descriptor. -/
def os_write (os : OsOut) (bytes : List Nat) : Int × Nat × OsOut :=
  match os.script with
  | [] => (bytes.length, 0, ⟨os.written ++ bytes, []⟩)
  | WriteOutcome.accept n :: rest =>
    ((bytes.take n).length, 0, ⟨os.written ++ bytes.take n, rest⟩)
  | WriteOutcome.fail e :: rest => (-1, e, ⟨os.written, rest⟩)

/-- The structure `io61_file`. -/
structure io61_file where
  /-- Open mode (`O_RDONLY` or `O_WRONLY`). -/
  mode : Nat
  /-- The cache, by index. -/
  cbuf : Nat → Nat
  /-- File offset of first byte of cached data. -/
  tag : Int
  /-- File offset one past the last byte. -/
  end_tag : Int
  /-- Position within the cache. -/
  pos_tag : Int
  /-- Whether `map_addr` is a mapping of the file. -/
  mapped : Bool

/-- The loop `while ((ssize_t) pos < towrite)` of `io61_flush`, observed for
`fuel` iterations: the state of the descriptor when the loop is left, `none`
while it is still running. -/
def io61_flush_loop (f : io61_file) (towrite : Int) : Nat → OsOut → Nat → Option OsOut
  | 0, _, _ => none
  | fuel + 1, os, pos =>
    if to_ssize_t pos < towrite then
      let count := to_size_t (towrite - (pos : Int))
      let r := os_write os ((List.range count).map (fun i => f.cbuf (pos + i)))
      if r.1 < 0 then
        if r.2.1 == EINTR || r.2.1 == EAGAIN then io61_flush_loop f towrite fuel r.2.2 pos
        else some r.2.2
      else io61_flush_loop f towrite fuel r.2.2 ((pos + r.1.toNat) % 2 ^ 64)
    else some os

/-- The function `io61_flush(f)`, its loop observed for `fuel` iterations: the
return value, the file and the descriptor. -/
def io61_flush (f : io61_file) (os : OsOut) (fuel : Nat) :
    Option (Except Abort (Int × io61_file × OsOut)) :=
  if f.mode == O_RDONLY then some (.ok (0, f, os))
  else if ¬ (f.end_tag - f.pos_tag ≤ bufsize) then some (.error Abort.assertion)
  else
    (io61_flush_loop f (f.pos_tag - f.tag) fuel os 0).map
      (fun os1 => .ok (0, { f with tag := f.pos_tag }, os1))

/-! ## Concrete runs -/

/-- A file opened write-only with the five bytes 1 to 5 in its cache. -/
def f5 : io61_file := ⟨O_WRONLY, fun i => i + 1, 0, 5, 5, false⟩

/-- A descriptor whose next `write` fails with `EIO`. -/
def os_eio : OsOut := ⟨[], [WriteOutcome.fail EIO]⟩

/-- The return value and the bytes the descriptor holds after a run, if it
returned. -/
def outcome (r : Option (Except Abort (Int × io61_file × OsOut))) : Option (Int × List Nat) :=
  (r.bind Except.toOption).map (fun x => (x.1, x.2.2.written))

end CacheIo61

namespace WeensyOS

/-! ## Facts about the allocator -/

theorem PAGESIZE_pos : 0 < PAGESIZE := by decide

theorem page_mul_div (pn : Nat) : pn * PAGESIZE / PAGESIZE = pn :=
  Nat.mul_div_cancel pn PAGESIZE_pos

theorem page_mul_mod (pn : Nat) : pn * PAGESIZE % PAGESIZE = 0 :=
  Nat.mul_mod_left pn PAGESIZE

theorem kalloc_scan_cases (cfg : Config) (m : Memory) (tries pageno : Nat) :
    kalloc_scan cfg m tries pageno = (0, m) ∨
    ∃ pn, free_page cfg m pn = true ∧
      kalloc_scan cfg m tries pageno = (pn * PAGESIZE, m.take pn) := by
  induction tries generalizing pageno with
  | zero => left; rfl
  | succ n ih =>
    unfold kalloc_scan
    by_cases h : (cfg.allocatable_physical_address (pageno * PAGESIZE)
        && m.physpages pageno == 0) = true
    · right
      exact ⟨pageno, h, by simp only [h, if_true]; rfl⟩
    · simp only [h]
      exact ih _

theorem kalloc_cases (cfg : Config) (m : Memory) (sz : Nat) :
    kalloc cfg m sz = (0, m) ∨
    ∃ pn, free_page cfg m pn = true ∧ kalloc cfg m sz = (pn * PAGESIZE, m.take pn) := by
  unfold kalloc
  split
  · left; rfl
  · exact kalloc_scan_cases cfg m _ _

/-- A successful scan returns a page of its window. -/
theorem kalloc_scan_window (cfg : Config) (m : Memory) (tries pageno : Nat)
    (hw : pageno + tries ≤ cfg.NPAGES) :
    kalloc_scan cfg m tries pageno = (0, m) ∨
    ∃ pn, pageno ≤ pn ∧ pn < pageno + tries ∧ free_page cfg m pn = true ∧
      kalloc_scan cfg m tries pageno = (pn * PAGESIZE, m.take pn) := by
  induction tries generalizing pageno with
  | zero => left; rfl
  | succ n ih =>
    unfold kalloc_scan
    by_cases h : (cfg.allocatable_physical_address (pageno * PAGESIZE)
        && m.physpages pageno == 0) = true
    · right
      exact ⟨pageno, le_refl _, by omega, h, by simp only [h, if_true]; rfl⟩
    · simp only [h]
      by_cases hn : n = 0
      · subst hn; left; rfl
      · have hmod : (pageno + 1) % cfg.NPAGES = pageno + 1 := Nat.mod_eq_of_lt (by omega)
        rw [hmod]
        rcases ih (pageno + 1) (by omega) with h1 | ⟨pn, a, b, c, d⟩
        · exact Or.inl h1
        · exact Or.inr ⟨pn, by omega, by omega, c, d⟩

/-- A `kalloc` either fails and changes nothing or takes a free page of the
array. -/
theorem kalloc_cases_lt (cfg : Config) (m : Memory) (sz : Nat) :
    kalloc cfg m sz = (0, m) ∨
    ∃ pn, pn < cfg.NPAGES ∧ free_page cfg m pn = true ∧
      kalloc cfg m sz = (pn * PAGESIZE, m.take pn) := by
  unfold kalloc
  split
  · left; rfl
  · rcases kalloc_scan_window cfg m cfg.NPAGES 0 (by omega) with h | ⟨pn, -, b, c, d⟩
    · exact Or.inl h
    · exact Or.inr ⟨pn, by omega, c, d⟩

/-- The scan finds nothing when no page in its window is free. -/
theorem kalloc_scan_none (cfg : Config) (m : Memory) (tries pageno : Nat)
    (hw : pageno + tries ≤ cfg.NPAGES)
    (h : ∀ pn, pageno ≤ pn → pn < pageno + tries → free_page cfg m pn = false) :
    kalloc_scan cfg m tries pageno = (0, m) := by
  induction tries generalizing pageno with
  | zero => rfl
  | succ n ih =>
    unfold kalloc_scan
    have h0 := h pageno (le_refl _) (by omega)
    unfold free_page at h0
    simp only [h0, Bool.false_eq_true, if_false]
    by_cases hn : n = 0
    · subst hn; rfl
    · have hmod : (pageno + 1) % cfg.NPAGES = pageno + 1 := Nat.mod_eq_of_lt (by omega)
      rw [hmod]
      exact ih (pageno + 1) (by omega) (fun pn h1 h2 => h pn (by omega) (by omega))

/-- The scan returns the first free page of its window. -/
theorem kalloc_scan_first (cfg : Config) (m : Memory) (tries pageno pn : Nat)
    (hw : pageno + tries ≤ cfg.NPAGES) (h1 : pageno ≤ pn) (h2 : pn < pageno + tries)
    (hfree : free_page cfg m pn = true)
    (hmin : ∀ j, pageno ≤ j → j < pn → free_page cfg m j = false) :
    kalloc_scan cfg m tries pageno = (pn * PAGESIZE, m.take pn) := by
  induction tries generalizing pageno with
  | zero => omega
  | succ n ih =>
    unfold kalloc_scan
    by_cases hp : pageno = pn
    · subst hp
      unfold free_page at hfree
      simp only [hfree, if_true]; rfl
    · have h0 := hmin pageno (le_refl _) (by omega)
      unfold free_page at h0
      simp only [h0, Bool.false_eq_true, if_false]
      have hmod : (pageno + 1) % cfg.NPAGES = pageno + 1 := Nat.mod_eq_of_lt (by omega)
      rw [hmod]
      exact ih (pageno + 1) (by omega) (by omega) (by omega)
        (fun j hj1 hj2 => hmin j (by omega) hj2)

/-- With no free page in the array `kalloc` fails and changes nothing. -/
theorem kalloc_none (cfg : Config) (m : Memory) (sz : Nat)
    (h : ∀ pn, pn < cfg.NPAGES → free_page cfg m pn = false) :
    kalloc cfg m sz = (0, m) := by
  unfold kalloc
  split
  · rfl
  · exact kalloc_scan_none cfg m _ 0 (by omega) (fun pn _ h2 => h pn (by omega))

/-- With a free page in the array `kalloc(sz)`, `sz ≤ PAGESIZE`, takes the
lowest-numbered one. -/
theorem kalloc_some (cfg : Config) (m : Memory) (sz : Nat) (hsz : sz ≤ PAGESIZE)
    (pn : Nat) (hpn : pn < cfg.NPAGES) (hfree : free_page cfg m pn = true) :
    ∃ q, q ≤ pn ∧ free_page cfg m q = true ∧ (∀ j, j < q → free_page cfg m j = false) ∧
      kalloc cfg m sz = (q * PAGESIZE, m.take q) := by
  have hex : ∃ q, free_page cfg m q = true := ⟨pn, hfree⟩
  classical
  let q := Nat.find hex
  have hq : free_page cfg m q = true := Nat.find_spec hex
  have hqle : q ≤ pn := Nat.find_min' hex hfree
  have hmin : ∀ j, j < q → free_page cfg m j = false := by
    intro j hj
    have := Nat.find_min hex hj
    simpa using this
  refine ⟨q, hqle, hq, hmin, ?_⟩
  unfold kalloc
  rw [if_neg (by omega)]
  exact kalloc_scan_first cfg m _ 0 q (by omega) (Nat.zero_le _) (by omega) hq
    (fun j _ hj => hmin j hj)

theorem take_physpages (m : Memory) (pn X : Nat) (h : m.physpages pn = 0) :
    (m.take pn).physpages X = m.physpages X + if X = pn then 1 else 0 := by
  unfold Memory.take
  simp only [Function.update_apply]
  split <;> simp_all

/-- Where address 0 is not allocatable, a `kalloc` that returns `nullptr` has
changed nothing and a `kalloc` that succeeds returns a non-null address. -/
theorem kalloc_cases_nz (cfg : Config) (h0 : cfg.allocatable_physical_address 0 = false)
    (m : Memory) (sz : Nat) :
    kalloc cfg m sz = (0, m) ∨
    ∃ pn, pn ≠ 0 ∧ pn * PAGESIZE ≠ 0 ∧ free_page cfg m pn = true ∧
      kalloc cfg m sz = (pn * PAGESIZE, m.take pn) := by
  rcases kalloc_cases cfg m sz with h | ⟨pn, hf, h⟩
  · exact Or.inl h
  · right
    have hpn : pn ≠ 0 := by
      rintro rfl
      unfold free_page at hf
      simp [h0] at hf
    refine ⟨pn, hpn, ?_, hf, h⟩
    have := PAGESIZE_pos
    exact Nat.mul_ne_zero hpn (by omega)

theorem free_page_count (cfg : Config) (m : Memory) (pn : Nat)
    (h : free_page cfg m pn = true) : m.physpages pn = 0 := by
  unfold free_page at h
  simp only [Bool.and_eq_true, beq_iff_eq] at h
  exact h.2

theorem free_page_alloc (cfg : Config) (m : Memory) (pn : Nat)
    (h : free_page cfg m pn = true) :
    cfg.allocatable_physical_address (pn * PAGESIZE) = true := by
  unfold free_page at h
  simp only [Bool.and_eq_true, beq_iff_eq] at h
  exact h.1

/-! ## Facts about `try_map` -/

theorem dir_pages_append (a b : List ptpage) :
    dir_pages (a ++ b) = dir_pages a ++ dir_pages b := by
  simp [dir_pages]

/-- The walk only appends structure pages, each taken from `kalloc` with its
count going from 0 to 1; entries and the top-level page stay. -/
theorem try_map_walk_spec (cfg : Config) (h0 : cfg.allocatable_physical_address 0 = false)
    (path : List (Nat × Nat)) (m : Memory) (pt : x86_64_pagetable) :
    ∃ new : List ptpage,
      (try_map_walk cfg path m pt).2.2 = { pt with dirs := pt.dirs ++ new } ∧
      (∀ X, (try_map_walk cfg path m pt).2.1.physpages X =
        m.physpages X + (dir_pages new).count X) ∧
      (∀ d ∈ new, d.addr ≠ 0 ∧ d.addr % PAGESIZE = 0 ∧ m.physpages (d.addr / PAGESIZE) = 0) := by
  induction path generalizing m pt with
  | nil => exact ⟨[], by simp [try_map_walk], by simp [try_map_walk, dir_pages], by simp⟩
  | cons lk rest ih =>
    unfold try_map_walk
    by_cases hd : pt.has_dir lk = true
    · simp only [hd, if_true]
      exact ih m pt
    · simp only [hd, Bool.false_eq_true, if_false]
      rcases kalloc_cases_nz cfg h0 m PAGESIZE with h | ⟨pn, hpn, hpa, hf, h⟩
      · rw [h]
        exact ⟨[], by simp, by simp [dir_pages], by simp⟩
      · rw [h]
        have hne : (pn * PAGESIZE == 0) = false := by simpa using hpa
        simp only [hne, Bool.false_eq_true, if_false]
        obtain ⟨new, e1, e2, e3⟩ := ih
          { (m.take pn) with bytes := memset (m.take pn).bytes (pn * PAGESIZE) 0 PAGESIZE }
          { pt with dirs := pt.dirs ++ [⟨lk.1, lk.2, pn * PAGESIZE⟩] }
        refine ⟨⟨lk.1, lk.2, pn * PAGESIZE⟩ :: new, ?_, ?_, ?_⟩
        · rw [e1]; simp
        · intro X
          rw [e2 X]
          simp only [take_physpages m pn X (free_page_count cfg m pn hf), dir_pages,
            List.map_cons, page_mul_div, List.count_cons]
          by_cases hX : X = pn
          · subst hX; simp; omega
          · have : (pn == X) = false := by simpa using fun h => hX h.symm
            simp [hX, this]
        · intro d hd'
          rcases List.mem_cons.mp hd' with rfl | hd'
          · exact ⟨hpa, page_mul_mod pn, by
              simpa [page_mul_div] using free_page_count cfg m pn hf⟩
          · obtain ⟨a, b, c⟩ := e3 d hd'
            refine ⟨a, b, ?_⟩
            simp only [take_physpages m pn _ (free_page_count cfg m pn hf)] at c
            omega

/-- An entry that is present is replaced in place: no allocation. -/
theorem try_map_level0 (cfg : Config) (m : Memory) (pt : x86_64_pagetable) (va pa : Nat)
    (perm : Perm) (h : vmiter_level0 pt va = true) :
    try_map cfg m pt va pa perm = (0, m, pt.set_entry (va / PAGESIZE) ⟨pa, perm⟩) := by
  unfold try_map
  simp [h]

@[simp] theorem set_entry_addr (pt : x86_64_pagetable) (v : Nat) (e : pageentry) :
    (pt.set_entry v e).addr = pt.addr := rfl

@[simp] theorem set_entry_dirs (pt : x86_64_pagetable) (v : Nat) (e : pageentry) :
    (pt.set_entry v e).dirs = pt.dirs := rfl

@[simp] theorem set_entry_entry (pt : x86_64_pagetable) (v : Nat) (e : pageentry) :
    (pt.set_entry v e).entry = Function.update pt.entry v e := rfl

theorem set_entry_self (pt : x86_64_pagetable) (v : Nat) :
    pt.set_entry v (pt.entry v) = pt := by
  unfold x86_64_pagetable.set_entry
  rw [Function.update_eq_self]

theorem level0_of_present (pt : x86_64_pagetable) (va : Nat)
    (h : (pt.entry (va / PAGESIZE)).perm.P = true) : vmiter_level0 pt va = true := by
  unfold vmiter_level0
  simp [h]

/-- Summary of `try_map`: the structure pages only grow by freshly allocated
pages, the reference counts rise by one per new structure page, and the
entries are the old ones except, on success with a non-zero permission word,
the one for `va`. -/
theorem try_map_spec (cfg : Config) (h0 : cfg.allocatable_physical_address 0 = false)
    (m : Memory) (pt : x86_64_pagetable) (va pa : Nat) (perm : Perm)
    (r : Int × Memory × x86_64_pagetable) (hr : try_map cfg m pt va pa perm = r) :
    ∃ new : List ptpage,
      r.2.2.dirs = pt.dirs ++ new ∧
      r.2.2.addr = pt.addr ∧
      (∀ X, r.2.1.physpages X = m.physpages X + (dir_pages new).count X) ∧
      (∀ d ∈ new, d.addr ≠ 0 ∧ d.addr % PAGESIZE = 0 ∧ m.physpages (d.addr / PAGESIZE) = 0) ∧
      (r.1 = 0 ∨ r.1 = -1) ∧
      (r.1 = 0 → perm.nonzero = true →
        r.2.2.entry = Function.update pt.entry (va / PAGESIZE) ⟨pa, perm⟩) ∧
      (r.1 ≠ 0 → r.2.2.entry = pt.entry) ∧
      (∀ v, v ≠ va / PAGESIZE → r.2.2.entry v = pt.entry v) := by
  unfold try_map at hr
  by_cases hl : vmiter_level0 pt va = true
  · rw [if_pos hl] at hr
    subst hr
    exact ⟨[], by simp [x86_64_pagetable.set_entry], rfl, by simp [dir_pages], by simp,
      Or.inl rfl, fun _ _ => rfl, fun h => absurd rfl h,
      fun v hv => by simp [x86_64_pagetable.set_entry, Function.update_apply, hv]⟩
  · rw [if_neg hl] at hr
    by_cases hp : perm.nonzero = true
    · rw [if_pos hp] at hr
      obtain ⟨new, e1, e2, e3⟩ := try_map_walk_spec cfg h0 (ptpath va) m pt
      by_cases hw : (try_map_walk cfg (ptpath va) m pt).1 = true
      · simp only [hw, if_true] at hr
        subst hr
        exact ⟨new, by simp [e1, x86_64_pagetable.set_entry],
          by simp [e1, x86_64_pagetable.set_entry], e2, e3, Or.inl rfl,
          fun _ _ => by simp [e1, x86_64_pagetable.set_entry], fun h => absurd rfl h,
          fun v hv => by simp [e1, x86_64_pagetable.set_entry, Function.update_apply, hv]⟩
      · simp only [hw, Bool.false_eq_true, if_false] at hr
        subst hr
        exact ⟨new, by simp [e1], by simp [e1], e2, e3, Or.inr rfl,
          fun h => by simp at h, fun _ => by simp [e1], fun v _ => by simp [e1]⟩
    · rw [if_neg hp] at hr
      subst hr
      exact ⟨[], by simp, rfl, by simp [dir_pages], by simp, Or.inl rfl,
        fun _ h => absurd h hp, fun h => absurd rfl h, fun v _ => rfl⟩

/-! ## Reading a table at a page-aligned address -/

theorem vmiter_perm_P (pt : x86_64_pagetable) (va : Nat) :
    (vmiter_perm pt va).P = (pt.entry (va / PAGESIZE)).perm.P := by
  unfold vmiter_perm
  split <;> simp_all [Perm.zero]

theorem vmiter_present_eq (pt : x86_64_pagetable) (va : Nat) :
    vmiter_present pt va = (pt.entry (va / PAGESIZE)).perm.P := by
  unfold vmiter_present
  exact vmiter_perm_P pt va

theorem vmiter_user_eq (pt : x86_64_pagetable) (va : Nat) :
    vmiter_user pt va =
      ((pt.entry (va / PAGESIZE)).perm.P && (pt.entry (va / PAGESIZE)).perm.U) := by
  unfold vmiter_user vmiter_perm
  split <;> simp_all [Perm.zero]

theorem vmiter_writable_eq (pt : x86_64_pagetable) (va : Nat) :
    vmiter_writable pt va =
      ((pt.entry (va / PAGESIZE)).perm.P && (pt.entry (va / PAGESIZE)).perm.W) := by
  unfold vmiter_writable vmiter_perm
  split <;> simp_all [Perm.zero]

theorem vmiter_perm_C (pt : x86_64_pagetable) (va : Nat) :
    (vmiter_perm pt va &&& PTE_C).nonzero =
      ((pt.entry (va / PAGESIZE)).perm.P && (pt.entry (va / PAGESIZE)).perm.C) := by
  unfold vmiter_perm
  split <;> simp_all [Perm.zero, PTE_C, Perm.nonzero, HAnd.hAnd, AndOp.and, Perm.and]

theorem vmiter_perm_of_present (pt : x86_64_pagetable) (va : Nat)
    (h : (pt.entry (va / PAGESIZE)).perm.P = true) :
    vmiter_perm pt va = (pt.entry (va / PAGESIZE)).perm := by
  unfold vmiter_perm
  simp [h]

theorem vmiter_pa_of_present (pt : x86_64_pagetable) (va : Nat) (ha : va % PAGESIZE = 0)
    (h : (pt.entry (va / PAGESIZE)).perm.P = true) :
    vmiter_pa pt va = (pt.entry (va / PAGESIZE)).pa := by
  unfold vmiter_pa
  simp [h, ha]

theorem vmiter_kptr_of_present (pt : x86_64_pagetable) (va : Nat) (ha : va % PAGESIZE = 0)
    (h : (pt.entry (va / PAGESIZE)).perm.P = true) :
    vmiter_kptr pt va = (pt.entry (va / PAGESIZE)).pa := by
  unfold vmiter_kptr
  simp [h, vmiter_pa_of_present pt va ha h]

/-! ## The copy loop of `sys_fork` -/

theorem sys_fork_entry_P (cfg : Config) (e : pageentry) :
    (sys_fork_entry cfg e).perm.P = e.perm.P := by
  unfold sys_fork_entry
  split
  · simp_all [PTE_P, PTE_U, PTE_C, HOr.hOr, OrOp.or, Perm.or]
  · rfl

theorem sys_fork_entry_U (cfg : Config) (e : pageentry) :
    (sys_fork_entry cfg e).perm.U = e.perm.U := by
  unfold sys_fork_entry
  split
  · simp_all [PTE_P, PTE_U, PTE_C, HOr.hOr, OrOp.or, Perm.or]
  · rfl

theorem sys_fork_entry_pa (cfg : Config) (e : pageentry) :
    (sys_fork_entry cfg e).pa = e.pa := by
  unfold sys_fork_entry
  split <;> rfl

theorem sys_fork_entry_idem (cfg : Config) (e : pageentry) :
    sys_fork_entry cfg (sys_fork_entry cfg e) = sys_fork_entry cfg e := by
  unfold sys_fork_entry
  split
  · simp [PTE_P, PTE_U, PTE_C, HOr.hOr, OrOp.or, Perm.or]
  · simp_all

theorem fork_counts_entry (cfg : Config) (e : pageentry) (X : Nat) :
    fork_counts cfg (sys_fork_entry cfg e) X = fork_counts cfg e X := by
  unfold fork_counts
  rw [sys_fork_entry_P, sys_fork_entry_U, sys_fork_entry_pa]

/-- The parent's side of one iteration: no allocation, no failure, and the entry
for `va` becomes `sys_fork_entry` of what it was. -/
theorem sys_fork_src_eq (cfg : Config) (m : Memory) (src : x86_64_pagetable) (va : Nat)
    (ha : va % PAGESIZE = 0) :
    sys_fork_src cfg m src va =
      .ok (m, src.set_entry (va / PAGESIZE) (sys_fork_entry cfg (src.entry (va / PAGESIZE)))) := by
  unfold sys_fork_src
  simp only [vmiter_writable_eq, vmiter_user_eq, vmiter_perm_C]
  by_cases hP : (src.entry (va / PAGESIZE)).perm.P = true
  · rw [vmiter_pa_of_present src va ha hP]
    by_cases hc : ((src.entry (va / PAGESIZE)).perm.W = true ∧
        (src.entry (va / PAGESIZE)).perm.U = true ∧
        (src.entry (va / PAGESIZE)).pa ≠ cfg.CONSOLE_ADDR)
    · obtain ⟨hW, hU, hpa⟩ := hc
      have hpa' : ((src.entry (va / PAGESIZE)).pa != cfg.CONSOLE_ADDR) = true := by
        simpa using hpa
      simp only [hP, hW, hU, hpa', Bool.and_self, Bool.true_or, if_true]
      unfold vmiter_map
      rw [try_map_level0 cfg m src va _ _ (level0_of_present src va hP)]
      simp only [beq_self_eq_true, if_true]
      unfold sys_fork_entry
      simp [hP, hW, hU, hpa']
    · have hentry : sys_fork_entry cfg (src.entry (va / PAGESIZE)) = src.entry (va / PAGESIZE) := by
        unfold sys_fork_entry
        rw [if_neg]
        simp only [Bool.and_eq_true, bne_iff_ne, ne_eq]
        tauto
      rw [hentry, set_entry_self]
      by_cases hW : (src.entry (va / PAGESIZE)).perm.W = true
      · have : ¬ ((src.entry (va / PAGESIZE)).perm.U = true ∧
            (src.entry (va / PAGESIZE)).pa ≠ cfg.CONSOLE_ADDR) := fun h => hc ⟨hW, h⟩
        rw [if_neg]
        simp only [Bool.and_eq_true, bne_iff_ne, ne_eq]
        tauto
      · simp [hW]
  · have hentry : sys_fork_entry cfg (src.entry (va / PAGESIZE)) = src.entry (va / PAGESIZE) := by
      unfold sys_fork_entry
      simp [hP]
    rw [hentry, set_entry_self]
    simp [hP]

theorem sys_fork_ref_physpages (cfg : Config) (m : Memory) (src : x86_64_pagetable) (va : Nat)
    (ha : va % PAGESIZE = 0) (X : Nat) :
    (sys_fork_ref cfg m src va).physpages X =
      m.physpages X + if fork_counts cfg (src.entry (va / PAGESIZE)) X = true then 1 else 0 := by
  unfold sys_fork_ref fork_counts
  simp only [vmiter_user_eq, vmiter_present_eq]
  by_cases hP : (src.entry (va / PAGESIZE)).perm.P = true
  · rw [vmiter_pa_of_present src va ha hP]
    by_cases hU : (src.entry (va / PAGESIZE)).perm.U = true
    · by_cases hpa : (src.entry (va / PAGESIZE)).pa = cfg.CONSOLE_ADDR
      · simp [hP, hU, hpa]
      · have hpa' : ((src.entry (va / PAGESIZE)).pa != cfg.CONSOLE_ADDR) = true := by
          simpa using hpa
        simp only [hP, hU, hpa', Bool.and_self, if_true, Bool.true_and, beq_iff_eq,
          Function.update_apply]
        by_cases hX : X = (src.entry (va / PAGESIZE)).pa / PAGESIZE
        · subst hX; simp
        · have : ¬ (src.entry (va / PAGESIZE)).pa / PAGESIZE = X := fun h => hX h.symm
          simp [hX, this]
    · simp [hP, hU]
  · simp [hP]

theorem sys_fork_ref_bytes (cfg : Config) (m : Memory) (src : x86_64_pagetable) (va : Nat) :
    (sys_fork_ref cfg m src va).bytes = m.bytes := by
  unfold sys_fork_ref
  split <;> rfl

/-- Closed form of the copy loop of `sys_fork` over page-aligned addresses. -/
theorem sys_fork_loop_spec (cfg : Config) (h0 : cfg.allocatable_physical_address 0 = false)
    (l : List Nat) (hal : ∀ va ∈ l, va % PAGESIZE = 0)
    (m : Memory) (src dst : x86_64_pagetable) :
    ∃ ok m1 src1 dst1 new,
      sys_fork_loop cfg l m src dst = .ok (ok, m1, src1, dst1) ∧
      src1.addr = src.addr ∧ src1.dirs = src.dirs ∧
      dst1.addr = dst.addr ∧ dst1.dirs = dst.dirs ++ new ∧
      (∀ d ∈ new, d.addr ≠ 0 ∧ d.addr % PAGESIZE = 0 ∧ m.physpages (d.addr / PAGESIZE) = 0) ∧
      (∀ X, m.physpages X ≤ m1.physpages X) ∧
      (ok = true →
        (∀ v, src1.entry v =
          if v ∈ l.map (fun va => va / PAGESIZE) then sys_fork_entry cfg (src.entry v)
          else src.entry v) ∧
        (∀ v, dst1.entry v =
          if v ∈ l.map (fun va => va / PAGESIZE) ∧ (src.entry v).perm.P = true then
            ⟨(src.entry v).pa, (sys_fork_entry cfg (src.entry v)).perm⟩
          else dst.entry v) ∧
        (∀ X, m1.physpages X =
          m.physpages X + l.countP (fun va => fork_counts cfg (src.entry (va / PAGESIZE)) X)
            + (dir_pages new).count X)) := by
  induction l generalizing m src dst with
  | nil =>
    exact ⟨true, m, src, dst, [], rfl, rfl, rfl, rfl, by simp, by simp, fun _ => le_refl _,
      fun _ => ⟨by simp, by simp, by simp [dir_pages]⟩⟩
  | cons va rest ih =>
    have ha : va % PAGESIZE = 0 := hal va (List.mem_cons_self _ _)
    have hal' : ∀ a ∈ rest, a % PAGESIZE = 0 := fun a h => hal a (List.mem_cons_of_mem _ h)
    unfold sys_fork_loop
    rw [sys_fork_src_eq cfg m src va ha]
    simp only
    generalize hs1 : src.set_entry (va / PAGESIZE) (sys_fork_entry cfg (src.entry (va / PAGESIZE)))
      = s1
    have hs1e : ∀ v, s1.entry v =
        if v = va / PAGESIZE then sys_fork_entry cfg (src.entry v) else src.entry v := by
      intro v; subst hs1
      simp only [set_entry_entry, Function.update_apply]
      split
      · next h => rw [h]
      · rfl
    have hs1a : s1.addr = src.addr := by subst hs1; rfl
    have hs1d : s1.dirs = src.dirs := by subst hs1; rfl
    have hcnt : ∀ X a, fork_counts cfg (s1.entry a) X = fork_counts cfg (src.entry a) X := by
      intro X a
      rw [hs1e]
      split
      · exact fork_counts_entry cfg _ X
      · rfl
    have hm2 : ∀ X, (sys_fork_ref cfg m s1 va).physpages X =
        m.physpages X + if fork_counts cfg (src.entry (va / PAGESIZE)) X = true then 1 else 0 := by
      intro X
      rw [sys_fork_ref_physpages cfg m s1 va ha X, hcnt]
    have hP1 : vmiter_present s1 va = (src.entry (va / PAGESIZE)).perm.P := by
      rw [vmiter_present_eq, hs1e, if_pos rfl, sys_fork_entry_P]
    -- rewriting the conclusions of the induction hypothesis from `s1` to `src`
    have hsrc : ∀ (sF : x86_64_pagetable),
        (∀ v, sF.entry v =
          if v ∈ rest.map (fun va => va / PAGESIZE) then sys_fork_entry cfg (s1.entry v)
          else s1.entry v) →
        ∀ v, sF.entry v =
          if v ∈ (va :: rest).map (fun va => va / PAGESIZE) then sys_fork_entry cfg (src.entry v)
          else src.entry v := by
      intro sF h v
      rw [h v, hs1e v]
      by_cases hv : v = va / PAGESIZE
      · subst hv
        simp [sys_fork_entry_idem]
      · simp [hv]
    by_cases hP : (src.entry (va / PAGESIZE)).perm.P = true
    · rw [hP1, if_pos hP]
      have hP1' : (s1.entry (va / PAGESIZE)).perm.P = true := by
        rw [← vmiter_present_eq, hP1]; exact hP
      rw [vmiter_pa_of_present s1 va ha hP1', vmiter_perm_of_present s1 va hP1']
      have hpa1 : (s1.entry (va / PAGESIZE)).pa = (src.entry (va / PAGESIZE)).pa := by
        rw [hs1e, if_pos rfl, sys_fork_entry_pa]
      have hpm1 : (s1.entry (va / PAGESIZE)).perm =
          (sys_fork_entry cfg (src.entry (va / PAGESIZE))).perm := by
        rw [hs1e, if_pos rfl]
      rw [hpa1, hpm1]
      generalize hr : try_map cfg (sys_fork_ref cfg m s1 va) dst va (src.entry (va / PAGESIZE)).pa
        (sys_fork_entry cfg (src.entry (va / PAGESIZE))).perm = r
      obtain ⟨new1, t1, t2, t3, t4, t5, t6, t7, t8⟩ := try_map_spec cfg h0 _ _ _ _ _ r hr
      have hfresh1 : ∀ d ∈ new1, d.addr ≠ 0 ∧ d.addr % PAGESIZE = 0 ∧
          m.physpages (d.addr / PAGESIZE) = 0 := by
        intro d hd
        obtain ⟨a, b, c⟩ := t4 d hd
        refine ⟨a, b, ?_⟩
        rw [hm2] at c
        omega
      by_cases hr0 : r.1 = 0
      · have hne : (r.1 != 0) = false := by simp [hr0]
        simp only [hne, Bool.false_eq_true, if_false]
        obtain ⟨ok, mF, sF, dF, new2, e0, e1, e2, e3, e4, e5, e6, e7⟩ := ih hal' r.2.1 s1 r.2.2
        have hnz : (sys_fork_entry cfg (src.entry (va / PAGESIZE))).perm.nonzero = true := by
          unfold Perm.nonzero
          rw [sys_fork_entry_P, hP]; rfl
        have hde := t6 hr0 hnz
        refine ⟨ok, mF, sF, dF, new1 ++ new2, e0, by rw [e1, hs1a], by rw [e2, hs1d],
          by rw [e3, t2], by rw [e4, t1, List.append_assoc], ?_, ?_, ?_⟩
        · intro d hd
          rcases List.mem_append.mp hd with hd | hd
          · exact hfresh1 d hd
          · obtain ⟨a, b, c⟩ := e5 d hd
            refine ⟨a, b, ?_⟩
            rw [t3, hm2] at c
            omega
        · intro X
          have := e6 X
          rw [t3, hm2] at this
          omega
        · intro hok
          obtain ⟨f1, f2, f3⟩ := e7 hok
          refine ⟨hsrc sF f1, ?_, ?_⟩
          · intro v
            rw [f2 v, hde]
            by_cases hv : v = va / PAGESIZE
            · subst hv
              simp only [hs1e, if_pos rfl, sys_fork_entry_P, sys_fork_entry_pa, hP,
                List.map_cons, List.mem_cons, true_or, and_true, if_true,
                sys_fork_entry_idem, Function.update_same]
              split <;> rfl
            · simp only [hs1e, if_neg hv, List.map_cons, List.mem_cons, hv, false_or,
                Function.update_apply, if_false]
          · intro X
            rw [f3 X, t3, hm2, dir_pages_append, List.count_append, List.countP_cons]
            simp only [hcnt]
            omega
      · have hne : (r.1 != 0) = true := by simp [hr0]
        simp only [hne, if_true]
        refine ⟨false, r.2.1, s1, r.2.2, new1, rfl, hs1a, hs1d, t2, t1, hfresh1, ?_,
          fun h => by simp at h⟩
        intro X
        rw [t3, hm2]
        omega
    · rw [hP1, if_neg hP]
      obtain ⟨ok, mF, sF, dF, new2, e0, e1, e2, e3, e4, e5, e6, e7⟩ :=
        ih hal' (sys_fork_ref cfg m s1 va) s1 dst
      have hcz : ∀ X, fork_counts cfg (src.entry (va / PAGESIZE)) X = false := by
        intro X
        unfold fork_counts
        simp [hP]
      refine ⟨ok, mF, sF, dF, new2, e0, by rw [e1, hs1a], by rw [e2, hs1d], e3, e4, ?_, ?_, ?_⟩
      · intro d hd
        obtain ⟨a, b, c⟩ := e5 d hd
        refine ⟨a, b, ?_⟩
        rw [hm2] at c
        omega
      · intro X
        have := e6 X
        rw [hm2] at this
        omega
      · intro hok
        obtain ⟨f1, f2, f3⟩ := e7 hok
        refine ⟨hsrc sF f1, ?_, ?_⟩
        · intro v
          rw [f2 v]
          by_cases hv : v = va / PAGESIZE
          · subst hv
            simp [hs1e, sys_fork_entry_P, hP]
          · simp [hs1e, hv]
        · intro X
          rw [f3 X, hm2, List.countP_cons]
          simp only [hcnt, hcz]
          simp

/-! ## `sys_fork` as a whole -/

theorem sys_fork_find_cases (cfg : Config) (k : Kernel) :
    sys_fork_find cfg k = 0 ∨
    (1 ≤ sys_fork_find cfg k ∧ sys_fork_find cfg k < cfg.PID_MAX ∧
      (k.ptable (sys_fork_find cfg k)).state = P_FREE) := by
  unfold sys_fork_find
  cases h : (List.range' 1 (cfg.PID_MAX - 1)).find? (fun i => (k.ptable i).state == P_FREE) with
  | none => left; rfl
  | some i =>
    right
    have hmem := List.mem_of_find?_eq_some h
    have hp := List.find?_some h
    simp only [List.mem_range'_1] at hmem
    simp only [Option.getD_some]
    refine ⟨hmem.1, by omega, by simpa using hp⟩

@[simp] theorem set_proc_memory (k : Kernel) (i : Nat) (p : proc) :
    (k.set_proc i p).memory = k.memory := rfl

@[simp] theorem set_proc_current (k : Kernel) (i : Nat) (p : proc) :
    (k.set_proc i p).current = k.current := rfl

@[simp] theorem set_proc_ticks (k : Kernel) (i : Nat) (p : proc) :
    (k.set_proc i p).ticks = k.ticks := rfl

@[simp] theorem set_proc_kernel_pagetable (k : Kernel) (i : Nat) (p : proc) :
    (k.set_proc i p).kernel_pagetable = k.kernel_pagetable := rfl

theorem set_proc_ptable (k : Kernel) (i : Nat) (p : proc) (j : Nat) :
    (k.set_proc i p).ptable j = if j = i then p else k.ptable j := by
  unfold Kernel.set_proc
  simp [Function.update_apply]

theorem kalloc_pagetable_cases (cfg : Config) (h0 : cfg.allocatable_physical_address 0 = false)
    (m : Memory) :
    kalloc_pagetable cfg m = (none, m) ∨
    ∃ pn m1, pn ≠ 0 ∧ free_page cfg m pn = true ∧
      kalloc_pagetable cfg m = (some ⟨pn * PAGESIZE, [], fun _ => pageentry.zero⟩, m1) ∧
      ∀ X, m1.physpages X = m.physpages X + if X = pn then 1 else 0 := by
  unfold kalloc_pagetable
  rcases kalloc_cases_nz cfg h0 m PAGESIZE with h | ⟨pn, hpn, hpa, hf, h⟩
  · left; rw [h]; rfl
  · right
    rw [h]
    have hne : (pn * PAGESIZE == 0) = false := by simpa using hpa
    refine ⟨pn, ⟨(m.take pn).physpages, memset (m.take pn).bytes (pn * PAGESIZE) 0 PAGESIZE⟩,
      hpn, hf, by simp only [hne, Bool.false_eq_true, if_false], ?_⟩
    intro X
    exact take_physpages m pn X (free_page_count cfg m pn hf)

/-- When the copy loop reports a failed `try_map`, `sys_fork` calls
`sys_exit(new_id)` on a slot that is still free, gets -1, and stops at the
assertion. -/
theorem sys_exit_free (cfg : Config) (k : Kernel) (pid : Nat)
    (h : (k.ptable pid).state = P_FREE) : sys_exit cfg k pid = .ok (-1, k) := by
  unfold sys_exit
  simp [h]

theorem mem_vas (cfg : Config) (va : Nat) :
    va ∈ cfg.vas ↔ va % PAGESIZE = 0 ∧ va < cfg.MEMSIZE_VIRTUAL := by
  unfold Config.vas Config.NVPAGES
  simp only [List.mem_map, List.mem_range]
  have hps : PAGESIZE = 4096 := rfl
  constructor
  · rintro ⟨i, hi, rfl⟩
    refine ⟨page_mul_mod i, ?_⟩
    have := (Nat.le_div_iff_mul_le PAGESIZE_pos).mp (Nat.succ_le_of_lt hi)
    rw [hps] at this ⊢
    omega
  · rintro ⟨h1, h2⟩
    refine ⟨va / PAGESIZE, ?_, Nat.div_mul_cancel (Nat.dvd_of_mod_eq_zero h1)⟩
    apply Nat.lt_of_succ_le
    apply (Nat.le_div_iff_mul_le PAGESIZE_pos).mpr
    have := Nat.div_mul_cancel (Nat.dvd_of_mod_eq_zero h1)
    rw [hps] at this ⊢
    omega

theorem vas_aligned (cfg : Config) (va : Nat) (h : va ∈ cfg.vas) : va % PAGESIZE = 0 :=
  ((mem_vas cfg va).mp h).1

/-- What a `sys_fork` that returns something other than -1 has done. -/
theorem sys_fork_ok (cfg : Config) (h0 : cfg.allocatable_physical_address 0 = false)
    (k k1 : Kernel) (c : Int) (h : sys_fork cfg k = .ok (c, k1)) (hc : c ≠ -1)
    (hpar : (k.ptable (k.ptable k.current).pid).state ≠ P_FREE) :
    ∃ (new_id rootpn : Nat) (src src1 dst1 : x86_64_pagetable),
      new_id = sys_fork_find cfg k ∧ c = new_id ∧ 1 ≤ new_id ∧ new_id < cfg.PID_MAX ∧
      (k.ptable new_id).state = P_FREE ∧ new_id ≠ (k.ptable k.current).pid ∧
      rootpn ≠ 0 ∧ free_page cfg k.memory rootpn = true ∧
      (k.ptable (k.ptable k.current).pid).pagetable = some src ∧
      (∃ m0, kalloc_pagetable cfg k.memory
          = (some ⟨rootpn * PAGESIZE, [], fun _ => pageentry.zero⟩, m0) ∧
        sys_fork_loop cfg cfg.vas m0 src ⟨rootpn * PAGESIZE, [], fun _ => pageentry.zero⟩
          = .ok (true, k1.memory, src1, dst1) ∧
        ∀ X, m0.physpages X = k.memory.physpages X + if X = rootpn then 1 else 0) ∧
      k1.current = k.current ∧ k1.ticks = k.ticks ∧ k1.kernel_pagetable = k.kernel_pagetable ∧
      k1.ptable new_id =
        { pid := (k.ptable new_id).pid, state := P_RUNNABLE,
          regs := { (k.ptable k.current).regs with reg_rax := 0 },
          pagetable := some dst1 } ∧
      k1.ptable (k.ptable k.current).pid =
        { k.ptable (k.ptable k.current).pid with pagetable := some src1 } ∧
      (∀ i, i ≠ new_id → i ≠ (k.ptable k.current).pid → k1.ptable i = k.ptable i) := by
  unfold sys_fork at h
  rcases sys_fork_find_cases cfg k with hf | ⟨hf1, hf2, hf3⟩
  · simp [hf] at h
    exact absurd h.1.symm hc
  · have hlt : ¬ sys_fork_find cfg k < 1 := by omega
    simp only [hlt, if_false] at h
    have hne : sys_fork_find cfg k ≠ (k.ptable k.current).pid := by
      intro he; rw [← he] at hpar; exact hpar hf3
    rcases kalloc_pagetable_cases cfg h0 k.memory with ha | ⟨pn, m0, hpn, hfree, ha, hm0⟩
    · rw [ha] at h
      simp at h
      exact absurd h.1.symm hc
    · rw [ha] at h
      simp only [set_proc_ptable, set_proc_current, if_neg hne.symm] at h
      have hcur : (if k.current = sys_fork_find cfg k then
          ({ k.ptable (sys_fork_find cfg k) with
              pagetable := some ⟨pn * PAGESIZE, [], fun _ => pageentry.zero⟩ } : proc)
          else k.ptable k.current).pid = (k.ptable k.current).pid := by
        split
        · next he => rw [he]
        · rfl
      simp only [hcur, if_neg hne.symm] at h
      cases hsrc : (k.ptable (k.ptable k.current).pid).pagetable with
      | none => simp [hsrc] at h
      | some src =>
        simp only [hsrc] at h
        obtain ⟨ok, mF, sF, dF, new, e0, -⟩ :=
          sys_fork_loop_spec cfg h0 cfg.vas
            (by
              intro va hva
              unfold Config.vas at hva
              obtain ⟨i, -, rfl⟩ := List.mem_map.mp hva
              exact page_mul_mod i)
            m0 src ⟨pn * PAGESIZE, [], fun _ => pageentry.zero⟩
        simp only [set_proc_memory] at h
        rw [e0] at h
        simp only at h
        cases ok with
        | false =>
          simp only [Bool.false_eq_true, if_false] at h
          rw [sys_exit_free] at h
          · simp at h
          · simp [set_proc_ptable, hf3]
        | true =>
          simp only [if_true] at h
          injection h with h
          have hc' : c = ↑(sys_fork_find cfg k) := (Prod.mk.inj h).1.symm
          have hk1 := (Prod.mk.inj h).2
          subst hk1
          refine ⟨sys_fork_find cfg k, pn, src, sF, dF, rfl, hc', hf1, hf2, hf3, hne, hpn, hfree,
            rfl, ⟨m0, ha, by simpa using e0, hm0⟩, rfl, rfl, rfl, ?_, ?_, ?_⟩
          · by_cases h1 : k.current = sys_fork_find cfg k
            · simp [set_proc_ptable, hf3, ← h1]
            · by_cases h2 : (k.ptable k.current).pid = k.current
              · simp [set_proc_ptable, hf3, h1, h2]
              · have h2' : ¬ k.current = (k.ptable k.current).pid := fun h => h2 h.symm
                simp [set_proc_ptable, hf3, h1, h2']
          · simp [set_proc_ptable, hne.symm]
          · intro i hi1 hi2
            simp [set_proc_ptable, hi1, hi2]

/-- The effect of a `sys_fork` that returns something other than -1, in closed
form: the child's slot and table, the parent's table, and the reference
counts. -/
theorem sys_fork_facts (cfg : Config) (h0 : cfg.allocatable_physical_address 0 = false)
    (k k1 : Kernel) (c : Int) (h : sys_fork cfg k = .ok (c, k1)) (hc : c ≠ -1)
    (hpar : (k.ptable (k.ptable k.current).pid).state ≠ P_FREE) :
    ∃ (new_id rootpn : Nat) (src src1 dst1 : x86_64_pagetable),
      (c = new_id ∧ 1 ≤ new_id ∧ new_id < cfg.PID_MAX ∧
        (k.ptable new_id).state = P_FREE ∧ new_id ≠ (k.ptable k.current).pid) ∧
      (rootpn ≠ 0 ∧ free_page cfg k.memory rootpn = true ∧
        (k.ptable (k.ptable k.current).pid).pagetable = some src) ∧
      (k1.current = k.current ∧ k1.ticks = k.ticks ∧
        k1.kernel_pagetable = k.kernel_pagetable ∧
        k1.ptable new_id =
          { pid := (k.ptable new_id).pid, state := P_RUNNABLE,
            regs := { (k.ptable k.current).regs with reg_rax := 0 },
            pagetable := some dst1 } ∧
        k1.ptable (k.ptable k.current).pid =
          { k.ptable (k.ptable k.current).pid with pagetable := some src1 } ∧
        (∀ i, i ≠ new_id → i ≠ (k.ptable k.current).pid → k1.ptable i = k.ptable i)) ∧
      (src1.addr = src.addr ∧ src1.dirs = src.dirs ∧ dst1.addr = rootpn * PAGESIZE ∧
        (∀ d ∈ dst1.dirs, d.addr ≠ 0 ∧ d.addr % PAGESIZE = 0 ∧
          k.memory.physpages (d.addr / PAGESIZE) = 0)) ∧
      (∀ v, src1.entry v =
        if v ∈ cfg.vas.map (fun va => va / PAGESIZE) then sys_fork_entry cfg (src.entry v)
        else src.entry v) ∧
      (∀ v, dst1.entry v =
        if v ∈ cfg.vas.map (fun va => va / PAGESIZE) ∧ (src.entry v).perm.P = true then
          ⟨(src.entry v).pa, (sys_fork_entry cfg (src.entry v)).perm⟩
        else pageentry.zero) ∧
      (∀ X, k1.memory.physpages X =
        k.memory.physpages X
          + cfg.vas.countP (fun va => fork_counts cfg (src.entry (va / PAGESIZE)) X)
          + (if X = rootpn then 1 else 0) + (dir_pages dst1.dirs).count X) := by
  obtain ⟨new_id, rootpn, src, src1, dst1, -, hcn, hn1, hn2, hn3, hn4, hroot, hrfree, hsrc,
    ⟨m0, -, hloop, hm0⟩, hk1, hk2, hk3, hchild, hparent, hothers⟩ :=
    sys_fork_ok cfg h0 k k1 c h hc hpar
  obtain ⟨ok, mF, sF, dF, new, e0, e1, e2, e3, e4, e5, -, e7⟩ :=
    sys_fork_loop_spec cfg h0 cfg.vas (vas_aligned cfg) m0 src
      ⟨rootpn * PAGESIZE, [], fun _ => pageentry.zero⟩
  rw [hloop] at e0
  simp only [Except.ok.injEq, Prod.mk.injEq] at e0
  obtain ⟨hok, hm, hs, hd⟩ := e0
  subst hok hm hs hd
  obtain ⟨f1, f2, f3⟩ := e7 rfl
  have hdirs : dst1.dirs = new := by rw [e4]; rfl
  refine ⟨new_id, rootpn, src, src1, dst1, ⟨hcn, hn1, hn2, hn3, hn4⟩, ⟨hroot, hrfree, hsrc⟩,
    ⟨hk1, hk2, hk3, hchild, hparent, hothers⟩, ⟨e1, e2, e3, ?_⟩, f1, f2, ?_⟩
  · intro d hd
    rw [hdirs] at hd
    obtain ⟨a, b, c'⟩ := e5 d hd
    refine ⟨a, b, ?_⟩
    rw [hm0] at c'
    omega
  · intro X
    rw [f3 X, hm0 X, hdirs]
    omega

/-! ## Teardown -/

/-- A `kfree` of a non-null page-aligned address whose page has a positive
count succeeds and lowers that count by one. -/
theorem kfree_ok (m : Memory) (p : Nat) (hp : p ≠ 0) (ha : p % PAGESIZE = 0)
    (hc : 0 < m.physpages (p / PAGESIZE)) :
    ∃ m1, kfree m p = .ok m1 ∧ m1.bytes = m.bytes ∧
      ∀ X, m1.physpages X + (if X = p / PAGESIZE then 1 else 0) = m.physpages X := by
  unfold kfree
  have h1 : (p == 0) = false := by simpa using hp
  have h3 : (p % PAGESIZE == 0) = true := by simpa using ha
  simp only [h1, hc, h3, not_true_eq_false, if_false, Bool.false_eq_true]
  refine ⟨_, rfl, rfl, ?_⟩
  intro X
  simp only [Function.update_apply]
  split
  · next h => subst h; omega
  · rfl

/-- What a `kfree` that completes has done. -/
theorem kfree_inv (m m1 : Memory) (p : Nat) (h : kfree m p = .ok m1) :
    m1.bytes = m.bytes ∧
    ((p = 0 ∧ m1 = m) ∨
      (p ≠ 0 ∧ p % PAGESIZE = 0 ∧ 0 < m.physpages (p / PAGESIZE) ∧
        ∀ X, m1.physpages X + (if X = p / PAGESIZE then 1 else 0) = m.physpages X)) := by
  unfold kfree at h
  by_cases h1 : (p == 0) = true
  · simp only [h1, if_true, Except.ok.injEq] at h
    subst h
    exact ⟨rfl, Or.inl ⟨by simpa using h1, rfl⟩⟩
  · by_cases h2 : m.physpages (p / PAGESIZE) > 0
    · by_cases h3 : (p % PAGESIZE == 0) = true
      · obtain ⟨m2, e1, e2, e3⟩ := kfree_ok m p (by simpa using h1) (by simpa using h3) h2
        simp only [h1, h2, h3, not_true_eq_false, if_false, Bool.false_eq_true,
          Except.ok.injEq] at h
        subst h
        refine ⟨rfl, Or.inr ⟨by simpa using h1, by simpa using h3, h2, ?_⟩⟩
        intro X
        simp only [Function.update_apply]
        split
        · next h => subst h; omega
        · rfl
      · simp [h1, h2, h3] at h
    · simp [h1, h2] at h

/-- The first loop of `sys_exit` completes when every page it frees is
page-aligned and every count is at least the number of decrements the loop
makes on it; it then makes exactly those decrements. -/
theorem sys_exit_pages_ok (cfg : Config) (pt : x86_64_pagetable) (l : List Nat) (m : Memory)
    (hal : ∀ va ∈ l, vmiter_user pt va = true → va ≠ cfg.CONSOLE_ADDR →
      vmiter_kptr pt va % PAGESIZE = 0)
    (hc : ∀ X, l.countP (fun va => exit_counts cfg pt va X) ≤ m.physpages X) :
    ∃ m1, sys_exit_pages cfg pt l m = .ok m1 ∧ m1.bytes = m.bytes ∧
      ∀ X, m1.physpages X + l.countP (fun va => exit_counts cfg pt va X) = m.physpages X := by
  induction l generalizing m with
  | nil => exact ⟨m, rfl, rfl, by simp⟩
  | cons va rest ih =>
    have hal' : ∀ a ∈ rest, vmiter_user pt a = true → a ≠ cfg.CONSOLE_ADDR →
        vmiter_kptr pt a % PAGESIZE = 0 := fun a h => hal a (List.mem_cons_of_mem _ h)
    unfold sys_exit_pages
    by_cases hmark : (vmiter_user pt va && va != cfg.CONSOLE_ADDR) = true
    · rw [if_pos hmark]
      simp only [Bool.and_eq_true, bne_iff_ne, ne_eq] at hmark
      by_cases hz : vmiter_kptr pt va = 0
      · have hk : kfree m (vmiter_kptr pt va) = .ok m := by
          unfold kfree; simp [hz]
        rw [hk]
        have hcz : ∀ X, exit_counts cfg pt va X = false := by
          intro X; unfold exit_counts; simp [hz]
        obtain ⟨m1, e1, e2, e3⟩ := ih m hal' (by
          intro X
          have := hc X
          rw [List.countP_cons, hcz] at this
          simpa using this)
        refine ⟨m1, e1, e2, ?_⟩
        intro X
        rw [List.countP_cons, hcz]
        simpa using e3 X
      · have hcx : ∀ X, exit_counts cfg pt va X = decide (X = vmiter_kptr pt va / PAGESIZE) := by
          intro X
          unfold exit_counts
          have : (vmiter_kptr pt va != 0) = true := by simpa using hz
          have hva : (va != cfg.CONSOLE_ADDR) = true := by simpa using hmark.2
          rw [hmark.1, this, hva]
          by_cases hX : X = vmiter_kptr pt va / PAGESIZE
          · subst hX; simp
          · have : ¬ vmiter_kptr pt va / PAGESIZE = X := fun h => hX h.symm
            simp [hX, this]
        have hpos : 0 < m.physpages (vmiter_kptr pt va / PAGESIZE) := by
          have := hc (vmiter_kptr pt va / PAGESIZE)
          rw [List.countP_cons, hcx] at this
          simp at this
          omega
        obtain ⟨m0, k1, k2, k3⟩ := kfree_ok m (vmiter_kptr pt va) hz
          (hal va (List.mem_cons_self _ _) hmark.1 hmark.2) hpos
        rw [k1]
        obtain ⟨m1, e1, e2, e3⟩ := ih m0 hal' (by
          intro X
          have h1 := hc X
          have h2 := k3 X
          rw [List.countP_cons, hcx] at h1
          by_cases hX : X = vmiter_kptr pt va / PAGESIZE
          · simp only [hX, decide_True, if_true] at h1 h2 ⊢
            omega
          · simp only [hX, decide_False, if_false, Bool.false_eq_true] at h1 h2 ⊢
            omega)
        refine ⟨m1, e1, by rw [e2, k2], ?_⟩
        intro X
        have h2 := k3 X
        have h3 := e3 X
        rw [List.countP_cons, hcx]
        by_cases hX : X = vmiter_kptr pt va / PAGESIZE
        · simp only [hX, decide_True, if_true] at h2 h3 ⊢
          omega
        · simp only [hX, decide_False, if_false, Bool.false_eq_true] at h2 h3 ⊢
          omega
    · rw [if_neg hmark]
      have hcz : ∀ X, exit_counts cfg pt va X = false := by
        intro X
        unfold exit_counts
        have : (vmiter_user pt va && va != cfg.CONSOLE_ADDR) = false := by simpa using hmark
        rw [this]; rfl
      obtain ⟨m1, e1, e2, e3⟩ := ih m hal' (by
        intro X
        have := hc X
        rw [List.countP_cons, hcz] at this
        simpa using this)
      refine ⟨m1, e1, e2, ?_⟩
      intro X
      rw [List.countP_cons, hcz]
      simpa using e3 X

/-- The second loop of `sys_exit` completes when the structure pages are
non-null and page-aligned and the counts suffice; it lowers each count by the
number of structure pages at that page. -/
theorem sys_exit_dirs_ok (l : List ptpage) (m : Memory)
    (hal : ∀ d ∈ l, d.addr ≠ 0 ∧ d.addr % PAGESIZE = 0)
    (hc : ∀ X, (dir_pages l).count X ≤ m.physpages X) :
    ∃ m1, sys_exit_dirs l m = .ok m1 ∧ m1.bytes = m.bytes ∧
      ∀ X, m1.physpages X + (dir_pages l).count X = m.physpages X := by
  induction l generalizing m with
  | nil => exact ⟨m, rfl, rfl, by simp [dir_pages]⟩
  | cons d rest ih =>
    have hal' : ∀ a ∈ rest, a.addr ≠ 0 ∧ a.addr % PAGESIZE = 0 :=
      fun a h => hal a (List.mem_cons_of_mem _ h)
    obtain ⟨hd0, hda⟩ := hal d (List.mem_cons_self _ _)
    unfold sys_exit_dirs
    have hcount : ∀ X, (dir_pages (d :: rest)).count X =
        (dir_pages rest).count X + if X = d.addr / PAGESIZE then 1 else 0 := by
      intro X
      simp only [dir_pages, List.map_cons, List.count_cons, beq_iff_eq]
      by_cases hX : X = d.addr / PAGESIZE
      · subst hX; simp
      · have : ¬ d.addr / PAGESIZE = X := fun h => hX h.symm
        simp [hX, this]
    have hpos : 0 < m.physpages (d.addr / PAGESIZE) := by
      have := hc (d.addr / PAGESIZE)
      rw [hcount] at this
      simp at this
      omega
    obtain ⟨m0, k1, k2, k3⟩ := kfree_ok m d.addr hd0 hda hpos
    rw [k1]
    obtain ⟨m1, e1, e2, e3⟩ := ih m0 hal' (by
      intro X
      have h1 := hc X
      have h2 := k3 X
      rw [hcount] at h1
      omega)
    refine ⟨m1, e1, by rw [e2, k2], ?_⟩
    intro X
    have h2 := k3 X
    have h3 := e3 X
    rw [hcount]
    omega

/-- Teardown of a live slot completes, returns 0, frees the slot and lowers
every count by exactly `exit_owned`, provided the pages it frees are
page-aligned, its structure pages and top-level page are non-null and
page-aligned, and every count is at least `exit_owned`. -/
theorem sys_exit_ok (cfg : Config) (k : Kernel) (pid : Nat) (pt : x86_64_pagetable)
    (hpid : pid < cfg.PID_MAX) (hst : (k.ptable pid).state ≠ P_FREE)
    (hpt : (k.ptable pid).pagetable = some pt)
    (hal : ∀ va ∈ cfg.vas, vmiter_user pt va = true → va ≠ cfg.CONSOLE_ADDR →
      vmiter_kptr pt va % PAGESIZE = 0)
    (hdirs : ∀ d ∈ pt.dirs, d.addr ≠ 0 ∧ d.addr % PAGESIZE = 0)
    (hroot : pt.addr ≠ 0 ∧ pt.addr % PAGESIZE = 0)
    (hc : ∀ X, exit_owned cfg pt X ≤ k.memory.physpages X) :
    ∃ k1, sys_exit cfg k pid = .ok (0, k1) ∧
      (∀ X, k1.memory.physpages X + exit_owned cfg pt X = k.memory.physpages X) ∧
      k1.memory.bytes = k.memory.bytes ∧
      k1.ptable pid = { k.ptable pid with state := P_FREE, pagetable := none } ∧
      (∀ i, i ≠ pid → k1.ptable i = k.ptable i) ∧
      k1.current = k.current ∧ k1.ticks = k.ticks ∧
      k1.kernel_pagetable = k.kernel_pagetable := by
  unfold sys_exit
  have hcond : (decide ((pid : Int) ≥ 0) && decide ((pid : Int) < cfg.PID_MAX)
      && (k.ptable (pid : Int).toNat).state != P_FREE) = true := by
    simp only [Int.toNat_ofNat, Bool.and_eq_true, decide_eq_true_eq, bne_iff_ne, ne_eq]
    exact ⟨⟨by omega, by omega⟩, hst⟩
  rw [if_pos hcond]
  simp only [Int.toNat_ofNat, hpt]
  unfold exit_owned at hc
  obtain ⟨m1, e1, e2, e3⟩ := sys_exit_pages_ok cfg pt cfg.vas k.memory hal (by
    intro X; have := hc X; omega)
  rw [e1]
  simp only
  obtain ⟨m2, f1, f2, f3⟩ := sys_exit_dirs_ok pt.dirs m1 hdirs (by
    intro X; have := hc X; have := e3 X; omega)
  rw [f1]
  simp only
  obtain ⟨m3, g1, g2, g3⟩ := kfree_ok m2 pt.addr hroot.1 hroot.2 (by
    have := hc (pt.addr / PAGESIZE)
    have := e3 (pt.addr / PAGESIZE)
    have := f3 (pt.addr / PAGESIZE)
    simp only [if_true] at *
    omega)
  rw [g1]
  refine ⟨_, rfl, ?_, ?_, ?_, ?_, rfl, rfl, rfl⟩
  · intro X
    have := e3 X
    have := f3 X
    have := g3 X
    simp only [set_proc_memory]
    unfold exit_owned
    omega
  · simp only [set_proc_memory]
    rw [g2, f2, e2]
  · simp [set_proc_ptable]
  · intro i hi
    simp [set_proc_ptable, hi]

/-! ## The allocator's reference counts -/

/-- C2. From any state of the physical page array (hence after any sequence
of `kalloc` and `kfree` calls): a non-null address returned by `kalloc` is
page-aligned, its page was classified allocatable and had reference count 0
just before the call; and a `kfree` that completes leaves every count either
unchanged or lowered by exactly one from a value that was positive, so no
count that was 0 is ever decremented. -/
theorem kalloc_kfree_refcount_safe (cfg : Config) (m : Memory) (sz kptr : Nat) :
    ((kalloc cfg m sz).1 = 0 ∨
      ((kalloc cfg m sz).1 % PAGESIZE = 0 ∧
        cfg.allocatable_physical_address (kalloc cfg m sz).1 = true ∧
        m.physpages ((kalloc cfg m sz).1 / PAGESIZE) = 0)) ∧
    (match kfree m kptr with
     | .ok m1 => ∀ pn, m1.physpages pn = m.physpages pn ∨
         (0 < m.physpages pn ∧ m1.physpages pn + 1 = m.physpages pn)
     | .error _ => True) := by
  constructor
  · rcases kalloc_cases cfg m sz with h | ⟨pn, hf, h⟩
    · left; rw [h]
    · right
      rw [h]
      exact ⟨page_mul_mod pn, free_page_alloc cfg m pn hf, by
        simpa [page_mul_div] using free_page_count cfg m pn hf⟩
  · unfold kfree
    by_cases h1 : (kptr == 0) = true
    · simp [h1]
    · by_cases h2 : m.physpages (kptr / PAGESIZE) > 0
      · by_cases h3 : (kptr % PAGESIZE == 0) = true
        · simp only [h1, h2, h3, not_true_eq_false, if_false, Bool.false_eq_true]
          intro pn
          by_cases hp : pn = kptr / PAGESIZE
          · right; subst hp; simp; omega
          · left; simp [Function.update_apply, hp]
        · simp [h1, h2, h3]
      · simp [h1, h2]

/-! ## `sys_fork` followed by teardown of the child -/

theorem sys_exit_current (cfg : Config) (k : Kernel) (cur : Nat) (pid : Int) :
    sys_exit cfg { k with current := cur } pid =
      (sys_exit cfg k pid).map (fun r => (r.1, { r.2 with current := cur })) := by
  unfold sys_exit
  simp only
  split
  · cases (k.ptable pid.toNat).pagetable with
    | none => rfl
    | some pt =>
      simp only
      cases sys_exit_pages cfg pt cfg.vas k.memory with
      | error e => rfl
      | ok m1 =>
        simp only
        cases sys_exit_dirs pt.dirs m1 with
        | error e => rfl
        | ok m2 =>
          simp only
          cases kfree m2 pt.addr with
          | error e => rfl
          | ok m3 => rfl
  · rfl

/-- C6, with the assumption it needs. Let `sys_fork` by a live parent return
child `c`, where every
user-accessible mapping of the parent points at a non-null page, points at the
console page exactly when it is the mapping of `CONSOLE_ADDR`, and is
page-aligned otherwise. Then teardown of `c` right after the fork (`exit` by
`c` or `kill(c)`, whatever process is current) completes with result 0, and
every physical page's reference count is back at its value before the fork;
in particular the pages taken for the child's page table are back at 0. -/
theorem sys_fork_exit_restores_counts (cfg : Config)
    (h0 : cfg.allocatable_physical_address 0 = false)
    (k k1 : Kernel) (c : Int) (h : sys_fork cfg k = .ok (c, k1)) (hc : c ≠ -1)
    (hpar : (k.ptable (k.ptable k.current).pid).state ≠ P_FREE)
    (src : x86_64_pagetable)
    (hsrc : (k.ptable (k.ptable k.current).pid).pagetable = some src)
    (hwf : ∀ va ∈ cfg.vas, vmiter_user src va = true →
      vmiter_pa src va ≠ 0 ∧
      (va = cfg.CONSOLE_ADDR ↔ vmiter_pa src va = cfg.CONSOLE_ADDR) ∧
      (va ≠ cfg.CONSOLE_ADDR → vmiter_pa src va % PAGESIZE = 0))
    (cur : Nat) :
    ∃ (k2 : Kernel) (dst : x86_64_pagetable),
      sys_exit cfg { k1 with current := cur } c = .ok (0, k2) ∧
      (∀ X, k2.memory.physpages X = k.memory.physpages X) ∧
      (k1.ptable c.toNat).pagetable = some dst ∧
      k2.memory.physpages (dst.addr / PAGESIZE) = 0 ∧
      (∀ d ∈ dst.dirs, k2.memory.physpages (d.addr / PAGESIZE) = 0) ∧
      (k2.ptable c.toNat).state = P_FREE ∧ (k2.ptable c.toNat).pagetable = none := by
  obtain ⟨new_id, rootpn, src', src1, dst1, ⟨hcn, hn1, hn2, hn3, hn4⟩, ⟨hroot, hrfree, hsrc'⟩,
    ⟨-, -, -, hchild, hparent, -⟩, ⟨-, -, e3, e5⟩, f1, f2, f3⟩ :=
    sys_fork_facts cfg h0 k k1 c h hc hpar
  rw [hsrc] at hsrc'
  obtain rfl := Option.some.inj hsrc'
  have hct : c.toNat = new_id := by rw [hcn]; simp
  -- the child's table seen through the iterator
  have hdent : ∀ va ∈ cfg.vas, dst1.entry (va / PAGESIZE) =
      if (src.entry (va / PAGESIZE)).perm.P = true then
        ⟨(src.entry (va / PAGESIZE)).pa, (sys_fork_entry cfg (src.entry (va / PAGESIZE))).perm⟩
      else pageentry.zero := by
    intro va hva
    have hmem : va / PAGESIZE ∈ cfg.vas.map (fun va => va / PAGESIZE) :=
      List.mem_map.mpr ⟨va, hva, rfl⟩
    rw [f2]
    simp only [hmem, true_and]
  have huser : ∀ va ∈ cfg.vas, vmiter_user dst1 va = vmiter_user src va := by
    intro va hva
    rw [vmiter_user_eq, vmiter_user_eq, hdent va hva]
    by_cases hP : (src.entry (va / PAGESIZE)).perm.P = true
    · simp [hP, sys_fork_entry_P, sys_fork_entry_U]
    · simp [hP, pageentry.zero, Perm.zero]
  have hkptr : ∀ va ∈ cfg.vas, vmiter_user src va = true →
      vmiter_kptr dst1 va = vmiter_pa src va := by
    intro va hva hu
    rw [vmiter_user_eq] at hu
    simp only [Bool.and_eq_true] at hu
    have hdP : (dst1.entry (va / PAGESIZE)).perm.P = true := by
      rw [hdent va hva, if_pos hu.1]
      simp [sys_fork_entry_P, hu.1]
    rw [vmiter_kptr_of_present dst1 va (vas_aligned cfg va hva) hdP,
      vmiter_pa_of_present src va (vas_aligned cfg va hva) hu.1, hdent va hva, if_pos hu.1]
  have hcounts : ∀ X, cfg.vas.countP (fun va => exit_counts cfg dst1 va X) =
      cfg.vas.countP (fun va => fork_counts cfg (src.entry (va / PAGESIZE)) X) := by
    intro X
    apply List.countP_congr
    intro va hva
    unfold exit_counts fork_counts
    rw [huser va hva]
    by_cases hu : vmiter_user src va = true
    · obtain ⟨w1, w2, w3⟩ := hwf va hva hu
      rw [hkptr va hva hu]
      have hu' := hu
      rw [vmiter_user_eq] at hu'
      simp only [Bool.and_eq_true] at hu'
      rw [vmiter_pa_of_present src va (vas_aligned cfg va hva) hu'.1] at w1 w2 ⊢
      simp only [hu, hu'.1, hu'.2, Bool.true_and, Bool.and_eq_true, bne_iff_ne, ne_eq,
        beq_iff_eq]
      constructor
      · rintro ⟨⟨a, -⟩, b⟩
        exact ⟨fun hh => a (w2.mpr hh), b⟩
      · rintro ⟨a, b⟩
        exact ⟨⟨fun hh => a (w2.mp hh), w1⟩, b⟩
    · have hu' : vmiter_user src va = false := by simpa using hu
      have : ((src.entry (va / PAGESIZE)).perm.P && (src.entry (va / PAGESIZE)).perm.U)
          = false := by rw [← vmiter_user_eq]; exact hu'
      simp only [hu', Bool.false_and, Bool.false_eq_true, false_iff]
      intro hh
      simp only [Bool.and_eq_true] at hh
      rw [hh.1.1.1, hh.1.1.2] at this
      exact absurd this (by decide)
  have howned : ∀ X, exit_owned cfg dst1 X =
      cfg.vas.countP (fun va => fork_counts cfg (src.entry (va / PAGESIZE)) X)
        + (dir_pages dst1.dirs).count X + (if X = rootpn then 1 else 0) := by
    intro X
    unfold exit_owned
    rw [hcounts X, e3, page_mul_div]
  have hPS := PAGESIZE_pos
  obtain ⟨k2, g1, g2, -, g4, -⟩ := sys_exit_ok cfg k1 new_id dst1 hn2
    (by rw [hchild]; simp) (by rw [hchild])
    (by
      intro va hva hu hne
      rw [huser va hva] at hu
      rw [hkptr va hva hu]
      exact (hwf va hva hu).2.2 hne)
    (fun d hd => ⟨(e5 d hd).1, (e5 d hd).2.1⟩)
    ⟨by rw [e3]; exact Nat.mul_ne_zero hroot (by omega), by rw [e3]; exact page_mul_mod rootpn⟩
    (by intro X; rw [howned X, f3 X]; omega)
  have hrestore : ∀ X, k2.memory.physpages X = k.memory.physpages X := by
    intro X
    have := g2 X
    rw [howned X, f3 X] at this
    omega
  refine ⟨{ k2 with current := cur }, dst1, ?_, hrestore, by rw [hct, hchild], ?_, ?_, ?_, ?_⟩
  · rw [sys_exit_current, hcn, g1]
    rfl
  · show k2.memory.physpages (dst1.addr / PAGESIZE) = 0
    rw [hrestore, e3, page_mul_div]
    exact free_page_count cfg k.memory rootpn hrfree
  · intro d hd
    show k2.memory.physpages (d.addr / PAGESIZE) = 0
    rw [hrestore]
    exact (e5 d hd).2.2
  · show (k2.ptable c.toNat).state = P_FREE
    rw [hct, g4]
  · show (k2.ptable c.toNat).pagetable = none
    rw [hct, g4]

/-- An `Except` value whose first component is known is `ok` of that component
and of its second component. -/
theorem except_ok_of_fst {ε α β : Type} (r : Except ε (α × β)) (a : α) (b0 : β)
    (h : r.toOption.map Prod.fst = some a) :
    r = .ok (a, (r.toOption.map Prod.snd).getD b0) := by
  cases r with
  | error e => simp [Except.toOption] at h
  | ok p =>
    obtain ⟨x, y⟩ := p
    simp only [Except.toOption, Option.map_some', Option.some.injEq] at h
    subst h
    rfl

set_option maxRecDepth 1000000 in
/-- Witness for C6: process 1 of `k_small` forks child 2, and child 2 exits. -/
theorem sys_fork_exit_restores_counts_witness :
    sys_fork weensyos k_small = .ok (2, k_small_fork) ∧
    (k_small.ptable (k_small.ptable k_small.current).pid).state ≠ P_FREE ∧
    (k_small.ptable (k_small.ptable k_small.current).pid).pagetable = some pt_small ∧
    (∀ va ∈ weensyos.vas, vmiter_user pt_small va = true →
      vmiter_pa pt_small va ≠ 0 ∧
      (va = weensyos.CONSOLE_ADDR ↔ vmiter_pa pt_small va = weensyos.CONSOLE_ADDR) ∧
      (va ≠ weensyos.CONSOLE_ADDR → vmiter_pa pt_small va % PAGESIZE = 0)) ∧
    ∃ (k2 : Kernel) (dst : x86_64_pagetable),
      sys_exit weensyos { k_small_fork with current := 2 } 2 = .ok (0, k2) ∧
      (∀ X, k2.memory.physpages X = k_small.memory.physpages X) ∧
      (k_small_fork.ptable (2 : Int).toNat).pagetable = some dst ∧
      k2.memory.physpages (dst.addr / PAGESIZE) = 0 ∧
      (∀ d ∈ dst.dirs, k2.memory.physpages (d.addr / PAGESIZE) = 0) ∧
      (k2.ptable (2 : Int).toNat).state = P_FREE ∧
      (k2.ptable (2 : Int).toNat).pagetable = none :=
  have h : sys_fork weensyos k_small = .ok (2, k_small_fork) :=
    except_ok_of_fst (sys_fork weensyos k_small) 2 k_small (by decide!)
  have hwf : ∀ va ∈ weensyos.vas, vmiter_user pt_small va = true →
      vmiter_pa pt_small va ≠ 0 ∧
      (va = weensyos.CONSOLE_ADDR ↔ vmiter_pa pt_small va = weensyos.CONSOLE_ADDR) ∧
      (va ≠ weensyos.CONSOLE_ADDR → vmiter_pa pt_small va % PAGESIZE = 0) := by decide!
  ⟨h, by decide, rfl, hwf,
    sys_fork_exit_restores_counts weensyos (by decide) k_small k_small_fork 2 h (by decide)
      (by decide) pt_small rfl hwf 2⟩

/-! ## `sys_fork`: what the child and the parent map afterwards -/

/-- C3 (as amended). After a `sys_fork` that returns a child `c` to a live
parent, for every page-aligned `va` below `MEMSIZE_VIRTUAL`: (i) the child's
table has `va` present exactly when the parent's had, with the same physical
address; (ii) where the parent's entry was user-accessible, not the console
page, and writable or copy-on-write-pending, both entries now carry exactly
`PTE_P | PTE_U | PTE_C`; (iii) otherwise the child's entry has the parent's
permissions and the parent's entry is unchanged; (iv) every page's reference
count rose by one for each present user-accessible non-console mapping of the
parent that targets it, plus one if the page was taken for the child's page
table (top-level page or structure page), and every page taken for the
child's table had count 0 before the call. -/
theorem sys_fork_shares_pages (cfg : Config) (h0 : cfg.allocatable_physical_address 0 = false)
    (k k1 : Kernel) (c : Int) (h : sys_fork cfg k = .ok (c, k1)) (hc : c ≠ -1)
    (hpar : (k.ptable (k.ptable k.current).pid).state ≠ P_FREE) :
    ∃ src src1 dst : x86_64_pagetable,
      (k.ptable (k.ptable k.current).pid).pagetable = some src ∧
      (k1.ptable (k.ptable k.current).pid).pagetable = some src1 ∧
      (k1.ptable c.toNat).pagetable = some dst ∧
      (∀ va, va % PAGESIZE = 0 → va < cfg.MEMSIZE_VIRTUAL →
        vmiter_present dst va = vmiter_present src va ∧
        vmiter_pa dst va = vmiter_pa src va ∧
        (if vmiter_user src va = true ∧ vmiter_pa src va ≠ cfg.CONSOLE_ADDR ∧
            (vmiter_writable src va = true ∨ (vmiter_perm src va &&& PTE_C).nonzero = true) then
          vmiter_perm src1 va = PTE_P ||| PTE_U ||| PTE_C ∧
          vmiter_perm dst va = PTE_P ||| PTE_U ||| PTE_C
        else
          vmiter_perm dst va = vmiter_perm src va ∧
          src1.entry (va / PAGESIZE) = src.entry (va / PAGESIZE))) ∧
      (∀ X, k1.memory.physpages X =
        k.memory.physpages X
          + cfg.vas.countP (fun va => fork_counts cfg (src.entry (va / PAGESIZE)) X)
          + (if X = dst.addr / PAGESIZE then 1 else 0) + (dir_pages dst.dirs).count X) ∧
      k.memory.physpages (dst.addr / PAGESIZE) = 0 ∧
      (∀ d ∈ dst.dirs, k.memory.physpages (d.addr / PAGESIZE) = 0) := by
  obtain ⟨new_id, rootpn, src, src1, dst1, ⟨hcn, -⟩, ⟨-, hrfree, hsrc⟩,
    ⟨-, -, -, hchild, hparent, -⟩, ⟨-, -, e3, e5⟩, f1, f2, f3⟩ :=
    sys_fork_facts cfg h0 k k1 c h hc hpar
  have hct : c.toNat = new_id := by rw [hcn]; simp
  refine ⟨src, src1, dst1, hsrc, by rw [hparent], by rw [hct, hchild], ?_, ?_, ?_, ?_⟩
  · intro va ha hlt
    have hmem : va / PAGESIZE ∈ cfg.vas.map (fun va => va / PAGESIZE) :=
      List.mem_map.mpr ⟨va, (mem_vas cfg va).mpr ⟨ha, hlt⟩, rfl⟩
    have hd := f2 (va / PAGESIZE)
    have hs := f1 (va / PAGESIZE)
    rw [if_pos hmem] at hs
    simp only [hmem, true_and] at hd
    by_cases hP : (src.entry (va / PAGESIZE)).perm.P = true
    · rw [if_pos hP] at hd
      have hdP : (dst1.entry (va / PAGESIZE)).perm.P = true := by
        rw [hd]; simp [sys_fork_entry_P, hP]
      have hsP : (src1.entry (va / PAGESIZE)).perm.P = true := by
        rw [hs, sys_fork_entry_P, hP]
      refine ⟨by rw [vmiter_present_eq, vmiter_present_eq, hdP, hP], ?_, ?_⟩
      · rw [vmiter_pa_of_present dst1 va ha hdP, vmiter_pa_of_present src va ha hP, hd]
      · rw [vmiter_user_eq, vmiter_writable_eq, vmiter_perm_C, vmiter_pa_of_present src va ha hP,
          vmiter_perm_of_present src1 va hsP, vmiter_perm_of_present dst1 va hdP,
          vmiter_perm_of_present src va hP, hs, hd]
        simp only [hP, Bool.true_and]
        unfold sys_fork_entry
        generalize src.entry (va / PAGESIZE) = e at hP ⊢
        obtain ⟨pa, ⟨p, w, u, cw⟩⟩ := e
        simp only at hP
        subst hP
        by_cases hpa : pa = cfg.CONSOLE_ADDR
        · simp [hpa]
        · cases w <;> cases u <;> cases cw <;>
            simp [hpa, PTE_P, PTE_U, PTE_C, HOr.hOr, OrOp.or, Perm.or]
    · have hP' : (src.entry (va / PAGESIZE)).perm.P = false := by simpa using hP
      rw [if_neg hP] at hd
      have hdz : dst1.entry (va / PAGESIZE) = pageentry.zero := hd
      have hdP : (dst1.entry (va / PAGESIZE)).perm.P = false := by rw [hdz]; rfl
      refine ⟨by rw [vmiter_present_eq, vmiter_present_eq, hdP, hP'], ?_, ?_⟩
      · unfold vmiter_pa
        simp [hdP, hP']
      · rw [vmiter_user_eq]
        simp only [hP', Bool.false_and, Bool.false_eq_true, false_and, if_false]
        refine ⟨?_, ?_⟩
        · unfold vmiter_perm
          simp [hdP, hP']
        · rw [hs]
          unfold sys_fork_entry
          simp [hP']
  · intro X
    have haddr : dst1.addr / PAGESIZE = rootpn := by rw [e3]; exact page_mul_div rootpn
    rw [f3 X, haddr]
  · rw [e3]
    simp only [page_mul_div]
    exact free_page_count cfg k.memory rootpn hrfree
  · intro d hd
    exact (e5 d hd).2.2

/-- An `Except` value known to be `ok` is `ok` of its content. -/
theorem except_ok_of_isSome {ε α : Type} (r : Except ε α) (d : α)
    (h : r.toOption.isSome = true) : r = .ok (r.toOption.getD d) := by
  cases r with
  | error e => simp [Except.toOption] at h
  | ok a => rfl

theorem option_some_of_isSome {α : Type} (o : Option α) (d : α) (h : o.isSome = true) :
    o = some (o.getD d) := by
  cases o with
  | none => simp at h
  | some a => rfl

set_option maxRecDepth 1000000 in
/-- Witness for C3: process 1 of `k_small` forks; the call returns 2. -/
theorem sys_fork_shares_pages_witness :
    sys_fork weensyos k_small = .ok (2, k_small_fork) ∧
    (k_small.ptable (k_small.ptable k_small.current).pid).state ≠ P_FREE ∧
    ∃ src src1 dst : x86_64_pagetable,
      (k_small.ptable (k_small.ptable k_small.current).pid).pagetable = some src ∧
      (k_small_fork.ptable (k_small.ptable k_small.current).pid).pagetable = some src1 ∧
      (k_small_fork.ptable (2 : Int).toNat).pagetable = some dst ∧
      (∀ va, va % PAGESIZE = 0 → va < weensyos.MEMSIZE_VIRTUAL →
        vmiter_present dst va = vmiter_present src va ∧
        vmiter_pa dst va = vmiter_pa src va ∧
        (if vmiter_user src va = true ∧ vmiter_pa src va ≠ weensyos.CONSOLE_ADDR ∧
            (vmiter_writable src va = true ∨ (vmiter_perm src va &&& PTE_C).nonzero = true) then
          vmiter_perm src1 va = PTE_P ||| PTE_U ||| PTE_C ∧
          vmiter_perm dst va = PTE_P ||| PTE_U ||| PTE_C
        else
          vmiter_perm dst va = vmiter_perm src va ∧
          src1.entry (va / PAGESIZE) = src.entry (va / PAGESIZE))) ∧
      (∀ X, k_small_fork.memory.physpages X =
        k_small.memory.physpages X
          + weensyos.vas.countP (fun va => fork_counts weensyos (src.entry (va / PAGESIZE)) X)
          + (if X = dst.addr / PAGESIZE then 1 else 0) + (dir_pages dst.dirs).count X) ∧
      k_small.memory.physpages (dst.addr / PAGESIZE) = 0 ∧
      (∀ d ∈ dst.dirs, k_small.memory.physpages (d.addr / PAGESIZE) = 0) :=
  have h : sys_fork weensyos k_small = .ok (2, k_small_fork) :=
    except_ok_of_fst (sys_fork weensyos k_small) 2 k_small (by decide!)
  ⟨h, by decide, sys_fork_shares_pages weensyos (by decide) k_small k_small_fork 2 h (by decide)
    (by decide)⟩

set_option maxRecDepth 1000000 in
/-- Counterexample to C3 (iv) as stated. In `k_small` pages 1 to 7 are in
use and process 1 maps address 0x8000 present and kernel-only onto physical
page 8. Its `sys_fork` returns child 2, and the reference count of page 8
goes from 0 to 1 because `kalloc` hands that page out for the child's page
table. -/
theorem sys_fork_kernel_page_count_changes :
    sys_fork weensyos k_small = .ok (2, k_small_fork) ∧
    (k_small.ptable (k_small.ptable k_small.current).pid).pagetable = some pt_small ∧
    vmiter_present pt_small 0x8000 = true ∧ vmiter_user pt_small 0x8000 = false ∧
    vmiter_pa pt_small 0x8000 / PAGESIZE = 8 ∧
    k_small.memory.physpages 8 = 0 ∧ k_small_fork.memory.physpages 8 = 1 :=
  ⟨except_ok_of_fst (sys_fork weensyos k_small) 2 k_small (by decide!), rfl, by decide!⟩

/-! ## `sys_fork` when a mapping cannot be installed in the child's table -/

/-- C7 (the defect). When `sys_fork` has chosen a free slot and allocated the
child's page table, and installing a mapping in the child's table fails, the
call does not return -1: its cleanup `sys_exit(new_id)` finds the slot still in
state `P_FREE`, returns -1, and `sys_fork` stops at the failed assertion
`assert(sys_exit(new_id) == 0)`. -/
theorem sys_fork_map_failure_halts (cfg : Config) (k : Kernel)
    (hfind : 1 ≤ sys_fork_find cfg k)
    (hpar : (k.ptable (k.ptable k.current).pid).state ≠ P_FREE)
    (src dst0 src1 dst1 : x86_64_pagetable) (m0 m1 : Memory)
    (hsrc : (k.ptable (k.ptable k.current).pid).pagetable = some src)
    (halloc : kalloc_pagetable cfg k.memory = (some dst0, m0))
    (hloop : sys_fork_loop cfg cfg.vas m0 src dst0 = .ok (false, m1, src1, dst1)) :
    sys_fork cfg k = .error Halt.assertion := by
  unfold sys_fork
  rcases sys_fork_find_cases cfg k with hf | ⟨hf1, hf2, hf3⟩
  · omega
  · have hlt : ¬ sys_fork_find cfg k < 1 := by omega
    have hne : sys_fork_find cfg k ≠ (k.ptable k.current).pid := by
      intro he; rw [← he] at hpar; exact hpar hf3
    simp only [hlt, if_false, halloc, set_proc_ptable, set_proc_current, set_proc_memory]
    have hcur : (if k.current = sys_fork_find cfg k then
        ({ k.ptable (sys_fork_find cfg k) with pagetable := some dst0 } : proc)
        else k.ptable k.current).pid = (k.ptable k.current).pid := by
      split
      · next he => rw [he]
      · rfl
    simp only [hcur, if_neg hne.symm, hsrc, hloop, Bool.false_eq_true, if_false]
    rw [sys_exit_free]
    · simp
    · simp [set_proc_ptable, hf3]

/-- An `Except` value known to have halted in `e` is `error e`. -/
theorem except_error_of_halted {α : Type} (r : Except Halt α) (e : Halt)
    (h : halted r = some e) : r = .error e := by
  cases r with
  | error e' => simp only [halted, Option.some.injEq] at h; rw [h]
  | ok a => simp [halted] at h

set_option maxRecDepth 1000000 in
/-- C7 at a concrete state: in `k_tight` a single page is free. `sys_fork` by
process 1 takes it for the child's top-level page, the first `try_map` into
the child's table finds no page for a structure page, and the kernel halts at
the assertion. -/
theorem sys_fork_map_failure_halts_witness :
    1 ≤ sys_fork_find weensyos k_tight ∧
    (k_tight.ptable (k_tight.ptable k_tight.current).pid).state ≠ P_FREE ∧
    (k_tight.ptable (k_tight.ptable k_tight.current).pid).pagetable = some pt_small ∧
    sys_fork weensyos k_tight = .error Halt.assertion := by
  have hfind : 1 ≤ sys_fork_find weensyos k_tight := by decide
  have hpar : (k_tight.ptable (k_tight.ptable k_tight.current).pid).state ≠ P_FREE := by decide
  have hk : (kalloc_pagetable weensyos k_tight.memory).1.isSome = true := by decide!
  have hl : ((sys_fork_loop weensyos weensyos.vas (kalloc_pagetable weensyos k_tight.memory).2
      pt_small (((kalloc_pagetable weensyos k_tight.memory).1).getD pt_small)).toOption.map
        Prod.fst) = some false := by decide!
  have halloc := option_some_of_isSome _ pt_small hk
  have hloop := except_ok_of_fst _ false (k_tight.memory, pt_small, pt_small) hl
  exact ⟨hfind, hpar, rfl,
    sys_fork_map_failure_halts weensyos k_tight hfind hpar pt_small _ _ _ _ _ rfl
      (Prod.ext halloc rfl) hloop⟩

/-! ## `syscall_page_alloc` -/

theorem pageoff_eq_mod (addr : Nat) : addr &&& PAGEOFFMASK = addr % PAGESIZE := by
  have h : PAGEOFFMASK = 2 ^ 12 - 1 := by decide
  have h2 : PAGESIZE = 2 ^ 12 := by decide
  rw [h, h2]
  exact Nat.and_pow_two_sub_one_eq_mod addr 12

/-- The argument check of `syscall_page_alloc`. -/
theorem page_alloc_check (cfg : Config) (addr : Nat) :
    ((addr &&& PAGEOFFMASK) != 0 || decide (addr < cfg.PROC_START_ADDR)
      || decide (addr ≥ cfg.MEMSIZE_VIRTUAL)) = true ↔
    (addr % PAGESIZE ≠ 0 ∨ addr < cfg.PROC_START_ADDR ∨ cfg.MEMSIZE_VIRTUAL ≤ addr) := by
  rw [pageoff_eq_mod]
  simp only [Bool.or_eq_true, bne_iff_ne, ne_eq, decide_eq_true_eq, ge_iff_le]
  tauto

/-- C10. For every address that is not a multiple of `PAGESIZE`, or is below
`PROC_START_ADDR`, or is at or above `MEMSIZE_VIRTUAL`, and for every address
at all when no page of the array is free, `syscall_page_alloc` returns -1 and
the whole kernel state (reference counts, page tables, memory contents) is
exactly what it was. -/
theorem syscall_page_alloc_failure (cfg : Config) (k : Kernel) (addr : Nat)
    (h : (addr % PAGESIZE ≠ 0 ∨ addr < cfg.PROC_START_ADDR ∨ cfg.MEMSIZE_VIRTUAL ≤ addr) ∨
      (∀ pn, pn < cfg.NPAGES → free_page cfg k.memory pn = false)) :
    syscall_page_alloc cfg k addr = .ok (-1, k) := by
  unfold syscall_page_alloc
  by_cases hc : ((addr &&& PAGEOFFMASK) != 0 || decide (addr < cfg.PROC_START_ADDR)
      || decide (addr ≥ cfg.MEMSIZE_VIRTUAL)) = true
  · rw [if_pos hc]
  · rw [if_neg hc]
    rcases h with h | h
    · exact absurd ((page_alloc_check cfg addr).mpr h) hc
    · rw [kalloc_none cfg k.memory PAGESIZE h]
      simp

set_option maxRecDepth 1000000 in
/-- Witness for C10: a misaligned address in `k_small`, and an aligned one in a
memory with no free page. -/
theorem syscall_page_alloc_failure_witness :
    ((0x100001 % PAGESIZE ≠ 0 ∨ 0x100001 < weensyos.PROC_START_ADDR ∨
        weensyos.MEMSIZE_VIRTUAL ≤ 0x100001) ∨
      (∀ pn, pn < weensyos.NPAGES → free_page weensyos k_small.memory pn = false)) ∧
    syscall_page_alloc weensyos k_small 0x100001 = .ok (-1, k_small) ∧
    ((0x102000 % PAGESIZE ≠ 0 ∨ 0x102000 < weensyos.PROC_START_ADDR ∨
        weensyos.MEMSIZE_VIRTUAL ≤ 0x102000) ∨
      (∀ pn, pn < weensyos.NPAGES →
        free_page weensyos { k_small with memory := ⟨fun _ => 1, fun _ => 0⟩ }.memory pn
          = false)) ∧
    syscall_page_alloc weensyos { k_small with memory := ⟨fun _ => 1, fun _ => 0⟩ } 0x102000
      = .ok (-1, { k_small with memory := ⟨fun _ => 1, fun _ => 0⟩ }) :=
  have h1 : (0x100001 % PAGESIZE ≠ 0 ∨ 0x100001 < weensyos.PROC_START_ADDR ∨
        weensyos.MEMSIZE_VIRTUAL ≤ 0x100001) ∨
      (∀ pn, pn < weensyos.NPAGES → free_page weensyos k_small.memory pn = false) :=
    Or.inl (Or.inl (by decide))
  have h2 : (0x102000 % PAGESIZE ≠ 0 ∨ 0x102000 < weensyos.PROC_START_ADDR ∨
        weensyos.MEMSIZE_VIRTUAL ≤ 0x102000) ∨
      (∀ pn, pn < weensyos.NPAGES →
        free_page weensyos { k_small with memory := ⟨fun _ => 1, fun _ => 0⟩ }.memory pn
          = false) :=
    Or.inr (fun pn _ => by simp [free_page])
  ⟨h1, syscall_page_alloc_failure weensyos k_small 0x100001 h1, h2,
    syscall_page_alloc_failure weensyos _ 0x102000 h2⟩

/-- What a `syscall_page_alloc` that gets past its argument check and finds a
free page does, as long as the mapping can be installed. -/
theorem syscall_page_alloc_facts (cfg : Config)
    (h0 : cfg.allocatable_physical_address 0 = false) (k : Kernel) (addr : Nat)
    (hal : addr % PAGESIZE = 0) (hlo : cfg.PROC_START_ADDR ≤ addr)
    (hhi : addr < cfg.MEMSIZE_VIRTUAL)
    (pt : x86_64_pagetable) (hpt : (k.ptable k.current).pagetable = some pt)
    (hfree : ∃ pn, pn < cfg.NPAGES ∧ free_page cfg k.memory pn = true)
    (hmap : (try_map cfg (kalloc cfg k.memory PAGESIZE).2 pt addr
      (kalloc cfg k.memory PAGESIZE).1 (PTE_P ||| PTE_U ||| PTE_W)).1 = 0) :
    ∃ (k1 : Kernel) (pn : Nat) (pt1 : x86_64_pagetable) (new : List ptpage),
      syscall_page_alloc cfg k addr = .ok (0, k1) ∧
      (pn ≠ 0 ∧ pn < cfg.NPAGES ∧ free_page cfg k.memory pn = true ∧
        (∀ j, j < pn → free_page cfg k.memory j = false)) ∧
      (k1.ptable k.current = { k.ptable k.current with pagetable := some pt1 } ∧
        (∀ i, i ≠ k.current → k1.ptable i = k.ptable i) ∧
        k1.current = k.current ∧ k1.ticks = k.ticks ∧
        k1.kernel_pagetable = k.kernel_pagetable) ∧
      (pt1.addr = pt.addr ∧ pt1.dirs = pt.dirs ++ new ∧
        pt1.entry = Function.update pt.entry (addr / PAGESIZE)
          ⟨pn * PAGESIZE, PTE_P ||| PTE_U ||| PTE_W⟩) ∧
      (∀ d ∈ new, d.addr ≠ 0 ∧ d.addr % PAGESIZE = 0 ∧
        k.memory.physpages (d.addr / PAGESIZE) = 0 ∧ d.addr / PAGESIZE ≠ pn) ∧
      (∀ X, k1.memory.physpages X =
        k.memory.physpages X + (if X = pn then 1 else 0) + (dir_pages new).count X) ∧
      (∀ a, pn * PAGESIZE ≤ a → a < pn * PAGESIZE + PAGESIZE → k1.memory.bytes a = 0) := by
  obtain ⟨pn0, hpn0, hf0⟩ := hfree
  obtain ⟨pn, hle, hf, hmin, hk⟩ := kalloc_some cfg k.memory PAGESIZE (le_refl _) pn0 hpn0 hf0
  have hpn : pn ≠ 0 := by
    rintro rfl
    unfold free_page at hf
    simp [h0] at hf
  have hPS := PAGESIZE_pos
  have hpa : pn * PAGESIZE ≠ 0 := Nat.mul_ne_zero hpn (by omega)
  rw [hk] at hmap
  simp only at hmap
  unfold syscall_page_alloc
  have hc : ¬ ((addr &&& PAGEOFFMASK) != 0 || decide (addr < cfg.PROC_START_ADDR)
      || decide (addr ≥ cfg.MEMSIZE_VIRTUAL)) = true := by
    rw [page_alloc_check]
    omega
  rw [if_neg hc, hk]
  have hne : (pn * PAGESIZE == 0) = false := by simpa using hpa
  simp only [hne, Bool.false_eq_true, if_false, hpt]
  generalize hr : try_map cfg (k.memory.take pn) pt addr (pn * PAGESIZE)
    (PTE_P ||| PTE_U ||| PTE_W) = r at hmap ⊢
  obtain ⟨new, t1, t2, t3, t4, -, t6, -, -⟩ := try_map_spec cfg h0 _ _ _ _ _ r hr
  have hnz : (PTE_P ||| PTE_U ||| PTE_W).nonzero = true := by decide
  have hb : (r.1 == 0) = true := by simpa using hmap
  simp only [hb, if_true]
  have htake : ∀ X, (k.memory.take pn).physpages X =
      k.memory.physpages X + if X = pn then 1 else 0 :=
    fun X => take_physpages k.memory pn X (free_page_count cfg k.memory pn hf)
  refine ⟨_, pn, r.2.2, new, rfl, ⟨hpn, by omega, hf, hmin⟩, ⟨?_, ?_, rfl, rfl, rfl⟩,
    ⟨t2, t1, t6 hmap hnz⟩, ?_, ?_, ?_⟩
  · simp [set_proc_ptable]
  · intro i hi
    simp [set_proc_ptable, hi]
  · intro d hd
    obtain ⟨a, b, c⟩ := t4 d hd
    rw [htake] at c
    refine ⟨a, b, by omega, ?_⟩
    intro he
    rw [he] at c
    simp at c
  · intro X
    simp only [set_proc_memory]
    rw [t3 X, htake X]
  · intro a h1 h2
    simp only [set_proc_memory, memset]
    rw [if_pos ⟨h1, h2⟩]

/-- C9. For every page-aligned `addr` in `[PROC_START_ADDR, MEMSIZE_VIRTUAL)`,
if some page of the array is free and the mapping can be installed (`try_map`
returns 0), `syscall_page_alloc` returns 0; afterwards the caller's table maps
`addr` to a page that was allocatable with reference count 0 before the call
and has count 1 after it, with permissions exactly present + writable + user,
all 4096 bytes of that page are zero, every other entry of the caller's table
is what it was, and every other process's descriptor and table are
unchanged. -/
theorem syscall_page_alloc_maps_fresh_page (cfg : Config)
    (h0 : cfg.allocatable_physical_address 0 = false) (k : Kernel) (addr : Nat)
    (hal : addr % PAGESIZE = 0) (hlo : cfg.PROC_START_ADDR ≤ addr)
    (hhi : addr < cfg.MEMSIZE_VIRTUAL)
    (pt : x86_64_pagetable) (hpt : (k.ptable k.current).pagetable = some pt)
    (hfree : ∃ pn, pn < cfg.NPAGES ∧ free_page cfg k.memory pn = true)
    (hmap : (try_map cfg (kalloc cfg k.memory PAGESIZE).2 pt addr
      (kalloc cfg k.memory PAGESIZE).1 (PTE_P ||| PTE_U ||| PTE_W)).1 = 0) :
    ∃ (k1 : Kernel) (pn : Nat) (pt1 : x86_64_pagetable),
      syscall_page_alloc cfg k addr = .ok (0, k1) ∧
      (k1.ptable k.current).pagetable = some pt1 ∧
      vmiter_pa pt1 addr = pn * PAGESIZE ∧
      vmiter_perm pt1 addr = PTE_P ||| PTE_W ||| PTE_U ∧
      cfg.allocatable_physical_address (pn * PAGESIZE) = true ∧
      k.memory.physpages pn = 0 ∧ k1.memory.physpages pn = 1 ∧
      (∀ a, pn * PAGESIZE ≤ a → a < pn * PAGESIZE + PAGESIZE → k1.memory.bytes a = 0) ∧
      (∀ v, v ≠ addr / PAGESIZE → pt1.entry v = pt.entry v) ∧
      (∀ i, i ≠ k.current → k1.ptable i = k.ptable i) := by
  obtain ⟨k1, pn, pt1, new, e1, ⟨-, -, hf, -⟩, ⟨e2, e3, -⟩, ⟨-, -, e4⟩, e5, e6, e7⟩ :=
    syscall_page_alloc_facts cfg h0 k addr hal hlo hhi pt hpt hfree hmap
  have hent : pt1.entry (addr / PAGESIZE) = ⟨pn * PAGESIZE, PTE_P ||| PTE_U ||| PTE_W⟩ := by
    rw [e4]; simp
  have hP : (pt1.entry (addr / PAGESIZE)).perm.P = true := by rw [hent]; rfl
  refine ⟨k1, pn, pt1, e1, by rw [e2], ?_, ?_, free_page_alloc cfg k.memory pn hf,
    free_page_count cfg k.memory pn hf, ?_, e7, ?_, e3⟩
  · rw [vmiter_pa_of_present pt1 addr hal hP, hent]
  · rw [vmiter_perm_of_present pt1 addr hP, hent]
    rfl
  · rw [e6 pn, free_page_count cfg k.memory pn hf]
    have : (dir_pages new).count pn = 0 := by
      apply List.count_eq_zero_of_not_mem
      intro hmem
      unfold dir_pages at hmem
      obtain ⟨d, hd, hdn⟩ := List.mem_map.mp hmem
      exact (e5 d hd).2.2.2 hdn
    simp [this]
  · intro v hv
    rw [e4]
    simp [Function.update_apply, hv]

set_option maxRecDepth 1000000 in
/-- Witness for C9: process 1 of `k_small` calls
`syscall_page_alloc(0x102000)`. -/
theorem syscall_page_alloc_maps_fresh_page_witness :
    (k_small.ptable k_small.current).pagetable = some pt_small ∧
    (∃ pn, pn < weensyos.NPAGES ∧ free_page weensyos k_small.memory pn = true) ∧
    (try_map weensyos (kalloc weensyos k_small.memory PAGESIZE).2 pt_small 0x102000
      (kalloc weensyos k_small.memory PAGESIZE).1 (PTE_P ||| PTE_U ||| PTE_W)).1 = 0 ∧
    ∃ (k1 : Kernel) (pn : Nat) (pt1 : x86_64_pagetable),
      syscall_page_alloc weensyos k_small 0x102000 = .ok (0, k1) ∧
      (k1.ptable k_small.current).pagetable = some pt1 ∧
      vmiter_pa pt1 0x102000 = pn * PAGESIZE ∧
      vmiter_perm pt1 0x102000 = PTE_P ||| PTE_W ||| PTE_U ∧
      weensyos.allocatable_physical_address (pn * PAGESIZE) = true ∧
      k_small.memory.physpages pn = 0 ∧ k1.memory.physpages pn = 1 ∧
      (∀ a, pn * PAGESIZE ≤ a → a < pn * PAGESIZE + PAGESIZE → k1.memory.bytes a = 0) ∧
      (∀ v, v ≠ 0x102000 / PAGESIZE → pt1.entry v = pt_small.entry v) ∧
      (∀ i, i ≠ k_small.current → k1.ptable i = k_small.ptable i) :=
  have hfree : ∃ pn, pn < weensyos.NPAGES ∧ free_page weensyos k_small.memory pn = true :=
    ⟨8, by decide, by decide⟩
  have hmap : (try_map weensyos (kalloc weensyos k_small.memory PAGESIZE).2 pt_small 0x102000
      (kalloc weensyos k_small.memory PAGESIZE).1 (PTE_P ||| PTE_U ||| PTE_W)).1 = 0 := by
    decide!
  ⟨rfl, hfree, hmap,
    syscall_page_alloc_maps_fresh_page weensyos (by decide) k_small 0x102000 (by decide)
      (by decide) (by decide) pt_small rfl hfree hmap⟩

/-- C8 (the defect). When `syscall_page_alloc(addr)` succeeds at an address that
the caller already maps to a page with a positive reference count, that
page's count is not lowered: the call maps the fresh page over it and never
calls `kfree` on the old one. -/
theorem syscall_page_alloc_keeps_old_count (cfg : Config)
    (h0 : cfg.allocatable_physical_address 0 = false) (k : Kernel) (addr : Nat)
    (hal : addr % PAGESIZE = 0) (hlo : cfg.PROC_START_ADDR ≤ addr)
    (hhi : addr < cfg.MEMSIZE_VIRTUAL)
    (pt : x86_64_pagetable) (hpt : (k.ptable k.current).pagetable = some pt)
    (hfree : ∃ pn, pn < cfg.NPAGES ∧ free_page cfg k.memory pn = true)
    (hmap : (try_map cfg (kalloc cfg k.memory PAGESIZE).2 pt addr
      (kalloc cfg k.memory PAGESIZE).1 (PTE_P ||| PTE_U ||| PTE_W)).1 = 0)
    (hold : 0 < k.memory.physpages (vmiter_pa pt addr / PAGESIZE)) :
    ∃ (k1 : Kernel) (pt1 : x86_64_pagetable),
      syscall_page_alloc cfg k addr = .ok (0, k1) ∧
      (k1.ptable k.current).pagetable = some pt1 ∧
      vmiter_pa pt1 addr / PAGESIZE ≠ vmiter_pa pt addr / PAGESIZE ∧
      k1.memory.physpages (vmiter_pa pt addr / PAGESIZE)
        = k.memory.physpages (vmiter_pa pt addr / PAGESIZE) := by
  obtain ⟨k1, pn, pt1, new, e1, ⟨-, -, hf, -⟩, ⟨e2, -, -⟩, ⟨-, -, e4⟩, e5, e6, -⟩ :=
    syscall_page_alloc_facts cfg h0 k addr hal hlo hhi pt hpt hfree hmap
  have hent : pt1.entry (addr / PAGESIZE) = ⟨pn * PAGESIZE, PTE_P ||| PTE_U ||| PTE_W⟩ := by
    rw [e4]; simp
  have hP : (pt1.entry (addr / PAGESIZE)).perm.P = true := by rw [hent]; rfl
  have hpn : vmiter_pa pt addr / PAGESIZE ≠ pn := by
    intro he
    rw [he, free_page_count cfg k.memory pn hf] at hold
    omega
  refine ⟨k1, pt1, e1, by rw [e2], ?_, ?_⟩
  · rw [vmiter_pa_of_present pt1 addr hal hP, hent]
    simp only [page_mul_div]
    exact fun h => hpn h.symm
  · rw [e6]
    have : (dir_pages new).count (vmiter_pa pt addr / PAGESIZE) = 0 := by
      apply List.count_eq_zero_of_not_mem
      intro hmem
      unfold dir_pages at hmem
      obtain ⟨d, hd, hdn⟩ := List.mem_map.mp hmem
      have := (e5 d hd).2.2.1
      rw [hdn] at this
      omega
    simp [this, hpn]

set_option maxRecDepth 1000000 in
/-- C8 at a concrete state: process 1 calls `syscall_page_alloc(0x102000)`
twice. The first call maps page 8 with count 1; the second returns 0 and maps
page 9, and page 8 still has count 1 although no table maps it. -/
theorem syscall_page_alloc_keeps_old_count_witness :
    syscall_page_alloc weensyos k_small 0x102000 = .ok (0, k_small_alloc) ∧
    syscall_page_alloc weensyos k_small_alloc 0x102000 = .ok (0, k_small_alloc2) ∧
    (∃ pt pt2, (k_small_alloc.ptable 1).pagetable = some pt ∧
      (k_small_alloc2.ptable 1).pagetable = some pt2 ∧
      vmiter_pa pt 0x102000 = 0x8000 ∧ vmiter_pa pt2 0x102000 = 0x9000) ∧
    k_small_alloc.memory.physpages 8 = 1 ∧ k_small_alloc2.memory.physpages 8 = 1 := by
  have h1 : syscall_page_alloc weensyos k_small 0x102000 = .ok (0, k_small_alloc) :=
    except_ok_of_fst (syscall_page_alloc weensyos k_small 0x102000) 0 k_small (by decide!)
  have h2 : syscall_page_alloc weensyos k_small_alloc 0x102000 = .ok (0, k_small_alloc2) :=
    except_ok_of_fst (syscall_page_alloc weensyos k_small_alloc 0x102000) 0 k_small
      (by decide!)
  have hp1 := option_some_of_isSome ((k_small_alloc.ptable 1).pagetable) pt_small (by decide!)
  have hp2 := option_some_of_isSome ((k_small_alloc2.ptable 1).pagetable) pt_small (by decide!)
  have hfree : ∃ pn, pn < weensyos.NPAGES ∧ free_page weensyos k_small_alloc.memory pn = true :=
    ⟨9, by decide, by decide!⟩
  have hbug := syscall_page_alloc_keeps_old_count weensyos (by decide) k_small_alloc 0x102000
    (by decide) (by decide) (by decide) _ hp1 hfree (by decide!) (by decide!)
  exact ⟨h1, h2, ⟨_, _, hp1, hp2, by decide!, by decide!⟩, by decide!, by decide!⟩

/-! ## Page faults on copy-on-write pages -/

theorem round_down_aligned (x : Nat) : round_down x PAGESIZE % PAGESIZE = 0 := by
  unfold round_down
  exact Nat.sub_mod_eq_zero_of_mod_eq (Nat.mod_mod _ _).symm

theorem present_of_cow (pt : x86_64_pagetable) (va : Nat)
    (h : (vmiter_perm pt va &&& PTE_C).nonzero = true) :
    (pt.entry (va / PAGESIZE)).perm.P = true := by
  rw [vmiter_perm_C] at h
  simp only [Bool.and_eq_true] at h
  exact h.1

theorem exception_return_run (k : Kernel) (h : (k.ptable k.current).state = P_RUNNABLE) :
    exception_return k = (k, Next.run k.current) := by
  unfold exception_return
  simp [h]

/-- The handler's path for a copy-on-write-pending entry whose page has
reference count 1. -/
theorem exception_cow_inplace (cfg : Config) (k : Kernel) (regs : regstate) (cr2 : Nat)
    (pt : x86_64_pagetable) (hint : regs.reg_intno = INT_PF)
    (hpt : (k.ptable k.current).pagetable = some pt)
    (hC : (vmiter_perm pt (round_down cr2 PAGESIZE) &&& PTE_C).nonzero = true)
    (hcount : k.memory.physpages (vmiter_pa pt (round_down cr2 PAGESIZE) / PAGESIZE) = 1) :
    exception cfg k regs cr2 = .ok (exception_return
      (k.set_proc k.current
        { k.ptable k.current with
          regs := regs,
          pagetable := some (pt.set_entry (round_down cr2 PAGESIZE / PAGESIZE)
            ⟨(pt.entry (round_down cr2 PAGESIZE / PAGESIZE)).pa, PTE_PWU⟩) })) := by
  have hP := present_of_cow pt _ hC
  have hpa := vmiter_pa_of_present pt _ (round_down_aligned cr2) hP
  unfold exception
  have h1 : (regs.reg_intno == INT_IRQ + IRQ_TIMER) = false := by rw [hint]; decide
  have h2 : (regs.reg_intno == INT_PF) = true := by rw [hint]; decide
  simp only [h1, h2, Bool.false_eq_true, if_false, if_true, set_proc_ptable, set_proc_current,
    set_proc_memory, hpt, hC, hcount, beq_self_eq_true]
  unfold vmiter_map
  rw [try_map_level0 cfg k.memory pt _ _ _ (level0_of_present pt _ hP), hpa]
  simp only [beq_self_eq_true, if_true]
  congr 2
  unfold Kernel.set_proc
  simp

/-- C5. For every page fault on an entry that is copy-on-write-pending and whose
page has reference count exactly 1, taken by a runnable process, `exception`
allocates nothing and copies nothing: memory and all reference counts are
unchanged, the faulting entry keeps its physical address and gets permissions
exactly `PTE_P | PTE_W | PTE_U`, every other entry of the table, its
structure pages and every other process's descriptor are unchanged, and the
faulting process is the one resumed. -/
theorem exception_cow_sole_owner (cfg : Config) (k : Kernel) (regs : regstate) (cr2 : Nat)
    (pt : x86_64_pagetable) (hint : regs.reg_intno = INT_PF)
    (hpt : (k.ptable k.current).pagetable = some pt)
    (hC : (vmiter_perm pt (round_down cr2 PAGESIZE) &&& PTE_C).nonzero = true)
    (hcount : k.memory.physpages (vmiter_pa pt (round_down cr2 PAGESIZE) / PAGESIZE) = 1)
    (hrun : (k.ptable k.current).state = P_RUNNABLE) :
    ∃ (k1 : Kernel) (pt1 : x86_64_pagetable),
      exception cfg k regs cr2 = .ok (k1, Next.run k.current) ∧
      k1.memory = k.memory ∧
      (k1.ptable k.current).pagetable = some pt1 ∧
      (k1.ptable k.current).state = P_RUNNABLE ∧
      vmiter_pa pt1 (round_down cr2 PAGESIZE) = vmiter_pa pt (round_down cr2 PAGESIZE) ∧
      vmiter_perm pt1 (round_down cr2 PAGESIZE) = PTE_P ||| PTE_W ||| PTE_U ∧
      (∀ v, v ≠ round_down cr2 PAGESIZE / PAGESIZE → pt1.entry v = pt.entry v) ∧
      pt1.addr = pt.addr ∧ pt1.dirs = pt.dirs ∧
      (∀ i, i ≠ k.current → k1.ptable i = k.ptable i) := by
  have hP := present_of_cow pt _ hC
  have hal := round_down_aligned cr2
  rw [exception_cow_inplace cfg k regs cr2 pt hint hpt hC hcount, exception_return_run]
  · have hP1 : ((pt.set_entry (round_down cr2 PAGESIZE / PAGESIZE)
        ⟨(pt.entry (round_down cr2 PAGESIZE / PAGESIZE)).pa, PTE_PWU⟩).entry
          (round_down cr2 PAGESIZE / PAGESIZE)).perm.P = true := by
      simp only [set_entry_entry, Function.update_same]
      rfl
    refine ⟨_, pt.set_entry (round_down cr2 PAGESIZE / PAGESIZE)
      ⟨(pt.entry (round_down cr2 PAGESIZE / PAGESIZE)).pa, PTE_PWU⟩, rfl, rfl,
      by simp [set_proc_ptable], by simp [set_proc_ptable, hrun], ?_, ?_, ?_, rfl, rfl, ?_⟩
    · rw [vmiter_pa_of_present _ _ hal hP1, vmiter_pa_of_present pt _ hal hP]
      simp
    · rw [vmiter_perm_of_present _ _ hP1]
      simp only [set_entry_entry, Function.update_same]
      rfl
    · intro v hv
      simp [Function.update_apply, hv]
    · intro i hi
      simp [set_proc_ptable, hi]
  · simp [set_proc_ptable, hrun]

/-- The handler's path for a copy-on-write-pending entry whose page is shared,
when a page is free: the copy. -/
theorem exception_cow_copy_ok (cfg : Config) (h0 : cfg.allocatable_physical_address 0 = false)
    (k : Kernel) (regs : regstate) (cr2 : Nat) (pt : x86_64_pagetable)
    (hint : regs.reg_intno = INT_PF)
    (hpt : (k.ptable k.current).pagetable = some pt)
    (hC : (vmiter_perm pt (round_down cr2 PAGESIZE) &&& PTE_C).nonzero = true)
    (hcount : k.memory.physpages (vmiter_pa pt (round_down cr2 PAGESIZE) / PAGESIZE) ≠ 1)
    (hfree : ∃ pn, pn < cfg.NPAGES ∧ free_page cfg k.memory pn = true) :
    ∃ pn, pn ≠ 0 ∧ pn < cfg.NPAGES ∧ free_page cfg k.memory pn = true ∧
      exception cfg k regs cr2 = .ok (exception_return
        ({ k with memory :=
            { physpages := Function.update (k.memory.take pn).physpages
                ((pt.entry (round_down cr2 PAGESIZE / PAGESIZE)).pa / PAGESIZE)
                ((k.memory.take pn).physpages
                  ((pt.entry (round_down cr2 PAGESIZE / PAGESIZE)).pa / PAGESIZE) - 1),
              bytes := memcpy (k.memory.take pn).bytes (pn * PAGESIZE)
                (pt.entry (round_down cr2 PAGESIZE / PAGESIZE)).pa PAGESIZE } }.set_proc
          k.current
          { k.ptable k.current with
            regs := regs,
            pagetable := some (pt.set_entry (round_down cr2 PAGESIZE / PAGESIZE)
              ⟨pn * PAGESIZE, PTE_PWU⟩) })) := by
  have hP := present_of_cow pt _ hC
  have hal := round_down_aligned cr2
  have hpa := vmiter_pa_of_present pt _ hal hP
  have hkp := vmiter_kptr_of_present pt _ hal hP
  obtain ⟨pn0, hpn0, hf0⟩ := hfree
  obtain ⟨pn, hle, hf, -, hk⟩ := kalloc_some cfg k.memory PAGESIZE (le_refl _) pn0 hpn0 hf0
  have hpn : pn ≠ 0 := by
    rintro rfl
    unfold free_page at hf
    simp [h0] at hf
  have hPS := PAGESIZE_pos
  have hne : (pn * PAGESIZE == 0) = false := by
    simpa using Nat.mul_ne_zero hpn (by omega)
  refine ⟨pn, hpn, by omega, hf, ?_⟩
  unfold exception
  have h1 : (regs.reg_intno == INT_IRQ + IRQ_TIMER) = false := by rw [hint]; decide
  have h2 : (regs.reg_intno == INT_PF) = true := by rw [hint]; decide
  have h3 : (k.memory.physpages (vmiter_pa pt (round_down cr2 PAGESIZE) / PAGESIZE) == 1)
      = false := by simpa using hcount
  simp only [h1, h2, Bool.false_eq_true, if_false, if_true, set_proc_ptable, set_proc_current,
    set_proc_memory, hpt, hC, h3]
  unfold exception_cow_copy
  simp only [set_proc_memory, set_proc_current, set_proc_ptable, hk, hne, Bool.false_eq_true,
    if_false, if_true]
  rw [try_map_level0 cfg _ pt _ _ _ (level0_of_present pt _ hP), hpa, hkp]
  simp only [bne_self_eq_false, Bool.false_eq_true, if_false]
  congr 2
  unfold Kernel.set_proc
  simp

set_option maxRecDepth 1000000 in
/-- Witness for C5: in `k_small_alone` the child of the fork is gone, the
parent's data page at 0x100000 is still copy-on-write-pending with count 1,
and the parent writes to it. -/
theorem exception_cow_sole_owner_witness :
    regs_pf.reg_intno = INT_PF ∧
    (∃ pt, (k_small_alone.ptable k_small_alone.current).pagetable = some pt ∧
      (vmiter_perm pt (round_down 0x100000 PAGESIZE) &&& PTE_C).nonzero = true ∧
      k_small_alone.memory.physpages (vmiter_pa pt (round_down 0x100000 PAGESIZE) / PAGESIZE)
        = 1) ∧
    (k_small_alone.ptable k_small_alone.current).state = P_RUNNABLE ∧
    ∃ k1, exception weensyos k_small_alone regs_pf 0x100000
        = .ok (k1, Next.run k_small_alone.current) ∧
      k1.memory = k_small_alone.memory := by
  have hpt := option_some_of_isSome ((k_small_alone.ptable k_small_alone.current).pagetable)
    pt_small (by decide!)
  have hC : (vmiter_perm (((k_small_alone.ptable k_small_alone.current).pagetable).getD pt_small)
      (round_down 0x100000 PAGESIZE) &&& PTE_C).nonzero = true := by decide!
  have hcount : k_small_alone.memory.physpages
      (vmiter_pa (((k_small_alone.ptable k_small_alone.current).pagetable).getD pt_small)
        (round_down 0x100000 PAGESIZE) / PAGESIZE) = 1 := by decide!
  have hrun : (k_small_alone.ptable k_small_alone.current).state = P_RUNNABLE := by decide!
  obtain ⟨k1, -, e1, e2, -⟩ := exception_cow_sole_owner weensyos k_small_alone regs_pf 0x100000
    _ rfl hpt hC hcount hrun
  exact ⟨rfl, ⟨_, hpt, hC, hcount⟩, hrun, k1, e1, e2⟩

/-- C4. For every page fault taken by a runnable process at an address whose
entry is copy-on-write-pending and targets a page-aligned page X with
reference count at least 2, when a page of the array is free: the handler
resumes the process; exactly one page Y, different from X, allocatable and
with count 0 before, now has count 1; X's count has dropped by exactly one and
every other count is unchanged; Y's 4096 bytes equal X's bytes at fault time,
and X's bytes and every byte outside Y are unchanged; the faulting entry now
maps Y with permissions exactly `PTE_P | PTE_W | PTE_U`; every other entry of
the table and every other process's descriptor and table, hence every other
mapping of X, are unchanged. -/
theorem exception_cow_copies_page (cfg : Config)
    (h0 : cfg.allocatable_physical_address 0 = false)
    (k : Kernel) (regs : regstate) (cr2 : Nat) (pt : x86_64_pagetable)
    (hint : regs.reg_intno = INT_PF)
    (hpt : (k.ptable k.current).pagetable = some pt)
    (hC : (vmiter_perm pt (round_down cr2 PAGESIZE) &&& PTE_C).nonzero = true)
    (halign : vmiter_pa pt (round_down cr2 PAGESIZE) % PAGESIZE = 0)
    (hcount : 2 ≤ k.memory.physpages (vmiter_pa pt (round_down cr2 PAGESIZE) / PAGESIZE))
    (hfree : ∃ pn, pn < cfg.NPAGES ∧ free_page cfg k.memory pn = true)
    (hrun : (k.ptable k.current).state = P_RUNNABLE) :
    ∃ (k1 : Kernel) (pt1 : x86_64_pagetable) (Y : Nat),
      exception cfg k regs cr2 = .ok (k1, Next.run k.current) ∧
      (Y % PAGESIZE = 0 ∧ Y / PAGESIZE ≠ vmiter_pa pt (round_down cr2 PAGESIZE) / PAGESIZE ∧
        cfg.allocatable_physical_address Y = true ∧ k.memory.physpages (Y / PAGESIZE) = 0) ∧
      (∀ n, k1.memory.physpages n =
        if n = Y / PAGESIZE then 1
        else if n = vmiter_pa pt (round_down cr2 PAGESIZE) / PAGESIZE then
          k.memory.physpages n - 1
        else k.memory.physpages n) ∧
      (∀ i, i < PAGESIZE → k1.memory.bytes (Y + i) =
        k.memory.bytes (vmiter_pa pt (round_down cr2 PAGESIZE) + i)) ∧
      (∀ i, i < PAGESIZE → k1.memory.bytes (vmiter_pa pt (round_down cr2 PAGESIZE) + i) =
        k.memory.bytes (vmiter_pa pt (round_down cr2 PAGESIZE) + i)) ∧
      (∀ a, ¬ (Y ≤ a ∧ a < Y + PAGESIZE) → k1.memory.bytes a = k.memory.bytes a) ∧
      (k1.ptable k.current).pagetable = some pt1 ∧
      vmiter_pa pt1 (round_down cr2 PAGESIZE) = Y ∧
      vmiter_perm pt1 (round_down cr2 PAGESIZE) = PTE_P ||| PTE_W ||| PTE_U ∧
      (∀ v, v ≠ round_down cr2 PAGESIZE / PAGESIZE → pt1.entry v = pt.entry v) ∧
      (∀ i, i ≠ k.current → k1.ptable i = k.ptable i) := by
  have hP := present_of_cow pt _ hC
  have hal := round_down_aligned cr2
  have hpa := vmiter_pa_of_present pt _ hal hP
  rw [hpa] at halign hcount ⊢
  obtain ⟨pn, hpn, -, hf, hex⟩ := exception_cow_copy_ok cfg h0 k regs cr2 pt hint hpt hC
    (by rw [hpa]; omega) hfree
  have hPS : PAGESIZE = 4096 := rfl
  generalize hX : (pt.entry (round_down cr2 PAGESIZE / PAGESIZE)).pa = X at *
  have hc0 := free_page_count cfg k.memory pn hf
  have hne : pn ≠ X / PAGESIZE := by
    intro he
    rw [← he, hc0] at hcount
    omega
  have hXal : X = X / PAGESIZE * PAGESIZE := (Nat.div_mul_cancel (Nat.dvd_of_mod_eq_zero halign)).symm
  have hP1 : ((pt.set_entry (round_down cr2 PAGESIZE / PAGESIZE)
      ⟨pn * PAGESIZE, PTE_PWU⟩).entry (round_down cr2 PAGESIZE / PAGESIZE)).perm.P = true := by
    simp only [set_entry_entry, Function.update_same]
    rfl
  rw [hex, exception_return_run]
  · refine ⟨_, pt.set_entry (round_down cr2 PAGESIZE / PAGESIZE) ⟨pn * PAGESIZE, PTE_PWU⟩,
      pn * PAGESIZE, rfl, ⟨page_mul_mod pn, by rw [page_mul_div]; exact hne,
        free_page_alloc cfg k.memory pn hf, by rw [page_mul_div]; exact hc0⟩,
      ?_, ?_, ?_, ?_, by simp [set_proc_ptable], ?_, ?_, ?_, ?_⟩
    · intro n
      simp only [set_proc_memory, page_mul_div, Function.update_apply,
        take_physpages k.memory pn _ hc0]
      by_cases h1 : n = pn
      · subst h1
        simp [hne, hc0]
      · by_cases h2 : n = X / PAGESIZE
        · subst h2
          simp [h1, fun h => hne (Eq.symm h)]
        · simp [h1, h2]
    · intro i hi
      simp only [set_proc_memory, memcpy, Memory.take, memset]
      rw [if_pos ⟨by omega, by omega⟩, if_neg]
      · congr 1
        omega
      · intro hh
        have h1 := Nat.div_add_mod X PAGESIZE
        have : X / PAGESIZE < pn ∨ pn < X / PAGESIZE := by omega
        rw [hPS] at *
        omega
    · intro i hi
      simp only [set_proc_memory, memcpy, Memory.take, memset]
      have hout : ¬ (pn * PAGESIZE ≤ X + i ∧ X + i < pn * PAGESIZE + PAGESIZE) := by
        intro hh
        have : X / PAGESIZE < pn ∨ pn < X / PAGESIZE := by omega
        rw [hPS] at *
        omega
      rw [if_neg hout, if_neg hout]
    · intro a ha
      simp only [set_proc_memory, memcpy, Memory.take, memset]
      rw [if_neg ha, if_neg ha]
    · rw [vmiter_pa_of_present _ _ hal hP1]
      simp
    · rw [vmiter_perm_of_present _ _ hP1]
      simp only [set_entry_entry, Function.update_same]
      rfl
    · intro v hv
      simp [Function.update_apply, hv]
    · intro i hi
      simp [set_proc_ptable, hi]
  · simp [set_proc_ptable, hrun]

set_option maxRecDepth 1000000 in
/-- Witness for C4, the scenario of the specification: the data page at
0x100000 holds 0; process 1 forks; the child, process 2, writes 1 at that
address. The write faults, the handler gives the child a copy in a page of
its own, and after the store of 1 through the child's mapping the parent still
reads 0 from physical page 0x5000 and the child reads 1 from physical page
0xC000; one more page is in use than before the fault. -/
theorem exception_cow_copies_page_witness :
    (∃ pt, (k_small_child.ptable k_small_child.current).pagetable = some pt ∧
      (vmiter_perm pt (round_down 0x100000 PAGESIZE) &&& PTE_C).nonzero = true ∧
      vmiter_pa pt (round_down 0x100000 PAGESIZE) % PAGESIZE = 0 ∧
      2 ≤ k_small_child.memory.physpages
        (vmiter_pa pt (round_down 0x100000 PAGESIZE) / PAGESIZE)) ∧
    (∃ pn, pn < weensyos.NPAGES ∧ free_page weensyos k_small_child.memory pn = true) ∧
    (k_small_child.ptable k_small_child.current).state = P_RUNNABLE ∧
    exception weensyos k_small_child regs_pf 0x100000 = .ok (k_small_cow, Next.run 2) ∧
    (∃ parent child, (k_small_cow.ptable 1).pagetable = some parent ∧
      (k_small_cow.ptable 2).pagetable = some child ∧
      vmiter_pa parent 0x100000 = 0x5000 ∧ vmiter_pa child 0x100000 = 0xC000 ∧
      vmiter_writable child 0x100000 = true ∧
      k_small.memory.bytes 0x5000 = 0 ∧
      Function.update k_small_cow.memory.bytes (vmiter_pa child 0x100000) 1
        (vmiter_pa parent 0x100000) = 0 ∧
      Function.update k_small_cow.memory.bytes (vmiter_pa child 0x100000) 1
        (vmiter_pa child 0x100000) = 1) ∧
    (List.range weensyos.NPAGES).countP (fun n => k_small_cow.memory.physpages n != 0) =
      (List.range weensyos.NPAGES).countP (fun n => k_small_child.memory.physpages n != 0)
        + 1 := by
  have hchild : ((k_small_child.ptable k_small_child.current).pagetable).isSome = true ∧
      (vmiter_perm (((k_small_child.ptable k_small_child.current).pagetable).getD pt_small)
        (round_down 0x100000 PAGESIZE) &&& PTE_C).nonzero = true ∧
      vmiter_pa (((k_small_child.ptable k_small_child.current).pagetable).getD pt_small)
        (round_down 0x100000 PAGESIZE) % PAGESIZE = 0 ∧
      2 ≤ k_small_child.memory.physpages
        (vmiter_pa (((k_small_child.ptable k_small_child.current).pagetable).getD pt_small)
          (round_down 0x100000 PAGESIZE) / PAGESIZE) ∧
      free_page weensyos k_small_child.memory 12 = true ∧
      (k_small_child.ptable k_small_child.current).state = P_RUNNABLE := by decide!
  obtain ⟨h1, hC, halign, hcount, hf, hrun⟩ := hchild
  have hpt := option_some_of_isSome _ pt_small h1
  have hfree : ∃ pn, pn < weensyos.NPAGES ∧
      free_page weensyos k_small_child.memory pn = true := ⟨12, by decide, hf⟩
  obtain ⟨k1, -, -, e1, -⟩ := exception_cow_copies_page weensyos (by decide) k_small_child
    regs_pf 0x100000 _ rfl hpt hC halign hcount hfree hrun
  have hex : exception weensyos k_small_child regs_pf 0x100000 = .ok (k_small_cow, Next.run 2) := by
    have hk : k_small_cow = k1 := by
      unfold k_small_cow
      rw [e1]
      rfl
    rw [hk]
    exact e1
  have hcow : ((k_small_cow.ptable 1).pagetable).isSome = true ∧
      ((k_small_cow.ptable 2).pagetable).isSome = true ∧
      vmiter_pa (((k_small_cow.ptable 1).pagetable).getD pt_small) 0x100000 = 0x5000 ∧
      vmiter_pa (((k_small_cow.ptable 2).pagetable).getD pt_small) 0x100000 = 0xC000 ∧
      vmiter_writable (((k_small_cow.ptable 2).pagetable).getD pt_small) 0x100000 = true ∧
      Function.update k_small_cow.memory.bytes
        (vmiter_pa (((k_small_cow.ptable 2).pagetable).getD pt_small) 0x100000) 1
        (vmiter_pa (((k_small_cow.ptable 1).pagetable).getD pt_small) 0x100000) = 0 ∧
      Function.update k_small_cow.memory.bytes
        (vmiter_pa (((k_small_cow.ptable 2).pagetable).getD pt_small) 0x100000) 1
        (vmiter_pa (((k_small_cow.ptable 2).pagetable).getD pt_small) 0x100000) = 1 ∧
      (List.range weensyos.NPAGES).countP (fun n => k_small_cow.memory.physpages n != 0) =
        (List.range weensyos.NPAGES).countP (fun n => k_small_child.memory.physpages n != 0)
          + 1 := by decide!
  obtain ⟨c1, c2, c3, c4, c5, c6, c7, c8⟩ := hcow
  exact ⟨⟨_, hpt, hC, halign, hcount⟩, hfree, hrun, hex,
    ⟨_, _, option_some_of_isSome _ pt_small c1, option_some_of_isSome _ pt_small c2,
      c3, c4, c5, rfl, c6, c7⟩, c8⟩

/-! ## Counting mappings -/

theorem maps_page_eq (cfg : Config) (pt : x86_64_pagetable) (va X : Nat)
    (ha : va % PAGESIZE = 0) :
    maps_page cfg pt va X = fork_counts cfg (pt.entry (va / PAGESIZE)) X := by
  unfold maps_page fork_counts
  rw [vmiter_user_eq]
  by_cases hP : (pt.entry (va / PAGESIZE)).perm.P = true
  · rw [vmiter_pa_of_present pt va ha hP]
  · simp [hP]

/-- The counted user mappings of a table, by virtual page number. -/
theorem user_count_range (cfg : Config) (pt : x86_64_pagetable) (X : Nat) :
    cfg.vas.countP (fun va => maps_page cfg pt va X) =
      (List.range cfg.NVPAGES).countP (fun i => fork_counts cfg (pt.entry i) X) := by
  unfold Config.vas
  rw [List.countP_map]
  apply List.countP_congr
  intro i _
  simp only [Function.comp]
  rw [maps_page_eq cfg pt _ X (page_mul_mod i), page_mul_div]

theorem user_count_fork (cfg : Config) (pt : x86_64_pagetable) (X : Nat) :
    cfg.vas.countP (fun va => maps_page cfg pt va X) =
      cfg.vas.countP (fun va => fork_counts cfg (pt.entry (va / PAGESIZE)) X) := by
  apply List.countP_congr
  intro va hva
  rw [maps_page_eq cfg pt va X (vas_aligned cfg va hva)]

/-- Changing a predicate at one index changes its count over `range n` by that
index alone. -/
theorem countP_range_point (n v : Nat) (G G1 : Nat → Bool) (h : ∀ i, i ≠ v → G1 i = G i) :
    (List.range n).countP G1 + (if v < n ∧ G v = true then 1 else 0) =
      (List.range n).countP G + (if v < n ∧ G1 v = true then 1 else 0) := by
  induction n with
  | zero => simp
  | succ n ih =>
    rw [List.range_succ, List.countP_append, List.countP_append]
    simp only [List.countP_cons, List.countP_nil, zero_add]
    by_cases hv : v = n
    · subst hv
      have h1 : ¬ v < v := lt_irrefl v
      simp only [h1, false_and, if_false, add_zero] at ih
      have h2 : v < v + 1 := Nat.lt_succ_self v
      simp only [h2, true_and]
      rw [ih]
      by_cases a : G v = true <;> by_cases b : G1 v = true <;> simp [a, b]
    · rw [h n (fun hh => hv hh.symm)]
      have hlt : v < n + 1 ↔ v < n := by omega
      simp only [hlt]
      omega

/-- Changing a summand at one index changes the sum over `range n` by that index
alone. -/
theorem sum_range_point (n v : Nat) (F F1 : Nat → Nat) (h : ∀ i, i ≠ v → F1 i = F i) :
    ((List.range n).map F1).sum + (if v < n then F v else 0) =
      ((List.range n).map F).sum + (if v < n then F1 v else 0) := by
  induction n with
  | zero => simp
  | succ n ih =>
    rw [List.range_succ, List.map_append, List.map_append, List.sum_append, List.sum_append]
    simp only [List.map_cons, List.map_nil, List.sum_cons, List.sum_nil, add_zero]
    by_cases hv : v = n
    · subst hv
      have h1 : ¬ v < v := lt_irrefl v
      simp only [h1, if_false, add_zero] at ih
      simp only [Nat.lt_succ_self, if_true]
      omega
    · rw [h n (fun hh => hv hh.symm)]
      have hlt : v < n + 1 ↔ v < n := by omega
      simp only [hlt]
      omega

theorem sum_range_le (n : Nat) (F F1 : Nat → Nat) (h : ∀ i, i < n → F1 i ≤ F i) :
    ((List.range n).map F1).sum ≤ ((List.range n).map F).sum := by
  induction n with
  | zero => simp
  | succ n ih =>
    rw [List.range_succ, List.map_append, List.map_append, List.sum_append, List.sum_append]
    simp only [List.map_cons, List.map_nil, List.sum_cons, List.sum_nil, add_zero]
    have := ih (fun i hi => h i (by omega))
    have := h n (by omega)
    omega

/-- The uses a table makes of a page, in terms of its three fields. -/
theorem owned_eq (cfg : Config) (pt : x86_64_pagetable) (X : Nat) :
    owned cfg pt X =
      (List.range cfg.NVPAGES).countP (fun i => fork_counts cfg (pt.entry i) X)
        + (dir_pages pt.dirs).count X + (if X = pt.addr / PAGESIZE then 1 else 0) := by
  unfold owned
  rw [user_count_range]

/-- Replacing one entry and appending structure pages changes the uses by the
old and new entry and by the new structure pages. -/
theorem owned_update (cfg : Config) (pt pt1 : x86_64_pagetable) (v : Nat) (e : pageentry)
    (new : List ptpage) (X : Nat)
    (ha : pt1.addr = pt.addr) (hd : pt1.dirs = pt.dirs ++ new)
    (he : pt1.entry = Function.update pt.entry v e) :
    owned cfg pt1 X + (if v < cfg.NVPAGES ∧ fork_counts cfg (pt.entry v) X = true then 1 else 0) =
      owned cfg pt X + (dir_pages new).count X
        + (if v < cfg.NVPAGES ∧ fork_counts cfg e X = true then 1 else 0) := by
  rw [owned_eq, owned_eq, ha, hd, he, dir_pages_append, List.count_append]
  have := countP_range_point cfg.NVPAGES v (fun i => fork_counts cfg (pt.entry i) X)
    (fun i => fork_counts cfg (Function.update pt.entry v e i) X)
    (fun i hi => by simp [Function.update_apply, hi])
  simp only [Function.update_same] at this
  omega

/-- Appending structure pages alone. -/
theorem owned_dirs (cfg : Config) (pt pt1 : x86_64_pagetable) (new : List ptpage) (X : Nat)
    (ha : pt1.addr = pt.addr) (hd : pt1.dirs = pt.dirs ++ new) (he : pt1.entry = pt.entry) :
    owned cfg pt1 X = owned cfg pt X + (dir_pages new).count X := by
  rw [owned_eq, owned_eq, ha, hd, he, dir_pages_append, List.count_append]
  omega

/-- The total of the uses when one slot's descriptor changes. -/
theorem owned_count_point (cfg : Config) (k k1 : Kernel) (v : Nat) (X : Nat)
    (h : ∀ i, i ≠ v → proc_count (fun pt => owned cfg pt X) (k1.ptable i) =
      proc_count (fun pt => owned cfg pt X) (k.ptable i)) :
    owned_count cfg k1 X
        + (if v < cfg.PID_MAX then proc_count (fun pt => owned cfg pt X) (k.ptable v) else 0) =
      owned_count cfg k X
        + (if v < cfg.PID_MAX then proc_count (fun pt => owned cfg pt X) (k1.ptable v) else 0) := by
  unfold owned_count
  exact sum_range_point cfg.PID_MAX v _ _ h

theorem proc_count_live (f : x86_64_pagetable → Nat) (p : proc) (pt : x86_64_pagetable)
    (hs : p.state ≠ P_FREE) (hp : p.pagetable = some pt) : proc_count f p = f pt := by
  unfold proc_count
  simp [hs, hp]

theorem proc_count_free (f : x86_64_pagetable → Nat) (p : proc) (hs : p.state = P_FREE) :
    proc_count f p = 0 := by
  unfold proc_count
  simp [hs]

/-! ## The invariant is kept: one table and memory change -/

/-- When one slot's descriptor changes and the reference counts rise by at least
as much as that slot's uses, the counts still cover all uses. -/
theorem counts_step (cfg : Config) (k k1 : Kernel) (v : Nat) (hv : v < cfg.PID_MAX)
    (hinv : ∀ X, owned_count cfg k X ≤ k.memory.physpages X)
    (hothers : ∀ i X, i ≠ v → proc_count (fun pt => owned cfg pt X) (k1.ptable i) =
      proc_count (fun pt => owned cfg pt X) (k.ptable i))
    (hdelta : ∀ X, proc_count (fun pt => owned cfg pt X) (k1.ptable v) + k.memory.physpages X ≤
      proc_count (fun pt => owned cfg pt X) (k.ptable v) + k1.memory.physpages X) :
    ∀ X, owned_count cfg k1 X ≤ k1.memory.physpages X := by
  intro X
  have h1 := owned_count_point cfg k k1 v X (fun i hi => hothers i X hi)
  simp only [hv, if_true] at h1
  have h2 := hinv X
  have h3 := hdelta X
  omega

/-- A table stays well-shaped when one entry is replaced by an entry that is
not copy-on-write-pending and does not point at the console page. -/
theorem table_ok_update (cfg : Config) (pt pt1 : x86_64_pagetable) (v : Nat) (e : pageentry)
    (hok : table_ok cfg pt) (he : pt1.entry = Function.update pt.entry v e)
    (hC : e.perm.C = false) (hpa : e.pa ≠ cfg.CONSOLE_ADDR) : table_ok cfg pt1 := by
  obtain ⟨h1, h2⟩ := hok
  constructor
  · intro w hP hCw
    rw [he] at hP hCw ⊢
    by_cases hw : w = v
    · subst hw
      simp only [Function.update_same] at hCw
      rw [hC] at hCw
      exact absurd hCw (by decide)
    · simp only [Function.update_apply, hw, if_false] at hP hCw ⊢
      exact h1 w hP hCw
  · intro w hlt hP hU hne
    rw [he] at hP hU ⊢
    by_cases hw : w = v
    · subst hw
      simpa using hpa
    · simp only [Function.update_apply, hw, if_false] at hP hU ⊢
      exact h2 w hlt hP hU hne

/-- A freshly allocated page is not the console page. -/
theorem free_page_ne_console (cfg : Config)
    (hcon : cfg.allocatable_physical_address cfg.CONSOLE_ADDR = false)
    (m : Memory) (pn : Nat) (hf : free_page cfg m pn = true) :
    pn * PAGESIZE ≠ cfg.CONSOLE_ADDR := by
  intro he
  have := free_page_alloc cfg m pn hf
  rw [he, hcon] at this
  exact absurd this (by decide)

/-- What a `syscall_page_alloc` that returns has done. -/
theorem syscall_page_alloc_inv (cfg : Config)
    (h0 : cfg.allocatable_physical_address 0 = false) (k k1 : Kernel) (addr : Nat) (r : Int)
    (h : syscall_page_alloc cfg k addr = .ok (r, k1)) :
    k1 = k ∨
    ∃ (pn : Nat) (pt pt1 : x86_64_pagetable) (new : List ptpage),
      free_page cfg k.memory pn = true ∧
      (k.ptable k.current).pagetable = some pt ∧
      k1.ptable k.current = { k.ptable k.current with pagetable := some pt1 } ∧
      (∀ i, i ≠ k.current → k1.ptable i = k.ptable i) ∧
      k1.current = k.current ∧ k1.kernel_pagetable = k.kernel_pagetable ∧
      pt1.addr = pt.addr ∧ pt1.dirs = pt.dirs ++ new ∧
      pt1.entry = Function.update pt.entry (addr / PAGESIZE)
        ⟨pn * PAGESIZE, PTE_P ||| PTE_U ||| PTE_W⟩ ∧
      (∀ X, k1.memory.physpages X =
        k.memory.physpages X + (if X = pn then 1 else 0) + (dir_pages new).count X) := by
  unfold syscall_page_alloc at h
  split at h
  · simp only [Except.ok.injEq, Prod.mk.injEq] at h
    exact Or.inl h.2.symm
  · rcases kalloc_cases_nz cfg h0 k.memory PAGESIZE with hk | ⟨pn, hpn, hpa, hf, hk⟩
    · rw [hk] at h
      simp only [beq_self_eq_true, if_true, Except.ok.injEq, Prod.mk.injEq] at h
      exact Or.inl h.2.symm
    · rw [hk] at h
      have hne : (pn * PAGESIZE == 0) = false := by simpa using hpa
      simp only [hne, Bool.false_eq_true, if_false] at h
      cases hpt : (k.ptable k.current).pagetable with
      | none => simp [hpt] at h
      | some pt =>
        simp only [hpt] at h
        generalize hr : try_map cfg (k.memory.take pn) pt addr (pn * PAGESIZE)
          (PTE_P ||| PTE_U ||| PTE_W) = t at h
        obtain ⟨new, t1, t2, t3, -, -, t6, -, -⟩ := try_map_spec cfg h0 _ _ _ _ _ t hr
        by_cases hb : t.1 = 0
        · have hb' : (t.1 == 0) = true := by simpa using hb
          simp only [hb', if_true, Except.ok.injEq, Prod.mk.injEq] at h
          obtain ⟨-, rfl⟩ := h
          right
          refine ⟨pn, pt, t.2.2, new, hf, rfl, by simp [set_proc_ptable], ?_, rfl, rfl, t2, t1,
            t6 hb (by decide), ?_⟩
          · intro i hi
            simp [set_proc_ptable, hi]
          · intro X
            simp only [set_proc_memory]
            rw [t3 X, take_physpages k.memory pn X (free_page_count cfg k.memory pn hf)]
        · have hb' : (t.1 == 0) = false := by simpa using hb
          simp [hb'] at h

theorem fork_counts_fresh (cfg : Config) (pn X : Nat) (perm : Perm) :
    (if fork_counts cfg ⟨pn * PAGESIZE, perm⟩ X = true then 1 else 0) ≤
      (if X = pn then 1 else 0) := by
  unfold fork_counts
  by_cases hX : X = pn
  · subst hX; simp; split <;> omega
  · have : ¬ pn = X := fun h => hX h.symm
    simp [page_mul_div, hX, this]

/-- `syscall_page_alloc` keeps the invariant. -/
theorem syscall_page_alloc_keeps (cfg : Config) (hv : cfg.valid) (k k1 : Kernel) (addr : Nat)
    (r : Int) (hinv : Inv cfg k) (hrun : (k.ptable k.current).state = P_RUNNABLE)
    (h : syscall_page_alloc cfg k addr = .ok (r, k1)) : Inv cfg k1 := by
  rcases syscall_page_alloc_inv cfg hv.null_reserved k k1 addr r h with rfl |
    ⟨pn, pt, pt1, new, hf, hpt, hcur, hoth, hc, hkp, ha, hd, he, hm⟩
  · exact hinv
  · have hst : (k.ptable k.current).state ≠ P_FREE := by rw [hrun]; decide
    have hst1 : (k1.ptable k.current).state ≠ P_FREE := by rw [hcur]; exact hst
    refine ⟨?_, ?_, by rw [hkp]; exact hinv.kernel, ?_, by rw [hc]; exact hinv.cur⟩
    · apply counts_step cfg k k1 k.current hinv.cur hinv.counts
      · intro i X hi
        rw [hoth i hi]
      · intro X
        rw [proc_count_live _ _ pt1 hst1 (by rw [hcur]), proc_count_live _ _ pt hst hpt, hm X]
        have h1 := owned_update cfg pt pt1 (addr / PAGESIZE) _ new X ha hd he
        have h2 := fork_counts_fresh cfg pn X (PTE_P ||| PTE_U ||| PTE_W)
        split at h1 <;> split at h1 <;> simp_all <;> omega
    · intro i pt' hs hp
      by_cases hi : i = k.current
      · subst hi
        rw [hcur] at hp
        simp only [Option.some.injEq] at hp
        subst hp
        exact table_ok_update cfg pt pt1 _ _ (hinv.tables _ pt hst hpt) he rfl
          (free_page_ne_console cfg hv.console_reserved k.memory pn hf)
      · rw [hoth i hi] at hs hp
        exact hinv.tables i pt' hs hp
    · intro i hi
      by_cases hic : i = k.current
      · subst hic
        rw [hcur]
        exact hinv.pids _ hi
      · rw [hoth i hic]
        exact hinv.pids i hi

/-! ## The invariant is kept: `sys_fork` -/

theorem mem_vas_vpn (cfg : Config) (v : Nat) :
    v ∈ cfg.vas.map (fun va => va / PAGESIZE) ↔ v < cfg.NVPAGES := by
  unfold Config.vas
  simp only [List.map_map, List.mem_map, List.mem_range, Function.comp, page_mul_div]
  constructor
  · rintro ⟨i, hi, rfl⟩; exact hi
  · intro h; exact ⟨v, h, rfl⟩

/-- A table whose entries are those of a well-shaped table, or what `sys_fork`
makes of them below `MEMSIZE_VIRTUAL`, or zero, is well-shaped. -/
theorem table_ok_fork (cfg : Config) (src pt1 : x86_64_pagetable) (hok : table_ok cfg src)
    (h : ∀ v, pt1.entry v = src.entry v ∨
      (v < cfg.NVPAGES ∧ pt1.entry v = sys_fork_entry cfg (src.entry v)) ∨
      pt1.entry v = pageentry.zero) : table_ok cfg pt1 := by
  obtain ⟨h1, h2⟩ := hok
  constructor
  · intro v hP hC
    rcases h v with he | ⟨hlt, he⟩ | he
    · rw [he] at hP hC ⊢
      exact h1 v hP hC
    · rw [he] at hP hC ⊢
      rw [sys_fork_entry_P] at hP
      rw [sys_fork_entry_U, sys_fork_entry_pa]
      unfold sys_fork_entry at hC
      split at hC
      · next hc =>
        simp only [Bool.and_eq_true, bne_iff_ne, ne_eq] at hc
        exact ⟨hc.1.2, hc.2, hlt⟩
      · exact ⟨(h1 v hP hC).1, (h1 v hP hC).2.1, hlt⟩
    · rw [he] at hP
      exact absurd hP (by decide)
  · intro v hlt hP hU hne
    rcases h v with he | ⟨-, he⟩ | he
    · rw [he] at hP hU ⊢
      exact h2 v hlt hP hU hne
    · rw [he] at hP hU ⊢
      rw [sys_fork_entry_P] at hP
      rw [sys_fork_entry_U] at hU
      rw [sys_fork_entry_pa]
      exact h2 v hlt hP hU hne
    · rw [he] at hP
      exact absurd hP (by decide)

theorem owned_count_congr (cfg : Config) (k k1 : Kernel) (X : Nat)
    (h : ∀ i, i < cfg.PID_MAX → proc_count (fun pt => owned cfg pt X) (k1.ptable i) =
      proc_count (fun pt => owned cfg pt X) (k.ptable i)) :
    owned_count cfg k1 X = owned_count cfg k X := by
  unfold owned_count
  apply le_antisymm
  · exact sum_range_le _ _ _ (fun i hi => le_of_eq (h i hi))
  · exact sum_range_le _ _ _ (fun i hi => le_of_eq (h i hi).symm)

/-- A state that differs from one satisfying the invariant only in descriptors
that are free in both, with the same pid, satisfies it as well. -/
theorem inv_of_free_change (cfg : Config) (k k1 : Kernel) (hinv : Inv cfg k)
    (hm : k1.memory.physpages = k.memory.physpages) (hc : k1.current = k.current)
    (hk : k1.kernel_pagetable = k.kernel_pagetable)
    (hp : ∀ i, k1.ptable i = k.ptable i ∨
      ((k1.ptable i).state = P_FREE ∧ (k.ptable i).state = P_FREE ∧
        (k1.ptable i).pid = (k.ptable i).pid)) : Inv cfg k1 := by
  refine ⟨?_, ?_, by rw [hk]; exact hinv.kernel, ?_, by rw [hc]; exact hinv.cur⟩
  · intro X
    rw [hm, owned_count_congr cfg k k1 X]
    · exact hinv.counts X
    · intro i _
      rcases hp i with he | ⟨a, b, -⟩
      · rw [he]
      · rw [proc_count_free _ _ a, proc_count_free _ _ b]
  · intro i pt hs hpt
    rcases hp i with he | ⟨a, -, -⟩
    · rw [he] at hs hpt
      exact hinv.tables i pt hs hpt
    · exact absurd a hs
  · intro i hi
    rcases hp i with he | ⟨-, -, c⟩
    · rw [he]; exact hinv.pids i hi
    · rw [c]; exact hinv.pids i hi

/-- What a `sys_fork` that returns -1 has done. -/
theorem sys_fork_fail_inv (cfg : Config) (h0 : cfg.allocatable_physical_address 0 = false)
    (k k1 : Kernel) (h : sys_fork cfg k = .ok (-1, k1))
    (hpar : (k.ptable (k.ptable k.current).pid).state ≠ P_FREE) :
    k1.memory = k.memory ∧ k1.current = k.current ∧
    k1.kernel_pagetable = k.kernel_pagetable ∧
    ∀ i, k1.ptable i = k.ptable i ∨
      ((k1.ptable i).state = P_FREE ∧ (k.ptable i).state = P_FREE ∧
        (k1.ptable i).pid = (k.ptable i).pid) := by
  unfold sys_fork at h
  rcases sys_fork_find_cases cfg k with hf | ⟨hf1, hf2, hf3⟩
  · simp only [hf, Nat.lt_one_iff, if_true, Except.ok.injEq, Prod.mk.injEq, true_and] at h
    subst h
    exact ⟨rfl, rfl, rfl, fun i => Or.inl rfl⟩
  · have hlt : ¬ sys_fork_find cfg k < 1 := by omega
    simp only [hlt, if_false] at h
    have hne : sys_fork_find cfg k ≠ (k.ptable k.current).pid := by
      intro he; rw [← he] at hpar; exact hpar hf3
    rcases kalloc_pagetable_cases cfg h0 k.memory with ha | ⟨pn, m0, hpn, hfree, ha, hm0⟩
    · rw [ha] at h
      simp only [Except.ok.injEq, Prod.mk.injEq, true_and] at h
      subst h
      refine ⟨rfl, rfl, rfl, ?_⟩
      intro i
      by_cases hi : i = sys_fork_find cfg k
      · subst hi
        right
        simp [set_proc_ptable, hf3]
      · left
        simp [set_proc_ptable, hi]
    · exfalso
      rw [ha] at h
      simp only [set_proc_ptable, set_proc_current, if_neg hne.symm] at h
      have hcur : (if k.current = sys_fork_find cfg k then
          ({ k.ptable (sys_fork_find cfg k) with
              pagetable := some ⟨pn * PAGESIZE, [], fun _ => pageentry.zero⟩ } : proc)
          else k.ptable k.current).pid = (k.ptable k.current).pid := by
        split
        · next he => rw [he]
        · rfl
      simp only [hcur, if_neg hne.symm] at h
      cases hsrc : (k.ptable (k.ptable k.current).pid).pagetable with
      | none => simp [hsrc] at h
      | some src =>
        simp only [hsrc] at h
        obtain ⟨ok, mF, sF, dF, new, e0, -⟩ :=
          sys_fork_loop_spec cfg h0 cfg.vas (vas_aligned cfg) m0 src
            ⟨pn * PAGESIZE, [], fun _ => pageentry.zero⟩
        simp only [set_proc_memory] at h
        rw [e0] at h
        simp only at h
        cases ok with
        | false =>
          simp only [Bool.false_eq_true, if_false] at h
          rw [sys_exit_free] at h
          · simp at h
          · simp [set_proc_ptable, hf3]
        | true =>
          simp only [if_true, Except.ok.injEq, Prod.mk.injEq] at h
          have := h.1
          omega

theorem fork_counts_zero (cfg : Config) (X : Nat) : fork_counts cfg pageentry.zero X = false := by
  unfold fork_counts
  simp [pageentry.zero, Perm.zero]

theorem sys_fork_entry_eta (cfg : Config) (e : pageentry) :
    (⟨e.pa, (sys_fork_entry cfg e).perm⟩ : pageentry) = sys_fork_entry cfg e := by
  unfold sys_fork_entry
  split <;> rfl

/-- `sys_fork` keeps the invariant. -/
theorem sys_fork_keeps (cfg : Config) (hv : cfg.valid) (k k1 : Kernel) (r : Int)
    (hinv : Inv cfg k) (hrun : (k.ptable k.current).state = P_RUNNABLE)
    (h : sys_fork cfg k = .ok (r, k1)) : Inv cfg k1 := by
  have hpid : (k.ptable k.current).pid = k.current := hinv.pids _ hinv.cur
  have hpar : (k.ptable (k.ptable k.current).pid).state ≠ P_FREE := by
    rw [hpid, hrun]; decide
  by_cases hr : r = -1
  · subst hr
    obtain ⟨a, b, c, d⟩ := sys_fork_fail_inv cfg hv.null_reserved k k1 h hpar
    exact inv_of_free_change cfg k k1 hinv (by rw [a]) b c d
  · obtain ⟨new_id, rootpn, src, src1, dst1, ⟨-, -, hn2, hn3, hn4⟩, ⟨-, -, hsrc⟩,
      ⟨hk1, -, hk3, hchild, hparent, hothers⟩, ⟨e1, e2, e3, -⟩, f1, f2, f3⟩ :=
      sys_fork_facts cfg hv.null_reserved k k1 r h hr hpar
    rw [hpid] at hn4 hsrc hparent hothers
    have hst : (k.ptable k.current).state ≠ P_FREE := by rw [hrun]; decide
    have hsrcok := hinv.tables _ src hst hsrc
    have hcnt1 : ∀ v X, fork_counts cfg (src1.entry v) X = fork_counts cfg (src.entry v) X := by
      intro v X
      rw [f1 v]
      split
      · exact fork_counts_entry cfg _ X
      · rfl
    have hown1 : ∀ X, owned cfg src1 X = owned cfg src X := by
      intro X
      rw [owned_eq, owned_eq, e1, e2]
      simp only [hcnt1]
    have hcntd : ∀ X, cfg.vas.countP (fun va => maps_page cfg dst1 va X) =
        cfg.vas.countP (fun va => fork_counts cfg (src.entry (va / PAGESIZE)) X) := by
      intro X
      rw [user_count_fork]
      apply List.countP_congr
      intro va hva
      have hmem : va / PAGESIZE ∈ cfg.vas.map (fun va => va / PAGESIZE) :=
        List.mem_map.mpr ⟨va, hva, rfl⟩
      rw [f2]
      simp only [hmem, true_and]
      by_cases hP : (src.entry (va / PAGESIZE)).perm.P = true
      · rw [if_pos hP, sys_fork_entry_eta, fork_counts_entry]
      · rw [if_neg hP, fork_counts_zero]
        unfold fork_counts
        simp [hP]
    refine ⟨?_, ?_, by rw [hk3]; exact hinv.kernel, ?_, by rw [hk1]; exact hinv.cur⟩
    · apply counts_step cfg k k1 new_id hn2 hinv.counts
      · intro i X hi
        by_cases hic : i = k.current
        · subst hic
          rw [proc_count_live _ _ src1 (by rw [hparent]; exact hst) (by rw [hparent]),
            proc_count_live _ _ src hst hsrc, hown1]
        · rw [hothers i hi hic]
      · intro X
        rw [proc_count_live _ _ dst1 (by rw [hchild]; simp) (by rw [hchild]),
          proc_count_free _ _ hn3, f3 X]
        unfold owned
        rw [hcntd X, e3, page_mul_div]
        omega
    · intro i pt hs hp
      by_cases hin : i = new_id
      · subst hin
        rw [hchild] at hp
        simp only [Option.some.injEq] at hp
        subst hp
        apply table_ok_fork cfg src dst1 hsrcok
        intro v
        rw [f2 v]
        by_cases hc : v ∈ cfg.vas.map (fun va => va / PAGESIZE) ∧ (src.entry v).perm.P = true
        · rw [if_pos hc, sys_fork_entry_eta]
          exact Or.inr (Or.inl ⟨(mem_vas_vpn cfg v).mp hc.1, rfl⟩)
        · rw [if_neg hc]
          exact Or.inr (Or.inr rfl)
      · by_cases hic : i = k.current
        · subst hic
          rw [hparent] at hp
          simp only [Option.some.injEq] at hp
          subst hp
          apply table_ok_fork cfg src src1 hsrcok
          intro v
          rw [f1 v]
          by_cases hc : v ∈ cfg.vas.map (fun va => va / PAGESIZE)
          · rw [if_pos hc]
            exact Or.inr (Or.inl ⟨(mem_vas_vpn cfg v).mp hc, rfl⟩)
          · rw [if_neg hc]
            exact Or.inl rfl
        · rw [hothers i hin hic] at hs hp
          exact hinv.tables i pt hs hp
    · intro i hi
      by_cases hin : i = new_id
      · subst hin
        rw [hchild]
        exact hinv.pids _ hi
      · by_cases hic : i = k.current
        · subst hic
          rw [hparent]
          exact hinv.pids _ hi
        · rw [hothers i hin hic]
          exact hinv.pids i hi

/-! ## The invariant is kept: teardown -/

/-- What the first loop of `sys_exit` has done when it completes. -/
theorem sys_exit_pages_inv (cfg : Config) (pt : x86_64_pagetable) (l : List Nat)
    (m m1 : Memory) (h : sys_exit_pages cfg pt l m = .ok m1) :
    m1.bytes = m.bytes ∧
    ∀ X, m1.physpages X + l.countP (fun va => exit_counts cfg pt va X) = m.physpages X := by
  induction l generalizing m with
  | nil =>
    simp only [sys_exit_pages, Except.ok.injEq] at h
    subst h
    exact ⟨rfl, by simp⟩
  | cons va rest ih =>
    unfold sys_exit_pages at h
    by_cases hmark : (vmiter_user pt va && va != cfg.CONSOLE_ADDR) = true
    · rw [if_pos hmark] at h
      cases hk : kfree m (vmiter_kptr pt va) with
      | error e => simp [hk] at h
      | ok m0 =>
        simp only [hk] at h
        obtain ⟨b1, b2⟩ := ih m0 h
        obtain ⟨c1, c2⟩ := kfree_inv m m0 _ hk
        refine ⟨by rw [b1, c1], ?_⟩
        intro X
        rw [List.countP_cons]
        have hb := b2 X
        rcases c2 with ⟨hz, rfl⟩ | ⟨hnz, -, -, hdec⟩
        · have : exit_counts cfg pt va X = false := by
            unfold exit_counts; simp [hz]
          rw [this]
          simpa using hb
        · have hd := hdec X
          have : exit_counts cfg pt va X = decide (X = vmiter_kptr pt va / PAGESIZE) := by
            unfold exit_counts
            have h1 : (vmiter_kptr pt va != 0) = true := by simpa using hnz
            rw [hmark, h1]
            by_cases hX : X = vmiter_kptr pt va / PAGESIZE
            · subst hX; simp
            · have : ¬ vmiter_kptr pt va / PAGESIZE = X := fun h => hX h.symm
              simp [hX, this]
          rw [this]
          by_cases hX : X = vmiter_kptr pt va / PAGESIZE
          · simp only [hX, decide_True, if_true] at hd hb ⊢
            omega
          · simp only [hX, decide_False, if_false, Bool.false_eq_true] at hd hb ⊢
            omega
    · rw [if_neg hmark] at h
      obtain ⟨b1, b2⟩ := ih m h
      refine ⟨b1, ?_⟩
      intro X
      have : exit_counts cfg pt va X = false := by
        unfold exit_counts
        have : (vmiter_user pt va && va != cfg.CONSOLE_ADDR) = false := by simpa using hmark
        rw [this]; rfl
      rw [List.countP_cons, this]
      simpa using b2 X

/-- What the second loop of `sys_exit` has done when it completes. -/
theorem sys_exit_dirs_inv (l : List ptpage) (m m1 : Memory) (h : sys_exit_dirs l m = .ok m1) :
    m1.bytes = m.bytes ∧
    ∀ X, m1.physpages X ≤ m.physpages X ∧
      m.physpages X ≤ m1.physpages X + (dir_pages l).count X := by
  induction l generalizing m with
  | nil =>
    simp only [sys_exit_dirs, Except.ok.injEq] at h
    subst h
    exact ⟨rfl, fun X => ⟨le_refl _, by simp⟩⟩
  | cons d rest ih =>
    unfold sys_exit_dirs at h
    cases hk : kfree m d.addr with
    | error e => simp [hk] at h
    | ok m0 =>
      simp only [hk] at h
      obtain ⟨b1, b2⟩ := ih m0 h
      obtain ⟨c1, c2⟩ := kfree_inv m m0 _ hk
      refine ⟨by rw [b1, c1], ?_⟩
      intro X
      have hb := b2 X
      have hcount : (dir_pages (d :: rest)).count X =
          (dir_pages rest).count X + if X = d.addr / PAGESIZE then 1 else 0 := by
        simp only [dir_pages, List.map_cons, List.count_cons, beq_iff_eq]
        by_cases hX : X = d.addr / PAGESIZE
        · subst hX; simp
        · have : ¬ d.addr / PAGESIZE = X := fun h => hX h.symm
          simp [hX, this]
      rw [hcount]
      rcases c2 with ⟨-, rfl⟩ | ⟨-, -, -, hdec⟩
      · constructor <;> omega
      · have hd := hdec X
        constructor <;> omega

/-- What a `sys_exit` that returns has done. -/
theorem sys_exit_inv (cfg : Config) (k k1 : Kernel) (pid r : Int)
    (h : sys_exit cfg k pid = .ok (r, k1)) :
    (r = -1 ∧ k1 = k) ∨
    (r = 0 ∧ ∃ (i : Nat) (pt : x86_64_pagetable),
      pid = i ∧ i < cfg.PID_MAX ∧ (k.ptable i).state ≠ P_FREE ∧
      (k.ptable i).pagetable = some pt ∧
      k1.ptable i = { k.ptable i with state := P_FREE, pagetable := none } ∧
      (∀ j, j ≠ i → k1.ptable j = k.ptable j) ∧
      k1.current = k.current ∧ k1.kernel_pagetable = k.kernel_pagetable ∧
      k1.ticks = k.ticks ∧ k1.memory.bytes = k.memory.bytes ∧
      (∀ X, k1.memory.physpages X ≤ k.memory.physpages X ∧
        k.memory.physpages X ≤ k1.memory.physpages X
          + cfg.vas.countP (fun va => exit_counts cfg pt va X) + (dir_pages pt.dirs).count X
          + (if X = pt.addr / PAGESIZE then 1 else 0))) := by
  unfold sys_exit at h
  split at h
  · next hc =>
    right
    simp only [Bool.and_eq_true, decide_eq_true_eq, bne_iff_ne, ne_eq] at hc
    obtain ⟨⟨hge, hlt⟩, hst⟩ := hc
    have hpid : pid = (pid.toNat : Int) := (Int.toNat_of_nonneg hge).symm
    cases hpt : (k.ptable pid.toNat).pagetable with
    | none => simp [hpt] at h
    | some pt =>
      simp only [hpt] at h
      cases h1 : sys_exit_pages cfg pt cfg.vas k.memory with
      | error e => simp [h1] at h
      | ok m1 =>
        simp only [h1] at h
        cases h2 : sys_exit_dirs pt.dirs m1 with
        | error e => simp [h2] at h
        | ok m2 =>
          simp only [h2] at h
          cases h3 : kfree m2 pt.addr with
          | error e => simp [h3] at h
          | ok m3 =>
            simp only [h3, Except.ok.injEq, Prod.mk.injEq] at h
            obtain ⟨rfl, rfl⟩ := h
            obtain ⟨a1, a2⟩ := sys_exit_pages_inv cfg pt cfg.vas k.memory m1 h1
            obtain ⟨b1, b2⟩ := sys_exit_dirs_inv pt.dirs m1 m2 h2
            obtain ⟨c1, c2⟩ := kfree_inv m2 m3 _ h3
            refine ⟨rfl, pid.toNat, pt, hpid, by omega, hst, hpt, by simp [set_proc_ptable],
              fun j hj => by simp [set_proc_ptable, hj], rfl, rfl, rfl, ?_, ?_⟩
            · simp only [set_proc_memory]
              rw [c1, b1, a1]
            · intro X
              simp only [set_proc_memory]
              have ha := a2 X
              have hb := b2 X
              rcases c2 with ⟨-, rfl⟩ | ⟨-, -, -, hdec⟩
              · constructor
                · omega
                · split <;> omega
              · have hd := hdec X
                constructor
                · omega
                · split at hd <;> split <;> omega
  · simp only [Except.ok.injEq, Prod.mk.injEq] at h
    exact Or.inl ⟨h.1.symm, h.2.symm⟩

/-- In a well-shaped table every page the first loop of `sys_exit` frees is a
counted user mapping. -/
theorem exit_counts_le (cfg : Config) (pt : x86_64_pagetable) (hok : table_ok cfg pt) (X : Nat) :
    cfg.vas.countP (fun va => exit_counts cfg pt va X) ≤
      cfg.vas.countP (fun va => maps_page cfg pt va X) := by
  apply List.countP_mono_left
  intro va hva hex
  have ha := vas_aligned cfg va hva
  unfold exit_counts at hex
  simp only [Bool.and_eq_true, bne_iff_ne, ne_eq, beq_iff_eq] at hex
  obtain ⟨⟨⟨hu, hne⟩, -⟩, hX⟩ := hex
  have hu' := hu
  rw [vmiter_user_eq] at hu'
  simp only [Bool.and_eq_true] at hu'
  have hlt : va / PAGESIZE < cfg.NVPAGES :=
    (mem_vas_vpn cfg _).mp (List.mem_map.mpr ⟨va, hva, rfl⟩)
  have hva' : va / PAGESIZE * PAGESIZE = va := Nat.div_mul_cancel (Nat.dvd_of_mod_eq_zero ha)
  have hpa := hok.2 (va / PAGESIZE) hlt hu'.1 hu'.2 (by rw [hva']; exact hne)
  unfold maps_page
  rw [vmiter_kptr_of_present pt va ha hu'.1] at hX
  rw [hu, vmiter_pa_of_present pt va ha hu'.1]
  simp [hpa, hX]

/-- `sys_exit` keeps the invariant. -/
theorem sys_exit_keeps (cfg : Config) (k k1 : Kernel) (pid r : Int) (hinv : Inv cfg k)
    (h : sys_exit cfg k pid = .ok (r, k1)) : Inv cfg k1 := by
  rcases sys_exit_inv cfg k k1 pid r h with ⟨-, rfl⟩ |
    ⟨-, i, pt, -, hi, hst, hpt, hslot, hoth, hc, hk, -, -, hm⟩
  · exact hinv
  · have hfree : (k1.ptable i).state = P_FREE := by rw [hslot]
    refine ⟨?_, ?_, by rw [hk]; exact hinv.kernel, ?_, by rw [hc]; exact hinv.cur⟩
    · apply counts_step cfg k k1 i hi hinv.counts
      · intro j X hj
        rw [hoth j hj]
      · intro X
        rw [proc_count_free _ _ hfree, proc_count_live _ _ pt hst hpt]
        have h1 := (hm X).2
        have h2 := exit_counts_le cfg pt (hinv.tables i pt hst hpt) X
        unfold owned
        omega
    · intro j pt' hs hp
      by_cases hj : j = i
      · subst hj
        exact absurd hfree hs
      · rw [hoth j hj] at hs hp
        exact hinv.tables j pt' hs hp
    · intro j hj
      by_cases hji : j = i
      · subst hji
        rw [hslot]
        exact hinv.pids _ hj
      · rw [hoth j hji]
        exact hinv.pids j hj

/-! ## The invariant is kept: `exception` -/

/-- A state with the same memory, kernel table and current slot, whose
descriptors have the same pid and page table and are free exactly when they
were, satisfies the invariant as well. -/
theorem inv_of_same_tables (cfg : Config) (k k1 : Kernel) (hinv : Inv cfg k)
    (hm : k1.memory.physpages = k.memory.physpages) (hc : k1.current = k.current)
    (hk : k1.kernel_pagetable = k.kernel_pagetable)
    (hp : ∀ i, (k1.ptable i).pid = (k.ptable i).pid ∧
      (k1.ptable i).pagetable = (k.ptable i).pagetable ∧
      ((k1.ptable i).state = P_FREE ↔ (k.ptable i).state = P_FREE)) : Inv cfg k1 := by
  have hpc : ∀ i X, proc_count (fun pt => owned cfg pt X) (k1.ptable i) =
      proc_count (fun pt => owned cfg pt X) (k.ptable i) := by
    intro i X
    obtain ⟨-, b, c⟩ := hp i
    unfold proc_count
    rw [b]
    by_cases hs : (k.ptable i).state = P_FREE
    · rw [if_pos hs, if_pos (c.mpr hs)]
    · rw [if_neg hs, if_neg (fun h => hs (c.mp h))]
  refine ⟨?_, ?_, by rw [hk]; exact hinv.kernel, ?_, by rw [hc]; exact hinv.cur⟩
  · intro X
    rw [hm, owned_count_congr cfg k k1 X (fun i _ => hpc i X)]
    exact hinv.counts X
  · intro i pt hs hpt
    obtain ⟨-, b, c⟩ := hp i
    rw [b] at hpt
    exact hinv.tables i pt (fun h => hs (c.mpr h)) hpt
  · intro i hi
    rw [(hp i).1]
    exact hinv.pids i hi

/-- Saving registers into the current descriptor keeps the invariant. -/
theorem inv_save (cfg : Config) (k : Kernel) (regs : regstate) (hinv : Inv cfg k) :
    Inv cfg (k.set_proc k.current { k.ptable k.current with regs := regs }) := by
  refine inv_of_same_tables cfg k _ hinv rfl rfl rfl ?_
  intro i
  by_cases hi : i = k.current
  · subst hi
    simp [set_proc_ptable]
  · simp [set_proc_ptable, hi]

theorem exception_return_fst (k : Kernel) : (exception_return k).1 = k := by
  unfold exception_return
  split <;> rfl

/-- The uses of one live slot are among all uses. -/
theorem proc_count_le_owned_count (cfg : Config) (k : Kernel) (i X : Nat)
    (hi : i < cfg.PID_MAX) :
    proc_count (fun pt => owned cfg pt X) (k.ptable i) ≤ owned_count cfg k X := by
  have := sum_range_point cfg.PID_MAX i
    (fun j => proc_count (fun pt => owned cfg pt X) (k.ptable j))
    (fun j => if j = i then 0 else proc_count (fun pt => owned cfg pt X) (k.ptable j))
    (fun j hj => by simp [hj])
  simp only [hi, if_true] at this
  unfold owned_count
  omega

/-- The in-place upgrade of a copy-on-write-pending entry keeps the
invariant. -/
theorem cow_inplace_keeps (cfg : Config) (k : Kernel) (pt : x86_64_pagetable) (v : Nat)
    (p : proc) (hinv : Inv cfg k) (hst : (k.ptable k.current).state ≠ P_FREE)
    (hpt : (k.ptable k.current).pagetable = some pt)
    (hP : (pt.entry v).perm.P = true) (hC : (pt.entry v).perm.C = true)
    (hp : p.pid = (k.ptable k.current).pid ∧ p.state = (k.ptable k.current).state ∧
      p.pagetable = some (pt.set_entry v ⟨(pt.entry v).pa, PTE_PWU⟩)) :
    Inv cfg (k.set_proc k.current p) := by
  have hok := hinv.tables _ pt hst hpt
  obtain ⟨hU, hpa, hlt⟩ := hok.1 v hP hC
  have hst1 : ((k.set_proc k.current p).ptable k.current).state ≠ P_FREE := by
    simp only [set_proc_ptable, if_true]; rw [hp.2.1]; exact hst
  refine ⟨?_, ?_, hinv.kernel, ?_, hinv.cur⟩
  · apply counts_step cfg k _ k.current hinv.cur hinv.counts
    · intro i X hi
      simp [set_proc_ptable, hi]
    · intro X
      rw [proc_count_live _ _ _ hst1 (by simp only [set_proc_ptable, if_true]; exact hp.2.2),
        proc_count_live _ _ pt hst hpt]
      have h1 := owned_update cfg pt (pt.set_entry v ⟨(pt.entry v).pa, PTE_PWU⟩) v
        ⟨(pt.entry v).pa, PTE_PWU⟩ [] X rfl (by simp) rfl
      have h2 : fork_counts cfg ⟨(pt.entry v).pa, PTE_PWU⟩ X = fork_counts cfg (pt.entry v) X := by
        unfold fork_counts
        simp [hP, hU, PTE_PWU, PTE_P, PTE_W, PTE_U, HOr.hOr, OrOp.or, Perm.or]
      rw [h2] at h1
      simp only [dir_pages, List.map_nil, List.count_nil, add_zero, set_proc_memory] at h1 ⊢
      omega
  · intro i pt' hs hp'
    by_cases hi : i = k.current
    · subst hi
      simp only [set_proc_ptable, if_true] at hp'
      rw [hp.2.2] at hp'
      simp only [Option.some.injEq] at hp'
      subst hp'
      exact table_ok_update cfg pt _ v _ hok rfl rfl hpa
    · simp only [set_proc_ptable, hi, if_false] at hs hp'
      exact hinv.tables i pt' hs hp'
  · intro i hi
    by_cases hic : i = k.current
    · subst hic
      simp only [set_proc_ptable, if_true]
      rw [hp.1]
      exact hinv.pids _ hi
    · simp only [set_proc_ptable, hic, if_false]
      exact hinv.pids i hi

/-- The copy of a shared copy-on-write-pending page keeps the invariant. -/
theorem cow_copy_keeps (cfg : Config) (hv : cfg.valid) (k : Kernel) (pt : x86_64_pagetable)
    (v pn : Nat) (p : proc) (b : Nat → Nat) (hinv : Inv cfg k)
    (hst : (k.ptable k.current).state ≠ P_FREE)
    (hpt : (k.ptable k.current).pagetable = some pt)
    (hP : (pt.entry v).perm.P = true) (hC : (pt.entry v).perm.C = true)
    (hf : free_page cfg k.memory pn = true)
    (hp : p.pid = (k.ptable k.current).pid ∧ p.state = (k.ptable k.current).state ∧
      p.pagetable = some (pt.set_entry v ⟨pn * PAGESIZE, PTE_PWU⟩)) :
    Inv cfg ({ k with memory :=
      { physpages := Function.update (k.memory.take pn).physpages ((pt.entry v).pa / PAGESIZE)
          ((k.memory.take pn).physpages ((pt.entry v).pa / PAGESIZE) - 1),
        bytes := b } }.set_proc k.current p) := by
  have hok := hinv.tables _ pt hst hpt
  obtain ⟨hU, hpa, hlt⟩ := hok.1 v hP hC
  have hc0 := free_page_count cfg k.memory pn hf
  have hold : ∀ X, fork_counts cfg (pt.entry v) X = decide ((pt.entry v).pa / PAGESIZE = X) := by
    intro X
    unfold fork_counts
    have : ((pt.entry v).pa != cfg.CONSOLE_ADDR) = true := by simpa using hpa
    simp only [hP, hU, this, Bool.and_self, Bool.true_and]
    by_cases hh : (pt.entry v).pa / PAGESIZE = X <;> simp [hh]
  -- the shared page is in use, so its count is positive
  have hpos : 1 ≤ k.memory.physpages ((pt.entry v).pa / PAGESIZE) := by
    have h1 := proc_count_le_owned_count cfg k k.current ((pt.entry v).pa / PAGESIZE) hinv.cur
    rw [proc_count_live _ _ pt hst hpt, owned_eq] at h1
    have h2 := hinv.counts ((pt.entry v).pa / PAGESIZE)
    have h3 : 1 ≤ (List.range cfg.NVPAGES).countP
        (fun i => fork_counts cfg (pt.entry i) ((pt.entry v).pa / PAGESIZE)) := by
      apply List.countP_pos_iff.mpr
      exact ⟨v, List.mem_range.mpr hlt, by rw [hold]; simp⟩
    omega
  have hne : pn ≠ (pt.entry v).pa / PAGESIZE := by
    intro he
    rw [← he, hc0] at hpos
    omega
  refine ⟨?_, ?_, hinv.kernel, ?_, hinv.cur⟩
  · apply counts_step cfg k _ k.current hinv.cur hinv.counts
    · intro i X hi
      simp [set_proc_ptable, hi]
    · intro X
      rw [proc_count_live _ _ (pt.set_entry v ⟨pn * PAGESIZE, PTE_PWU⟩)
          (by simp only [set_proc_ptable, if_true]; rw [hp.2.1]; exact hst)
          (by simp only [set_proc_ptable, if_true]; exact hp.2.2),
        proc_count_live _ _ pt hst hpt]
      have h1 := owned_update cfg pt (pt.set_entry v ⟨pn * PAGESIZE, PTE_PWU⟩) v
        ⟨pn * PAGESIZE, PTE_PWU⟩ [] X rfl (by simp) rfl
      have h2 := fork_counts_fresh cfg pn X PTE_PWU
      rw [hold] at h1
      have h3 := take_physpages k.memory pn X hc0
      simp only [dir_pages, List.map_nil, List.count_nil, add_zero, hlt, true_and,
        decide_eq_true_eq] at h1
      simp only [set_proc_memory, Function.update_apply]
      by_cases hX1 : X = (pt.entry v).pa / PAGESIZE
      · have hX2 : ¬ X = pn := fun h => hne (h.symm.trans hX1)
        have hX1' : (pt.entry v).pa / PAGESIZE = X := hX1.symm
        rw [if_pos hX1, ← hX1, h3, if_neg hX2]
        rw [if_pos hX1', if_neg (by
          intro hh
          unfold fork_counts at hh
          simp only [page_mul_div, Bool.and_eq_true, beq_iff_eq] at hh
          exact hX2 hh.2.symm)] at h1
        have := hpos
        rw [← hX1] at this
        omega
      · have hX1' : ¬ (pt.entry v).pa / PAGESIZE = X := fun h => hX1 h.symm
        rw [if_neg hX1, h3]
        rw [if_neg hX1'] at h1
        split at h1 <;> split at h2 <;> omega
  · intro i pt' hs hp'
    by_cases hi : i = k.current
    · subst hi
      simp only [set_proc_ptable, if_true] at hp'
      rw [hp.2.2] at hp'
      simp only [Option.some.injEq] at hp'
      subst hp'
      exact table_ok_update cfg pt _ v _ hok rfl rfl
        (free_page_ne_console cfg hv.console_reserved k.memory pn hf)
    · simp only [set_proc_ptable, hi, if_false] at hs hp'
      exact hinv.tables i pt' hs hp'
  · intro i hi
    by_cases hic : i = k.current
    · subst hic
      simp only [set_proc_ptable, if_true]
      rw [hp.1]
      exact hinv.pids _ hi
    · simp only [set_proc_ptable, hic, if_false]
      exact hinv.pids i hi

theorem ok_exception_return (k K k1 : Kernel) (n : Next)
    (h : (Except.ok (exception_return K) : Except Halt (Kernel × Next)) = .ok (k1, n))
    (hK : k = K) : k1 = k := by
  simp only [Except.ok.injEq] at h
  have := congrArg Prod.fst h
  rw [exception_return_fst] at this
  rw [hK, this]

/-- `exception` keeps the invariant. -/
theorem exception_keeps (cfg : Config) (hv : cfg.valid) (k k1 : Kernel) (regs : regstate)
    (cr2 : Nat) (n : Next) (hinv : Inv cfg k) (hrun : (k.ptable k.current).state = P_RUNNABLE)
    (h : exception cfg k regs cr2 = .ok (k1, n)) : Inv cfg k1 := by
  have hst : (k.ptable k.current).state ≠ P_FREE := by rw [hrun]; decide
  by_cases ht : regs.reg_intno = INT_IRQ + IRQ_TIMER
  · unfold exception at h
    have h1 : (regs.reg_intno == INT_IRQ + IRQ_TIMER) = true := by simpa using ht
    simp only [h1, if_true, Except.ok.injEq, Prod.mk.injEq] at h
    obtain ⟨rfl, -⟩ := h
    exact inv_of_same_tables cfg _ _ (inv_save cfg k regs hinv) rfl rfl rfl
      (fun i => ⟨rfl, rfl, Iff.rfl⟩)
  · have h1 : (regs.reg_intno == INT_IRQ + IRQ_TIMER) = false := by simpa using ht
    by_cases hpf : regs.reg_intno = INT_PF
    · have h2 : (regs.reg_intno == INT_PF) = true := by simpa using hpf
      cases hpt : (k.ptable k.current).pagetable with
      | none =>
        unfold exception at h
        simp [h1, h2, set_proc_ptable, hpt] at h
      | some pt =>
        by_cases hC : (vmiter_perm pt (round_down cr2 PAGESIZE) &&& PTE_C).nonzero = true
        · have hP := present_of_cow pt _ hC
          have hCf : (pt.entry (round_down cr2 PAGESIZE / PAGESIZE)).perm.C = true := by
            rw [vmiter_perm_C] at hC
            simp only [Bool.and_eq_true] at hC
            exact hC.2
          have hpa := vmiter_pa_of_present pt _ (round_down_aligned cr2) hP
          by_cases hcount :
              k.memory.physpages (vmiter_pa pt (round_down cr2 PAGESIZE) / PAGESIZE) = 1
          · rw [exception_cow_inplace cfg k regs cr2 pt hpf hpt hC hcount] at h
            rw [ok_exception_return _ _ k1 n h rfl]
            exact cow_inplace_keeps cfg k pt _ _ hinv hst hpt hP hCf ⟨rfl, rfl, rfl⟩
          · by_cases hfree : ∃ pn, pn < cfg.NPAGES ∧ free_page cfg k.memory pn = true
            · obtain ⟨pn, -, -, hf, hex⟩ := exception_cow_copy_ok cfg hv.null_reserved k regs
                cr2 pt hpf hpt hC hcount hfree
              rw [hex] at h
              rw [ok_exception_return _ _ k1 n h rfl]
              exact cow_copy_keeps cfg hv k pt _ pn _ _ hinv hst hpt hP hCf hf ⟨rfl, rfl, rfl⟩
            · exfalso
              have hnone := kalloc_none cfg k.memory PAGESIZE (by
                intro pn hpn
                by_contra hh
                exact hfree ⟨pn, hpn, by simpa using hh⟩)
              unfold exception at h
              have h3 : (k.memory.physpages
                  (vmiter_pa pt (round_down cr2 PAGESIZE) / PAGESIZE) == 1) = false := by
                simpa using hcount
              simp only [h1, h2, Bool.false_eq_true, if_false, if_true, set_proc_ptable,
                set_proc_current, set_proc_memory, hpt, hC, h3] at h
              unfold exception_cow_copy at h
              simp only [set_proc_memory, hnone, beq_self_eq_true, if_true] at h
              split at h
              · exact absurd h (by simp)
              · split at h <;> exact absurd h (by simp)
        · unfold exception at h
          simp only [h1, h2, Bool.false_eq_true, if_false, if_true, set_proc_ptable,
            set_proc_current, hpt, hC] at h
          split at h
          · exact absurd h (by simp)
          · rw [ok_exception_return _ _ k1 n h rfl]
            refine inv_of_same_tables cfg k _ hinv rfl rfl rfl ?_
            intro i
            by_cases hi : i = k.current
            · subst hi
              simp [set_proc_ptable, hst, hpt]
            · simp [set_proc_ptable, hi]
    · have h2 : (regs.reg_intno == INT_PF) = false := by simpa using hpf
      unfold exception at h
      simp [h1, h2] at h

/-! ## The invariant holds after `process_setup` -/

/-- The entries of the table after `try_map`: the entry for `va` replaced, or
nothing changed where that entry was not present or the call failed. -/
theorem try_map_entry_cases (cfg : Config) (h0 : cfg.allocatable_physical_address 0 = false)
    (m : Memory) (pt : x86_64_pagetable) (va pa : Nat) (perm : Perm) :
    (try_map cfg m pt va pa perm).2.2.entry = Function.update pt.entry (va / PAGESIZE) ⟨pa, perm⟩ ∨
    ((try_map cfg m pt va pa perm).2.2.entry = pt.entry ∧
      ((pt.entry (va / PAGESIZE)).perm.P = false ∨ (try_map cfg m pt va pa perm).1 ≠ 0)) := by
  unfold try_map
  by_cases hl : vmiter_level0 pt va = true
  · rw [if_pos hl]; left; rfl
  · rw [if_neg hl]
    have hP : (pt.entry (va / PAGESIZE)).perm.P = false := by
      unfold vmiter_level0 at hl
      simp only [Bool.or_eq_true, not_or] at hl
      simpa using hl.1
    by_cases hp : perm.nonzero = true
    · rw [if_pos hp]
      obtain ⟨new, e1, -⟩ := try_map_walk_spec cfg h0 (ptpath va) m pt
      by_cases hw : (try_map_walk cfg (ptpath va) m pt).1 = true
      · simp only [hw, if_true]
        left
        rw [set_entry_entry, e1]
      · simp only [hw, Bool.false_eq_true, if_false]
        right
        exact ⟨by rw [e1], Or.inl hP⟩
    · rw [if_neg hp]
      right
      exact ⟨rfl, Or.inl hP⟩

/-- The loop invariant of `process_setup`: the table under construction is
well-shaped, and the reference counts cover its uses on top of a base `B`. -/
theorem setup_map_step (cfg : Config) (h0 : cfg.allocatable_physical_address 0 = false)
    (B : Nat → Nat) (m m1 : Memory) (pt : x86_64_pagetable) (va pa : Nat) (perm : Perm)
    (hok : table_ok cfg pt) (hJ : ∀ X, B X + owned cfg pt X ≤ m.physpages X)
    (hm1 : ∀ X, m.physpages X + (if fork_counts cfg ⟨pa, perm⟩ X = true then 1 else 0)
      ≤ m1.physpages X)
    (hC : perm.C = false)
    (hpa : perm.P = true → perm.U = true → va / PAGESIZE * PAGESIZE ≠ cfg.CONSOLE_ADDR →
      pa ≠ cfg.CONSOLE_ADDR) :
    table_ok cfg (try_map cfg m1 pt va pa perm).2.2 ∧
    ∀ X, B X + owned cfg (try_map cfg m1 pt va pa perm).2.2 X ≤
      (try_map cfg m1 pt va pa perm).2.1.physpages X := by
  obtain ⟨new, t1, t2, t3, -⟩ := try_map_spec cfg h0 m1 pt va pa perm _ rfl
  rcases try_map_entry_cases cfg h0 m1 pt va pa perm with he | ⟨he, -⟩
  · constructor
    · obtain ⟨a1, a2⟩ := hok
      constructor
      · intro w hP hCw
        rw [he] at hP hCw ⊢
        by_cases hw : w = va / PAGESIZE
        · subst hw
          simp only [Function.update_same] at hCw
          rw [hC] at hCw
          exact absurd hCw (by decide)
        · simp only [Function.update_apply, hw, if_false] at hP hCw ⊢
          exact a1 w hP hCw
      · intro w hlt hP hU hne
        rw [he] at hP hU ⊢
        by_cases hw : w = va / PAGESIZE
        · subst hw
          simp only [Function.update_same] at hP hU ⊢
          exact hpa hP hU hne
        · simp only [Function.update_apply, hw, if_false] at hP hU ⊢
          exact a2 w hlt hP hU hne
    · intro X
      have h1 := owned_update cfg pt _ (va / PAGESIZE) ⟨pa, perm⟩ new X t2 t1 he
      have h2 := hJ X
      have h3 := hm1 X
      rw [t3 X]
      have hb : (if va / PAGESIZE < cfg.NVPAGES ∧ fork_counts cfg ⟨pa, perm⟩ X = true then 1 else 0)
          ≤ (if fork_counts cfg ⟨pa, perm⟩ X = true then 1 else 0) := by
        by_cases hf : fork_counts cfg ⟨pa, perm⟩ X = true
        · rw [if_pos hf]; split <;> omega
        · rw [if_neg hf, if_neg (fun h => hf h.2)]
      omega
  · constructor
    · obtain ⟨a1, a2⟩ := hok
      constructor
      · intro w hP hCw
        rw [he] at hP hCw ⊢
        exact a1 w hP hCw
      · intro w hlt hP hU hne
        rw [he] at hP hU ⊢
        exact a2 w hlt hP hU hne
    · intro X
      have h1 := owned_dirs cfg pt _ new X t2 t1 he
      have h2 := hJ X
      have h3 := hm1 X
      rw [t3 X, h1]
      omega

/-- A `vmiter::map` that returns keeps the loop invariant. -/
theorem vmiter_map_keeps (cfg : Config) (h0 : cfg.allocatable_physical_address 0 = false)
    (B : Nat → Nat) (m m1 m2 : Memory) (pt pt2 : x86_64_pagetable) (va pa : Nat) (perm : Perm)
    (hok : table_ok cfg pt) (hJ : ∀ X, B X + owned cfg pt X ≤ m.physpages X)
    (hm1 : ∀ X, m.physpages X + (if fork_counts cfg ⟨pa, perm⟩ X = true then 1 else 0)
      ≤ m1.physpages X)
    (hC : perm.C = false)
    (hpa : perm.P = true → perm.U = true → va / PAGESIZE * PAGESIZE ≠ cfg.CONSOLE_ADDR →
      pa ≠ cfg.CONSOLE_ADDR)
    (h : vmiter_map cfg m1 pt va pa perm = .ok (m2, pt2)) :
    table_ok cfg pt2 ∧ ∀ X, B X + owned cfg pt2 X ≤ m2.physpages X := by
  have hs := setup_map_step cfg h0 B m m1 pt va pa perm hok hJ hm1 hC hpa
  unfold vmiter_map at h
  simp only at h
  split at h
  · simp only [Except.ok.injEq] at h
    rw [h] at hs
    exact hs
  · exact absurd h (by simp)

/-- The addresses of `page_range 0 stop` are the multiples of `PAGESIZE` below
`stop`. -/
theorem mem_page_range (stop va : Nat) :
    va ∈ page_range 0 stop ↔ va % PAGESIZE = 0 ∧ va < stop := by
  unfold page_range
  simp only [List.mem_map, List.mem_range, PAGESIZE]
  constructor
  · rintro ⟨i, hi, rfl⟩
    constructor
    · omega
    · omega
  · rintro ⟨ha, hlt⟩
    exact ⟨va / 4096, by omega, by omega⟩

/-- The first loop of `process_setup` keeps the loop invariant. -/
theorem process_setup_kernel_keeps (cfg : Config)
    (h0 : cfg.allocatable_physical_address 0 = false) (kpt : x86_64_pagetable)
    (hk : kernel_table_ok cfg kpt) (B : Nat → Nat) (l : List Nat)
    (hl : ∀ va ∈ l, va ∈ page_range 0 cfg.PROC_START_ADDR) :
    ∀ (m : Memory) (pt : x86_64_pagetable) (m2 : Memory) (pt2 : x86_64_pagetable),
      table_ok cfg pt → (∀ X, B X + owned cfg pt X ≤ m.physpages X) →
      process_setup_kernel cfg kpt l m pt = .ok (m2, pt2) →
      table_ok cfg pt2 ∧ ∀ X, B X + owned cfg pt2 X ≤ m2.physpages X := by
  induction l with
  | nil =>
    intro m pt m2 pt2 hok hJ h
    unfold process_setup_kernel at h
    simp only [Except.ok.injEq, Prod.mk.injEq] at h
    obtain ⟨rfl, rfl⟩ := h
    exact ⟨hok, hJ⟩
  | cons va rest ih =>
    intro m pt m2 pt2 hok hJ h
    unfold process_setup_kernel at h
    have hva := hl va (List.mem_cons_self _ _)
    obtain ⟨hu, hC⟩ := hk va hva
    have hal : va % PAGESIZE = 0 := ((mem_page_range _ _).1 hva).1
    have huser : (vmiter_perm kpt va).P = true → (vmiter_perm kpt va).U = true →
        va = cfg.CONSOLE_ADDR ∧ vmiter_pa kpt va = cfg.CONSOLE_ADDR := by
      intro hP hU
      apply hu
      unfold vmiter_user
      rw [hP, hU]; rfl
    cases hm : vmiter_map cfg m pt va (vmiter_pa kpt va) (vmiter_perm kpt va) with
    | error e => rw [hm] at h; exact absurd h (by simp)
    | ok r =>
      obtain ⟨m1, pt1⟩ := r
      rw [hm] at h
      simp only at h
      have hfc : ∀ X, fork_counts cfg ⟨vmiter_pa kpt va, vmiter_perm kpt va⟩ X = false := by
        intro X
        unfold fork_counts
        by_cases hP : (vmiter_perm kpt va).P = true
        · by_cases hU : (vmiter_perm kpt va).U = true
          · simp [(huser hP hU).2]
          · simp [hU]
        · simp [hP]
      obtain ⟨a, b⟩ := vmiter_map_keeps cfg h0 B m m m1 pt pt1 va _ _ hok hJ
        (fun X => by rw [hfc X]; simp) hC
        (fun hP hU hne => by
          exfalso
          apply hne
          rw [← (huser hP hU).1]
          have := Nat.div_add_mod va PAGESIZE
          rw [hal] at this
          rw [Nat.mul_comm]
          omega) hm
      exact ih (fun v hv => hl v (List.mem_cons_of_mem _ hv)) m1 pt1 m2 pt2 a b h

/-- Mapping a page that `kalloc` has just handed out keeps the loop
invariant. -/
theorem setup_fresh_keeps (cfg : Config) (hv : cfg.valid) (B : Nat → Nat) (m m2 : Memory)
    (pt pt2 : x86_64_pagetable) (va pn : Nat) (perm : Perm)
    (hok : table_ok cfg pt) (hJ : ∀ X, B X + owned cfg pt X ≤ m.physpages X)
    (hf : free_page cfg m pn = true) (hC : perm.C = false)
    (h : vmiter_map cfg (m.take pn) pt va (pn * PAGESIZE) perm = .ok (m2, pt2)) :
    table_ok cfg pt2 ∧ ∀ X, B X + owned cfg pt2 X ≤ m2.physpages X := by
  refine vmiter_map_keeps cfg hv.null_reserved B m (m.take pn) m2 pt pt2 va _ perm hok hJ ?_ hC
    (fun _ _ _ => free_page_ne_console cfg hv.console_reserved m pn hf) h
  intro X
  rw [take_physpages m pn X (free_page_count cfg m pn hf)]
  have := fork_counts_fresh cfg pn X perm
  omega

/-- The page loop of `process_setup` keeps the loop invariant. -/
theorem process_setup_pages_keeps (cfg : Config) (hv : cfg.valid) (B : Nat → Nat)
    (w : Bool) (l : List Nat) :
    ∀ (m : Memory) (pt : x86_64_pagetable) (m2 : Memory) (pt2 : x86_64_pagetable),
      table_ok cfg pt → (∀ X, B X + owned cfg pt X ≤ m.physpages X) →
      process_setup_pages cfg w l m pt = .ok (m2, pt2) →
      table_ok cfg pt2 ∧ ∀ X, B X + owned cfg pt2 X ≤ m2.physpages X := by
  induction l with
  | nil =>
    intro m pt m2 pt2 hok hJ h
    unfold process_setup_pages at h
    simp only [Except.ok.injEq, Prod.mk.injEq] at h
    obtain ⟨rfl, rfl⟩ := h
    exact ⟨hok, hJ⟩
  | cons a rest ih =>
    intro m pt m2 pt2 hok hJ h
    unfold process_setup_pages at h
    simp only at h
    rcases kalloc_cases_nz cfg hv.null_reserved m PAGESIZE with hk | ⟨pn, -, hpa, hf, hk⟩
    · rw [hk] at h
      simp at h
    · rw [hk] at h
      have hne : (pn * PAGESIZE == 0) = false := by simpa using hpa
      simp only [hne, Bool.false_eq_true, if_false] at h
      cases hm : vmiter_map cfg (m.take pn) pt a (pn * PAGESIZE)
          (if (!w) = true then PTE_P ||| PTE_U else PTE_P ||| PTE_W ||| PTE_U) with
      | error e => rw [hm] at h; exact absurd h (by simp)
      | ok r =>
        obtain ⟨m1, pt1⟩ := r
        rw [hm] at h
        simp only at h
        obtain ⟨x, y⟩ := setup_fresh_keeps cfg hv B m m1 pt pt1 a pn _ hok hJ hf
          (by cases w <;> rfl) hm
        exact ih m1 pt1 m2 pt2 x y h

/-- The segment loop of `process_setup` keeps the loop invariant. -/
theorem process_setup_segs_keeps (cfg : Config) (hv : cfg.valid) (B : Nat → Nat)
    (l : List segment) :
    ∀ (m : Memory) (pt : x86_64_pagetable) (m2 : Memory) (pt2 : x86_64_pagetable),
      table_ok cfg pt → (∀ X, B X + owned cfg pt X ≤ m.physpages X) →
      process_setup_segs cfg l m pt = .ok (m2, pt2) →
      table_ok cfg pt2 ∧ ∀ X, B X + owned cfg pt2 X ≤ m2.physpages X := by
  induction l with
  | nil =>
    intro m pt m2 pt2 hok hJ h
    unfold process_setup_segs at h
    simp only [Except.ok.injEq, Prod.mk.injEq] at h
    obtain ⟨rfl, rfl⟩ := h
    exact ⟨hok, hJ⟩
  | cons seg rest ih =>
    intro m pt m2 pt2 hok hJ h
    unfold process_setup_segs at h
    cases hm : process_setup_pages cfg seg.writable
        (page_range (round_down seg.va PAGESIZE) (seg.va + seg.size)) m pt with
    | error e => rw [hm] at h; exact absurd h (by simp)
    | ok r =>
      obtain ⟨m1, pt1⟩ := r
      rw [hm] at h
      simp only at h
      obtain ⟨x, y⟩ := process_setup_pages_keeps cfg hv B seg.writable _ m pt m1 pt1 hok hJ hm
      exact ih m1 pt1 m2 pt2 x y h

/-- What a `process_setup` that returns has done: one descriptor holds a new
well-shaped table, and the reference counts cover the old counts plus the uses
of that table. -/
theorem process_setup_inv (cfg : Config) (hv : cfg.valid) (k k1 : Kernel) (pid : Nat)
    (pgm : program_image) (hk : kernel_table_ok cfg k.kernel_pagetable)
    (h : process_setup cfg k pid pgm = .ok k1) :
    ∃ (pt : x86_64_pagetable) (regs : regstate),
      k1.ptable pid = { k.ptable pid with regs := regs, pagetable := some pt, state := P_RUNNABLE } ∧
      (∀ i, i ≠ pid → k1.ptable i = k.ptable i) ∧
      k1.current = k.current ∧ k1.kernel_pagetable = k.kernel_pagetable ∧
      table_ok cfg pt ∧
      ∀ X, k.memory.physpages X + owned cfg pt X ≤ k1.memory.physpages X := by
  unfold process_setup at h
  simp only at h
  rcases kalloc_pagetable_cases cfg hv.null_reserved k.memory with ha | ⟨pn, ma, -, hf, ha, hma⟩
  · rw [ha] at h
    exact absurd h (by simp)
  · rw [ha] at h
    simp only at h
    have hok0 : table_ok cfg ⟨pn * PAGESIZE, [], fun _ => pageentry.zero⟩ := by
      constructor
      · intro v hP
        exact absurd hP (by simp [pageentry.zero, Perm.zero])
      · intro v _ hP
        exact absurd hP (by simp [pageentry.zero, Perm.zero])
    have hJ0 : ∀ X, k.memory.physpages X
        + owned cfg ⟨pn * PAGESIZE, [], fun _ => pageentry.zero⟩ X ≤ ma.physpages X := by
      intro X
      rw [hma X, owned_eq]
      simp [fork_counts_zero, dir_pages, page_mul_div]
    cases h1 : process_setup_kernel cfg k.kernel_pagetable (page_range 0 cfg.PROC_START_ADDR)
        ma ⟨pn * PAGESIZE, [], fun _ => pageentry.zero⟩ with
    | error e => rw [h1] at h; exact absurd h (by simp)
    | ok r1 =>
      obtain ⟨m1, pt1⟩ := r1
      rw [h1] at h
      simp only at h
      obtain ⟨hok1, hJ1⟩ := process_setup_kernel_keeps cfg hv.null_reserved _ hk
        (fun X => k.memory.physpages X) _ (fun _ hva => hva) ma _ m1 pt1 hok0 hJ0 h1
      cases h2 : process_setup_segs cfg pgm.segs m1 pt1 with
      | error e => rw [h2] at h; exact absurd h (by simp)
      | ok r2 =>
        obtain ⟨m2, pt2⟩ := r2
        rw [h2] at h
        simp only at h
        obtain ⟨hok2, hJ2⟩ := process_setup_segs_keeps cfg hv (fun X => k.memory.physpages X)
          pgm.segs m1 pt1 m2 pt2 hok1 hJ1 h2
        generalize hm3 : ({ m2 with bytes := process_setup_copy pt2 pgm.segs m2.bytes } : Memory)
          = m3 at h
        have hJ3 : ∀ X, k.memory.physpages X + owned cfg pt2 X ≤ m3.physpages X := by
          intro X
          rw [← hm3]
          exact hJ2 X
        rcases kalloc_cases_nz cfg hv.null_reserved m3 PAGESIZE with hk3 | ⟨sn, -, hpa, hsf, hk3⟩
        · rw [hk3] at h
          simp at h
        · rw [hk3] at h
          have hne : (sn * PAGESIZE == 0) = false := by simpa using hpa
          simp only [hne, Bool.false_eq_true, if_false] at h
          cases h4 : vmiter_map cfg (m3.take sn) pt2 (cfg.MEMSIZE_VIRTUAL - PAGESIZE)
              (sn * PAGESIZE) (PTE_P ||| PTE_W ||| PTE_U) with
          | error e => rw [h4] at h; exact absurd h (by simp)
          | ok r4 =>
            obtain ⟨m4, pt3⟩ := r4
            rw [h4] at h
            simp only [Except.ok.injEq] at h
            obtain ⟨hok3, hJ4⟩ := setup_fresh_keeps cfg hv (fun X => k.memory.physpages X)
              m3 m4 pt2 pt3 _ sn _ hok2 hJ3 hsf rfl h4
            subst h
            refine ⟨pt3, ⟨0, 0, pgm.entry, cfg.MEMSIZE_VIRTUAL - PAGESIZE + PAGESIZE, 0, 0⟩,
              ?_, ?_, rfl, rfl, hok3, ?_⟩
            · simp [set_proc_ptable, regstate.init]
            · intro i hi
              simp [set_proc_ptable, hi]
            · intro X
              simp only [set_proc_memory]
              exact hJ4 X

/-- The function `process_setup` keeps the invariant. -/
theorem process_setup_keeps (cfg : Config) (hv : cfg.valid) (k k1 : Kernel) (pid : Nat)
    (pgm : program_image) (hinv : Inv cfg k) (h : process_setup cfg k pid pgm = .ok k1) :
    Inv cfg k1 := by
  obtain ⟨pt, regs, hslot, hoth, hc, hkp, hok, hm⟩ :=
    process_setup_inv cfg hv k k1 pid pgm hinv.kernel h
  refine ⟨?_, ?_, by rw [hkp]; exact hinv.kernel, ?_, by rw [hc]; exact hinv.cur⟩
  · intro X
    have h1 := owned_count_point cfg k k1 pid X (fun i hi => by rw [hoth i hi])
    have h2 := hinv.counts X
    have h3 := hm X
    have h4 : proc_count (fun pt => owned cfg pt X) (k1.ptable pid) = owned cfg pt X := by
      rw [hslot]
      exact proc_count_live _ _ pt (by simp) rfl
    rw [h4] at h1
    split at h1 <;> omega
  · intro i pt1 hst hpt
    by_cases hi : i = pid
    · subst hi
      rw [hslot] at hpt
      simp only [Option.some.injEq] at hpt
      subst hpt
      exact hok
    · rw [hoth i hi] at hst hpt
      exact hinv.tables i pt1 hst hpt
  · intro i hi
    by_cases hip : i = pid
    · subst hip
      rw [hslot]
      exact hinv.pids i hi
    · rw [hoth i hip]
      exact hinv.pids i hi

/-- The `process_setup` calls of `kernel_start` keep the invariant. -/
theorem kernel_start_procs_keeps (cfg : Config) (hv : cfg.valid) (l : List program_image) :
    ∀ (pid : Nat) (k k1 : Kernel), Inv cfg k → kernel_start_procs cfg l pid k = .ok k1 →
      Inv cfg k1 := by
  induction l with
  | nil =>
    intro pid k k1 hinv h
    unfold kernel_start_procs at h
    simp only [Except.ok.injEq] at h
    subst h
    exact hinv
  | cons pgm rest ih =>
    intro pid k k1 hinv h
    unfold kernel_start_procs at h
    cases h1 : process_setup cfg k pid pgm with
    | error e => rw [h1] at h; exact absurd h (by simp)
    | ok k2 =>
      rw [h1] at h
      simp only at h
      exact ih (pid + 1) k2 k1 (process_setup_keeps cfg hv k k2 pid pgm hinv h1) h

/-- Choosing another slot as `current` keeps the invariant. -/
theorem inv_run (cfg : Config) (k : Kernel) (p : Nat) (hp : p < cfg.PID_MAX)
    (hinv : Inv cfg k) : Inv cfg { k with current := p } :=
  ⟨hinv.counts, hinv.tables, hinv.kernel, hinv.pids, hp⟩

/-! ## The invariant holds after `kernel_start`, and in every reachable state -/

/-- What the mapping loop of `kernel_start` leaves in the kernel table: entries
outside the visited pages are untouched, and the entry of a visited address is
either not present, or maps the address onto itself, not copy-on-write-pending,
and user-accessible only for the console and from `PROC_START_ADDR` on. -/
theorem kernel_start_map_spec (cfg : Config) (h0 : cfg.allocatable_physical_address 0 = false)
    (l : List Nat) :
    ∀ (m : Memory) (kpt : x86_64_pagetable) (m2 : Memory) (kpt2 : x86_64_pagetable),
      kernel_start_map cfg l m kpt = .ok (m2, kpt2) → (l.map (fun a => a / PAGESIZE)).Nodup →
      (∀ v, v ∉ l.map (fun a => a / PAGESIZE) → kpt2.entry v = kpt.entry v) ∧
      ∀ a ∈ l, (kpt2.entry (a / PAGESIZE)).perm.P = false ∨
        ((kpt2.entry (a / PAGESIZE)).pa = a ∧ (kpt2.entry (a / PAGESIZE)).perm.C = false ∧
          ((kpt2.entry (a / PAGESIZE)).perm.U = true →
            ¬ (a < cfg.PROC_START_ADDR ∧ a ≠ cfg.CONSOLE_ADDR))) := by
  induction l with
  | nil =>
    intro m kpt m2 kpt2 h _
    unfold kernel_start_map at h
    simp only [Except.ok.injEq, Prod.mk.injEq] at h
    obtain ⟨-, rfl⟩ := h
    exact ⟨fun _ _ => rfl, fun a ha => absurd ha (List.not_mem_nil a)⟩
  | cons a rest ih =>
    intro m kpt m2 kpt2 h hnd
    unfold kernel_start_map at h
    simp only at h
    rw [List.map_cons, List.nodup_cons] at hnd
    obtain ⟨perm, hperm⟩ : ∃ perm : Perm, perm = (if (a == 0) = true then Perm.zero
        else if (decide (a < cfg.PROC_START_ADDR) && a != cfg.CONSOLE_ADDR) = true
          then PTE_P ||| PTE_W else PTE_P ||| PTE_W ||| PTE_U) := ⟨_, rfl⟩
    rw [← hperm] at h
    have hgood : perm.P = false ∨ (perm.C = false ∧
        (perm.U = true → ¬ (a < cfg.PROC_START_ADDR ∧ a ≠ cfg.CONSOLE_ADDR))) := by
      rw [hperm]
      by_cases hb0 : (a == 0) = true
      · left; rw [if_pos hb0]; rfl
      · rw [if_neg hb0]
        by_cases hb1 : (decide (a < cfg.PROC_START_ADDR) && a != cfg.CONSOLE_ADDR) = true
        · rw [if_pos hb1]
          right
          exact ⟨rfl, fun hU => absurd hU (by decide)⟩
        · rw [if_neg hb1]
          right
          refine ⟨rfl, fun _ hc => hb1 ?_⟩
          simp [hc.1, hc.2]
    by_cases hz : ((try_map cfg m kpt a a perm).1 == 0) = true
    · rw [if_pos hz] at h
      obtain ⟨i1, i2⟩ := ih (try_map cfg m kpt a a perm).2.1 (try_map cfg m kpt a a perm).2.2
        m2 kpt2 h hnd.2
      obtain ⟨new, -, -, -, -, -, -, -, t8⟩ := try_map_spec cfg h0 m kpt a a perm _ rfl
      have hhere := i1 (a / PAGESIZE) hnd.1
      refine ⟨?_, ?_⟩
      · intro v hv
        rw [List.map_cons, List.mem_cons, not_or] at hv
        rw [i1 v hv.2]
        exact t8 v hv.1
      · intro b hb
        rcases List.mem_cons.1 hb with rfl | hb
        · rw [hhere]
          rcases try_map_entry_cases cfg h0 m kpt b b perm with he | ⟨he, hP | hr⟩
          · rw [he]
            simp only [Function.update_same]
            rcases hgood with hg | hg
            · exact Or.inl hg
            · exact Or.inr ⟨trivial, hg⟩
          · rw [he]; exact Or.inl hP
          · exact absurd (by simpa using hz) hr
        · exact i2 b hb
    · rw [if_neg hz] at h
      exact absurd h (by simp)

/-- The page numbers of `page_range 0 stop` are distinct. -/
theorem page_range_nodup (stop : Nat) :
    ((page_range 0 stop).map (fun a => a / PAGESIZE)).Nodup := by
  unfold page_range
  rw [List.map_map]
  have : ((fun a => a / PAGESIZE) ∘ fun i => 0 + i * PAGESIZE) = id := by
    funext i
    simp [PAGESIZE]
  rw [this, List.map_id]
  exact List.nodup_range _

/-- The kernel table that the mapping loop of `kernel_start` leaves has the
shape `kernel_table_ok`. -/
theorem kernel_start_map_table_ok (cfg : Config) (hv : cfg.valid) (m m2 : Memory)
    (kpt kpt2 : x86_64_pagetable)
    (h : kernel_start_map cfg (page_range 0 cfg.MEMSIZE_PHYSICAL) m kpt = .ok (m2, kpt2)) :
    kernel_table_ok cfg kpt2 := by
  obtain ⟨-, hg⟩ := kernel_start_map_spec cfg hv.null_reserved _ m kpt m2 kpt2 h
    (page_range_nodup _)
  intro va hva
  obtain ⟨hal, hlt⟩ := (mem_page_range _ _).1 hva
  have hmem : va ∈ page_range 0 cfg.MEMSIZE_PHYSICAL :=
    (mem_page_range _ _).2 ⟨hal, lt_of_lt_of_le hlt hv.proc_start_le⟩
  rcases hg va hmem with hP | ⟨hpa, hC, hU⟩
  · constructor
    · intro hu
      rw [vmiter_user_eq, hP] at hu
      exact absurd hu (by simp)
    · unfold vmiter_perm
      rw [hP]
      rfl
  · constructor
    · intro hu
      rw [vmiter_user_eq] at hu
      simp only [Bool.and_eq_true] at hu
      have hcon : va = cfg.CONSOLE_ADDR := by
        by_contra hne
        exact hU hu.2 ⟨hlt, hne⟩
      refine ⟨hcon, ?_⟩
      rw [vmiter_pa_of_present kpt2 va hal hu.1, hpa]
      exact hcon
    · unfold vmiter_perm
      split
      · exact hC
      · rfl

/-- The state that `kernel_start` hands to its first `run` satisfies the
invariant. -/
theorem kernel_start_inv (cfg : Config) (hv : cfg.valid) (kpt : x86_64_pagetable)
    (bytes : Nat → Nat) (programs : List program_image) (k : Kernel)
    (h : kernel_start cfg kpt bytes programs = .ok k) : Inv cfg k := by
  unfold kernel_start at h
  simp only at h
  cases h1 : kernel_start_map cfg (page_range 0 cfg.MEMSIZE_PHYSICAL) (boot_state kpt bytes).memory
      kpt with
  | error e => rw [h1] at h; exact absurd h (by simp)
  | ok r =>
    obtain ⟨m, kpt1⟩ := r
    rw [h1] at h
    simp only at h
    have hk := kernel_start_map_table_ok cfg hv _ m kpt kpt1 h1
    split at h
    · exact absurd h (by simp)
    · rename_i k2 h2
      have hinv2 := kernel_start_procs_keeps cfg hv programs 1 _ k2 ?_ h2
      · split at h
        · simp only [Except.ok.injEq] at h
          subst h
          exact inv_run cfg k2 1 hv.two_slots hinv2
        · exact absurd h (by simp)
      · have hfree : ∀ i, ((if i < cfg.PID_MAX then
            (⟨i, P_FREE, ((boot_state kpt bytes).ptable i).regs,
              ((boot_state kpt bytes).ptable i).pagetable⟩ : proc)
            else (boot_state kpt bytes).ptable i)).state = P_FREE := by
          intro i
          split
          · rfl
          · rfl
        refine ⟨?_, ?_, hk, ?_, ?_⟩
        · intro X
          have h0 := sum_range_le cfg.PID_MAX (fun _ => 0)
            (fun i => proc_count (fun pt => owned cfg pt X)
              (if i < cfg.PID_MAX then
                (⟨i, P_FREE, ((boot_state kpt bytes).ptable i).regs,
                  ((boot_state kpt bytes).ptable i).pagetable⟩ : proc)
              else (boot_state kpt bytes).ptable i))
            (fun i _ => by
              show proc_count _ _ ≤ 0
              rw [proc_count_free _ _ (hfree i)])
          refine le_trans (le_of_eq ?_) (Nat.zero_le _)
          unfold owned_count
          simpa using h0
        · intro i pt hst
          exact absurd (hfree i) hst
        · intro i hi
          simp [hi]
        · exact lt_trans Nat.zero_lt_one hv.two_slots

/-- Every reachable state satisfies the invariant. -/
theorem reachable_inv (cfg : Config) (hv : cfg.valid) (k : Kernel) (hr : Reachable cfg k) :
    Inv cfg k := by
  induction hr with
  | boot kpt bytes programs k h => exact kernel_start_inv cfg hv kpt bytes programs k h
  | page_alloc k k1 addr r _ hrun h ih =>
    exact syscall_page_alloc_keeps cfg hv k k1 addr r ih hrun h
  | fork k k1 r _ hrun h ih => exact sys_fork_keeps cfg hv k k1 r ih hrun h
  | exit k k1 r _ _ h ih => exact sys_exit_keeps cfg k k1 _ r ih h
  | kill k k1 pid r _ _ h ih => exact sys_exit_keeps cfg k k1 pid r ih h
  | exception k k1 regs cr2 n _ hrun h ih => exact exception_keeps cfg hv k k1 regs cr2 n ih hrun h
  | save k regs _ _ ih => exact inv_save cfg k regs ih
  | run k p _ hp _ ih => exact inv_run cfg k p hp ih

/-- The counted user mappings are among the uses. -/
theorem mapping_count_le_owned_count (cfg : Config) (k : Kernel) (X : Nat) :
    mapping_count cfg k X ≤ owned_count cfg k X := by
  unfold mapping_count owned_count
  apply sum_range_le
  intro i _
  unfold proc_count
  split
  · exact le_refl _
  · split
    · exact le_refl _
    · rename_i pt _
      show cfg.vas.countP (fun va => maps_page cfg pt va X) ≤ owned cfg pt X
      unfold owned
      omega

/-- A counted user mapping of a live process is one of the counted pairs. -/
theorem mapping_count_pos (cfg : Config) (k : Kernel) (i : Nat) (pt : x86_64_pagetable)
    (va X : Nat) (hi : i < cfg.PID_MAX) (hst : (k.ptable i).state ≠ P_FREE)
    (hpt : (k.ptable i).pagetable = some pt) (hva : va ∈ cfg.vas)
    (hm : maps_page cfg pt va X = true) : 0 < mapping_count cfg k X := by
  have h1 := sum_range_point cfg.PID_MAX i
    (fun j => proc_count (fun pt => cfg.vas.countP (fun va => maps_page cfg pt va X)) (k.ptable j))
    (fun j => if j = i then 0
      else proc_count (fun pt => cfg.vas.countP (fun va => maps_page cfg pt va X)) (k.ptable j))
    (fun j hj => by simp [hj])
  simp only [hi, if_true] at h1
  have h2 : 0 < proc_count (fun pt => cfg.vas.countP (fun va => maps_page cfg pt va X))
      (k.ptable i) := by
    rw [proc_count_live _ _ pt hst hpt]
    exact List.countP_pos_iff.2 ⟨va, hva, hm⟩
  unfold mapping_count
  omega

/-! ## The kernel as built after boot -/

/-- The kernel as built satisfies the assumptions on the configuration. -/
theorem weensyos_valid : weensyos.valid :=
  ⟨by decide, by decide, by decide, by decide⟩

set_option maxRecDepth 1000000 in
/-- Booting the kernel as built with the program `img0` succeeds; afterwards
process 1 is runnable, its table maps the console page user-accessible onto
itself, and the console page's reference count is 0. -/
theorem boot_facts :
    (kernel_start weensyos kpt0 (fun _ => 0) [img0]).toOption.isSome = true ∧
    (k_boot.ptable 1).state = P_RUNNABLE ∧
    ((k_boot.ptable 1).pagetable.map
      (fun pt => (vmiter_user pt 0xB8000, vmiter_pa pt 0xB8000))) = some (true, 0xB8000) ∧
    k_boot.memory.physpages 0xB8 = 0 := by
  decide!

/-- The state `k_boot` is reachable. -/
theorem k_boot_reachable : Reachable weensyos k_boot :=
  Reachable.boot kpt0 (fun _ => 0) [img0] k_boot
    (except_ok_of_isSome (kernel_start weensyos kpt0 (fun _ => 0) [img0]) k_small boot_facts.1)

/-! ## C20: `kalloc` against its reference definition -/

/-- The first index below `n` that satisfies `p`, as `List.find?` over
`List.range n` computes it. -/
theorem find_range_spec (p : Nat → Bool) (n : Nat) :
    ((List.range n).find? p = none ∧ ∀ j, j < n → p j = false) ∨
    ∃ q, (List.range n).find? p = some q ∧ q < n ∧ p q = true ∧ ∀ j, j < q → p j = false := by
  induction n with
  | zero => left; exact ⟨rfl, fun j hj => absurd hj (Nat.not_lt_zero j)⟩
  | succ n ih =>
    rw [List.range_succ, List.find?_append]
    rcases ih with ⟨h1, h2⟩ | ⟨q, h1, h2, h3, h4⟩
    · rw [h1]
      by_cases hn : p n = true
      · right
        exact ⟨n, by simp [hn], Nat.lt_succ_self n, hn, h2⟩
      · left
        refine ⟨by simp [hn], ?_⟩
        intro j hj
        rcases Nat.lt_succ_iff_lt_or_eq.1 hj with h | h
        · exact h2 j h
        · subst h; simpa using hn
    · right
      exact ⟨q, by rw [h1]; rfl, Nat.lt_succ_of_lt h2, h3, h4⟩

/-- The memory after `kalloc` has taken a page of count 0, in the words of the
reference definition. -/
theorem take_eq_ref (m : Memory) (pn : Nat) (h : m.physpages pn = 0) :
    m.take pn =
      ⟨fun X => if X = pn then 1 else m.physpages X,
       fun a => if pn * PAGESIZE ≤ a ∧ a < pn * PAGESIZE + 4096 then 0xCC else m.bytes a⟩ := by
  unfold Memory.take
  congr 1
  funext X
  simp only [Function.update_apply]
  split
  · next hX => subst hX; rw [h]
  · rfl

/-- C20. `kalloc(sz)` equals the reference definition `kalloc_ref`: a request
above `PAGESIZE` returns `nullptr`; any other request returns the address of
the lowest-numbered page that is allocatable with reference count 0, sets its
count to 1 and fills its 4096 bytes with 0xCC, or returns `nullptr` when no
page qualifies.  The counts of all other pages and the bytes outside the
returned page are unchanged, and, page 0 being reserved, a `nullptr` return
leaves memory exactly as it was. -/
theorem kalloc_refines_reference (cfg : Config) (m : Memory) (sz : Nat) :
    kalloc cfg m sz = kalloc_ref cfg m sz ∧
    (∀ X, X ≠ (kalloc cfg m sz).1 / PAGESIZE →
      (kalloc cfg m sz).2.physpages X = m.physpages X) ∧
    (∀ a, ¬ ((kalloc cfg m sz).1 ≤ a ∧ a < (kalloc cfg m sz).1 + PAGESIZE) →
      (kalloc cfg m sz).2.bytes a = m.bytes a) ∧
    (cfg.allocatable_physical_address 0 = false → (kalloc cfg m sz).1 = 0 →
      (kalloc cfg m sz).2 = m) := by
  have hframe : (∀ X, X ≠ (kalloc cfg m sz).1 / PAGESIZE →
      (kalloc cfg m sz).2.physpages X = m.physpages X) ∧
    (∀ a, ¬ ((kalloc cfg m sz).1 ≤ a ∧ a < (kalloc cfg m sz).1 + PAGESIZE) →
      (kalloc cfg m sz).2.bytes a = m.bytes a) ∧
    (cfg.allocatable_physical_address 0 = false → (kalloc cfg m sz).1 = 0 →
      (kalloc cfg m sz).2 = m) := by
    rcases kalloc_cases cfg m sz with h | ⟨pn, hf, h⟩
    · rw [h]
      exact ⟨fun _ _ => rfl, fun _ _ => rfl, fun _ _ => rfl⟩
    · rw [h]
      refine ⟨?_, ?_, ?_⟩
      · intro X hX
        rw [page_mul_div] at hX
        rw [take_physpages m pn X (free_page_count cfg m pn hf), if_neg hX]
        rfl
      · intro a ha
        simp only [Memory.take, memset]
        rw [if_neg ha]
      · intro h0 hz
        exfalso
        simp only [PAGESIZE] at hz
        have hpn : pn = 0 := by omega
        subst hpn
        have := free_page_alloc cfg m 0 hf
        simp only [Nat.zero_mul] at this
        rw [h0] at this
        exact absurd this (by decide)
  refine ⟨?_, hframe⟩
  unfold kalloc_ref
  by_cases hsz : sz > PAGESIZE
  · rw [if_pos hsz]
    unfold kalloc
    rw [if_pos hsz]
  · rw [if_neg hsz]
    rcases find_range_spec (fun pn =>
        cfg.allocatable_physical_address (pn * PAGESIZE) && m.physpages pn == 0) cfg.NPAGES
      with ⟨h1, h2⟩ | ⟨q, h1, h2, h3, h4⟩
    · rw [h1]
      exact kalloc_none cfg m sz (fun pn hpn => h2 pn hpn)
    · rw [h1]
      simp only
      obtain ⟨q', hle, hq', hmin, hk⟩ := kalloc_some cfg m sz (by omega) q h2 h3
      have hqq : q' = q := by
        rcases Nat.lt_or_ge q' q with hlt | hge
        · have := h4 q' hlt
          unfold free_page at hq'
          rw [hq'] at this
          exact absurd this (by decide)
        · omega
      subst hqq
      rw [hk, take_eq_ref m q' (free_page_count cfg m q' hq')]

set_option maxRecDepth 1000000 in
/-- Witness for C20: in the memory of `k_small`, where pages 1 to 7 are in
use, a one-page request returns page 8 and a request of two pages returns
`nullptr` and changes nothing. -/
theorem kalloc_refines_reference_witness :
    kalloc weensyos k_small.memory PAGESIZE = kalloc_ref weensyos k_small.memory PAGESIZE ∧
    (kalloc_ref weensyos k_small.memory PAGESIZE).1 = 0x8000 ∧
    weensyos.allocatable_physical_address 0 = false ∧
    (kalloc weensyos k_small.memory (2 * PAGESIZE)).1 = 0 ∧
    (kalloc weensyos k_small.memory (2 * PAGESIZE)).2 = k_small.memory :=
  ⟨(kalloc_refines_reference weensyos k_small.memory PAGESIZE).1, by decide!, by decide,
    by decide,
    (kalloc_refines_reference weensyos k_small.memory (2 * PAGESIZE)).2.2.2 (by decide)
      (by decide)⟩

/-! ## C18, C19: the slot `sys_fork` chooses -/

/-- The first element of `List.range' s n` that satisfies `p`. -/
theorem find_range'_spec (p : Nat → Bool) (n : Nat) :
    ∀ s, ((List.range' s n).find? p = none ∧ ∀ j, s ≤ j → j < s + n → p j = false) ∨
      ∃ q, (List.range' s n).find? p = some q ∧ s ≤ q ∧ q < s + n ∧ p q = true ∧
        ∀ j, s ≤ j → j < q → p j = false := by
  induction n with
  | zero =>
    intro s
    left
    exact ⟨rfl, fun j h1 h2 => by omega⟩
  | succ n ih =>
    intro s
    rw [List.range'_succ, List.find?_cons]
    by_cases hs : p s = true
    · right
      rw [hs]
      exact ⟨s, rfl, le_refl _, by omega, hs, fun j h1 h2 => by omega⟩
    · have hs' : p s = false := by simpa using hs
      rw [hs']
      rcases ih (s + 1) with ⟨h1, h2⟩ | ⟨q, h1, h2, h3, h4, h5⟩
      · left
        refine ⟨h1, ?_⟩
        intro j hj1 hj2
        rcases Nat.eq_or_lt_of_le hj1 with h | h
        · rw [← h]; exact hs'
        · exact h2 j h (by omega)
      · right
        refine ⟨q, h1, by omega, by omega, h4, ?_⟩
        intro j hj1 hj2
        rcases Nat.eq_or_lt_of_le hj1 with h | h
        · rw [← h]; exact hs'
        · exact h5 j h hj2

/-- The search loop of `sys_fork` returns 0 when no slot from 1 on is free,
and the lowest free slot from 1 on otherwise. -/
theorem sys_fork_find_spec (cfg : Config) (k : Kernel) :
    (sys_fork_find cfg k = 0 ∧
      ∀ j, 1 ≤ j → j < cfg.PID_MAX → (k.ptable j).state ≠ P_FREE) ∨
    (1 ≤ sys_fork_find cfg k ∧ sys_fork_find cfg k < cfg.PID_MAX ∧
      (k.ptable (sys_fork_find cfg k)).state = P_FREE ∧
      ∀ j, 1 ≤ j → j < sys_fork_find cfg k → (k.ptable j).state ≠ P_FREE) := by
  unfold sys_fork_find
  rcases find_range'_spec (fun i => (k.ptable i).state == P_FREE) (cfg.PID_MAX - 1) 1 with
    ⟨h1, h2⟩ | ⟨q, h1, h2, h3, h4, h5⟩
  · left
    rw [h1]
    refine ⟨rfl, ?_⟩
    intro j hj1 hj2
    have := h2 j hj1 (by omega)
    simpa using this
  · right
    rw [h1]
    simp only [Option.getD_some]
    refine ⟨h2, by omega, by simpa using h4, ?_⟩
    intro j hj1 hj2
    have := h5 j hj1 hj2
    simpa using this

/-- C19. When no slot in `1 .. PID_MAX - 1` is free, `sys_fork` returns -1 and
the kernel state is exactly what it was: no descriptor, no page-table entry
and no reference count has changed. -/
theorem sys_fork_no_free_slot (cfg : Config) (k : Kernel)
    (h : ∀ j, 1 ≤ j → j < cfg.PID_MAX → (k.ptable j).state ≠ P_FREE) :
    sys_fork cfg k = .ok (-1, k) := by
  rcases sys_fork_find_spec cfg k with ⟨hf, -⟩ | ⟨h1, h2, h3, -⟩
  · unfold sys_fork
    simp [hf]
  · exact absurd h3 (h _ h1 h2)

/-- Witness for C19: in `k_crowded` every slot from 1 on is runnable. -/
theorem sys_fork_no_free_slot_witness :
    (∀ j, 1 ≤ j → j < weensyos.PID_MAX → (k_crowded.ptable j).state ≠ P_FREE) ∧
    sys_fork weensyos k_crowded = .ok (-1, k_crowded) :=
  ⟨fun j h1 _ => by
      have hj : j ≠ 0 := by omega
      simp [k_crowded, hj],
    sys_fork_no_free_slot weensyos k_crowded (fun j h1 _ => by
      have hj : j ≠ 0 := by omega
      simp [k_crowded, hj])⟩

/-- C18. When a slot in `1 .. PID_MAX - 1` is free and the allocations of
`sys_fork` succeed (the child's top-level page is allocated and every mapping
is installed), `sys_fork` returns the smallest free slot index `c`, with
`c ≥ 1`; afterwards slot `c` is runnable, its saved registers are the parent's
saved registers with `rax` set to 0, and the parent's saved registers and
state are unchanged. -/
theorem sys_fork_returns_lowest_free_slot (cfg : Config) (k : Kernel)
    (src dst0 src1 dst1 : x86_64_pagetable) (m0 m1 : Memory)
    (hfree : ∃ j, 1 ≤ j ∧ j < cfg.PID_MAX ∧ (k.ptable j).state = P_FREE)
    (hpid : (k.ptable k.current).pid = k.current)
    (hrun : (k.ptable k.current).state = P_RUNNABLE)
    (hsrc : (k.ptable k.current).pagetable = some src)
    (halloc : kalloc_pagetable cfg k.memory = (some dst0, m0))
    (hloop : sys_fork_loop cfg cfg.vas m0 src dst0 = .ok (true, m1, src1, dst1)) :
    ∃ (c : Nat) (k1 : Kernel),
      sys_fork cfg k = .ok ((c : Int), k1) ∧ 1 ≤ c ∧ c < cfg.PID_MAX ∧
      (k.ptable c).state = P_FREE ∧
      (∀ j, 1 ≤ j → j < c → (k.ptable j).state ≠ P_FREE) ∧
      (k1.ptable c).state = P_RUNNABLE ∧
      (k1.ptable c).regs = { (k.ptable k.current).regs with reg_rax := 0 } ∧
      (k1.ptable k.current).regs = (k.ptable k.current).regs ∧
      (k1.ptable k.current).state = (k.ptable k.current).state := by
  rcases sys_fork_find_spec cfg k with ⟨-, hno⟩ | ⟨hf1, hf2, hf3, hmin⟩
  · obtain ⟨j, a, b, c⟩ := hfree
    exact absurd c (hno j a b)
  · have hlt : ¬ sys_fork_find cfg k < 1 := by omega
    have hne : sys_fork_find cfg k ≠ k.current := by
      intro he; rw [he, hrun] at hf3; exact absurd hf3 (by decide)
    refine ⟨sys_fork_find cfg k, ?_⟩
    apply Exists.intro
    apply And.intro
    · unfold sys_fork
      simp only [hlt, if_false, halloc, set_proc_ptable, set_proc_current, set_proc_memory,
        if_neg hne.symm, hpid, hsrc, hloop, if_true]
      rfl
    · refine ⟨hf1, hf2, hf3, hmin, ?_, ?_, ?_, ?_⟩
      · simp [set_proc_ptable]
      · simp [set_proc_ptable, hne.symm]
      · simp [set_proc_ptable, hne.symm]
      · simp [set_proc_ptable, hne.symm]

set_option maxRecDepth 1000000 in
/-- Witness for C18: process 1 of `k_small` forks; slot 2 is free and the
allocations succeed. -/
theorem sys_fork_returns_lowest_free_slot_witness :
    (∃ j, 1 ≤ j ∧ j < weensyos.PID_MAX ∧ (k_small.ptable j).state = P_FREE) ∧
    (k_small.ptable k_small.current).state = P_RUNNABLE ∧
    (kalloc_pagetable weensyos k_small.memory).1.isSome = true ∧
    ∃ (c : Nat) (k1 : Kernel),
      sys_fork weensyos k_small = .ok ((c : Int), k1) ∧ 1 ≤ c ∧ c < weensyos.PID_MAX ∧
      (k_small.ptable c).state = P_FREE ∧
      (∀ j, 1 ≤ j → j < c → (k_small.ptable j).state ≠ P_FREE) ∧
      (k1.ptable c).state = P_RUNNABLE ∧
      (k1.ptable c).regs = { (k_small.ptable k_small.current).regs with reg_rax := 0 } ∧
      (k1.ptable k_small.current).regs = (k_small.ptable k_small.current).regs ∧
      (k1.ptable k_small.current).state = (k_small.ptable k_small.current).state := by
  have hfree : ∃ j, 1 ≤ j ∧ j < weensyos.PID_MAX ∧ (k_small.ptable j).state = P_FREE :=
    ⟨2, by decide, by decide, by decide⟩
  have hk : (kalloc_pagetable weensyos k_small.memory).1.isSome = true := by decide!
  have hl : ((sys_fork_loop weensyos weensyos.vas (kalloc_pagetable weensyos k_small.memory).2
      pt_small (((kalloc_pagetable weensyos k_small.memory).1).getD pt_small)).toOption.map
        Prod.fst) = some true := by decide!
  have halloc := option_some_of_isSome _ pt_small hk
  have hloop := except_ok_of_fst _ true (k_small.memory, pt_small, pt_small) hl
  exact ⟨hfree, by decide, hk,
    sys_fork_returns_lowest_free_slot weensyos k_small pt_small _ _ _ _ _ hfree rfl
      (by decide) rfl (Prod.ext halloc rfl) hloop⟩

/-! ## C14: `schedule` -/

/-- The remainder of a number below `2 * M`. -/
theorem mod_of_lt_two_mul (x M : Nat) (h : x < 2 * M) :
    x % M = if x < M then x else x - M := by
  split
  · next hx => exact Nat.mod_eq_of_lt hx
  · next hx =>
    rw [Nat.mod_eq_sub_mod (by omega)]
    exact Nat.mod_eq_of_lt (by omega)

/-- Every slot is met within `M` steps of the circular scan from `c`. -/
theorem add_mod_reach (c M i : Nat) (hi : i < M) :
    ∃ j, 1 ≤ j ∧ j ≤ M ∧ (c + j) % M = i := by
  have hM : 0 < M := by omega
  have hc := Nat.mod_add_div c M
  have hlt := Nat.mod_lt c hM
  by_cases h : c % M < i
  · refine ⟨i - c % M, by omega, by omega, ?_⟩
    have e : c + (i - c % M) = i + M * (c / M) := by
      generalize c / M = q at hc
      generalize c % M = r at *
      rw [← hc]
      omega
    rw [e, Nat.add_mul_mod_self_left, Nat.mod_eq_of_lt hi]
  · refine ⟨i + M - c % M, by omega, by omega, ?_⟩
    have e : c + (i + M - c % M) = i + M + M * (c / M) := by
      generalize c / M = q at hc
      generalize c % M = r at *
      rw [← hc]
      omega
    rw [e, Nat.add_mul_mod_self_left, Nat.add_mod_right, Nat.mod_eq_of_lt hi]

/-- One step of the scan: the slot after `(c + 1) % M` by `j` is the slot after
`c` by `j + 1`. -/
theorem scan_step (c M j : Nat) : ((c + 1) % M + j) % M = (c + (j + 1)) % M := by
  rw [Nat.mod_add_mod]
  congr 1
  omega

/-- The loop of `schedule` has met no runnable slot after `fuel` iterations
exactly when the first `fuel` slots of the scan are not runnable. -/
theorem schedule_loop_none (cfg : Config) (k : Kernel) (fuel : Nat) :
    ∀ c, (∀ j, 1 ≤ j → j ≤ fuel → (k.ptable ((c + j) % cfg.PID_MAX)).state ≠ P_RUNNABLE) →
      schedule_loop cfg k fuel c = none := by
  induction fuel with
  | zero => intro c _; rfl
  | succ n ih =>
    intro c h
    unfold schedule_loop
    have h1 := h 1 (le_refl _) (by omega)
    have h1' : ((k.ptable ((c + 1) % cfg.PID_MAX)).state == P_RUNNABLE) = false := by
      simpa using h1
    rw [h1']
    simp only [Bool.false_eq_true, if_false]
    apply ih
    intro j hj1 hj2
    rw [scan_step]
    exact h (j + 1) (by omega) (by omega)

/-- The loop of `schedule` stops at the first runnable slot of the scan. -/
theorem schedule_loop_some (cfg : Config) (k : Kernel) (fuel : Nat) :
    ∀ c j, 1 ≤ j → j ≤ fuel → (k.ptable ((c + j) % cfg.PID_MAX)).state = P_RUNNABLE →
      (∀ i, 1 ≤ i → i < j → (k.ptable ((c + i) % cfg.PID_MAX)).state ≠ P_RUNNABLE) →
      schedule_loop cfg k fuel c = some ((c + j) % cfg.PID_MAX) := by
  induction fuel with
  | zero => intro c j h1 h2; omega
  | succ n ih =>
    intro c j hj1 hj2 hrun hmin
    unfold schedule_loop
    by_cases hj : j = 1
    · subst hj
      rw [hrun]
      simp
    · have h1 := hmin 1 (le_refl _) (by omega)
      have h1' : ((k.ptable ((c + 1) % cfg.PID_MAX)).state == P_RUNNABLE) = false := by
        simpa using h1
      rw [h1']
      simp only [Bool.false_eq_true, if_false]
      have := ih ((c + 1) % cfg.PID_MAX) (j - 1) (by omega) (by omega)
        (by rw [scan_step]; rw [Nat.sub_add_cancel hj1]; exact hrun)
        (fun i hi1 hi2 => by rw [scan_step]; exact hmin (i + 1) (by omega) (by omega))
      rw [this, scan_step, Nat.sub_add_cancel hj1]

/-- A slot that the loop of `schedule` returns is a runnable slot of the
table. -/
theorem schedule_loop_runnable (cfg : Config) (k : Kernel) (hM : 0 < cfg.PID_MAX) (fuel : Nat) :
    ∀ c p, schedule_loop cfg k fuel c = some p →
      p < cfg.PID_MAX ∧ (k.ptable p).state = P_RUNNABLE := by
  induction fuel with
  | zero => intro c p h; simp [schedule_loop] at h
  | succ n ih =>
    intro c p h
    unfold schedule_loop at h
    split at h
    · next hr =>
      simp only [Option.some.injEq] at h
      subst h
      exact ⟨Nat.mod_lt _ hM, by simpa using hr⟩
    · exact ih _ p h

/-- C14. With `c` the pid of the current process and `PID_MAX > 0`:
when some slot is runnable there is a least `j` in `1 .. PID_MAX` whose slot
`(c + j) % PID_MAX` is runnable, `schedule` resumes exactly that slot once its
loop has made `j` iterations (so within `PID_MAX` iterations) and nothing
before, and that slot is the current one only when no other slot is runnable;
when no slot is runnable `schedule` never resumes anything, however long it
spins; and whatever `schedule` resumes is a runnable slot of the table, so
never a free or faulted one, and its `run` does not stop at the assertion. -/
theorem schedule_resumes_next_runnable (cfg : Config) (k : Kernel) (hM : 0 < cfg.PID_MAX) :
    ((∃ i, i < cfg.PID_MAX ∧ (k.ptable i).state = P_RUNNABLE) →
      ∃ j, 1 ≤ j ∧ j ≤ cfg.PID_MAX ∧
        (k.ptable (((k.ptable k.current).pid + j) % cfg.PID_MAX)).state = P_RUNNABLE ∧
        (∀ i, 1 ≤ i → i < j →
          (k.ptable (((k.ptable k.current).pid + i) % cfg.PID_MAX)).state ≠ P_RUNNABLE) ∧
        (∀ fuel, j ≤ fuel → schedule cfg k fuel =
          some (.ok { k with current := ((k.ptable k.current).pid + j) % cfg.PID_MAX })) ∧
        (∀ fuel, fuel < j → schedule cfg k fuel = none) ∧
        (((k.ptable k.current).pid + j) % cfg.PID_MAX = (k.ptable k.current).pid →
          ∀ i, i < cfg.PID_MAX → i ≠ (k.ptable k.current).pid →
            (k.ptable i).state ≠ P_RUNNABLE)) ∧
    ((∀ i, i < cfg.PID_MAX → (k.ptable i).state ≠ P_RUNNABLE) →
      ∀ fuel, schedule cfg k fuel = none) ∧
    (∀ fuel r, schedule cfg k fuel = some r →
      ∃ p, p < cfg.PID_MAX ∧ (k.ptable p).state = P_RUNNABLE ∧
        r = .ok { k with current := p }) := by
  refine ⟨?_, ?_, ?_⟩
  · rintro ⟨i, hi, hrun⟩
    obtain ⟨j0, a, b, e⟩ := add_mod_reach (k.ptable k.current).pid cfg.PID_MAX i hi
    have hex : ∃ j, 1 ≤ j ∧
        (k.ptable (((k.ptable k.current).pid + j) % cfg.PID_MAX)).state = P_RUNNABLE :=
      ⟨j0, a, by rw [e]; exact hrun⟩
    classical
    have hspec := Nat.find_spec hex
    have hle : Nat.find hex ≤ j0 := Nat.find_min' hex ⟨a, by rw [e]; exact hrun⟩
    have hmin : ∀ i, 1 ≤ i → i < Nat.find hex →
        (k.ptable (((k.ptable k.current).pid + i) % cfg.PID_MAX)).state ≠ P_RUNNABLE := by
      intro i h1 h2 hr
      exact Nat.find_min hex h2 ⟨h1, hr⟩
    refine ⟨Nat.find hex, hspec.1, by omega, hspec.2, hmin, ?_, ?_, ?_⟩
    · intro fuel hf
      unfold schedule
      rw [schedule_loop_some cfg k fuel _ _ hspec.1 hf hspec.2 hmin]
      simp only [Option.map_some', run]
      rw [hspec.2]
      rfl
    · intro fuel hf
      unfold schedule
      rw [schedule_loop_none cfg k fuel _
        (fun i h1 h2 => hmin i h1 (by omega))]
      rfl
    · intro hself i hi hne
      have hc : (k.ptable k.current).pid < cfg.PID_MAX := by
        rw [← hself]; exact Nat.mod_lt _ hM
      have hj : Nat.find hex = cfg.PID_MAX := by
        have h2 := mod_of_lt_two_mul ((k.ptable k.current).pid + Nat.find hex) cfg.PID_MAX
          (by omega)
        rw [hself] at h2
        split at h2 <;> omega
      by_cases hlt : (k.ptable k.current).pid < i
      · have h3 := hmin (i - (k.ptable k.current).pid) (by omega) (by omega)
        have e3 : (k.ptable k.current).pid + (i - (k.ptable k.current).pid) = i := by omega
        rw [e3, Nat.mod_eq_of_lt hi] at h3
        exact h3
      · have h3 := hmin (i + cfg.PID_MAX - (k.ptable k.current).pid) (by omega) (by omega)
        have e3 : (k.ptable k.current).pid + (i + cfg.PID_MAX - (k.ptable k.current).pid)
            = i + cfg.PID_MAX := by omega
        rw [e3, Nat.add_mod_right, Nat.mod_eq_of_lt hi] at h3
        exact h3
  · intro hno fuel
    unfold schedule
    rw [schedule_loop_none cfg k fuel _ (fun j _ _ => hno _ (Nat.mod_lt _ hM))]
    rfl
  · intro fuel r h
    unfold schedule at h
    cases hl : schedule_loop cfg k fuel (k.ptable k.current).pid with
    | none => rw [hl] at h; simp at h
    | some p =>
      rw [hl] at h
      simp only [Option.map_some', Option.some.injEq] at h
      obtain ⟨hp, hr⟩ := schedule_loop_runnable cfg k hM fuel _ p hl
      refine ⟨p, hp, hr, ?_⟩
      rw [← h]
      unfold run
      rw [hr]
      rfl

set_option maxRecDepth 1000000 in
/-- Witness for C14: after process 1 of `k_small` has forked, processes 1 and 2
are runnable and process 1 is current; the first iteration of `schedule` meets
slot 2, and with only process 1 runnable (`k_small`) the scan comes back to
slot 1 in its 16th iteration. -/
theorem schedule_resumes_next_runnable_witness :
    0 < weensyos.PID_MAX ∧
    schedule_loop weensyos k_small_fork 1 (k_small_fork.ptable k_small_fork.current).pid
      = some 2 ∧
    schedule_loop weensyos k_small 15 (k_small.ptable k_small.current).pid = none ∧
    schedule_loop weensyos k_small 16 (k_small.ptable k_small.current).pid = some 1 ∧
    (∀ fuel r, schedule weensyos k_small_fork fuel = some r →
      ∃ p, p < weensyos.PID_MAX ∧ (k_small_fork.ptable p).state = P_RUNNABLE ∧
        r = .ok { k_small_fork with current := p }) :=
  ⟨by decide, by decide!, by decide!, by decide!,
    (schedule_resumes_next_runnable weensyos k_small_fork (by decide)).2.2⟩

/-! ## Well-formed tables: the second invariant -/

/-- The structure pages that the walk of `try_map` adds are non-null
page-aligned pages other than the console page. -/
theorem try_map_walk_dirs (cfg : Config) (hv : cfg.valid) (path : List (Nat × Nat)) :
    ∀ (m : Memory) (pt : x86_64_pagetable), ∀ d ∈ (try_map_walk cfg path m pt).2.2.dirs,
      d ∈ pt.dirs ∨ (d.addr ≠ 0 ∧ d.addr % PAGESIZE = 0 ∧ d.addr ≠ cfg.CONSOLE_ADDR) := by
  induction path with
  | nil => intro m pt d hd; exact Or.inl hd
  | cons lk rest ih =>
    intro m pt d hd
    unfold try_map_walk at hd
    by_cases hh : pt.has_dir lk = true
    · simp only [hh, if_true] at hd
      exact ih m pt d hd
    · simp only [hh, Bool.false_eq_true, if_false] at hd
      rcases kalloc_cases_nz cfg hv.null_reserved m PAGESIZE with h | ⟨pn, -, hpa, hf, h⟩
      · rw [h] at hd
        simp only [beq_self_eq_true, if_true] at hd
        exact Or.inl hd
      · rw [h] at hd
        have hne : (pn * PAGESIZE == 0) = false := by simpa using hpa
        simp only [hne, Bool.false_eq_true, if_false] at hd
        rcases ih _ _ d hd with h1 | h1
        · simp only [List.mem_append, List.mem_singleton] at h1
          rcases h1 with h1 | h1
          · exact Or.inl h1
          · right
            subst h1
            exact ⟨hpa, page_mul_mod pn, free_page_ne_console cfg hv.console_reserved m pn hf⟩
        · exact Or.inr h1

/-- The structure pages of the table after `try_map`. -/
theorem try_map_dirs (cfg : Config) (hv : cfg.valid) (m : Memory) (pt : x86_64_pagetable)
    (va pa : Nat) (perm : Perm) : ∀ d ∈ (try_map cfg m pt va pa perm).2.2.dirs,
      d ∈ pt.dirs ∨ (d.addr ≠ 0 ∧ d.addr % PAGESIZE = 0 ∧ d.addr ≠ cfg.CONSOLE_ADDR) := by
  intro d hd
  unfold try_map at hd
  split at hd
  · exact Or.inl hd
  · split at hd
    · simp only at hd
      split at hd
      · exact try_map_walk_dirs cfg hv _ m pt d hd
      · exact try_map_walk_dirs cfg hv _ m pt d hd
    · exact Or.inl hd

/-- A well-formed table stays well-formed under `try_map` of an entry that, if
user-accessible at an address other than `CONSOLE_ADDR`, points at a non-null
page-aligned address. -/
theorem table_wf_try_map (cfg : Config) (hv : cfg.valid) (m : Memory) (pt : x86_64_pagetable)
    (va pa : Nat) (perm : Perm) (hwf : table_wf cfg pt)
    (hpa : perm.P = true → perm.U = true → va / PAGESIZE * PAGESIZE ≠ cfg.CONSOLE_ADDR →
      pa ≠ 0 ∧ pa % PAGESIZE = 0) :
    table_wf cfg (try_map cfg m pt va pa perm).2.2 := by
  obtain ⟨w1, w2, w3⟩ := hwf
  obtain ⟨new, -, t2, -⟩ := try_map_spec cfg hv.null_reserved m pt va pa perm _ rfl
  refine ⟨by rw [t2]; exact w1, ?_, ?_⟩
  · intro d hd
    rcases try_map_dirs cfg hv m pt va pa perm d hd with h | h
    · exact w2 d h
    · exact h
  · intro v hlt hP hU hne
    rcases try_map_entry_cases cfg hv.null_reserved m pt va pa perm with he | ⟨he, -⟩
    · rw [he] at hP hU ⊢
      by_cases hvv : v = va / PAGESIZE
      · subst hvv
        simp only [Function.update_same] at hP hU ⊢
        exact hpa hP hU hne
      · simp only [Function.update_apply, hvv, if_false] at hP hU ⊢
        exact w3 v hlt hP hU hne
    · rw [he] at hP hU ⊢
      exact w3 v hlt hP hU hne

/-- A table stays well-formed when one entry is replaced by an entry pointing
at a non-null page-aligned address. -/
theorem table_wf_set_entry (cfg : Config) (pt : x86_64_pagetable) (v : Nat) (e : pageentry)
    (hwf : table_wf cfg pt)
    (hpa : v < cfg.NVPAGES → v * PAGESIZE ≠ cfg.CONSOLE_ADDR → e.pa ≠ 0 ∧ e.pa % PAGESIZE = 0) :
    table_wf cfg (pt.set_entry v e) := by
  obtain ⟨w1, w2, w3⟩ := hwf
  refine ⟨w1, w2, ?_⟩
  intro w hlt hP hU hne
  simp only [set_entry_entry] at hP hU ⊢
  by_cases hw : w = v
  · subst hw
    simp only [Function.update_same] at hP hU ⊢
    exact hpa hlt hne
  · simp only [Function.update_apply, hw, if_false] at hP hU ⊢
    exact w3 w hlt hP hU hne

/-- The second invariant carries over to a state in which one slot, not slot 0
unless it is free afterwards, has changed and, if not free, holds a
well-formed table. -/
theorem wf_update (cfg : Config) (k k1 : Kernel) (i : Nat) (hwf : Wf cfg k)
    (hoth : ∀ j, j ≠ i → k1.ptable j = k.ptable j)
    (hi : i ≠ 0 ∨ (k1.ptable i).state = P_FREE)
    (hnew : (k1.ptable i).state ≠ P_FREE →
      ∃ pt, (k1.ptable i).pagetable = some pt ∧ table_wf cfg pt) : Wf cfg k1 := by
  refine ⟨?_, ?_, ?_⟩
  · intro j hst
    by_cases hj : j = i
    · subst hj
      obtain ⟨pt, hpt, -⟩ := hnew hst
      rw [hpt]
      exact Option.some_ne_none pt
    · rw [hoth j hj] at hst ⊢
      exact hwf.live j hst
  · intro j pt hst hpt
    by_cases hj : j = i
    · subst hj
      obtain ⟨pt', hpt', hw⟩ := hnew hst
      rw [hpt'] at hpt
      simp only [Option.some.injEq] at hpt
      subst hpt
      exact hw
    · rw [hoth j hj] at hst hpt
      exact hwf.tables j pt hst hpt
  · rcases hi with hi | hi
    · rw [hoth 0 (fun h => hi h.symm)]
      exact hwf.slot0
    · by_cases h0 : (0 : Nat) = i
      · subst h0; exact hi
      · rw [hoth 0 h0]
        exact hwf.slot0

/-! ## The second invariant under the system calls -/

/-- The second invariant depends on the descriptors only. -/
theorem wf_of_same_ptable (cfg : Config) (k k1 : Kernel) (hwf : Wf cfg k)
    (h : k1.ptable = k.ptable) : Wf cfg k1 :=
  ⟨by rw [h]; exact hwf.live, by rw [h]; exact hwf.tables, by rw [h]; exact hwf.slot0⟩

/-- A runnable slot is not slot 0. -/
theorem wf_current_ne_zero (cfg : Config) (k : Kernel) (hwf : Wf cfg k) (i : Nat)
    (hst : (k.ptable i).state ≠ P_FREE) : i ≠ 0 := by
  rintro rfl
  exact hst hwf.slot0

/-- `syscall_page_alloc` keeps the second invariant. -/
theorem syscall_page_alloc_wf (cfg : Config) (hv : cfg.valid) (k k1 : Kernel) (addr : Nat)
    (r : Int) (hwf : Wf cfg k) (hrun : (k.ptable k.current).state = P_RUNNABLE)
    (h : syscall_page_alloc cfg k addr = .ok (r, k1)) : Wf cfg k1 := by
  have hst : (k.ptable k.current).state ≠ P_FREE := by rw [hrun]; decide
  unfold syscall_page_alloc at h
  split at h
  · simp only [Except.ok.injEq, Prod.mk.injEq] at h
    rw [← h.2]; exact hwf
  · rcases kalloc_cases_nz cfg hv.null_reserved k.memory PAGESIZE with hk | ⟨pn, -, hpa, hf, hk⟩
    · rw [hk] at h
      simp only [beq_self_eq_true, if_true, Except.ok.injEq, Prod.mk.injEq] at h
      rw [← h.2]; exact hwf
    · rw [hk] at h
      have hne : (pn * PAGESIZE == 0) = false := by simpa using hpa
      simp only [hne, Bool.false_eq_true, if_false] at h
      cases hpt : (k.ptable k.current).pagetable with
      | none => simp [hpt] at h
      | some pt =>
        simp only [hpt] at h
        split at h
        · simp only [Except.ok.injEq, Prod.mk.injEq] at h
          obtain ⟨-, rfl⟩ := h
          refine wf_update cfg k _ k.current hwf ?_
            (Or.inl (wf_current_ne_zero cfg k hwf _ hst)) ?_
          · intro j hj
            simp [set_proc_ptable, hj]
          · intro _
            refine ⟨(try_map cfg (k.memory.take pn) pt addr (pn * PAGESIZE)
              (PTE_P ||| PTE_U ||| PTE_W)).2.2, by simp [set_proc_ptable], ?_⟩
            exact table_wf_try_map cfg hv _ pt addr _ _ (hwf.tables _ pt hst hpt)
              (fun _ _ _ => ⟨hpa, page_mul_mod pn⟩)
        · exact absurd h (by simp)

/-- `sys_exit` keeps the second invariant. -/
theorem sys_exit_wf (cfg : Config) (k k1 : Kernel) (pid r : Int) (hwf : Wf cfg k)
    (h : sys_exit cfg k pid = .ok (r, k1)) : Wf cfg k1 := by
  rcases sys_exit_inv cfg k k1 pid r h with ⟨-, rfl⟩ |
    ⟨-, i, pt, -, -, -, -, hslot, hoth, -⟩
  · exact hwf
  · refine wf_update cfg k k1 i hwf hoth (Or.inr (by rw [hslot])) ?_
    intro hst
    rw [hslot] at hst
    exact absurd rfl hst

/-- Saving the registers keeps the second invariant. -/
theorem wf_save (cfg : Config) (k : Kernel) (regs : regstate) (hwf : Wf cfg k) :
    Wf cfg (k.set_proc k.current { k.ptable k.current with regs := regs }) := by
  refine ⟨?_, ?_, ?_⟩
  · intro j hst
    by_cases hj : j = k.current
    · subst hj
      simp only [set_proc_ptable, if_true] at hst ⊢
      exact hwf.live _ hst
    · simp only [set_proc_ptable, hj, if_false] at hst ⊢
      exact hwf.live j hst
  · intro j pt hst hpt
    by_cases hj : j = k.current
    · subst hj
      simp only [set_proc_ptable, if_true] at hst hpt
      exact hwf.tables _ pt hst hpt
    · simp only [set_proc_ptable, hj, if_false] at hst hpt
      exact hwf.tables j pt hst hpt
  · by_cases hj : 0 = k.current
    · simp only [set_proc_ptable, hj, if_true]
      rw [← hj]
      exact hwf.slot0
    · simp only [set_proc_ptable, hj, if_false]
      exact hwf.slot0

/-! ## The second invariant under `sys_fork` -/

/-- The structure pages of the child's table after the copy loop of
`sys_fork`. -/
theorem sys_fork_loop_dirs (cfg : Config) (hv : cfg.valid) (l : List Nat) :
    ∀ (m : Memory) (src dst : x86_64_pagetable) (b : Bool) (m1 : Memory)
      (src1 dst1 : x86_64_pagetable),
      sys_fork_loop cfg l m src dst = .ok (b, m1, src1, dst1) →
      ∀ d ∈ dst1.dirs,
        d ∈ dst.dirs ∨ (d.addr ≠ 0 ∧ d.addr % PAGESIZE = 0 ∧ d.addr ≠ cfg.CONSOLE_ADDR) := by
  induction l with
  | nil =>
    intro m src dst b m1 src1 dst1 h d hd
    unfold sys_fork_loop at h
    simp only [Except.ok.injEq, Prod.mk.injEq] at h
    obtain ⟨-, -, -, rfl⟩ := h
    exact Or.inl hd
  | cons va rest ih =>
    intro m src dst b m1 src1 dst1 h d hd
    unfold sys_fork_loop at h
    cases hs : sys_fork_src cfg m src va with
    | error e => rw [hs] at h; exact absurd h (by simp)
    | ok r =>
      obtain ⟨ms, srcs⟩ := r
      rw [hs] at h
      simp only at h
      split at h
      · split at h
        · simp only [Except.ok.injEq, Prod.mk.injEq] at h
          obtain ⟨-, -, -, rfl⟩ := h
          exact try_map_dirs cfg hv _ dst va _ _ d hd
        · rcases ih _ _ _ b m1 src1 dst1 h d hd with h1 | h1
          · exact try_map_dirs cfg hv _ dst va _ _ d h1
          · exact Or.inr h1
      · exact ih _ _ _ b m1 src1 dst1 h d hd

/-- A state that differs from one satisfying the second invariant only in
descriptors that are free in both satisfies it as well. -/
theorem wf_of_free_change (cfg : Config) (k k1 : Kernel) (hwf : Wf cfg k)
    (hp : ∀ i, k1.ptable i = k.ptable i ∨
      ((k1.ptable i).state = P_FREE ∧ (k.ptable i).state = P_FREE ∧
        (k1.ptable i).pid = (k.ptable i).pid)) : Wf cfg k1 := by
  refine ⟨?_, ?_, ?_⟩
  · intro i hst
    rcases hp i with h | ⟨h, -, -⟩
    · rw [h] at hst ⊢; exact hwf.live i hst
    · exact absurd h hst
  · intro i pt hst hpt
    rcases hp i with h | ⟨h, -, -⟩
    · rw [h] at hst hpt; exact hwf.tables i pt hst hpt
    · exact absurd h hst
  · rcases hp 0 with h | ⟨h, -, -⟩
    · rw [h]; exact hwf.slot0
    · exact h

/-- `sys_fork` keeps the second invariant. -/
theorem sys_fork_wf (cfg : Config) (hv : cfg.valid) (k k1 : Kernel) (r : Int)
    (hinv : Inv cfg k) (hwf : Wf cfg k) (hrun : (k.ptable k.current).state = P_RUNNABLE)
    (h : sys_fork cfg k = .ok (r, k1)) : Wf cfg k1 := by
  have hpid : (k.ptable k.current).pid = k.current := hinv.pids _ hinv.cur
  have hpar : (k.ptable (k.ptable k.current).pid).state ≠ P_FREE := by
    rw [hpid, hrun]; decide
  by_cases hr : r = -1
  · subst hr
    obtain ⟨-, -, -, hp⟩ := sys_fork_fail_inv cfg hv.null_reserved k k1 h hpar
    exact wf_of_free_change cfg k k1 hwf hp
  · obtain ⟨new_id, rootpn, src, src1, dst1, -, hcn, hn1, -, hn3, hn4, hroot, hrfree, hsrc,
      ⟨m0, -, hloop, -⟩, -, -, -, hchild, hparent, hothers⟩ :=
      sys_fork_ok cfg hv.null_reserved k k1 r h hr hpar
    obtain ⟨new_id', rootpn', src', src1', dst1', ⟨hcn', -, -, -, -⟩, ⟨-, -, hsrc'⟩,
      ⟨-, -, -, hchild', hparent', -⟩, ⟨ha1, ha2, -, -⟩, hE1, hE2, -⟩ :=
      sys_fork_facts cfg hv.null_reserved k k1 r h hr hpar
    have en : new_id = new_id' := by omega
    subst en
    have es : src' = src := by
      rw [hsrc] at hsrc'
      simp only [Option.some.injEq] at hsrc'
      exact hsrc'.symm
    subst es
    have es1 : src1' = src1 := by
      rw [hparent] at hparent'
      have := congrArg proc.pagetable hparent'
      simp only [Option.some.injEq] at this
      exact this.symm
    subst es1
    have hwsrc := hwf.tables _ src' hpar hsrc
    obtain ⟨w1, w2, w3⟩ := hwsrc
    have hdirs := sys_fork_loop_dirs cfg hv _ _ _ _ _ _ _ _ hloop
    have hwsrc1 : table_wf cfg src1' := by
      refine ⟨by rw [ha1]; exact w1, by rw [ha2]; exact w2, ?_⟩
      intro v hlt hP hU hne
      rw [hE1 v] at hP hU ⊢
      split at hP
      · rw [sys_fork_entry_P] at hP
        rw [if_pos (by assumption), sys_fork_entry_U] at hU
        rw [if_pos (by assumption), sys_fork_entry_pa]
        exact w3 v hlt hP hU hne
      · rw [if_neg (by assumption)] at hU ⊢
        exact w3 v hlt hP hU hne
    refine ⟨?_, ?_, ?_⟩
    · intro i hst
      by_cases hi1 : i = new_id
      · subst hi1; rw [hchild]; simp
      · by_cases hi2 : i = (k.ptable k.current).pid
        · subst hi2; rw [hparent]; simp
        · rw [hothers i hi1 hi2] at hst ⊢
          exact hwf.live i hst
    · intro i pt hst hpt
      by_cases hi1 : i = new_id
      · subst hi1
        rw [hchild] at hpt
        simp only [Option.some.injEq] at hpt
        subst hpt
        have ed : dst1' = dst1 := by
          rw [hchild] at hchild'
          have := congrArg proc.pagetable hchild'
          simp only [Option.some.injEq] at this
          exact this.symm
        refine ⟨?_, ?_, ?_⟩
        · have e := sys_fork_loop_spec cfg hv.null_reserved cfg.vas (vas_aligned cfg) m0 src'
            ⟨rootpn * PAGESIZE, [], fun _ => pageentry.zero⟩
          obtain ⟨ok, mF, sF, dF, new, e0, -, -, e3, -⟩ := e
          rw [hloop] at e0
          simp only [Except.ok.injEq, Prod.mk.injEq] at e0
          obtain ⟨-, -, -, rfl⟩ := e0
          rw [e3]
          refine ⟨?_, page_mul_mod rootpn,
            free_page_ne_console cfg hv.console_reserved k.memory rootpn hrfree⟩
          simp only [PAGESIZE]
          omega
        · intro d hd
          rcases hdirs d hd with h1 | h1
          · exact absurd h1 (List.not_mem_nil d)
          · exact h1
        · intro v hlt hP hU hne
          rw [← ed, hE2 v] at hP hU ⊢
          split at hP
          · next hc =>
            rw [if_pos hc] at hU ⊢
            simp only [sys_fork_entry_U] at hU
            exact w3 v hlt hc.2 hU hne
          · exact absurd hP (by simp [pageentry.zero, Perm.zero])
      · by_cases hi2 : i = (k.ptable k.current).pid
        · subst hi2
          rw [hparent] at hpt
          simp only [Option.some.injEq] at hpt
          subst hpt
          exact hwsrc1
        · rw [hothers i hi1 hi2] at hst hpt
          exact hwf.tables i pt hst hpt
    · have h01 : (0 : Nat) ≠ new_id := by omega
      have h02 : (0 : Nat) ≠ (k.ptable k.current).pid := by
        intro he
        rw [← he] at hpar
        exact hpar hwf.slot0
      rw [hothers 0 h01 h02]
      exact hwf.slot0

/-! ## The second invariant under `exception` -/

/-- Replacing the current descriptor by one with the same state and a
well-formed table keeps the second invariant. -/
theorem wf_set_current (cfg : Config) (k : Kernel) (m : Memory) (p : proc)
    (pt : x86_64_pagetable) (hwf : Wf cfg k) (hst : (k.ptable k.current).state ≠ P_FREE)
    (hp : p.pagetable = some pt) (hw : table_wf cfg pt) :
    Wf cfg ({ k with memory := m }.set_proc k.current p) := by
  refine wf_update cfg k _ k.current hwf ?_ (Or.inl (wf_current_ne_zero cfg k hwf _ hst)) ?_
  · intro j hj
    simp [set_proc_ptable, hj]
  · intro _
    exact ⟨pt, by simp [set_proc_ptable, hp], hw⟩

/-- `exception` keeps the second invariant. -/
theorem exception_wf (cfg : Config) (hv : cfg.valid) (k k1 : Kernel) (regs : regstate)
    (cr2 : Nat) (n : Next) (hinv : Inv cfg k) (hwf : Wf cfg k)
    (hrun : (k.ptable k.current).state = P_RUNNABLE)
    (h : exception cfg k regs cr2 = .ok (k1, n)) : Wf cfg k1 := by
  have hst : (k.ptable k.current).state ≠ P_FREE := by rw [hrun]; decide
  by_cases ht : regs.reg_intno = INT_IRQ + IRQ_TIMER
  · unfold exception at h
    have h1 : (regs.reg_intno == INT_IRQ + IRQ_TIMER) = true := by simpa using ht
    simp only [h1, if_true, Except.ok.injEq, Prod.mk.injEq] at h
    obtain ⟨rfl, -⟩ := h
    exact wf_of_same_ptable cfg _ _ (wf_save cfg k regs hwf) rfl
  · have h1 : (regs.reg_intno == INT_IRQ + IRQ_TIMER) = false := by simpa using ht
    by_cases hpf : regs.reg_intno = INT_PF
    · have h2 : (regs.reg_intno == INT_PF) = true := by simpa using hpf
      cases hpt : (k.ptable k.current).pagetable with
      | none =>
        unfold exception at h
        simp [h1, h2, set_proc_ptable, hpt] at h
      | some pt =>
        have hw := hwf.tables _ pt hst hpt
        by_cases hC : (vmiter_perm pt (round_down cr2 PAGESIZE) &&& PTE_C).nonzero = true
        · have hP := present_of_cow pt _ hC
          have hCf : (pt.entry (round_down cr2 PAGESIZE / PAGESIZE)).perm.C = true := by
            rw [vmiter_perm_C] at hC
            simp only [Bool.and_eq_true] at hC
            exact hC.2
          obtain ⟨hU, -, -⟩ := (hinv.tables _ pt hst hpt).1 _ hP hCf
          by_cases hcount :
              k.memory.physpages (vmiter_pa pt (round_down cr2 PAGESIZE) / PAGESIZE) = 1
          · rw [exception_cow_inplace cfg k regs cr2 pt hpf hpt hC hcount] at h
            rw [ok_exception_return _ _ k1 n h rfl]
            exact wf_set_current cfg k k.memory _ _ hwf hst rfl
              (table_wf_set_entry cfg pt _ _ hw (fun hlt hne => hw.2.2 _ hlt hP hU hne))
          · by_cases hfree : ∃ pn, pn < cfg.NPAGES ∧ free_page cfg k.memory pn = true
            · obtain ⟨pn, hpn, -, hf, hex⟩ := exception_cow_copy_ok cfg hv.null_reserved k regs
                cr2 pt hpf hpt hC hcount hfree
              rw [hex] at h
              rw [ok_exception_return _ _ k1 n h rfl]
              refine wf_set_current cfg k _ _ _ hwf hst rfl
                (table_wf_set_entry cfg pt _ _ hw (fun _ _ => ⟨?_, page_mul_mod pn⟩))
              simp only [PAGESIZE]
              omega
            · exfalso
              have hnone := kalloc_none cfg k.memory PAGESIZE (by
                intro pn hpn
                by_contra hh
                exact hfree ⟨pn, hpn, by simpa using hh⟩)
              unfold exception at h
              have h3 : (k.memory.physpages
                  (vmiter_pa pt (round_down cr2 PAGESIZE) / PAGESIZE) == 1) = false := by
                simpa using hcount
              simp only [h1, h2, Bool.false_eq_true, if_false, if_true, set_proc_ptable,
                set_proc_current, set_proc_memory, hpt, hC, h3] at h
              unfold exception_cow_copy at h
              simp only [set_proc_memory, hnone, beq_self_eq_true, if_true] at h
              split at h
              · exact absurd h (by simp)
              · split at h <;> exact absurd h (by simp)
        · unfold exception at h
          simp only [h1, h2, Bool.false_eq_true, if_false, if_true, set_proc_ptable,
            set_proc_current, hpt, hC] at h
          split at h
          · exact absurd h (by simp)
          · rw [ok_exception_return _ _ k1 n h rfl]
            refine wf_update cfg (k.set_proc k.current { k.ptable k.current with regs := regs })
              _ k.current (wf_save cfg k regs hwf) ?_
              (Or.inl (wf_current_ne_zero cfg k hwf _ hst)) ?_
            · intro j hj
              simp [set_proc_ptable, hj]
            · intro _
              exact ⟨pt, by simp [set_proc_ptable, hpt], hw⟩
    · have h2 : (regs.reg_intno == INT_PF) = false := by simpa using hpf
      unfold exception at h
      simp [h1, h2] at h

/-! ## The second invariant after boot and in every reachable state -/

/-- A `vmiter::map` that returns keeps the table well-formed. -/
theorem vmiter_map_wf (cfg : Config) (hv : cfg.valid) (m m2 : Memory)
    (pt pt2 : x86_64_pagetable) (va pa : Nat) (perm : Perm) (hwf : table_wf cfg pt)
    (hpa : perm.P = true → perm.U = true → va / PAGESIZE * PAGESIZE ≠ cfg.CONSOLE_ADDR →
      pa ≠ 0 ∧ pa % PAGESIZE = 0)
    (h : vmiter_map cfg m pt va pa perm = .ok (m2, pt2)) : table_wf cfg pt2 := by
  have hs := table_wf_try_map cfg hv m pt va pa perm hwf hpa
  unfold vmiter_map at h
  simp only at h
  split at h
  · simp only [Except.ok.injEq] at h
    rw [h] at hs
    exact hs
  · exact absurd h (by simp)

/-- The first loop of `process_setup` keeps the table well-formed. -/
theorem process_setup_kernel_wf (cfg : Config) (hv : cfg.valid) (kpt : x86_64_pagetable)
    (hk : kernel_table_ok cfg kpt) (l : List Nat)
    (hl : ∀ va ∈ l, va ∈ page_range 0 cfg.PROC_START_ADDR) :
    ∀ (m : Memory) (pt : x86_64_pagetable) (m2 : Memory) (pt2 : x86_64_pagetable),
      table_wf cfg pt → process_setup_kernel cfg kpt l m pt = .ok (m2, pt2) →
      table_wf cfg pt2 := by
  induction l with
  | nil =>
    intro m pt m2 pt2 hwf h
    unfold process_setup_kernel at h
    simp only [Except.ok.injEq, Prod.mk.injEq] at h
    obtain ⟨-, rfl⟩ := h
    exact hwf
  | cons va rest ih =>
    intro m pt m2 pt2 hwf h
    unfold process_setup_kernel at h
    have hva := hl va (List.mem_cons_self _ _)
    obtain ⟨hu, -⟩ := hk va hva
    have hal : va % PAGESIZE = 0 := ((mem_page_range _ _).1 hva).1
    cases hm : vmiter_map cfg m pt va (vmiter_pa kpt va) (vmiter_perm kpt va) with
    | error e => rw [hm] at h; exact absurd h (by simp)
    | ok r =>
      obtain ⟨m1, pt1⟩ := r
      rw [hm] at h
      simp only at h
      have hw1 := vmiter_map_wf cfg hv m m1 pt pt1 va _ _ hwf
        (fun hP hU hne => by
          exfalso
          apply hne
          have hcon := (hu (by unfold vmiter_user; rw [hP, hU]; rfl)).1
          rw [← hcon]
          have := Nat.div_add_mod va PAGESIZE
          rw [hal] at this
          rw [Nat.mul_comm]
          omega) hm
      exact ih (fun v hv' => hl v (List.mem_cons_of_mem _ hv')) m1 pt1 m2 pt2 hw1 h

/-- The page loop of `process_setup` keeps the table well-formed. -/
theorem process_setup_pages_wf (cfg : Config) (hv : cfg.valid) (w : Bool) (l : List Nat) :
    ∀ (m : Memory) (pt : x86_64_pagetable) (m2 : Memory) (pt2 : x86_64_pagetable),
      table_wf cfg pt → process_setup_pages cfg w l m pt = .ok (m2, pt2) →
      table_wf cfg pt2 := by
  induction l with
  | nil =>
    intro m pt m2 pt2 hwf h
    unfold process_setup_pages at h
    simp only [Except.ok.injEq, Prod.mk.injEq] at h
    obtain ⟨-, rfl⟩ := h
    exact hwf
  | cons a rest ih =>
    intro m pt m2 pt2 hwf h
    unfold process_setup_pages at h
    simp only at h
    rcases kalloc_cases_nz cfg hv.null_reserved m PAGESIZE with hk | ⟨pn, -, hpa, hf, hk⟩
    · rw [hk] at h
      simp at h
    · rw [hk] at h
      have hne : (pn * PAGESIZE == 0) = false := by simpa using hpa
      simp only [hne, Bool.false_eq_true, if_false] at h
      cases hm : vmiter_map cfg (m.take pn) pt a (pn * PAGESIZE)
          (if (!w) = true then PTE_P ||| PTE_U else PTE_P ||| PTE_W ||| PTE_U) with
      | error e => rw [hm] at h; exact absurd h (by simp)
      | ok r =>
        obtain ⟨m1, pt1⟩ := r
        rw [hm] at h
        simp only at h
        exact ih m1 pt1 m2 pt2 (vmiter_map_wf cfg hv _ m1 pt pt1 a _ _ hwf
          (fun _ _ _ => ⟨hpa, page_mul_mod pn⟩) hm) h

/-- The segment loop of `process_setup` keeps the table well-formed. -/
theorem process_setup_segs_wf (cfg : Config) (hv : cfg.valid) (l : List segment) :
    ∀ (m : Memory) (pt : x86_64_pagetable) (m2 : Memory) (pt2 : x86_64_pagetable),
      table_wf cfg pt → process_setup_segs cfg l m pt = .ok (m2, pt2) →
      table_wf cfg pt2 := by
  induction l with
  | nil =>
    intro m pt m2 pt2 hwf h
    unfold process_setup_segs at h
    simp only [Except.ok.injEq, Prod.mk.injEq] at h
    obtain ⟨-, rfl⟩ := h
    exact hwf
  | cons seg rest ih =>
    intro m pt m2 pt2 hwf h
    unfold process_setup_segs at h
    cases hm : process_setup_pages cfg seg.writable
        (page_range (round_down seg.va PAGESIZE) (seg.va + seg.size)) m pt with
    | error e => rw [hm] at h; exact absurd h (by simp)
    | ok r =>
      obtain ⟨m1, pt1⟩ := r
      rw [hm] at h
      simp only at h
      exact ih m1 pt1 m2 pt2 (process_setup_pages_wf cfg hv seg.writable _ m pt m1 pt1 hwf hm) h

/-- The table that `process_setup` installs is well-formed. -/
theorem process_setup_table_wf (cfg : Config) (hv : cfg.valid) (k k1 : Kernel) (pid : Nat)
    (pgm : program_image) (hk : kernel_table_ok cfg k.kernel_pagetable)
    (h : process_setup cfg k pid pgm = .ok k1) :
    ∀ pt, (k1.ptable pid).pagetable = some pt → table_wf cfg pt := by
  unfold process_setup at h
  simp only at h
  rcases kalloc_pagetable_cases cfg hv.null_reserved k.memory with ha | ⟨pn, ma, hpn, hf, ha, -⟩
  · rw [ha] at h
    exact absurd h (by simp)
  · rw [ha] at h
    simp only at h
    have hw0 : table_wf cfg ⟨pn * PAGESIZE, [], fun _ => pageentry.zero⟩ := by
      refine ⟨⟨?_, page_mul_mod pn,
        free_page_ne_console cfg hv.console_reserved k.memory pn hf⟩, ?_, ?_⟩
      · simp only [PAGESIZE]; omega
      · intro d hd
        exact absurd hd (List.not_mem_nil d)
      · intro v _ hP
        exact absurd hP (by simp [pageentry.zero, Perm.zero])
    cases h1 : process_setup_kernel cfg k.kernel_pagetable (page_range 0 cfg.PROC_START_ADDR)
        ma ⟨pn * PAGESIZE, [], fun _ => pageentry.zero⟩ with
    | error e => rw [h1] at h; exact absurd h (by simp)
    | ok r1 =>
      obtain ⟨m1, pt1⟩ := r1
      rw [h1] at h
      simp only at h
      have hw1 := process_setup_kernel_wf cfg hv _ hk _ (fun _ hva => hva) ma _ m1 pt1 hw0 h1
      cases h2 : process_setup_segs cfg pgm.segs m1 pt1 with
      | error e => rw [h2] at h; exact absurd h (by simp)
      | ok r2 =>
        obtain ⟨m2, pt2⟩ := r2
        rw [h2] at h
        simp only at h
        have hw2 := process_setup_segs_wf cfg hv pgm.segs m1 pt1 m2 pt2 hw1 h2
        generalize hm3 : ({ m2 with bytes := process_setup_copy pt2 pgm.segs m2.bytes } : Memory)
          = m3 at h
        rcases kalloc_cases_nz cfg hv.null_reserved m3 PAGESIZE with hk3 | ⟨sn, -, hpa, hsf, hk3⟩
        · rw [hk3] at h
          simp at h
        · rw [hk3] at h
          have hne : (sn * PAGESIZE == 0) = false := by simpa using hpa
          simp only [hne, Bool.false_eq_true, if_false] at h
          cases h4 : vmiter_map cfg (m3.take sn) pt2 (cfg.MEMSIZE_VIRTUAL - PAGESIZE)
              (sn * PAGESIZE) (PTE_P ||| PTE_W ||| PTE_U) with
          | error e => rw [h4] at h; exact absurd h (by simp)
          | ok r4 =>
            obtain ⟨m4, pt3⟩ := r4
            rw [h4] at h
            simp only [Except.ok.injEq] at h
            have hw3 := vmiter_map_wf cfg hv _ m4 pt2 pt3 _ _ _ hw2
              (fun _ _ _ => ⟨hpa, page_mul_mod sn⟩) h4
            subst h
            intro pt hpt
            simp only [set_proc_ptable, if_true, Option.some.injEq] at hpt
            subst hpt
            exact hw3

/-- `process_setup` for a slot other than slot 0 keeps the second
invariant. -/
theorem process_setup_wf (cfg : Config) (hv : cfg.valid) (k k1 : Kernel) (pid : Nat)
    (pgm : program_image) (hpid : 1 ≤ pid) (hk : kernel_table_ok cfg k.kernel_pagetable)
    (hwf : Wf cfg k) (h : process_setup cfg k pid pgm = .ok k1) : Wf cfg k1 := by
  obtain ⟨pt, regs, hslot, hoth, -, -, -, -⟩ := process_setup_inv cfg hv k k1 pid pgm hk h
  refine wf_update cfg k k1 pid hwf hoth (Or.inl (by omega)) ?_
  intro _
  exact ⟨pt, by rw [hslot],
    process_setup_table_wf cfg hv k k1 pid pgm hk h pt (by rw [hslot])⟩

/-- The `process_setup` calls of `kernel_start` keep both invariants. -/
theorem kernel_start_procs_wf (cfg : Config) (hv : cfg.valid) (l : List program_image) :
    ∀ (pid : Nat) (k k1 : Kernel), 1 ≤ pid → Inv cfg k → Wf cfg k →
      kernel_start_procs cfg l pid k = .ok k1 → Wf cfg k1 := by
  induction l with
  | nil =>
    intro pid k k1 _ _ hwf h
    unfold kernel_start_procs at h
    simp only [Except.ok.injEq] at h
    subst h
    exact hwf
  | cons pgm rest ih =>
    intro pid k k1 hpid hinv hwf h
    unfold kernel_start_procs at h
    cases h1 : process_setup cfg k pid pgm with
    | error e => rw [h1] at h; exact absurd h (by simp)
    | ok k2 =>
      rw [h1] at h
      simp only at h
      exact ih (pid + 1) k2 k1 (by omega) (process_setup_keeps cfg hv k k2 pid pgm hinv h1)
        (process_setup_wf cfg hv k k2 pid pgm hpid hinv.kernel hwf h1) h

/-- The state that `kernel_start` hands to its first `run` satisfies the
second invariant. -/
theorem kernel_start_wf (cfg : Config) (hv : cfg.valid) (kpt : x86_64_pagetable)
    (bytes : Nat → Nat) (programs : List program_image) (k : Kernel)
    (h : kernel_start cfg kpt bytes programs = .ok k) : Wf cfg k := by
  unfold kernel_start at h
  simp only at h
  cases h1 : kernel_start_map cfg (page_range 0 cfg.MEMSIZE_PHYSICAL) (boot_state kpt bytes).memory
      kpt with
  | error e => rw [h1] at h; exact absurd h (by simp)
  | ok r =>
    obtain ⟨m, kpt1⟩ := r
    rw [h1] at h
    simp only at h
    have hk := kernel_start_map_table_ok cfg hv _ m kpt kpt1 h1
    split at h
    · exact absurd h (by simp)
    · rename_i k2 h2
      have hfree : ∀ i, ((if i < cfg.PID_MAX then
          (⟨i, P_FREE, ((boot_state kpt bytes).ptable i).regs,
            ((boot_state kpt bytes).ptable i).pagetable⟩ : proc)
          else (boot_state kpt bytes).ptable i)).state = P_FREE := by
        intro i
        split
        · rfl
        · rfl
      have hwf2 := kernel_start_procs_wf cfg hv programs 1 _ k2 (le_refl _) ?_ ?_ h2
      · split at h
        · simp only [Except.ok.injEq] at h
          subst h
          exact wf_of_same_ptable cfg k2 _ hwf2 rfl
        · exact absurd h (by simp)
      · refine ⟨?_, ?_, hk, ?_, ?_⟩
        · intro X
          have h0 := sum_range_le cfg.PID_MAX (fun _ => 0)
            (fun i => proc_count (fun pt => owned cfg pt X)
              (if i < cfg.PID_MAX then
                (⟨i, P_FREE, ((boot_state kpt bytes).ptable i).regs,
                  ((boot_state kpt bytes).ptable i).pagetable⟩ : proc)
              else (boot_state kpt bytes).ptable i))
            (fun i _ => by
              show proc_count _ _ ≤ 0
              rw [proc_count_free _ _ (hfree i)])
          refine le_trans (le_of_eq ?_) (Nat.zero_le _)
          unfold owned_count
          simpa using h0
        · intro i pt hst
          exact absurd (hfree i) hst
        · intro i hi
          simp [hi]
        · exact lt_trans Nat.zero_lt_one hv.two_slots
      · exact ⟨fun i hst => absurd (hfree i) hst, fun i pt hst => absurd (hfree i) hst,
          hfree 0⟩

/-- Every reachable state satisfies the second invariant. -/
theorem reachable_wf (cfg : Config) (hv : cfg.valid) (k : Kernel) (hr : Reachable cfg k) :
    Wf cfg k := by
  induction hr with
  | boot kpt bytes programs k h => exact kernel_start_wf cfg hv kpt bytes programs k h
  | page_alloc k k1 addr r hk hrun h ih => exact syscall_page_alloc_wf cfg hv k k1 addr r ih hrun h
  | fork k k1 r hk hrun h ih =>
    exact sys_fork_wf cfg hv k k1 r (reachable_inv cfg hv k hk) ih hrun h
  | exit k k1 r _ _ h ih => exact sys_exit_wf cfg k k1 _ r ih h
  | kill k k1 pid r _ _ h ih => exact sys_exit_wf cfg k k1 pid r ih h
  | exception k k1 regs cr2 n hk hrun h ih =>
    exact exception_wf cfg hv k k1 regs cr2 n (reachable_inv cfg hv k hk) ih hrun h
  | save k regs _ _ ih => exact wf_save cfg k regs ih
  | run k p _ _ _ ih => exact wf_of_same_ptable cfg k _ ih rfl

/-! ## Distinct page-table pages: the third invariant -/

/-- The structure pages that the walk of `try_map` adds are pairwise distinct
pages whose count was 0, and every count rises by the number of times the
page was added. -/
theorem try_map_walk_nd (cfg : Config) (h0 : cfg.allocatable_physical_address 0 = false)
    (path : List (Nat × Nat)) :
    ∀ (m : Memory) (pt : x86_64_pagetable), ∃ new : List ptpage,
      (try_map_walk cfg path m pt).2.2 = { pt with dirs := pt.dirs ++ new } ∧
      (∀ X, (try_map_walk cfg path m pt).2.1.physpages X =
        m.physpages X + (dir_pages new).count X) ∧
      (∀ X ∈ dir_pages new, m.physpages X = 0) ∧ (dir_pages new).Nodup := by
  induction path with
  | nil =>
    intro m pt
    exact ⟨[], by simp [try_map_walk], by simp [try_map_walk, dir_pages],
      by simp [dir_pages], by simp [dir_pages]⟩
  | cons lk rest ih =>
    intro m pt
    unfold try_map_walk
    by_cases hd : pt.has_dir lk = true
    · simp only [hd, if_true]
      exact ih m pt
    · simp only [hd, Bool.false_eq_true, if_false]
      rcases kalloc_cases_nz cfg h0 m PAGESIZE with h | ⟨pn, hpn, hpa, hf, h⟩
      · rw [h]
        exact ⟨[], by simp, by simp [dir_pages], by simp [dir_pages], by simp [dir_pages]⟩
      · rw [h]
        have hne : (pn * PAGESIZE == 0) = false := by simpa using hpa
        simp only [hne, Bool.false_eq_true, if_false]
        obtain ⟨new, e1, e2, e3, e4⟩ := ih
          { (m.take pn) with bytes := memset (m.take pn).bytes (pn * PAGESIZE) 0 PAGESIZE }
          { pt with dirs := pt.dirs ++ [⟨lk.1, lk.2, pn * PAGESIZE⟩] }
        have htake := fun X => take_physpages m pn X (free_page_count cfg m pn hf)
        refine ⟨⟨lk.1, lk.2, pn * PAGESIZE⟩ :: new, ?_, ?_, ?_, ?_⟩
        · rw [e1]; simp
        · intro X
          rw [e2 X]
          simp only [htake, dir_pages, List.map_cons, page_mul_div, List.count_cons]
          by_cases hX : X = pn
          · subst hX; simp; omega
          · have : (pn == X) = false := by simpa using fun h => hX h.symm
            simp [hX, this]
        · intro X hX
          simp only [dir_pages, List.map_cons, page_mul_div, List.mem_cons] at hX
          rcases hX with rfl | hX
          · exact free_page_count cfg m _ hf
          · have := e3 X hX
            simp only [htake] at this
            omega
        · simp only [dir_pages, List.map_cons, page_mul_div, List.nodup_cons]
          refine ⟨?_, e4⟩
          intro hmem
          have := e3 pn hmem
          simp only [htake, if_true] at this
          omega

/-- A table whose pages are pairwise distinct and have positive counts keeps
both properties under `try_map`, and no count goes down. -/
theorem try_map_nd (cfg : Config) (h0 : cfg.allocatable_physical_address 0 = false)
    (m : Memory) (pt : x86_64_pagetable) (va pa : Nat) (perm : Perm) (hnd : table_nd pt)
    (hpos : ∀ X ∈ pt.addr / PAGESIZE :: dir_pages pt.dirs, 1 ≤ m.physpages X) :
    table_nd (try_map cfg m pt va pa perm).2.2 ∧
    (∀ X ∈ (try_map cfg m pt va pa perm).2.2.addr / PAGESIZE ::
        dir_pages (try_map cfg m pt va pa perm).2.2.dirs,
      1 ≤ (try_map cfg m pt va pa perm).2.1.physpages X) ∧
    (∀ X, m.physpages X ≤ (try_map cfg m pt va pa perm).2.1.physpages X) := by
  have key : ∀ (m1 : Memory) (pt1 : x86_64_pagetable) (new : List ptpage),
      pt1.addr = pt.addr → pt1.dirs = pt.dirs ++ new →
      (∀ X, m1.physpages X = m.physpages X + (dir_pages new).count X) →
      (∀ X ∈ dir_pages new, m.physpages X = 0) → (dir_pages new).Nodup →
      table_nd pt1 ∧ (∀ X ∈ pt1.addr / PAGESIZE :: dir_pages pt1.dirs, 1 ≤ m1.physpages X) ∧
      (∀ X, m.physpages X ≤ m1.physpages X) := by
    intro m1 pt1 new ha hd hc hz hn
    refine ⟨?_, ?_, fun X => by rw [hc X]; omega⟩
    · unfold table_nd at hnd ⊢
      rw [ha, hd, dir_pages_append, ← List.cons_append]
      rw [List.nodup_append]
      refine ⟨hnd, hn, ?_⟩
      intro X h1 h2
      have := hpos X h1
      have := hz X h2
      omega
    · intro X hX
      rw [ha, hd, dir_pages_append, ← List.cons_append, List.mem_append] at hX
      rw [hc X]
      rcases hX with h | h
      · have := hpos X h; omega
      · have := List.count_pos_iff.2 h; omega
  unfold try_map
  by_cases hl : vmiter_level0 pt va = true
  · rw [if_pos hl]
    exact key m _ [] rfl (by simp) (by simp [dir_pages]) (by simp [dir_pages])
      (by simp [dir_pages])
  · rw [if_neg hl]
    by_cases hp : perm.nonzero = true
    · rw [if_pos hp]
      obtain ⟨new, e1, e2, e3, e4⟩ := try_map_walk_nd cfg h0 (ptpath va) m pt
      by_cases hw : (try_map_walk cfg (ptpath va) m pt).1 = true
      · simp only [hw, if_true]
        exact key _ _ new (by simp [e1]) (by simp [e1]) e2 e3 e4
      · simp only [hw, Bool.false_eq_true, if_false]
        exact key _ _ new (by simp [e1]) (by simp [e1]) e2 e3 e4
    · rw [if_neg hp]
      exact key m pt [] rfl (by simp) (by simp [dir_pages]) (by simp [dir_pages])
        (by simp [dir_pages])

/-! ## The third invariant under the system calls and `exception` -/

/-- In a state satisfying the first invariant the pages of a live table have
positive counts. -/
theorem table_pages_pos (cfg : Config) (k : Kernel) (hinv : Inv cfg k) (i : Nat)
    (pt : x86_64_pagetable) (hi : i < cfg.PID_MAX) (hst : (k.ptable i).state ≠ P_FREE)
    (hpt : (k.ptable i).pagetable = some pt) :
    ∀ X ∈ pt.addr / PAGESIZE :: dir_pages pt.dirs, 1 ≤ k.memory.physpages X := by
  intro X hX
  have h1 := proc_count_le_owned_count cfg k i X hi
  rw [proc_count_live _ _ pt hst hpt] at h1
  have h2 := hinv.counts X
  unfold owned at h1
  rcases List.mem_cons.1 hX with h | h
  · rw [if_pos h] at h1; omega
  · have := List.count_pos_iff.2 h; omega

/-- The third invariant carries over to a state in which one slot has changed
and, if not free, holds a table with pairwise distinct pages. -/
theorem nd_update (k k1 : Kernel) (i : Nat) (hnd : Nd k)
    (hoth : ∀ j, j ≠ i → k1.ptable j = k.ptable j)
    (hnew : ∀ pt, (k1.ptable i).state ≠ P_FREE → (k1.ptable i).pagetable = some pt →
      table_nd pt) : Nd k1 := by
  intro j pt hst hpt
  by_cases hj : j = i
  · subst hj
    exact hnew pt hst hpt
  · rw [hoth j hj] at hst hpt
    exact hnd j pt hst hpt

/-- The third invariant depends on the descriptors only. -/
theorem nd_of_same_ptable (k k1 : Kernel) (hnd : Nd k) (h : k1.ptable = k.ptable) : Nd k1 := by
  unfold Nd
  rw [h]
  exact hnd

/-- Replacing an entry keeps the pages of a table. -/
theorem table_nd_set_entry (pt : x86_64_pagetable) (v : Nat) (e : pageentry)
    (h : table_nd pt) : table_nd (pt.set_entry v e) := h

/-- `syscall_page_alloc` keeps the third invariant. -/
theorem syscall_page_alloc_nd (cfg : Config) (hv : cfg.valid) (k k1 : Kernel) (addr : Nat)
    (r : Int) (hinv : Inv cfg k) (hnd : Nd k)
    (hrun : (k.ptable k.current).state = P_RUNNABLE)
    (h : syscall_page_alloc cfg k addr = .ok (r, k1)) : Nd k1 := by
  have hst : (k.ptable k.current).state ≠ P_FREE := by rw [hrun]; decide
  unfold syscall_page_alloc at h
  split at h
  · simp only [Except.ok.injEq, Prod.mk.injEq] at h
    rw [← h.2]; exact hnd
  · rcases kalloc_cases_nz cfg hv.null_reserved k.memory PAGESIZE with hk | ⟨pn, -, hpa, hf, hk⟩
    · rw [hk] at h
      simp only [beq_self_eq_true, if_true, Except.ok.injEq, Prod.mk.injEq] at h
      rw [← h.2]; exact hnd
    · rw [hk] at h
      have hne : (pn * PAGESIZE == 0) = false := by simpa using hpa
      simp only [hne, Bool.false_eq_true, if_false] at h
      cases hpt : (k.ptable k.current).pagetable with
      | none => simp [hpt] at h
      | some pt =>
        simp only [hpt] at h
        split at h
        · simp only [Except.ok.injEq, Prod.mk.injEq] at h
          obtain ⟨-, rfl⟩ := h
          refine nd_update k _ k.current hnd ?_ ?_
          · intro j hj
            simp [set_proc_ptable, hj]
          · intro pt1 _ hpt1
            simp only [set_proc_ptable, if_true, Option.some.injEq] at hpt1
            subst hpt1
            refine (try_map_nd cfg hv.null_reserved _ pt addr _ _ (hnd _ pt hst hpt) ?_).1
            intro X hX
            have := table_pages_pos cfg k hinv _ pt hinv.cur hst hpt X hX
            rw [take_physpages k.memory pn X (free_page_count cfg k.memory pn hf)]
            omega
        · exact absurd h (by simp)

/-- `sys_exit` keeps the third invariant. -/
theorem sys_exit_nd (cfg : Config) (k k1 : Kernel) (pid r : Int) (hnd : Nd k)
    (h : sys_exit cfg k pid = .ok (r, k1)) : Nd k1 := by
  rcases sys_exit_inv cfg k k1 pid r h with ⟨-, rfl⟩ |
    ⟨-, i, pt, -, -, -, -, hslot, hoth, -⟩
  · exact hnd
  · refine nd_update k k1 i hnd hoth ?_
    intro pt1 hst
    rw [hslot] at hst
    exact absurd rfl hst

/-- Saving the registers keeps the third invariant. -/
theorem nd_save (k : Kernel) (regs : regstate) (hnd : Nd k) :
    Nd (k.set_proc k.current { k.ptable k.current with regs := regs }) := by
  refine nd_update k _ k.current hnd ?_ ?_
  · intro j hj
    simp [set_proc_ptable, hj]
  · intro pt hst hpt
    simp only [set_proc_ptable, if_true] at hst hpt
    exact hnd _ pt hst hpt

/-! ## The third invariant under `exception` and `sys_fork` -/

/-- Replacing the current descriptor by one whose table has the same pages
keeps the third invariant. -/
theorem nd_set_current (k : Kernel) (m : Memory) (p : proc) (pt pt1 : x86_64_pagetable)
    (hnd : Nd k) (hst : (k.ptable k.current).state ≠ P_FREE)
    (hpt : (k.ptable k.current).pagetable = some pt)
    (hp : p.pagetable = some pt1) (ha : pt1.addr = pt.addr) (hd : pt1.dirs = pt.dirs) :
    Nd ({ k with memory := m }.set_proc k.current p) := by
  refine nd_update k _ k.current hnd ?_ ?_
  · intro j hj
    simp [set_proc_ptable, hj]
  · intro pt2 _ hpt2
    simp only [set_proc_ptable, if_true] at hpt2
    rw [hp] at hpt2
    simp only [Option.some.injEq] at hpt2
    subst hpt2
    have := hnd _ pt hst hpt
    unfold table_nd at this ⊢
    rw [ha, hd]
    exact this

/-- `exception` keeps the third invariant. -/
theorem exception_nd (cfg : Config) (hv : cfg.valid) (k k1 : Kernel) (regs : regstate)
    (cr2 : Nat) (n : Next) (hnd : Nd k)
    (hrun : (k.ptable k.current).state = P_RUNNABLE)
    (h : exception cfg k regs cr2 = .ok (k1, n)) : Nd k1 := by
  have hst : (k.ptable k.current).state ≠ P_FREE := by rw [hrun]; decide
  by_cases ht : regs.reg_intno = INT_IRQ + IRQ_TIMER
  · unfold exception at h
    have h1 : (regs.reg_intno == INT_IRQ + IRQ_TIMER) = true := by simpa using ht
    simp only [h1, if_true, Except.ok.injEq, Prod.mk.injEq] at h
    obtain ⟨rfl, -⟩ := h
    exact nd_of_same_ptable _ _ (nd_save k regs hnd) rfl
  · have h1 : (regs.reg_intno == INT_IRQ + IRQ_TIMER) = false := by simpa using ht
    by_cases hpf : regs.reg_intno = INT_PF
    · have h2 : (regs.reg_intno == INT_PF) = true := by simpa using hpf
      cases hpt : (k.ptable k.current).pagetable with
      | none =>
        unfold exception at h
        simp [h1, h2, set_proc_ptable, hpt] at h
      | some pt =>
        by_cases hC : (vmiter_perm pt (round_down cr2 PAGESIZE) &&& PTE_C).nonzero = true
        · by_cases hcount :
              k.memory.physpages (vmiter_pa pt (round_down cr2 PAGESIZE) / PAGESIZE) = 1
          · rw [exception_cow_inplace cfg k regs cr2 pt hpf hpt hC hcount] at h
            rw [ok_exception_return _ _ k1 n h rfl]
            exact nd_set_current k k.memory _ pt _ hnd hst hpt rfl rfl rfl
          · by_cases hfree : ∃ pn, pn < cfg.NPAGES ∧ free_page cfg k.memory pn = true
            · obtain ⟨pn, -, -, -, hex⟩ := exception_cow_copy_ok cfg hv.null_reserved k regs
                cr2 pt hpf hpt hC hcount hfree
              rw [hex] at h
              rw [ok_exception_return _ _ k1 n h rfl]
              exact nd_set_current k _ _ pt _ hnd hst hpt rfl rfl rfl
            · exfalso
              have hnone := kalloc_none cfg k.memory PAGESIZE (by
                intro pn hpn
                by_contra hh
                exact hfree ⟨pn, hpn, by simpa using hh⟩)
              unfold exception at h
              have h3 : (k.memory.physpages
                  (vmiter_pa pt (round_down cr2 PAGESIZE) / PAGESIZE) == 1) = false := by
                simpa using hcount
              simp only [h1, h2, Bool.false_eq_true, if_false, if_true, set_proc_ptable,
                set_proc_current, set_proc_memory, hpt, hC, h3] at h
              unfold exception_cow_copy at h
              simp only [set_proc_memory, hnone, beq_self_eq_true, if_true] at h
              split at h
              · exact absurd h (by simp)
              · split at h <;> exact absurd h (by simp)
        · unfold exception at h
          simp only [h1, h2, Bool.false_eq_true, if_false, if_true, set_proc_ptable,
            set_proc_current, hpt, hC] at h
          split at h
          · exact absurd h (by simp)
          · rw [ok_exception_return _ _ k1 n h rfl]
            refine nd_update (k.set_proc k.current { k.ptable k.current with regs := regs })
              _ k.current (nd_save k regs hnd) ?_ ?_
            · intro j hj
              simp [set_proc_ptable, hj]
            · intro pt2 _ hpt2
              simp only [set_proc_ptable, if_true, Option.some.injEq] at hpt2
              subst hpt2
              exact hnd _ _ hst hpt
    · have h2 : (regs.reg_intno == INT_PF) = false := by simpa using hpf
      unfold exception at h
      simp [h1, h2] at h

/-- The copy loop of `sys_fork` keeps the pages of the child's table pairwise
distinct. -/
theorem sys_fork_loop_nd (cfg : Config) (h0 : cfg.allocatable_physical_address 0 = false)
    (l : List Nat) (hal : ∀ va ∈ l, va % PAGESIZE = 0) :
    ∀ (m : Memory) (src dst : x86_64_pagetable) (b : Bool) (m1 : Memory)
      (src1 dst1 : x86_64_pagetable),
      sys_fork_loop cfg l m src dst = .ok (b, m1, src1, dst1) → table_nd dst →
      (∀ X ∈ dst.addr / PAGESIZE :: dir_pages dst.dirs, 1 ≤ m.physpages X) →
      table_nd dst1 := by
  induction l with
  | nil =>
    intro m src dst b m1 src1 dst1 h hnd _
    unfold sys_fork_loop at h
    simp only [Except.ok.injEq, Prod.mk.injEq] at h
    obtain ⟨-, -, -, rfl⟩ := h
    exact hnd
  | cons va rest ih =>
    intro m src dst b m1 src1 dst1 h hnd hpos
    have ha := hal va (List.mem_cons_self _ _)
    unfold sys_fork_loop at h
    rw [sys_fork_src_eq cfg m src va ha] at h
    simp only at h
    have hpos2 : ∀ X ∈ dst.addr / PAGESIZE :: dir_pages dst.dirs,
        1 ≤ (sys_fork_ref cfg m (src.set_entry (va / PAGESIZE)
          (sys_fork_entry cfg (src.entry (va / PAGESIZE)))) va).physpages X := by
      intro X hX
      rw [sys_fork_ref_physpages cfg m _ va ha X]
      have := hpos X hX
      omega
    split at h
    · obtain ⟨a, b', -⟩ := try_map_nd cfg h0 _ dst va
        (vmiter_pa (src.set_entry (va / PAGESIZE)
          (sys_fork_entry cfg (src.entry (va / PAGESIZE)))) va)
        (vmiter_perm (src.set_entry (va / PAGESIZE)
          (sys_fork_entry cfg (src.entry (va / PAGESIZE)))) va) hnd hpos2
      split at h
      · simp only [Except.ok.injEq, Prod.mk.injEq] at h
        obtain ⟨-, -, -, rfl⟩ := h
        exact a
      · exact ih (fun v hv => hal v (List.mem_cons_of_mem _ hv)) _ _ _ b m1 src1 dst1 h a b'
    · exact ih (fun v hv => hal v (List.mem_cons_of_mem _ hv)) _ _ _ b m1 src1 dst1 h hnd hpos2

/-! ## The third invariant after `sys_fork`, after boot, in every reachable state -/

/-- A state that differs from one satisfying the third invariant only in
descriptors that are free in both satisfies it as well. -/
theorem nd_of_free_change (k k1 : Kernel) (hnd : Nd k)
    (hp : ∀ i, k1.ptable i = k.ptable i ∨
      ((k1.ptable i).state = P_FREE ∧ (k.ptable i).state = P_FREE ∧
        (k1.ptable i).pid = (k.ptable i).pid)) : Nd k1 := by
  intro i pt hst hpt
  rcases hp i with h | ⟨h, -, -⟩
  · rw [h] at hst hpt; exact hnd i pt hst hpt
  · exact absurd h hst

/-- `sys_fork` keeps the third invariant. -/
theorem sys_fork_nd (cfg : Config) (hv : cfg.valid) (k k1 : Kernel) (r : Int)
    (hinv : Inv cfg k) (hnd : Nd k) (hrun : (k.ptable k.current).state = P_RUNNABLE)
    (h : sys_fork cfg k = .ok (r, k1)) : Nd k1 := by
  have hpid : (k.ptable k.current).pid = k.current := hinv.pids _ hinv.cur
  have hpar : (k.ptable (k.ptable k.current).pid).state ≠ P_FREE := by
    rw [hpid, hrun]; decide
  by_cases hr : r = -1
  · subst hr
    obtain ⟨-, -, -, hp⟩ := sys_fork_fail_inv cfg hv.null_reserved k k1 h hpar
    exact nd_of_free_change k k1 hnd hp
  · obtain ⟨new_id, rootpn, src, src1, dst1, -, -, -, -, -, -, -, hrfree, hsrc,
      ⟨m0, -, hloop, hm0⟩, -, -, -, hchild, hparent, hothers⟩ :=
      sys_fork_ok cfg hv.null_reserved k k1 r h hr hpar
    obtain ⟨ok, mF, sF, dF, new, e0, e1, e2, -⟩ :=
      sys_fork_loop_spec cfg hv.null_reserved cfg.vas (vas_aligned cfg) m0 src
        ⟨rootpn * PAGESIZE, [], fun _ => pageentry.zero⟩
    rw [hloop] at e0
    simp only [Except.ok.injEq, Prod.mk.injEq] at e0
    obtain ⟨-, -, rfl, rfl⟩ := e0
    have hd := sys_fork_loop_nd cfg hv.null_reserved cfg.vas (vas_aligned cfg) _ _ _ _ _ _ _
      hloop (by simp [table_nd, dir_pages]) (by
        intro X hX
        simp only [dir_pages, List.map_nil, List.mem_singleton, page_mul_div] at hX
        subst hX
        rw [hm0]
        simp)
    intro i pt hst hpt
    by_cases hi1 : i = new_id
    · subst hi1
      rw [hchild] at hpt
      simp only [Option.some.injEq] at hpt
      subst hpt
      exact hd
    · by_cases hi2 : i = (k.ptable k.current).pid
      · subst hi2
        rw [hparent] at hpt
        simp only [Option.some.injEq] at hpt
        subst hpt
        have := hnd _ src hpar hsrc
        unfold table_nd at this ⊢
        rw [e1, e2]
        exact this
      · rw [hothers i hi1 hi2] at hst hpt
        exact hnd i pt hst hpt

/-- A `vmiter::map` that returns keeps the pages of the table pairwise
distinct and their counts positive. -/
theorem vmiter_map_nd (cfg : Config) (h0 : cfg.allocatable_physical_address 0 = false)
    (m0 m m2 : Memory) (pt pt2 : x86_64_pagetable) (va pa : Nat) (perm : Perm)
    (hnd : table_nd pt)
    (hpos : ∀ X ∈ pt.addr / PAGESIZE :: dir_pages pt.dirs, 1 ≤ m0.physpages X)
    (hmono : ∀ X, m0.physpages X ≤ m.physpages X)
    (h : vmiter_map cfg m pt va pa perm = .ok (m2, pt2)) :
    table_nd pt2 ∧ ∀ X ∈ pt2.addr / PAGESIZE :: dir_pages pt2.dirs, 1 ≤ m2.physpages X := by
  obtain ⟨a, b, -⟩ := try_map_nd cfg h0 m pt va pa perm hnd
    (fun X hX => le_trans (hpos X hX) (hmono X))
  unfold vmiter_map at h
  simp only at h
  split at h
  · simp only [Except.ok.injEq] at h
    rw [h] at a b
    exact ⟨a, b⟩
  · exact absurd h (by simp)

/-- The first loop of `process_setup` keeps the pages of the table pairwise
distinct and their counts positive. -/
theorem process_setup_kernel_nd (cfg : Config) (h0 : cfg.allocatable_physical_address 0 = false)
    (kpt : x86_64_pagetable) (l : List Nat) :
    ∀ (m : Memory) (pt : x86_64_pagetable) (m2 : Memory) (pt2 : x86_64_pagetable),
      table_nd pt → (∀ X ∈ pt.addr / PAGESIZE :: dir_pages pt.dirs, 1 ≤ m.physpages X) →
      process_setup_kernel cfg kpt l m pt = .ok (m2, pt2) →
      table_nd pt2 ∧ ∀ X ∈ pt2.addr / PAGESIZE :: dir_pages pt2.dirs, 1 ≤ m2.physpages X := by
  induction l with
  | nil =>
    intro m pt m2 pt2 hnd hpos h
    unfold process_setup_kernel at h
    simp only [Except.ok.injEq, Prod.mk.injEq] at h
    obtain ⟨rfl, rfl⟩ := h
    exact ⟨hnd, hpos⟩
  | cons va rest ih =>
    intro m pt m2 pt2 hnd hpos h
    unfold process_setup_kernel at h
    cases hm : vmiter_map cfg m pt va (vmiter_pa kpt va) (vmiter_perm kpt va) with
    | error e => rw [hm] at h; exact absurd h (by simp)
    | ok r =>
      obtain ⟨m1, pt1⟩ := r
      rw [hm] at h
      simp only at h
      obtain ⟨a, b⟩ := vmiter_map_nd cfg h0 m m m1 pt pt1 va _ _ hnd hpos (fun _ => le_refl _) hm
      exact ih m1 pt1 m2 pt2 a b h

/-- The page loop of `process_setup` keeps the pages of the table pairwise
distinct and their counts positive. -/
theorem process_setup_pages_nd (cfg : Config) (h0 : cfg.allocatable_physical_address 0 = false)
    (w : Bool) (l : List Nat) :
    ∀ (m : Memory) (pt : x86_64_pagetable) (m2 : Memory) (pt2 : x86_64_pagetable),
      table_nd pt → (∀ X ∈ pt.addr / PAGESIZE :: dir_pages pt.dirs, 1 ≤ m.physpages X) →
      process_setup_pages cfg w l m pt = .ok (m2, pt2) →
      table_nd pt2 ∧ ∀ X ∈ pt2.addr / PAGESIZE :: dir_pages pt2.dirs, 1 ≤ m2.physpages X := by
  induction l with
  | nil =>
    intro m pt m2 pt2 hnd hpos h
    unfold process_setup_pages at h
    simp only [Except.ok.injEq, Prod.mk.injEq] at h
    obtain ⟨rfl, rfl⟩ := h
    exact ⟨hnd, hpos⟩
  | cons a rest ih =>
    intro m pt m2 pt2 hnd hpos h
    unfold process_setup_pages at h
    simp only at h
    rcases kalloc_cases_nz cfg h0 m PAGESIZE with hk | ⟨pn, -, hpa, hf, hk⟩
    · rw [hk] at h
      simp at h
    · rw [hk] at h
      have hne : (pn * PAGESIZE == 0) = false := by simpa using hpa
      simp only [hne, Bool.false_eq_true, if_false] at h
      cases hm : vmiter_map cfg (m.take pn) pt a (pn * PAGESIZE)
          (if (!w) = true then PTE_P ||| PTE_U else PTE_P ||| PTE_W ||| PTE_U) with
      | error e => rw [hm] at h; exact absurd h (by simp)
      | ok r =>
        obtain ⟨m1, pt1⟩ := r
        rw [hm] at h
        simp only at h
        obtain ⟨x, y⟩ := vmiter_map_nd cfg h0 m (m.take pn) m1 pt pt1 a _ _ hnd hpos
          (fun X => by rw [take_physpages m pn X (free_page_count cfg m pn hf)]; omega) hm
        exact ih m1 pt1 m2 pt2 x y h

/-- The segment loop of `process_setup` keeps the pages of the table pairwise
distinct and their counts positive. -/
theorem process_setup_segs_nd (cfg : Config) (h0 : cfg.allocatable_physical_address 0 = false)
    (l : List segment) :
    ∀ (m : Memory) (pt : x86_64_pagetable) (m2 : Memory) (pt2 : x86_64_pagetable),
      table_nd pt → (∀ X ∈ pt.addr / PAGESIZE :: dir_pages pt.dirs, 1 ≤ m.physpages X) →
      process_setup_segs cfg l m pt = .ok (m2, pt2) →
      table_nd pt2 ∧ ∀ X ∈ pt2.addr / PAGESIZE :: dir_pages pt2.dirs, 1 ≤ m2.physpages X := by
  induction l with
  | nil =>
    intro m pt m2 pt2 hnd hpos h
    unfold process_setup_segs at h
    simp only [Except.ok.injEq, Prod.mk.injEq] at h
    obtain ⟨rfl, rfl⟩ := h
    exact ⟨hnd, hpos⟩
  | cons seg rest ih =>
    intro m pt m2 pt2 hnd hpos h
    unfold process_setup_segs at h
    cases hm : process_setup_pages cfg seg.writable
        (page_range (round_down seg.va PAGESIZE) (seg.va + seg.size)) m pt with
    | error e => rw [hm] at h; exact absurd h (by simp)
    | ok r =>
      obtain ⟨m1, pt1⟩ := r
      rw [hm] at h
      simp only at h
      obtain ⟨x, y⟩ := process_setup_pages_nd cfg h0 seg.writable _ m pt m1 pt1 hnd hpos hm
      exact ih m1 pt1 m2 pt2 x y h

/-- The pages of the table that `process_setup` installs are pairwise
distinct. -/
theorem process_setup_table_nd (cfg : Config) (hv : cfg.valid) (k k1 : Kernel) (pid : Nat)
    (pgm : program_image) (h : process_setup cfg k pid pgm = .ok k1) :
    ∀ pt, (k1.ptable pid).pagetable = some pt → table_nd pt := by
  have h0 := hv.null_reserved
  unfold process_setup at h
  simp only at h
  rcases kalloc_pagetable_cases cfg h0 k.memory with ha | ⟨pn, ma, hpn, hf, ha, hma⟩
  · rw [ha] at h
    exact absurd h (by simp)
  · rw [ha] at h
    simp only at h
    have hn0 : table_nd ⟨pn * PAGESIZE, [], fun _ => pageentry.zero⟩ := by
      simp [table_nd, dir_pages]
    have hp0 : ∀ X ∈ (⟨pn * PAGESIZE, [], fun _ => pageentry.zero⟩ : x86_64_pagetable).addr
        / PAGESIZE :: dir_pages
          (⟨pn * PAGESIZE, [], fun _ => pageentry.zero⟩ : x86_64_pagetable).dirs,
        1 ≤ ma.physpages X := by
      intro X hX
      simp only [dir_pages, List.map_nil, List.mem_singleton, page_mul_div] at hX
      subst hX
      rw [hma]
      simp
    cases h1 : process_setup_kernel cfg k.kernel_pagetable (page_range 0 cfg.PROC_START_ADDR)
        ma ⟨pn * PAGESIZE, [], fun _ => pageentry.zero⟩ with
    | error e => rw [h1] at h; exact absurd h (by simp)
    | ok r1 =>
      obtain ⟨m1, pt1⟩ := r1
      rw [h1] at h
      simp only at h
      obtain ⟨hn1, hp1⟩ := process_setup_kernel_nd cfg h0 _ _ ma _ m1 pt1 hn0 hp0 h1
      cases h2 : process_setup_segs cfg pgm.segs m1 pt1 with
      | error e => rw [h2] at h; exact absurd h (by simp)
      | ok r2 =>
        obtain ⟨m2, pt2⟩ := r2
        rw [h2] at h
        simp only at h
        obtain ⟨hn2, hp2⟩ := process_setup_segs_nd cfg h0 pgm.segs m1 pt1 m2 pt2 hn1 hp1 h2
        generalize hm3 : ({ m2 with bytes := process_setup_copy pt2 pgm.segs m2.bytes } : Memory)
          = m3 at h
        have hp3 : ∀ X ∈ pt2.addr / PAGESIZE :: dir_pages pt2.dirs, 1 ≤ m3.physpages X := by
          intro X hX
          rw [← hm3]
          exact hp2 X hX
        rcases kalloc_cases_nz cfg h0 m3 PAGESIZE with hk3 | ⟨sn, -, hpa, hsf, hk3⟩
        · rw [hk3] at h
          simp at h
        · rw [hk3] at h
          have hne : (sn * PAGESIZE == 0) = false := by simpa using hpa
          simp only [hne, Bool.false_eq_true, if_false] at h
          cases h4 : vmiter_map cfg (m3.take sn) pt2 (cfg.MEMSIZE_VIRTUAL - PAGESIZE)
              (sn * PAGESIZE) (PTE_P ||| PTE_W ||| PTE_U) with
          | error e => rw [h4] at h; exact absurd h (by simp)
          | ok r4 =>
            obtain ⟨m4, pt3⟩ := r4
            rw [h4] at h
            simp only [Except.ok.injEq] at h
            obtain ⟨hn3, -⟩ := vmiter_map_nd cfg h0 m3 (m3.take sn) m4 pt2 pt3 _ _ _ hn2 hp3
              (fun X => by rw [take_physpages m3 sn X (free_page_count cfg m3 sn hsf)]; omega)
              h4
            subst h
            intro pt hpt
            simp only [set_proc_ptable, if_true, Option.some.injEq] at hpt
            subst hpt
            exact hn3

/-- `process_setup` keeps the third invariant. -/
theorem process_setup_nd (cfg : Config) (hv : cfg.valid) (k k1 : Kernel) (pid : Nat)
    (pgm : program_image) (hk : kernel_table_ok cfg k.kernel_pagetable)
    (hnd : Nd k) (h : process_setup cfg k pid pgm = .ok k1) : Nd k1 := by
  obtain ⟨pt, regs, hslot, hoth, -, -, -, -⟩ := process_setup_inv cfg hv k k1 pid pgm hk h
  exact nd_update k k1 pid hnd hoth
    (fun pt1 _ hpt1 => process_setup_table_nd cfg hv k k1 pid pgm h pt1 hpt1)

/-- The `process_setup` calls of `kernel_start` keep the third invariant. -/
theorem kernel_start_procs_nd (cfg : Config) (hv : cfg.valid) (l : List program_image) :
    ∀ (pid : Nat) (k k1 : Kernel), Inv cfg k → Nd k →
      kernel_start_procs cfg l pid k = .ok k1 → Nd k1 := by
  induction l with
  | nil =>
    intro pid k k1 _ hnd h
    unfold kernel_start_procs at h
    simp only [Except.ok.injEq] at h
    subst h
    exact hnd
  | cons pgm rest ih =>
    intro pid k k1 hinv hnd h
    unfold kernel_start_procs at h
    cases h1 : process_setup cfg k pid pgm with
    | error e => rw [h1] at h; exact absurd h (by simp)
    | ok k2 =>
      rw [h1] at h
      simp only at h
      exact ih (pid + 1) k2 k1 (process_setup_keeps cfg hv k k2 pid pgm hinv h1)
        (process_setup_nd cfg hv k k2 pid pgm hinv.kernel hnd h1) h

/-- The steps of a `kernel_start` that returns: a state with every slot free
that satisfies the first invariant, then the `process_setup` calls, then the
choice of slot 1. -/
theorem kernel_start_steps (cfg : Config) (hv : cfg.valid) (kpt : x86_64_pagetable)
    (bytes : Nat → Nat) (programs : List program_image) (k : Kernel)
    (h : kernel_start cfg kpt bytes programs = .ok k) :
    ∃ K1 k2 : Kernel, (∀ i, (K1.ptable i).state = P_FREE) ∧ Inv cfg K1 ∧
      kernel_start_procs cfg programs 1 K1 = .ok k2 ∧ k = { k2 with current := 1 } := by
  unfold kernel_start at h
  simp only at h
  cases h1 : kernel_start_map cfg (page_range 0 cfg.MEMSIZE_PHYSICAL) (boot_state kpt bytes).memory
      kpt with
  | error e => rw [h1] at h; exact absurd h (by simp)
  | ok r =>
    obtain ⟨m, kpt1⟩ := r
    rw [h1] at h
    simp only at h
    have hk := kernel_start_map_table_ok cfg hv _ m kpt kpt1 h1
    split at h
    · exact absurd h (by simp)
    · rename_i k2 h2
      have hfree : ∀ i, ((if i < cfg.PID_MAX then
          (⟨i, P_FREE, ((boot_state kpt bytes).ptable i).regs,
            ((boot_state kpt bytes).ptable i).pagetable⟩ : proc)
          else (boot_state kpt bytes).ptable i)).state = P_FREE := by
        intro i
        split
        · rfl
        · rfl
      refine ⟨_, k2, ?_, ?_, h2, ?_⟩
      · exact hfree
      · refine ⟨?_, ?_, hk, ?_, ?_⟩
        · intro X
          have h0 := sum_range_le cfg.PID_MAX (fun _ => 0)
            (fun i => proc_count (fun pt => owned cfg pt X)
              (if i < cfg.PID_MAX then
                (⟨i, P_FREE, ((boot_state kpt bytes).ptable i).regs,
                  ((boot_state kpt bytes).ptable i).pagetable⟩ : proc)
              else (boot_state kpt bytes).ptable i))
            (fun i _ => by
              show proc_count _ _ ≤ 0
              rw [proc_count_free _ _ (hfree i)])
          refine le_trans (le_of_eq ?_) (Nat.zero_le _)
          unfold owned_count
          simpa using h0
        · intro i pt hst
          exact absurd (hfree i) hst
        · intro i hi
          simp [hi]
        · exact lt_trans Nat.zero_lt_one hv.two_slots
      · split at h
        · simp only [Except.ok.injEq] at h
          exact h.symm
        · exact absurd h (by simp)

/-- Every reachable state satisfies the third invariant. -/
theorem reachable_nd (cfg : Config) (hv : cfg.valid) (k : Kernel) (hr : Reachable cfg k) :
    Nd k := by
  induction hr with
  | boot kpt bytes programs k h =>
    obtain ⟨K1, k2, hfree, hinv, hp, rfl⟩ := kernel_start_steps cfg hv kpt bytes programs k h
    exact nd_of_same_ptable k2 _ (kernel_start_procs_nd cfg hv programs 1 K1 k2 hinv
      (fun i pt hst => absurd (hfree i) hst) hp) rfl
  | page_alloc k k1 addr r hk hrun h ih =>
    exact syscall_page_alloc_nd cfg hv k k1 addr r (reachable_inv cfg hv k hk) ih hrun h
  | fork k k1 r hk hrun h ih =>
    exact sys_fork_nd cfg hv k k1 r (reachable_inv cfg hv k hk) ih hrun h
  | exit k k1 r _ _ h ih => exact sys_exit_nd cfg k k1 _ r ih h
  | kill k k1 pid r _ _ h ih => exact sys_exit_nd cfg k k1 pid r ih h
  | exception k k1 regs cr2 n _ hrun h ih => exact exception_nd cfg hv k k1 regs cr2 n ih hrun h
  | save k regs _ _ ih => exact nd_save k regs ih
  | run k p _ _ _ ih => exact nd_of_same_ptable k _ ih rfl

/-! ## C11: teardown by `sys_exit` -/

/-- In a well-formed table the pages that the first loop of `sys_exit` frees
are the user-accessible mappings at addresses other than `CONSOLE_ADDR`. -/
theorem exit_counts_eq (cfg : Config) (pt : x86_64_pagetable) (hw : table_wf cfg pt) (X : Nat) :
    cfg.vas.countP (fun va => exit_counts cfg pt va X) =
      cfg.vas.countP (fun va =>
        vmiter_user pt va && va != cfg.CONSOLE_ADDR && vmiter_pa pt va / PAGESIZE == X) := by
  apply List.countP_congr
  intro va hva
  have ha := vas_aligned cfg va hva
  have hlt : va / PAGESIZE < cfg.NVPAGES :=
    (mem_vas_vpn cfg _).mp (List.mem_map.mpr ⟨va, hva, rfl⟩)
  have hva' : va / PAGESIZE * PAGESIZE = va := Nat.div_mul_cancel (Nat.dvd_of_mod_eq_zero ha)
  unfold exit_counts
  by_cases hu : vmiter_user pt va = true
  · by_cases hne : va = cfg.CONSOLE_ADDR
    · simp [hne]
    · have hu' := hu
      rw [vmiter_user_eq] at hu'
      simp only [Bool.and_eq_true] at hu'
      have hpa := hw.2.2 (va / PAGESIZE) hlt hu'.1 hu'.2 (by rw [hva']; exact hne)
      rw [vmiter_kptr_of_present pt va ha hu'.1, vmiter_pa_of_present pt va ha hu'.1]
      simp [hu, hne, hpa.1]
  · simp [hu]

/-- In a state satisfying the invariants, `sys_exit` of a non-free slot
completes, returns 0, frees the slot, and lowers every count by the uses its
table made of the page. -/
theorem sys_exit_total (cfg : Config) (k : Kernel) (hinv : Inv cfg k) (hwf : Wf cfg k)
    (p : Nat) (hp : p < cfg.PID_MAX) (hst : (k.ptable p).state ≠ P_FREE) :
    ∃ (pt : x86_64_pagetable) (k1 : Kernel),
      (k.ptable p).pagetable = some pt ∧ sys_exit cfg k p = .ok (0, k1) ∧
      (∀ X, k1.memory.physpages X +
        (cfg.vas.countP (fun va =>
            vmiter_user pt va && va != cfg.CONSOLE_ADDR && vmiter_pa pt va / PAGESIZE == X)
          + (dir_pages pt.dirs).count X + (if X = pt.addr / PAGESIZE then 1 else 0))
        = k.memory.physpages X) ∧
      k1.memory.bytes = k.memory.bytes ∧
      k1.ptable p = { k.ptable p with state := P_FREE, pagetable := none } ∧
      (∀ i, i ≠ p → k1.ptable i = k.ptable i) ∧
      k1.current = k.current ∧ k1.ticks = k.ticks ∧
      k1.kernel_pagetable = k.kernel_pagetable := by
  cases hpt : (k.ptable p).pagetable with
  | none => exact absurd hpt (hwf.live p hst)
  | some pt =>
    have hw := hwf.tables p pt hst hpt
    have hok := hinv.tables p pt hst hpt
    have hc : ∀ X, exit_owned cfg pt X ≤ k.memory.physpages X := by
      intro X
      have h1 := proc_count_le_owned_count cfg k p X hp
      rw [proc_count_live _ _ pt hst hpt] at h1
      have h2 := hinv.counts X
      have h3 := exit_counts_le cfg pt hok X
      unfold exit_owned
      unfold owned at h1
      omega
    obtain ⟨k1, e1, e2, e3, e4, e5, e6, e7, e8⟩ := sys_exit_ok cfg k p pt hp hst hpt
      (by
        intro va hva hu hne
        have ha := vas_aligned cfg va hva
        have hlt : va / PAGESIZE < cfg.NVPAGES :=
          (mem_vas_vpn cfg _).mp (List.mem_map.mpr ⟨va, hva, rfl⟩)
        have hva' : va / PAGESIZE * PAGESIZE = va :=
          Nat.div_mul_cancel (Nat.dvd_of_mod_eq_zero ha)
        rw [vmiter_user_eq] at hu
        simp only [Bool.and_eq_true] at hu
        rw [vmiter_kptr_of_present pt va ha hu.1]
        exact (hw.2.2 (va / PAGESIZE) hlt hu.1 hu.2 (by rw [hva']; exact hne)).2)
      (fun d hd => ⟨(hw.2.1 d hd).1, (hw.2.1 d hd).2.1⟩) ⟨hw.1.1, hw.1.2.1⟩ hc
    refine ⟨pt, k1, rfl, e1, ?_, e3, e4, e5, e6, e7, e8⟩
    intro X
    have := e2 X
    unfold exit_owned at this
    rw [exit_counts_eq cfg pt hw X] at this
    omega

/-- Two different page-aligned addresses lie in different pages. -/
theorem page_ne_of_aligned (a b : Nat) (ha : a % PAGESIZE = 0) (hb : b % PAGESIZE = 0)
    (hne : a ≠ b) : a / PAGESIZE ≠ b / PAGESIZE := by
  simp only [PAGESIZE] at *
  omega

/-- The uses a table with pairwise distinct pages makes of page `X` as a
page-table page: one if `X` is its top-level page or one of its structure
pages. -/
theorem table_pages_count (pt : x86_64_pagetable) (hnd : table_nd pt) (X : Nat) :
    (dir_pages pt.dirs).count X + (if X = pt.addr / PAGESIZE then 1 else 0) =
      if X ∈ pt.addr / PAGESIZE :: dir_pages pt.dirs then 1 else 0 := by
  unfold table_nd at hnd
  have h1 : (pt.addr / PAGESIZE :: dir_pages pt.dirs).count X =
      (dir_pages pt.dirs).count X + (if X = pt.addr / PAGESIZE then 1 else 0) := by
    rw [List.count_cons]
    by_cases h : X = pt.addr / PAGESIZE
    · subst h; simp
    · have : (pt.addr / PAGESIZE == X) = false := by simpa using fun e => h e.symm
      simp [h, this]
  rw [← h1]
  by_cases hm : X ∈ pt.addr / PAGESIZE :: dir_pages pt.dirs
  · rw [if_pos hm]
    exact List.count_eq_one_of_mem hnd hm
  · rw [if_neg hm]
    exact List.count_eq_zero_of_not_mem hm

/-- A well-shaped, well-formed table makes no use that `sys_exit` releases of
the console page. -/
theorem console_page_unused (cfg : Config) (hcon : cfg.CONSOLE_ADDR % PAGESIZE = 0)
    (pt : x86_64_pagetable) (hok : table_ok cfg pt) (hw : table_wf cfg pt) :
    cfg.vas.countP (fun va => vmiter_user pt va && va != cfg.CONSOLE_ADDR &&
      vmiter_pa pt va / PAGESIZE == cfg.CONSOLE_ADDR / PAGESIZE) = 0 ∧
    cfg.CONSOLE_ADDR / PAGESIZE ∉ pt.addr / PAGESIZE :: dir_pages pt.dirs := by
  constructor
  · rw [List.countP_eq_zero]
    intro va hva
    have ha := vas_aligned cfg va hva
    have hlt : va / PAGESIZE < cfg.NVPAGES :=
      (mem_vas_vpn cfg _).mp (List.mem_map.mpr ⟨va, hva, rfl⟩)
    have hva' : va / PAGESIZE * PAGESIZE = va := Nat.div_mul_cancel (Nat.dvd_of_mod_eq_zero ha)
    by_cases hu : vmiter_user pt va = true
    · by_cases hne : va = cfg.CONSOLE_ADDR
      · simp [hne]
      · have hu' := hu
        rw [vmiter_user_eq] at hu'
        simp only [Bool.and_eq_true] at hu'
        have h1 := hok.2 (va / PAGESIZE) hlt hu'.1 hu'.2 (by rw [hva']; exact hne)
        have h2 := hw.2.2 (va / PAGESIZE) hlt hu'.1 hu'.2 (by rw [hva']; exact hne)
        have h3 := page_ne_of_aligned _ _ h2.2 hcon h1
        rw [vmiter_pa_of_present pt va ha hu'.1]
        simp [h3]
    · simp [hu]
  · intro hm
    rcases List.mem_cons.1 hm with h | h
    · exact page_ne_of_aligned _ _ hw.1.2.1 hcon hw.1.2.2 h.symm
    · unfold dir_pages at h
      obtain ⟨d, hd, he⟩ := List.mem_map.1 h
      obtain ⟨-, a, b⟩ := hw.2.1 d hd
      exact page_ne_of_aligned _ _ a hcon b he

/-! ## C12, C13: `kill` -/

/-- Two summands at different indices are together at most the sum. -/
theorem sum_range_two (n i j : Nat) (F : Nat → Nat) (hi : i < n) (hj : j < n) (hne : i ≠ j) :
    F i + F j ≤ ((List.range n).map F).sum := by
  have h1 := sum_range_point n i F (fun x => if x = i then 0 else F x)
    (fun x hx => by simp [hx])
  have h2 := sum_range_point n j (fun x => if x = i then 0 else F x)
    (fun x => if x = j then 0 else if x = i then 0 else F x)
    (fun x hx => by simp [hx])
  simp only [hi, hj, if_true, if_neg hne.symm] at h1 h2
  omega

/-- The uses two different live processes make of a page are together covered
by its count. -/
theorem two_tables_le_count (cfg : Config) (k : Kernel) (hinv : Inv cfg k) (i j : Nat)
    (pti ptj : x86_64_pagetable) (hi : i < cfg.PID_MAX) (hj : j < cfg.PID_MAX) (hne : i ≠ j)
    (hsti : (k.ptable i).state ≠ P_FREE) (hstj : (k.ptable j).state ≠ P_FREE)
    (hpti : (k.ptable i).pagetable = some pti) (hptj : (k.ptable j).pagetable = some ptj)
    (X : Nat) : owned cfg pti X + owned cfg ptj X ≤ k.memory.physpages X := by
  have h := sum_range_two cfg.PID_MAX i j
    (fun x => proc_count (fun pt => owned cfg pt X) (k.ptable x)) hi hj hne
  simp only at h
  rw [proc_count_live _ _ pti hsti hpti, proc_count_live _ _ ptj hstj hptj] at h
  have := hinv.counts X
  unfold owned_count at this
  omega

/-- A user-accessible mapping of a page other than the console page is one of
the uses the table makes of that page. -/
theorem owned_pos (cfg : Config) (pt : x86_64_pagetable) (va : Nat)
    (hal : va % PAGESIZE = 0) (hlt : va < cfg.MEMSIZE_VIRTUAL)
    (hu : vmiter_user pt va = true) (hne : vmiter_pa pt va ≠ cfg.CONSOLE_ADDR) :
    0 < cfg.vas.countP (fun a => maps_page cfg pt a (vmiter_pa pt va / PAGESIZE)) := by
  apply List.countP_pos_iff.2
  refine ⟨va, (mem_vas cfg va).2 ⟨hal, hlt⟩, ?_⟩
  unfold maps_page
  simp [hu, hne]

set_option maxRecDepth 1000000 in
/-- Facts about the small configuration after boot and fork, by evaluation. -/
theorem tiny_facts :
    (kernel_start tiny kpt_tiny (fun _ => 0) [img_tiny]).toOption.isSome = true ∧
    (k_tiny_boot.ptable k_tiny_boot.current).state = P_RUNNABLE ∧
    (sys_fork tiny k_tiny_boot).toOption.map Prod.fst = some 2 ∧
    (k_tiny_fork.ptable 1).state = P_RUNNABLE ∧ (k_tiny_fork.ptable 2).state = P_RUNNABLE ∧
    k_tiny_fork.current = 1 ∧
    ((k_tiny_fork.ptable 1).pagetable.map (fun pt =>
      (vmiter_user pt 0x8000, vmiter_pa pt 0x8000, (vmiter_perm pt 0x8000 &&& PTE_C).nonzero)))
      = some (true, 0xA000, true) ∧
    ((k_tiny_fork.ptable 2).pagetable.map (fun pt =>
      (vmiter_user pt 0x8000, vmiter_pa pt 0x8000, (vmiter_perm pt 0x8000 &&& PTE_C).nonzero)))
      = some (true, 0xA000, true) ∧
    (k_tiny_fork.ptable 2).pagetable.isSome = true ∧
    k_tiny_fork.memory.physpages 10 = 2 ∧
    (∀ pn, pn < tiny.NPAGES → free_page tiny k_tiny_fork.memory pn = false) := by
  decide!

/-- The small configuration satisfies the assumptions on the configuration. -/
theorem tiny_valid : tiny.valid := ⟨by decide, by decide, by decide, by decide⟩

/-- The state of the small configuration after boot is reachable. -/
theorem k_tiny_boot_reachable : Reachable tiny k_tiny_boot :=
  Reachable.boot kpt_tiny (fun _ => 0) [img_tiny] k_tiny_boot
    (except_ok_of_isSome (kernel_start tiny kpt_tiny (fun _ => 0) [img_tiny]) k_small
      tiny_facts.1)

/-- The state of the small configuration after the fork is reachable. -/
theorem k_tiny_fork_reachable : Reachable tiny k_tiny_fork :=
  Reachable.fork k_tiny_boot k_tiny_fork 2 k_tiny_boot_reachable tiny_facts.2.1
    (except_ok_of_fst (sys_fork tiny k_tiny_boot) 2 k_small tiny_facts.2.2.1)

set_option maxRecDepth 1000000 in
/-- Slot 3 of the small configuration is free after the fork. -/
theorem tiny_slot3_free : (k_tiny_fork.ptable 3).state = P_FREE := by decide!

/-- C13. In every reachable state, for every pid that is negative, at least
`PID_MAX`, equal to 0, or that names a slot in the free state, `sys_exit(pid)`,
which is what `kill(pid)` returns, returns -1 and leaves the kernel state
exactly as it was: no descriptor, page table or reference count changes, so a
repeated call gives the same result and the same state. -/
theorem sys_exit_invalid_pid (cfg : Config) (hv : cfg.valid) (k : Kernel)
    (hr : Reachable cfg k) (pid : Int)
    (h : pid < 0 ∨ (cfg.PID_MAX : Int) ≤ pid ∨ pid = 0 ∨
      (k.ptable pid.toNat).state = P_FREE) :
    sys_exit cfg k pid = .ok (-1, k) ∧
    (sys_exit cfg k pid).bind (fun r => sys_exit cfg r.2 pid) = .ok (-1, k) := by
  have hwf := reachable_wf cfg hv k hr
  have hcond : (decide (pid ≥ 0) && decide (pid < (cfg.PID_MAX : Int))
      && (k.ptable pid.toNat).state != P_FREE) = false := by
    rcases h with h | h | h | h
    · have : decide (pid ≥ 0) = false := by simpa using h
      simp [this]
    · have : decide (pid < (cfg.PID_MAX : Int)) = false := by simpa using h
      simp [this]
    · subst h
      simp [hwf.slot0]
    · simp [h]
  have h1 : sys_exit cfg k pid = .ok (-1, k) := by
    unfold sys_exit
    rw [hcond]
    rfl
  refine ⟨h1, ?_⟩
  rw [h1]
  exact h1

/-- Witness for C13: in the state after boot, `kill` of pid 0, of pid -1 and
of pid 16 return -1 and change nothing; so does, in the small configuration
after the fork, `kill` of the free slot 3. -/
theorem sys_exit_invalid_pid_witness :
    sys_exit weensyos k_boot 0 = .ok (-1, k_boot) ∧
    sys_exit weensyos k_boot (-1) = .ok (-1, k_boot) ∧
    sys_exit weensyos k_boot 16 = .ok (-1, k_boot) ∧
    (k_tiny_fork.ptable 3).state = P_FREE ∧
    sys_exit tiny k_tiny_fork 3 = .ok (-1, k_tiny_fork) :=
  ⟨(sys_exit_invalid_pid weensyos weensyos_valid k_boot k_boot_reachable 0
      (Or.inr (Or.inr (Or.inl rfl)))).1,
    (sys_exit_invalid_pid weensyos weensyos_valid k_boot k_boot_reachable (-1)
      (Or.inl (by decide))).1,
    (sys_exit_invalid_pid weensyos weensyos_valid k_boot k_boot_reachable 16
      (Or.inr (Or.inl (by decide)))).1,
    tiny_slot3_free,
    (sys_exit_invalid_pid tiny tiny_valid k_tiny_fork k_tiny_fork_reachable 3
      (Or.inr (Or.inr (Or.inr tiny_slot3_free)))).1⟩

/-! ## C15, C16, C17: page faults that are not resolved -/

/-- C15 (the defect). In every reachable state, when the running process takes
a page fault on a copy-on-write-pending entry whose page has reference count at
least 2 and no page is free, `exception` does not hand over to the scheduler:
it tears the process down with `sys_exit`, which returns 0, and then goes on to
`memcpy(nullptr, ...)`, so the kernel stops in a fault of its own. -/
theorem exception_cow_no_memory_halts (cfg : Config) (hv : cfg.valid) (k : Kernel)
    (hr : Reachable cfg k) (regs : regstate) (cr2 : Nat) (pt : x86_64_pagetable)
    (hint : regs.reg_intno = INT_PF)
    (hrun : (k.ptable k.current).state = P_RUNNABLE)
    (hpt : (k.ptable k.current).pagetable = some pt)
    (hC : (vmiter_perm pt (round_down cr2 PAGESIZE) &&& PTE_C).nonzero = true)
    (hcount : 2 ≤ k.memory.physpages (vmiter_pa pt (round_down cr2 PAGESIZE) / PAGESIZE))
    (hfull : ∀ pn, pn < cfg.NPAGES → free_page cfg k.memory pn = false) :
    exception cfg k regs cr2 = .error Halt.fault := by
  have hinv := reachable_inv cfg hv k hr
  have hwf := reachable_wf cfg hv k hr
  have hst : (k.ptable k.current).state ≠ P_FREE := by rw [hrun]; decide
  have hpid : (k.ptable k.current).pid = k.current := hinv.pids _ hinv.cur
  have h1 : (regs.reg_intno == INT_IRQ + IRQ_TIMER) = false := by rw [hint]; decide
  have h2 : (regs.reg_intno == INT_PF) = true := by rw [hint]; decide
  have h3 : (k.memory.physpages
      (vmiter_pa pt (round_down cr2 PAGESIZE) / PAGESIZE) == 1) = false := by
    have : k.memory.physpages (vmiter_pa pt (round_down cr2 PAGESIZE) / PAGESIZE) ≠ 1 := by
      omega
    simpa using this
  have hnone := kalloc_none cfg k.memory PAGESIZE hfull
  have heq : ({ k.ptable k.current with regs := regs } : proc) =
      ⟨k.current, (k.ptable k.current).state, regs, some pt⟩ := by
    simp [hpid, hpt]
  have hinvK := inv_save cfg k regs hinv
  have hwfK := wf_save cfg k regs hwf
  rw [heq] at hinvK hwfK
  obtain ⟨pt', k1, -, hex, -⟩ := sys_exit_total cfg _ hinvK hwfK k.current hinv.cur
    (by simp only [set_proc_ptable, if_true]; exact hst)
  unfold exception
  simp only [h1, h2, Bool.false_eq_true, if_false, if_true, set_proc_ptable,
    set_proc_current, set_proc_memory, hpt, hC, h3]
  unfold exception_cow_copy
  simp only [set_proc_memory, hnone, beq_self_eq_true, if_true, set_proc_ptable,
    set_proc_current, hpid]
  split
  · next e he => exact absurd (hex.symm.trans he) (by simp)
  · next r k2 he =>
    have := hex.symm.trans he
    simp only [Except.ok.injEq, Prod.mk.injEq] at this
    rw [← this.1]
    rfl

set_option maxRecDepth 1000000 in
/-- Facts about the small configuration once the child runs, by evaluation:
the child's entry for 0x8000 is copy-on-write-pending, its page has reference
count 2, and no page is free. -/
theorem tiny_child_facts :
    (k_tiny_child.ptable k_tiny_child.current).state = P_RUNNABLE ∧
    (k_tiny_child.ptable k_tiny_child.current).pagetable.isSome = true ∧
    (vmiter_perm ((k_tiny_child.ptable k_tiny_child.current).pagetable.getD pt_small)
      (round_down 0x8000 PAGESIZE) &&& PTE_C).nonzero = true ∧
    2 ≤ k_tiny_child.memory.physpages
      (vmiter_pa ((k_tiny_child.ptable k_tiny_child.current).pagetable.getD pt_small)
        (round_down 0x8000 PAGESIZE) / PAGESIZE) ∧
    (∀ pn, pn < tiny.NPAGES → free_page tiny k_tiny_child.memory pn = false) := by
  decide!

/-- The state of the small configuration in which the child runs is
reachable. -/
theorem k_tiny_child_reachable : Reachable tiny k_tiny_child :=
  Reachable.run k_tiny_fork 2 k_tiny_fork_reachable (by decide) tiny_facts.2.2.2.2.1

/-- Witness for C15: in the small configuration the fork has used the last free
pages; the child then writes to the data page at 0x8000 that it shares with
its parent, and the kernel stops in a fault of its own. -/
theorem exception_cow_no_memory_halts_witness :
    tiny.valid ∧ Reachable tiny k_tiny_child ∧
    (∀ pn, pn < tiny.NPAGES → free_page tiny k_tiny_child.memory pn = false) ∧
    exception tiny k_tiny_child regs_pf 0x8000 = .error Halt.fault :=
  ⟨tiny_valid, k_tiny_child_reachable, tiny_child_facts.2.2.2.2,
    exception_cow_no_memory_halts tiny tiny_valid k_tiny_child k_tiny_child_reachable regs_pf
      0x8000 ((k_tiny_child.ptable k_tiny_child.current).pagetable.getD pt_small) rfl
      tiny_child_facts.1 (option_some_of_isSome _ pt_small tiny_child_facts.2.1)
      tiny_child_facts.2.2.1 tiny_child_facts.2.2.2.1 tiny_child_facts.2.2.2.2⟩

/-- The permissions `vmiter::perm()` reports for an entry just set to
`PTE_PWU`. -/
theorem vmiter_perm_set_pwu (pt : x86_64_pagetable) (va pa : Nat) :
    vmiter_perm (pt.set_entry (va / PAGESIZE) ⟨pa, PTE_PWU⟩) va = PTE_PWU := by
  unfold vmiter_perm
  simp only [set_entry_entry, Function.update_same]
  rfl

/-- A handler that ends in `exception_return` returns the state it hands to
it. -/
theorem ok_return (r : Except Halt (Kernel × Next)) (K : Kernel)
    (h : r = .ok (exception_return K)) : ∃ k1 n, r = .ok (k1, n) ∧ k1 = K :=
  ⟨(exception_return K).1, (exception_return K).2, h, exception_return_fst K⟩

/-- C16, as far as it holds, and the defect. For a page fault whose error code
lacks the user bit: when the faulting entry is not copy-on-write-pending,
`exception` stops in `proc_panic` (the kernel-page-fault diagnostic); but when
the entry is copy-on-write-pending the test of the user bit is never reached:
with reference count 1, or with a page free, the handler resolves the fault as
a copy-on-write fault and returns, the entry now `PTE_P | PTE_W | PTE_U`. -/
theorem exception_kernel_fault (cfg : Config) (h0 : cfg.allocatable_physical_address 0 = false)
    (k : Kernel) (regs : regstate) (cr2 : Nat) (pt : x86_64_pagetable)
    (hint : regs.reg_intno = INT_PF) (hpt : (k.ptable k.current).pagetable = some pt)
    (hkern : regs.reg_errcode &&& PFERR_USER = 0) :
    ((vmiter_perm pt (round_down cr2 PAGESIZE) &&& PTE_C).nonzero = false →
      exception cfg k regs cr2 = .error Halt.panic) ∧
    ((vmiter_perm pt (round_down cr2 PAGESIZE) &&& PTE_C).nonzero = true →
      (k.memory.physpages (vmiter_pa pt (round_down cr2 PAGESIZE) / PAGESIZE) = 1 ∨
        ∃ pn, pn < cfg.NPAGES ∧ free_page cfg k.memory pn = true) →
      ∃ (k1 : Kernel) (n : Next) (pt1 : x86_64_pagetable),
        exception cfg k regs cr2 = .ok (k1, n) ∧
        (k1.ptable k.current).pagetable = some pt1 ∧
        vmiter_perm pt1 (round_down cr2 PAGESIZE) = PTE_PWU) := by
  have h1 : (regs.reg_intno == INT_IRQ + IRQ_TIMER) = false := by rw [hint]; decide
  have h2 : (regs.reg_intno == INT_PF) = true := by rw [hint]; decide
  constructor
  · intro hC
    unfold exception
    simp [h1, h2, set_proc_ptable, hpt, hC, hkern]
  · intro hC hres
    by_cases hcount : k.memory.physpages (vmiter_pa pt (round_down cr2 PAGESIZE) / PAGESIZE) = 1
    · obtain ⟨k1, n, he, rfl⟩ := ok_return _ _
        (exception_cow_inplace cfg k regs cr2 pt hint hpt hC hcount)
      exact ⟨_, n, _, he, by simp [set_proc_ptable],
        vmiter_perm_set_pwu pt (round_down cr2 PAGESIZE)
          (pt.entry (round_down cr2 PAGESIZE / PAGESIZE)).pa⟩
    · rcases hres with hres | hfree
      · exact absurd hres hcount
      · obtain ⟨pn, -, -, -, hex⟩ := exception_cow_copy_ok cfg h0 k regs cr2 pt hint hpt hC
          hcount hfree
        obtain ⟨k1, n, he, rfl⟩ := ok_return _ _ hex
        exact ⟨_, n, _, he, by simp [set_proc_ptable],
          vmiter_perm_set_pwu pt (round_down cr2 PAGESIZE) (pn * PAGESIZE)⟩

set_option maxRecDepth 1000000 in
/-- Facts about the small configuration after the child has been killed, by
evaluation: the kill returned 0, process 1 is current, and its entry for
0x8000 is still copy-on-write-pending, with reference count 1. -/
theorem tiny_alone_facts :
    (sys_exit tiny k_tiny_fork 2).toOption.map Prod.fst = some 0 ∧
    (k_tiny_fork.ptable k_tiny_fork.current).state = P_RUNNABLE ∧
    (k_tiny_alone.ptable k_tiny_alone.current).pagetable.isSome = true ∧
    (vmiter_perm ((k_tiny_alone.ptable k_tiny_alone.current).pagetable.getD pt_small)
      (round_down 0x8000 PAGESIZE) &&& PTE_C).nonzero = true ∧
    k_tiny_alone.memory.physpages
      (vmiter_pa ((k_tiny_alone.ptable k_tiny_alone.current).pagetable.getD pt_small)
        (round_down 0x8000 PAGESIZE) / PAGESIZE) = 1 := by
  decide!

/-- The state of the small configuration after the child has been killed is
reachable. -/
theorem k_tiny_alone_reachable : Reachable tiny k_tiny_alone :=
  Reachable.kill k_tiny_fork k_tiny_alone 2 0 k_tiny_fork_reachable tiny_alone_facts.2.1
    (except_ok_of_fst (sys_exit tiny k_tiny_fork 2) 0 k_small tiny_alone_facts.1)

/-- C16 at a concrete state: process 1 of the small configuration, alone after
its child was killed, still has its data page at 0x8000 copy-on-write-pending.
A page fault at 0x8000 whose error code says kernel mode is resolved like a
user write; the kernel does not stop. -/
theorem exception_kernel_fault_witness :
    regs_kpf.reg_intno = INT_PF ∧ regs_kpf.reg_errcode &&& PFERR_USER = 0 ∧
    Reachable tiny k_tiny_alone ∧
    (vmiter_perm ((k_tiny_alone.ptable k_tiny_alone.current).pagetable.getD pt_small)
      (round_down 0x8000 PAGESIZE) &&& PTE_C).nonzero = true ∧
    ∃ (k1 : Kernel) (n : Next) (pt1 : x86_64_pagetable),
      exception tiny k_tiny_alone regs_kpf 0x8000 = .ok (k1, n) ∧
      (k1.ptable k_tiny_alone.current).pagetable = some pt1 ∧
      vmiter_perm pt1 (round_down 0x8000 PAGESIZE) = PTE_PWU :=
  ⟨rfl, by decide, k_tiny_alone_reachable, tiny_alone_facts.2.2.2.1,
    (exception_kernel_fault tiny (by decide) k_tiny_alone regs_kpf 0x8000
      ((k_tiny_alone.ptable k_tiny_alone.current).pagetable.getD pt_small) rfl
      (option_some_of_isSome _ pt_small tiny_alone_facts.2.2.1) (by decide)).2
      tiny_alone_facts.2.2.2.1 (Or.inl tiny_alone_facts.2.2.2.2)⟩

/-! ## C17: a fault that marks the process faulted -/

/-- When the loop of `schedule` has met no runnable slot after `fuel`
iterations, none of the first `fuel` slots of the scan is runnable. -/
theorem schedule_loop_none_inv (cfg : Config) (k : Kernel) (fuel : Nat) :
    ∀ c, schedule_loop cfg k fuel c = none →
      ∀ j, 1 ≤ j → j ≤ fuel → (k.ptable ((c + j) % cfg.PID_MAX)).state ≠ P_RUNNABLE := by
  induction fuel with
  | zero => intro c _ j h1 h2; omega
  | succ n ih =>
    intro c h j hj1 hj2
    unfold schedule_loop at h
    split at h
    · exact absurd h (by simp)
    · next hr =>
      by_cases hj : j = 1
      · subst hj
        simpa using hr
      · have := ih _ h (j - 1) (by omega) (by omega)
        rw [scan_step, Nat.sub_add_cancel hj1] at this
        exact this

/-- When some slot is runnable, `schedule` has resumed a runnable slot once its
loop has made `PID_MAX` iterations. -/
theorem schedule_finds (cfg : Config) (k : Kernel)
    (h : ∃ i, i < cfg.PID_MAX ∧ (k.ptable i).state = P_RUNNABLE) :
    ∃ p, p < cfg.PID_MAX ∧ (k.ptable p).state = P_RUNNABLE ∧
      schedule cfg k cfg.PID_MAX = some (.ok { k with current := p }) := by
  obtain ⟨i, hi, hrun⟩ := h
  have hM : 0 < cfg.PID_MAX := by omega
  cases hl : schedule_loop cfg k cfg.PID_MAX (k.ptable k.current).pid with
  | none =>
    obtain ⟨j, a, b, e⟩ := add_mod_reach (k.ptable k.current).pid cfg.PID_MAX i hi
    have := schedule_loop_none_inv cfg k _ _ hl j a b
    rw [e] at this
    exact absurd hrun this
  | some p =>
    obtain ⟨hp, hr⟩ := schedule_loop_runnable cfg k hM _ _ p hl
    refine ⟨p, hp, hr, ?_⟩
    unfold schedule
    rw [hl]
    simp only [Option.map_some', run]
    rw [hr]
    rfl

/-- Whatever `schedule` resumes is a runnable slot of the table. -/
theorem schedule_runnable (cfg : Config) (k : Kernel) (hM : 0 < cfg.PID_MAX) (fuel : Nat)
    (r : Except Halt Kernel) (h : schedule cfg k fuel = some r) :
    ∃ p, p < cfg.PID_MAX ∧ (k.ptable p).state = P_RUNNABLE ∧ r = .ok { k with current := p } := by
  unfold schedule at h
  cases hl : schedule_loop cfg k fuel (k.ptable k.current).pid with
  | none => rw [hl] at h; simp at h
  | some p =>
    rw [hl] at h
    simp only [Option.map_some', Option.some.injEq] at h
    obtain ⟨hp, hr⟩ := schedule_loop_runnable cfg k hM fuel _ p hl
    refine ⟨p, hp, hr, ?_⟩
    rw [← h]
    unfold run
    rw [hr]
    rfl

/-- C17. For every page fault whose error code has the user bit set and whose
faulting entry is not copy-on-write-pending, `exception` sets the current
process's state to `P_FAULTED` and calls `schedule`; memory with all reference
counts, the process's page table, every other descriptor and the kernel's page
table are unchanged.  While the process stays faulted, in this state or any
later one, `schedule` never resumes it, and when another slot is runnable
`schedule` resumes a runnable slot within `PID_MAX` iterations. -/
theorem exception_user_fault_marks_faulted (cfg : Config) (k : Kernel) (regs : regstate)
    (cr2 : Nat) (pt : x86_64_pagetable) (hM : 0 < cfg.PID_MAX)
    (hint : regs.reg_intno = INT_PF) (hpt : (k.ptable k.current).pagetable = some pt)
    (hC : (vmiter_perm pt (round_down cr2 PAGESIZE) &&& PTE_C).nonzero = false)
    (huser : regs.reg_errcode &&& PFERR_USER ≠ 0) :
    ∃ k1 : Kernel, exception cfg k regs cr2 = .ok (k1, Next.schedule) ∧
      (k1.ptable k.current).state = P_FAULTED ∧
      (k1.ptable k.current).pagetable = some pt ∧
      (k1.ptable k.current).pid = (k.ptable k.current).pid ∧
      k1.memory = k.memory ∧ (∀ i, i ≠ k.current → k1.ptable i = k.ptable i) ∧
      k1.current = k.current ∧ k1.kernel_pagetable = k.kernel_pagetable ∧
      (∀ (K : Kernel) (fuel : Nat) (r : Except Halt Kernel),
        (K.ptable k.current).state = P_FAULTED → schedule cfg K fuel = some r →
        ∃ p, p ≠ k.current ∧ p < cfg.PID_MAX ∧ (K.ptable p).state = P_RUNNABLE ∧
          r = .ok { K with current := p }) ∧
      ((∃ i, i < cfg.PID_MAX ∧ i ≠ k.current ∧ (k.ptable i).state = P_RUNNABLE) →
        ∃ p, p ≠ k.current ∧ p < cfg.PID_MAX ∧ (k.ptable p).state = P_RUNNABLE ∧
          schedule cfg k1 cfg.PID_MAX = some (.ok { k1 with current := p })) := by
  have h1 : (regs.reg_intno == INT_IRQ + IRQ_TIMER) = false := by rw [hint]; decide
  have h2 : (regs.reg_intno == INT_PF) = true := by rw [hint]; decide
  have h3 : (regs.reg_errcode &&& PFERR_USER == 0) = false := by simpa using huser
  have hex : exception cfg k regs cr2 = .ok
      ((k.set_proc k.current { k.ptable k.current with regs := regs }).set_proc k.current
        { k.ptable k.current with regs := regs, state := P_FAULTED }, Next.schedule) := by
    unfold exception
    simp only [h1, h2, Bool.false_eq_true, if_false, if_true, set_proc_ptable,
      set_proc_current, hpt, hC, h3]
    unfold exception_return
    simp [set_proc_ptable]
  refine ⟨_, hex, by simp [set_proc_ptable], by simp [set_proc_ptable, hpt],
    by simp [set_proc_ptable], rfl, ?_, rfl, rfl, ?_, ?_⟩
  · intro i hi
    simp [set_proc_ptable, hi]
  · intro K fuel r hK hs
    obtain ⟨p, hp, hr, he⟩ := schedule_runnable cfg K hM fuel r hs
    refine ⟨p, ?_, hp, hr, he⟩
    rintro rfl
    rw [hK] at hr
    exact absurd hr (by decide)
  · rintro ⟨i, hi, hne, hrun⟩
    obtain ⟨p, hp, hr, hs⟩ := schedule_finds cfg
      ((k.set_proc k.current { k.ptable k.current with regs := regs }).set_proc k.current
        { k.ptable k.current with regs := regs, state := P_FAULTED })
      ⟨i, hi, by simp [set_proc_ptable, hne, hrun]⟩
    have hpc : p ≠ k.current := by
      rintro rfl
      simp [set_proc_ptable] at hr
    refine ⟨p, hpc, hp, ?_, hs⟩
    simpa [set_proc_ptable, hpc] using hr

set_option maxRecDepth 1000000 in
/-- Facts about the small configuration after the fork, by evaluation: the
parent's entry for 0x9000 is not copy-on-write-pending (it is not present). -/
theorem tiny_fault_facts :
    (k_tiny_fork.ptable k_tiny_fork.current).pagetable.isSome = true ∧
    (vmiter_perm ((k_tiny_fork.ptable k_tiny_fork.current).pagetable.getD pt_small)
      (round_down 0x9000 PAGESIZE) &&& PTE_C).nonzero = false ∧
    (∃ i, i < tiny.PID_MAX ∧ i ≠ k_tiny_fork.current ∧
      (k_tiny_fork.ptable i).state = P_RUNNABLE) := by
  decide!

/-- Witness for C17: in the small configuration after the fork the parent,
process 1, touches the unmapped address 0x9000 from user mode; it is marked
faulted, memory is unchanged, and `schedule` resumes another runnable
process, the child. -/
theorem exception_user_fault_marks_faulted_witness :
    regs_pf.reg_intno = INT_PF ∧ regs_pf.reg_errcode &&& PFERR_USER ≠ 0 ∧
    Reachable tiny k_tiny_fork ∧
    ∃ k1 : Kernel, exception tiny k_tiny_fork regs_pf 0x9000 = .ok (k1, Next.schedule) ∧
      (k1.ptable k_tiny_fork.current).state = P_FAULTED ∧
      k1.memory = k_tiny_fork.memory ∧
      ∃ p, p ≠ k_tiny_fork.current ∧ p < tiny.PID_MAX ∧
        (k_tiny_fork.ptable p).state = P_RUNNABLE ∧
        schedule tiny k1 tiny.PID_MAX = some (.ok { k1 with current := p }) := by
  obtain ⟨k1, e1, e2, -, -, e5, -, -, -, -, e10⟩ :=
    exception_user_fault_marks_faulted tiny k_tiny_fork regs_pf 0x9000
      ((k_tiny_fork.ptable k_tiny_fork.current).pagetable.getD pt_small) (by decide) rfl
      (option_some_of_isSome _ pt_small tiny_fault_facts.1) tiny_fault_facts.2.1 (by decide)
  exact ⟨rfl, by decide, k_tiny_fork_reachable, k1, e1, e2, e5, e10 tiny_fault_facts.2.2⟩

/-! ## C21, C22: `kfree`, and the round trip through `kalloc` -/

/-- C21. For every non-null address `p`: if `p` is page-aligned and the
reference count of its page is greater than 0, `kfree(p)` returns, the count
of that page is one less, every other count and every byte of memory is
unchanged, and the page is one `kalloc` may hand out again exactly when it is
allocatable and its count was 1; if the count is 0 or `p` is not page-aligned,
`kfree(p)` stops at a failed assertion, which the code tests before it touches
any count. -/
theorem kfree_decrements_or_asserts (cfg : Config) (m : Memory) (p : Nat) (hp : p ≠ 0) :
    (p % PAGESIZE = 0 → 0 < m.physpages (p / PAGESIZE) →
      ∃ m1, kfree m p = .ok m1 ∧
        m1.physpages (p / PAGESIZE) = m.physpages (p / PAGESIZE) - 1 ∧
        (∀ X, X ≠ p / PAGESIZE → m1.physpages X = m.physpages X) ∧
        m1.bytes = m.bytes ∧
        (free_page cfg m1 (p / PAGESIZE) = true ↔
          cfg.allocatable_physical_address (p / PAGESIZE * PAGESIZE) = true ∧
            m.physpages (p / PAGESIZE) = 1)) ∧
    ((m.physpages (p / PAGESIZE) = 0 ∨ p % PAGESIZE ≠ 0) →
      kfree m p = .error Halt.assertion) := by
  constructor
  · intro hal hc
    refine ⟨(⟨Function.update m.physpages (p / PAGESIZE) (m.physpages (p / PAGESIZE) - 1),
      m.bytes⟩ : Memory), ?_, ?_, ?_, rfl, ?_⟩
    · unfold kfree
      simp [hp, hal, hc]
    · simp
    · intro X hX
      simp [Function.update_apply, hX]
    · unfold free_page
      simp only [Function.update_same, Bool.and_eq_true, beq_iff_eq]
      constructor
      · rintro ⟨h1, h2⟩
        exact ⟨h1, by omega⟩
      · rintro ⟨h1, h2⟩
        exact ⟨h1, by omega⟩
  · intro h
    unfold kfree
    rcases h with h | h
    · simp [hp, h]
    · by_cases hc : m.physpages (p / PAGESIZE) > 0
      · simp [hp, hc, h]
      · simp [hp, hc]

set_option maxRecDepth 1000000 in
/-- Witness for C21: in the memory of `k_small` page 5 has count 1 and page 8
has count 0, and `0x5001` is not page-aligned. -/
theorem kfree_decrements_or_asserts_witness :
    (0x5000 : Nat) ≠ 0 ∧ 0x5000 % PAGESIZE = 0 ∧ 0 < k_small.memory.physpages (0x5000 / PAGESIZE) ∧
    (∃ m1, kfree k_small.memory 0x5000 = .ok m1 ∧
        m1.physpages (0x5000 / PAGESIZE) = k_small.memory.physpages (0x5000 / PAGESIZE) - 1 ∧
        (∀ X, X ≠ 0x5000 / PAGESIZE → m1.physpages X = k_small.memory.physpages X) ∧
        m1.bytes = k_small.memory.bytes ∧
        (free_page weensyos m1 (0x5000 / PAGESIZE) = true ↔
          weensyos.allocatable_physical_address (0x5000 / PAGESIZE * PAGESIZE) = true ∧
            k_small.memory.physpages (0x5000 / PAGESIZE) = 1)) ∧
    kfree k_small.memory 0x8000 = .error Halt.assertion :=
  ⟨by decide, by decide, by decide,
    (kfree_decrements_or_asserts weensyos k_small.memory 0x5000 (by decide)).1
      (by decide) (by decide),
    (kfree_decrements_or_asserts weensyos k_small.memory 0x8000 (by decide)).2
      (Or.inl (by decide))⟩

/-- After `kfree` of an aligned non-null address with a positive count, the
counts are the old ones with that page's count one less. -/
theorem kfree_ok_eq (m : Memory) (p : Nat) (hp : p ≠ 0) (hal : p % PAGESIZE = 0)
    (hc : 0 < m.physpages (p / PAGESIZE)) :
    kfree m p = .ok (⟨Function.update m.physpages (p / PAGESIZE) (m.physpages (p / PAGESIZE) - 1),
      m.bytes⟩ : Memory) := by
  unfold kfree
  simp [hp, hal, hc]

/-- C22. In every memory in which `kalloc(PAGESIZE)` fails because no page of
the array is allocatable with count 0, and for every non-null page-aligned
address `p` of an allocatable page of the array whose count is exactly 1:
`kfree(p)` returns, the next `kalloc(PAGESIZE)` returns `p`, and the `kalloc`
after that returns `nullptr` again. -/
theorem kfree_kalloc_round_trip (cfg : Config) (m : Memory) (p : Nat)
    (hnone : ∀ pn, pn < cfg.NPAGES → free_page cfg m pn = false)
    (hp : p ≠ 0) (hal : p % PAGESIZE = 0) (hin : p / PAGESIZE < cfg.NPAGES)
    (halloc : cfg.allocatable_physical_address p = true)
    (hc : m.physpages (p / PAGESIZE) = 1) :
    (kalloc cfg m PAGESIZE).1 = 0 ∧
    ∃ m1, kfree m p = .ok m1 ∧
      (kalloc cfg m1 PAGESIZE).1 = p ∧
      (kalloc cfg (kalloc cfg m1 PAGESIZE).2 PAGESIZE).1 = 0 := by
  have hpe : p / PAGESIZE * PAGESIZE = p := by
    have := Nat.div_add_mod p PAGESIZE
    rw [hal] at this
    rw [Nat.mul_comm]
    omega
  refine ⟨by rw [kalloc_none cfg m PAGESIZE hnone], _, kfree_ok_eq m p hp hal (by omega), ?_⟩
  set m1 : Memory := (⟨Function.update m.physpages (p / PAGESIZE) (m.physpages (p / PAGESIZE) - 1),
      m.bytes⟩ : Memory) with hm1
  have hfree1 : free_page cfg m1 (p / PAGESIZE) = true := by
    unfold free_page
    rw [hpe, halloc, hm1]
    simp [hc]
  have hother : ∀ pn, pn < cfg.NPAGES → pn ≠ p / PAGESIZE → free_page cfg m1 pn = false := by
    intro pn hpn hne
    have := hnone pn hpn
    unfold free_page at this ⊢
    rw [hm1]
    simpa [Function.update_apply, hne] using this
  obtain ⟨q, hq, hqf, hmin, hk⟩ := kalloc_some cfg m1 PAGESIZE (le_refl _) (p / PAGESIZE) hin hfree1
  have hqe : q = p / PAGESIZE := by
    by_contra hne
    have := hother q (by omega) hne
    rw [hqf] at this
    exact absurd this (by decide)
  subst hqe
  rw [hk]
  refine ⟨hpe, ?_⟩
  have hall : ∀ pn, pn < cfg.NPAGES → free_page cfg (m1.take (p / PAGESIZE)) pn = false := by
    intro pn hpn
    by_cases hne : pn = p / PAGESIZE
    · subst hne
      unfold free_page
      rw [take_physpages m1 _ _ (free_page_count cfg m1 _ hfree1)]
      simp
    · have := hother pn hpn hne
      unfold free_page at this ⊢
      rw [take_physpages m1 _ _ (free_page_count cfg m1 _ hfree1), if_neg hne]
      simpa using this
  simp only
  rw [kalloc_none cfg _ PAGESIZE hall]

set_option maxRecDepth 1000000 in
/-- Witness for C22: in the small configuration after the fork no page is
free, and page 6, the top-level page of process 1's table, has count 1. -/
theorem kfree_kalloc_round_trip_witness :
    (∀ pn, pn < tiny.NPAGES → free_page tiny k_tiny_fork.memory pn = false) ∧
    k_tiny_fork.memory.physpages (0x6000 / PAGESIZE) = 1 ∧
    (kalloc tiny k_tiny_fork.memory PAGESIZE).1 = 0 ∧
    ∃ m1, kfree k_tiny_fork.memory 0x6000 = .ok m1 ∧
      (kalloc tiny m1 PAGESIZE).1 = 0x6000 ∧
      (kalloc tiny (kalloc tiny m1 PAGESIZE).2 PAGESIZE).1 = 0 :=
  have hc : k_tiny_fork.memory.physpages (0x6000 / PAGESIZE) = 1 := by decide!
  ⟨tiny_facts.2.2.2.2.2.2.2.2.2.2, hc,
    kfree_kalloc_round_trip tiny k_tiny_fork.memory 0x6000 tiny_facts.2.2.2.2.2.2.2.2.2.2
      (by decide) (by decide) (by decide) (by decide) hc⟩

/-! ## C23: `process_setup` and segments of several pages -/

set_option maxRecDepth 1000000 in
/-- C23. Loading a three-page segment whose pages are not physically
consecutive: in the configuration `wide`, `process_setup` of the image
`img_wide` (one segment at `0x1FF000`, three pages, every data byte 7) gives
the pages of the segment the physical pages `0xA000`, `0xB000` and `0xD000`,
because the mapping of the second page takes page `0xC000` for a new
lowest-level page-table page.  The copy runs over `0x3000` consecutive
physical bytes from `0xA000`: it overwrites the page-table page at `0xC000`
and never reaches `0xD000`, so the third page of the segment reads back the
fill byte `0xCC` instead of the image's 7. -/
theorem process_setup_copy_assumes_contiguous :
    (kernel_start wide kpt_tiny (fun _ => 0) [img_wide]).toOption.isSome = true ∧
    (k_wide_boot.ptable 1).state = P_RUNNABLE ∧
    ((k_wide_boot.ptable 1).pagetable.map (fun pt =>
      ([0x1FF000, 0x200000, 0x201000].map (vmiter_pa pt), dir_pages pt.dirs)))
      = some ([0xA000, 0xB000, 0xD000], [7, 8, 9, 12]) ∧
    ((k_wide_boot.ptable 1).pagetable.map (fun pt =>
      [0x1FF000, 0x200000, 0x200FFF, 0x201000, 0x201FFF].map
        (read_va pt k_wide_boot.memory.bytes))) = some [7, 7, 7, 0xCC, 0xCC] ∧
    [0xC000, 0xCFFF].map k_wide_boot.memory.bytes = [7, 7] := by
  decide!

/-! ## C31: the state in which `syscall` returns -/

/-- Saving registers changes neither the state nor the table of any slot. -/
theorem save_ptable (k : Kernel) (regs : regstate) (i : Nat) :
    ((k.set_proc k.current { k.ptable k.current with regs := regs }).ptable i).state
      = (k.ptable i).state ∧
    ((k.set_proc k.current { k.ptable k.current with regs := regs }).ptable i).pagetable
      = (k.ptable i).pagetable ∧
    ((k.set_proc k.current { k.ptable k.current with regs := regs }).ptable i).pid
      = (k.ptable i).pid := by
  rw [set_proc_ptable]
  split
  · rename_i h
    subst h
    exact ⟨rfl, rfl, rfl⟩
  · exact ⟨rfl, rfl, rfl⟩

theorem to_uintptr_zero : to_uintptr 0 = 0 := by decide

/-- C31. The state in which `syscall` returns a value to the trap path, for a
call made by the running process in a reachable state.  For every system call
number and every argument the current process is runnable with a non-null page
table when `syscall` returns, with one exception: `kill` called with the
caller's own pid.  That call returns 0 to the trap path, and the current
process is then in the free state with a null page table. -/
theorem syscall_return_state (cfg : Config) (hv : cfg.valid) (sc : Sysno) (hsc : sc.valid)
    (k : Kernel) (hr : Reachable cfg k) (hrun : (k.ptable k.current).state = P_RUNNABLE)
    (regs : regstate) :
    (∀ k1 v, syscall cfg sc k regs = .ok (k1, SysNext.ret v) →
      ((k1.ptable k1.current).state = P_RUNNABLE ∧ (k1.ptable k1.current).pagetable ≠ none) ∨
      (regs.reg_rax = sc.SYSCALL_KILL ∧ to_pid_t regs.reg_rdi = (k.current : Int) ∧ v = 0 ∧
        (k1.ptable k1.current).state = P_FREE ∧ (k1.ptable k1.current).pagetable = none)) ∧
    (regs.reg_rax = sc.SYSCALL_KILL → to_pid_t regs.reg_rdi = (k.current : Int) →
      ∃ k1, syscall cfg sc k regs = .ok (k1, SysNext.ret 0) ∧
        (k1.ptable k1.current).state = P_FREE ∧ (k1.ptable k1.current).pagetable = none) := by
  have hrK : Reachable cfg (k.set_proc k.current { k.ptable k.current with regs := regs }) :=
    Reachable.save k regs hr hrun
  set K := k.set_proc k.current { k.ptable k.current with regs := regs } with hK
  have hinv := reachable_inv cfg hv K hrK
  have hwf := reachable_wf cfg hv K hrK
  have hcur : K.current = k.current := rfl
  have hstK : (K.ptable K.current).state = P_RUNNABLE := by
    rw [hcur, (save_ptable k regs k.current).1]
    exact hrun
  have hne : (K.ptable K.current).state ≠ P_FREE := by rw [hstK]; decide
  have hlive := hwf.live K.current hne
  have hpid : (K.ptable K.current).pid = K.current := hinv.pids _ hinv.cur
  have hregs : (K.ptable K.current).regs = regs := by
    rw [hK, set_proc_ptable]
    simp
  unfold Sysno.valid at hsc
  simp only [List.nodup_cons, List.mem_cons, List.mem_singleton, not_or, List.not_mem_nil,
    not_false_eq_true, List.nodup_nil, and_true] at hsc
  obtain ⟨⟨p1, p2, p3, p4, p5, p6⟩, ⟨g2, g3, g4, g5, g6⟩, ⟨y3, y4, y5, y6⟩, ⟨a4, a5, a6⟩,
    ⟨f5, f6⟩, e6⟩ := hsc
  constructor
  · intro k1 v h
    unfold syscall at h
    simp only [← hK] at h
    split at h
    · exact absurd h (by simp)
    · split at h
      · simp only [Except.ok.injEq, Prod.mk.injEq] at h
        obtain ⟨rfl, -⟩ := h
        exact Or.inl ⟨hstK, hlive⟩
      · split at h
        · simp only [Except.ok.injEq, Prod.mk.injEq] at h
          exact absurd h.2 (by simp)
        · split at h
          · rcases hp : syscall_page_alloc cfg K (K.ptable K.current).regs.reg_rdi
              with e | ⟨r, k2⟩
            · rw [hp] at h; exact absurd h (by simp)
            · rw [hp] at h
              simp only [Except.ok.injEq, Prod.mk.injEq] at h
              obtain ⟨rfl, -⟩ := h
              left
              rcases syscall_page_alloc_inv cfg hv.null_reserved K k2 _ r hp with h1 |
                ⟨pn, pt, pt1, new, -, -, hslot, -, hc, -⟩
              · rw [h1]; exact ⟨hstK, hlive⟩
              · rw [hc, hslot]
                exact ⟨hstK, by simp⟩
          · split at h
            · rcases hp : sys_fork cfg K with e | ⟨r, k2⟩
              · rw [hp] at h; exact absurd h (by simp)
              · rw [hp] at h
                simp only [Except.ok.injEq, Prod.mk.injEq] at h
                obtain ⟨rfl, -⟩ := h
                left
                have hpar : (K.ptable (K.ptable K.current).pid).state ≠ P_FREE := by
                  rw [hpid]; exact hne
                by_cases hr1 : r = -1
                · subst hr1
                  obtain ⟨-, hc, -, hall⟩ := sys_fork_fail_inv cfg hv.null_reserved K k2 hp hpar
                  rw [hc]
                  rcases hall K.current with h1 | ⟨-, h1, -⟩
                  · rw [h1]; exact ⟨hstK, hlive⟩
                  · exact absurd h1 hne
                · obtain ⟨new_id, rootpn, src, src1, dst1, -, -, ⟨hc, -, -, -, hparent, -⟩, -⟩ :=
                    sys_fork_facts cfg hv.null_reserved K k2 r hp hr1 hpar
                  rw [hc]
                  rw [hpid] at hparent
                  rw [hparent]
                  exact ⟨hstK, by simp⟩
            · split at h
              · rcases hp : sys_exit cfg K (K.ptable K.current).pid with e | ⟨r, k2⟩
                · rw [hp] at h; exact absurd h (by simp)
                · rw [hp] at h
                  simp only at h
                  split at h
                  · simp only [Except.ok.injEq, Prod.mk.injEq] at h
                    exact absurd h.2 (by simp)
                  · exact absurd h (by simp)
              · split at h
                · rename_i hkill
                  simp only [beq_iff_eq] at hkill
                  rcases hp : sys_exit cfg K (to_pid_t (K.ptable K.current).regs.reg_rdi)
                    with e | ⟨r, k2⟩
                  · rw [hp] at h; exact absurd h (by simp)
                  · rw [hp] at h
                    simp only [Except.ok.injEq, Prod.mk.injEq, SysNext.ret.injEq] at h
                    obtain ⟨rfl, hvr⟩ := h
                    rcases sys_exit_inv cfg K k2 _ r hp with ⟨-, h1⟩ |
                      ⟨hr0, i, pt, hi, -, -, -, hslot, hoth, hc, -⟩
                    · left; rw [h1]; exact ⟨hstK, hlive⟩
                    · rw [hc]
                      by_cases hic : i = K.current
                      · right
                        subst hic
                        rw [hregs] at hi
                        rw [hslot]
                        refine ⟨hkill, hi, ?_, rfl, rfl⟩
                        rw [← hvr, hr0]
                        exact to_uintptr_zero
                      · left
                        rw [hoth K.current (fun hh => hic hh.symm)]
                        exact ⟨hstK, hlive⟩
                · exact absurd h (by simp)
  · intro hkill hself
    obtain ⟨pt, k1, -, hex, -, -, hslot, -, hc, -⟩ :=
      sys_exit_total cfg K hinv hwf K.current hinv.cur hne
    refine ⟨k1, ?_, ?_, ?_⟩
    · unfold syscall
      simp only [← hK]
      have e1 : (regs.reg_rax == sc.SYSCALL_PANIC) = false := by
        rw [hkill]; simpa using fun hh => p6 hh.symm
      have e2 : (regs.reg_rax == sc.SYSCALL_GETPID) = false := by
        rw [hkill]; simpa using fun hh => g6 hh.symm
      have e3 : (regs.reg_rax == sc.SYSCALL_YIELD) = false := by
        rw [hkill]; simpa using fun hh => y6 hh.symm
      have e4 : (regs.reg_rax == sc.SYSCALL_PAGE_ALLOC) = false := by
        rw [hkill]; simpa using fun hh => a6 hh.symm
      have e5 : (regs.reg_rax == sc.SYSCALL_FORK) = false := by
        rw [hkill]; simpa using fun hh => f6 hh.symm
      have e6' : (regs.reg_rax == sc.SYSCALL_EXIT) = false := by
        rw [hkill]; simpa using fun hh => e6 hh.symm
      have e7 : (regs.reg_rax == sc.SYSCALL_KILL) = true := by
        rw [hkill]; simp
      simp only [e1, e2, e3, e4, e5, e6', e7, Bool.false_eq_true, if_false, if_true, hregs,
        hself]
      have : ((k.current : Nat) : Int) = ((K.current : Nat) : Int) := rfl
      rw [this, hex]
      simp only [to_uintptr_zero]
    · rw [hc, hslot]
    · rw [hc, hslot]

/-- The numbering `sysno0` has pairwise different numbers. -/
theorem sysno0_valid : sysno0.valid := by
  unfold Sysno.valid
  decide

set_option maxRecDepth 1000000 in
/-- Witness for C31: in the small configuration after boot, process 1 calls
`kill(1)`: `syscall` returns 0 and the current slot is free with a null page
table.  After the fork, `kill(2)` by process 1 returns 0 with process 1 still
runnable. -/
theorem syscall_return_state_witness :
    tiny.valid ∧ sysno0.valid ∧ Reachable tiny k_tiny_boot ∧
    (k_tiny_boot.ptable k_tiny_boot.current).state = P_RUNNABLE ∧
    (∃ k1, syscall tiny sysno0 k_tiny_boot (regs_kill 1) = .ok (k1, SysNext.ret 0) ∧
      (k1.ptable k1.current).state = P_FREE ∧ (k1.ptable k1.current).pagetable = none) ∧
    (syscall tiny sysno0 k_tiny_fork (regs_kill 2)).toOption.map (fun r =>
      (r.2, r.1.current, (r.1.ptable r.1.current).state,
        (r.1.ptable r.1.current).pagetable.isSome))
      = some (SysNext.ret 0, 1, P_RUNNABLE, true) :=
  have hcur : k_tiny_boot.current = 1 := by decide!
  ⟨tiny_valid, sysno0_valid, k_tiny_boot_reachable, tiny_facts.2.1,
    (syscall_return_state tiny tiny_valid sysno0 sysno0_valid k_tiny_boot k_tiny_boot_reachable
      tiny_facts.2.1 (regs_kill 1)).2 rfl (by rw [hcur]; decide),
    by decide!⟩

/-! ## C32: round-robin order -/

/-- The loop of `schedule` reads the descriptors only. -/
theorem schedule_loop_current (cfg : Config) (k : Kernel) (x : Nat) (fuel : Nat) :
    ∀ pid, schedule_loop cfg { k with current := x } fuel pid = schedule_loop cfg k fuel pid := by
  induction fuel with
  | zero => intro pid; rfl
  | succ n ih =>
    intro pid
    simp only [schedule_loop]
    rw [ih]

/-- One invocation of `schedule` from slot `(c + i) % PID_MAX`: it resumes the
slot at the first offset `o > i` that is runnable, when that offset is at most
`PID_MAX` away. -/
theorem schedule_next_offset (cfg : Config) (k : Kernel)
    (hpids : ∀ i, i < cfg.PID_MAX → (k.ptable i).pid = i) (hM : 0 < cfg.PID_MAX)
    (c i o : Nat) (hio : i < o) (hfuel : o ≤ i + cfg.PID_MAX)
    (hrun : (k.ptable ((c + o) % cfg.PID_MAX)).state = P_RUNNABLE)
    (hnot : ∀ j, i < j → j < o → (k.ptable ((c + j) % cfg.PID_MAX)).state ≠ P_RUNNABLE) :
    schedule cfg { k with current := (c + i) % cfg.PID_MAX } cfg.PID_MAX =
      some (.ok { k with current := (c + o) % cfg.PID_MAX }) := by
  unfold schedule
  simp only
  rw [schedule_loop_current, hpids _ (Nat.mod_lt _ hM)]
  have key : ∀ j, ((c + i) % cfg.PID_MAX + j) % cfg.PID_MAX = (c + (i + j)) % cfg.PID_MAX := by
    intro j
    rw [Nat.add_mod, Nat.mod_mod, ← Nat.add_mod, Nat.add_assoc]
  have h := schedule_loop_some cfg k cfg.PID_MAX ((c + i) % cfg.PID_MAX) (o - i) (by omega)
    (by omega)
    (by rw [key]; have : i + (o - i) = o := by omega
        rw [this]; exact hrun)
    (by intro j h1 h2
        rw [key]
        exact hnot (i + j) (by omega) (by omega))
  rw [h, key]
  have : i + (o - i) = o := by omega
  rw [this]
  simp only [Option.map_some', run, hrun, beq_self_eq_true, if_true]

/-- The slots resumed by consecutive invocations of `schedule`, in terms of
offsets from the slot `c`: when the kernel runs the slot at offset `i0` and no
offset in `(i0, i]` is runnable, the next invocations resume the runnable
offsets among `i + 1, ..., i + m`, in increasing order. -/
theorem schedule_trace_offsets (cfg : Config) (k : Kernel)
    (hpids : ∀ i, i < cfg.PID_MAX → (k.ptable i).pid = i) (hM : 0 < cfg.PID_MAX) (c : Nat) :
    ∀ (m i i0 n : Nat), i0 ≤ i →
      (∀ j, i0 < j → j ≤ i → (k.ptable ((c + j) % cfg.PID_MAX)).state ≠ P_RUNNABLE) →
      i + m ≤ i0 + cfg.PID_MAX →
      n ≤ ((List.range' (i + 1) m).filter
        (fun j => (k.ptable ((c + j) % cfg.PID_MAX)).state == P_RUNNABLE)).length →
      schedule_trace cfg n { k with current := (c + i0) % cfg.PID_MAX } =
        some ((((List.range' (i + 1) m).filter
          (fun j => (k.ptable ((c + j) % cfg.PID_MAX)).state == P_RUNNABLE)).take n).map
            (fun j => (c + j) % cfg.PID_MAX)) := by
  intro m
  induction m with
  | zero =>
    intro i i0 n _ _ _ hn
    simp only [List.range'_zero, List.filter_nil, List.length_nil, Nat.le_zero_eq] at hn
    subst hn
    rfl
  | succ m ih =>
    intro i i0 n hi hnot hb hn
    rw [List.range'_succ] at hn ⊢
    by_cases hr : (k.ptable ((c + (i + 1)) % cfg.PID_MAX)).state = P_RUNNABLE
    · have hrb : ((k.ptable ((c + (i + 1)) % cfg.PID_MAX)).state == P_RUNNABLE) = true := by
        simpa using hr
      simp only [List.filter_cons, hrb, if_true] at hn ⊢
      cases n with
      | zero => rfl
      | succ n =>
        simp only [List.length_cons, Nat.add_le_add_iff_right] at hn
        simp only [schedule_trace]
        rw [schedule_next_offset cfg k hpids hM c i0 (i + 1) (by omega) (by omega) hr
          (fun j h1 h2 => hnot j h1 (by omega))]
        simp only
        rw [ih (i + 1) (i + 1) n (le_refl _) (fun j h1 h2 => by omega) (by omega) hn]
        simp only [Option.map_some', List.take_succ_cons, List.map_cons]
    · have hrb : ((k.ptable ((c + (i + 1)) % cfg.PID_MAX)).state == P_RUNNABLE) = false := by
        simpa using hr
      simp only [List.filter_cons, hrb, if_false] at hn ⊢
      exact ih (i + 1) i0 n (by omega)
        (fun j h1 h2 => by
          by_cases hj : j = i + 1
          · subst hj; exact hr
          · exact hnot j h1 (by omega))
        (by omega) hn

/-- The slots at offsets `1, ..., M` from slot `c < M`: first the slots above
`c`, then the slots up to `c`. -/
theorem scan_slots (M c : Nat) (hc : c < M) :
    (List.range' 1 M).map (fun j => (c + j) % M) =
      List.range' (c + 1) (M - c - 1) ++ List.range (c + 1) := by
  have hsplit : List.range' 1 M = List.range' 1 (M - c - 1) ++ List.range' (M - c) (c + 1) := by
    have := List.range'_append 1 (M - c - 1) (c + 1) 1
    have e1 : 1 + 1 * (M - c - 1) = M - c := by omega
    have e2 : c + 1 + (M - c - 1) = M := by omega
    rw [e1, e2] at this
    exact this.symm
  rw [hsplit, List.map_append]
  congr 1
  · rw [List.range'_eq_map_range, List.range'_eq_map_range, List.map_map]
    apply List.map_congr_left
    intro a ha
    have := List.mem_range.1 ha
    simp only [Function.comp]
    rw [Nat.mod_eq_of_lt (by omega)]
    omega
  · rw [List.range'_eq_map_range, List.map_map]
    conv_rhs => rw [← List.map_id (List.range (c + 1))]
    apply List.map_congr_left
    intro a ha
    have := List.mem_range.1 ha
    simp only [Function.comp, id]
    have e : c + (M - c + a) = a + M := by omega
    rw [e, Nat.add_mod_right]
    exact Nat.mod_eq_of_lt (by omega)

/-- The runnable slots split at the current slot: rotating the list of
runnable slots to start after `c` is a permutation of it. -/
theorem rotate_perm (R : List Nat) (c : Nat) :
    (R.filter (fun p => c < p) ++ R.filter (fun p => p ≤ c)).Perm R := by
  have h := List.filter_append_perm (fun p => decide (c < p)) R
  have e : (fun p => decide (p ≤ c)) = (fun p => !(decide (c < p))) := by
    funext p
    by_cases hp : c < p
    · simp [hp, Nat.not_le.2 hp]
    · simp [hp, Nat.not_lt.1 hp]
  rw [e]
  exact h

/-- The scan order of `schedule` from slot `c`, restricted to the runnable
slots, is the list of runnable slots rotated to start after `c`. -/
theorem scan_runnable (cfg : Config) (k : Kernel) (c : Nat) (hc : c < cfg.PID_MAX) :
    ((List.range' 1 cfg.PID_MAX).filter
        (fun j => (k.ptable ((c + j) % cfg.PID_MAX)).state == P_RUNNABLE)).map
          (fun j => (c + j) % cfg.PID_MAX) =
      (runnable_slots cfg k).filter (fun p => c < p) ++
        (runnable_slots cfg k).filter (fun p => p ≤ c) := by
  have h1 : List.filter (fun i => (k.ptable i).state == P_RUNNABLE)
      (List.map (fun j => (c + j) % cfg.PID_MAX) (List.range' 1 cfg.PID_MAX)) = _ :=
    List.filter_map (fun j => (c + j) % cfg.PID_MAX) (List.range' 1 cfg.PID_MAX)
  have h2 : ((fun i => (k.ptable i).state == P_RUNNABLE) ∘ (fun j => (c + j) % cfg.PID_MAX)) =
      (fun j => (k.ptable ((c + j) % cfg.PID_MAX)).state == P_RUNNABLE) := rfl
  rw [h2] at h1
  rw [← h1, scan_slots cfg.PID_MAX c hc, List.filter_append]
  have hR : runnable_slots cfg k =
      (List.range (c + 1)).filter (fun i => (k.ptable i).state == P_RUNNABLE) ++
        (List.range' (c + 1) (cfg.PID_MAX - c - 1)).filter
          (fun i => (k.ptable i).state == P_RUNNABLE) := by
    unfold runnable_slots
    rw [← List.filter_append]
    congr 1
    have := List.range'_append 0 (c + 1) (cfg.PID_MAX - c - 1) 1
    have e1 : 0 + 1 * (c + 1) = c + 1 := by omega
    have e2 : cfg.PID_MAX - c - 1 + (c + 1) = cfg.PID_MAX := by omega
    rw [e1, e2] at this
    rw [List.range_eq_range', List.range_eq_range']
    exact this.symm
  rw [hR, List.filter_append, List.filter_append]
  have a1 : ((List.range (c + 1)).filter (fun i => (k.ptable i).state == P_RUNNABLE)).filter
      (fun p => decide (c < p)) = [] := by
    rw [List.filter_eq_nil_iff]
    intro a ha
    have := List.mem_range.1 (List.mem_filter.1 ha).1
    simp only [decide_eq_true_eq]
    omega
  have a2 : ((List.range' (c + 1) (cfg.PID_MAX - c - 1)).filter
      (fun i => (k.ptable i).state == P_RUNNABLE)).filter (fun p => decide (c < p)) =
      (List.range' (c + 1) (cfg.PID_MAX - c - 1)).filter
        (fun i => (k.ptable i).state == P_RUNNABLE) := by
    rw [List.filter_eq_self]
    intro a ha
    have := (List.mem_range'_1.1 (List.mem_filter.1 ha).1).1
    simp only [decide_eq_true_eq]
    omega
  have a3 : ((List.range (c + 1)).filter (fun i => (k.ptable i).state == P_RUNNABLE)).filter
      (fun p => decide (p ≤ c)) =
      (List.range (c + 1)).filter (fun i => (k.ptable i).state == P_RUNNABLE) := by
    rw [List.filter_eq_self]
    intro a ha
    have := List.mem_range.1 (List.mem_filter.1 ha).1
    simp only [decide_eq_true_eq]
    omega
  have a4 : ((List.range' (c + 1) (cfg.PID_MAX - c - 1)).filter
      (fun i => (k.ptable i).state == P_RUNNABLE)).filter (fun p => decide (p ≤ c)) = [] := by
    rw [List.filter_eq_nil_iff]
    intro a ha
    have := (List.mem_range'_1.1 (List.mem_filter.1 ha).1).1
    simp only [decide_eq_true_eq]
    omega
  rw [a1, a2, a3, a4, List.nil_append, List.append_nil]

/-- C32: round-robin scheduling.  In a state whose descriptors carry their
index as pid and whose current slot is below `PID_MAX`, as many consecutive
invocations of `schedule` as there are runnable slots all return, and the slots
they resume are the runnable slots in increasing order starting after the
current slot and wrapping around: each runnable slot exactly once.  A timer
interrupt leaves the states, the pids and the current slot alone, adds one tick
and ends in `schedule`. -/
theorem schedule_round_robin (cfg : Config) (k : Kernel)
    (hpids : ∀ i, i < cfg.PID_MAX → (k.ptable i).pid = i) (hcur : k.current < cfg.PID_MAX) :
    schedule_trace cfg (runnable_slots cfg k).length k =
        some ((runnable_slots cfg k).filter (fun p => k.current < p) ++
          (runnable_slots cfg k).filter (fun p => p ≤ k.current)) ∧
      ((runnable_slots cfg k).filter (fun p => k.current < p) ++
          (runnable_slots cfg k).filter (fun p => p ≤ k.current)).Nodup ∧
      (∀ p, p ∈ ((runnable_slots cfg k).filter (fun p => k.current < p) ++
          (runnable_slots cfg k).filter (fun p => p ≤ k.current)) ↔
        (p < cfg.PID_MAX ∧ (k.ptable p).state = P_RUNNABLE)) ∧
      (∀ regs cr2, regs.reg_intno = INT_IRQ + IRQ_TIMER →
        ∃ k1, exception cfg k regs cr2 = .ok (k1, Next.schedule) ∧
          k1.ticks = k.ticks + 1 ∧ k1.current = k.current ∧
          (∀ i, (k1.ptable i).state = (k.ptable i).state ∧
            (k1.ptable i).pid = (k.ptable i).pid) ∧
          runnable_slots cfg k1 = runnable_slots cfg k) := by
  have hM : 0 < cfg.PID_MAX := by omega
  have hperm := rotate_perm (runnable_slots cfg k) k.current
  have hscan := scan_runnable cfg k k.current hcur
  have hRnodup : (runnable_slots cfg k).Nodup := by
    unfold runnable_slots
    exact List.Nodup.filter _ (List.nodup_range _)
  refine ⟨?_, hperm.nodup_iff.2 hRnodup, ?_, ?_⟩
  · have hlen : (runnable_slots cfg k).length =
        ((List.range' 1 cfg.PID_MAX).filter
          (fun j => (k.ptable ((k.current + j) % cfg.PID_MAX)).state == P_RUNNABLE)).length := by
      rw [← hperm.length_eq, ← hscan, List.length_map]
    have h := schedule_trace_offsets cfg k hpids hM k.current cfg.PID_MAX 0 0
      (runnable_slots cfg k).length (le_refl _) (fun j h1 h2 => by omega) (by omega)
      (by rw [hlen])
    have hk : ({ k with current := (k.current + 0) % cfg.PID_MAX } : Kernel) = k := by
      rw [Nat.add_zero, Nat.mod_eq_of_lt hcur]
    rw [hk] at h
    rw [h, hlen, List.take_length, hscan]
  · intro p
    rw [hperm.mem_iff]
    unfold runnable_slots
    rw [List.mem_filter, List.mem_range]
    simp only [beq_iff_eq]
  · intro regs cr2 hint
    refine ⟨{ k.set_proc k.current { k.ptable k.current with regs := regs } with
      ticks := k.ticks + 1 }, ?_, rfl, rfl, ?_, ?_⟩
    · unfold exception
      simp only [hint, beq_self_eq_true, if_true]
      rfl
    · intro i
      simp only [Kernel.set_proc]
      by_cases hi : i = k.current
      · subst hi
        simp only [Function.update_same, and_self]
      · simp only [Function.update_noteq hi, and_self]
    · unfold runnable_slots
      apply List.filter_congr
      intro i _
      simp only [Kernel.set_proc]
      by_cases hi : i = k.current
      · subst hi
        simp only [Function.update_same]
      · simp only [Function.update_noteq hi]

set_option maxRecDepth 1000000 in
/-- The round-robin order on the tiny machine after a fork: from slot 1 with
slots 1 and 2 runnable, two invocations resume slot 2 and then slot 1. -/
theorem schedule_round_robin_witness :
    (∀ i, i < tiny.PID_MAX → (k_tiny_fork.ptable i).pid = i) ∧
      k_tiny_fork.current < tiny.PID_MAX ∧
      runnable_slots tiny k_tiny_fork = [1, 2] ∧
      schedule_trace tiny (runnable_slots tiny k_tiny_fork).length k_tiny_fork =
        some ((runnable_slots tiny k_tiny_fork).filter (fun p => k_tiny_fork.current < p) ++
          (runnable_slots tiny k_tiny_fork).filter (fun p => p ≤ k_tiny_fork.current)) :=
  ⟨by decide, by decide, by decide,
    (schedule_round_robin tiny k_tiny_fork (by decide) (by decide)).1⟩

/-! ## The shape of a handled exception -/

/-- What a returning `exception` did in a state satisfying the first invariant
with a runnable current process: either it left the memory, the kernel table,
every table pointer and every pid alone and freed no slot (timer interrupt,
fault of the process), or it resolved a copy-on-write fault at the entry `v` of
the current table, in place when the page's count is 1 and onto a fresh page
`pn` otherwise. -/
theorem exception_shape (cfg : Config) (hv : cfg.valid) (k k1 : Kernel) (regs : regstate)
    (cr2 : Nat) (n : Next) (hinv : Inv cfg k)
    (hrun : (k.ptable k.current).state = P_RUNNABLE)
    (h : exception cfg k regs cr2 = .ok (k1, n)) :
    (k1.memory = k.memory ∧ k1.kernel_pagetable = k.kernel_pagetable ∧
      ∀ i, (k1.ptable i).pagetable = (k.ptable i).pagetable ∧
        (k1.ptable i).pid = (k.ptable i).pid ∧
        ((k1.ptable i).state = P_FREE ↔ (k.ptable i).state = P_FREE)) ∨
    ∃ pt, (k.ptable k.current).pagetable = some pt ∧
      (pt.entry (round_down cr2 PAGESIZE / PAGESIZE)).perm.P = true ∧
      (pt.entry (round_down cr2 PAGESIZE / PAGESIZE)).perm.C = true ∧
      (pt.entry (round_down cr2 PAGESIZE / PAGESIZE)).perm.U = true ∧
      (pt.entry (round_down cr2 PAGESIZE / PAGESIZE)).pa ≠ cfg.CONSOLE_ADDR ∧
      round_down cr2 PAGESIZE / PAGESIZE < cfg.NVPAGES ∧
      ((k.memory.physpages
          ((pt.entry (round_down cr2 PAGESIZE / PAGESIZE)).pa / PAGESIZE) = 1 ∧
        k1 = k.set_proc k.current
          { k.ptable k.current with
            regs := regs,
            pagetable := some (pt.set_entry (round_down cr2 PAGESIZE / PAGESIZE)
              ⟨(pt.entry (round_down cr2 PAGESIZE / PAGESIZE)).pa, PTE_PWU⟩) }) ∨
       (k.memory.physpages
          ((pt.entry (round_down cr2 PAGESIZE / PAGESIZE)).pa / PAGESIZE) ≠ 1 ∧
        ∃ pn, pn ≠ 0 ∧ pn < cfg.NPAGES ∧ free_page cfg k.memory pn = true ∧
          k1 = { k with memory :=
            { physpages := Function.update (k.memory.take pn).physpages
                ((pt.entry (round_down cr2 PAGESIZE / PAGESIZE)).pa / PAGESIZE)
                ((k.memory.take pn).physpages
                  ((pt.entry (round_down cr2 PAGESIZE / PAGESIZE)).pa / PAGESIZE) - 1),
              bytes := memcpy (k.memory.take pn).bytes (pn * PAGESIZE)
                (pt.entry (round_down cr2 PAGESIZE / PAGESIZE)).pa PAGESIZE } }.set_proc
          k.current
          { k.ptable k.current with
            regs := regs,
            pagetable := some (pt.set_entry (round_down cr2 PAGESIZE / PAGESIZE)
              ⟨pn * PAGESIZE, PTE_PWU⟩) })) := by
  have hst : (k.ptable k.current).state ≠ P_FREE := by rw [hrun]; decide
  by_cases ht : regs.reg_intno = INT_IRQ + IRQ_TIMER
  · left
    unfold exception at h
    have h1 : (regs.reg_intno == INT_IRQ + IRQ_TIMER) = true := by simpa using ht
    simp only [h1, if_true, Except.ok.injEq, Prod.mk.injEq] at h
    obtain ⟨rfl, -⟩ := h
    refine ⟨rfl, rfl, ?_⟩
    intro i
    by_cases hi : i = k.current
    · subst hi
      simp [set_proc_ptable]
    · simp [set_proc_ptable, hi]
  · have h1 : (regs.reg_intno == INT_IRQ + IRQ_TIMER) = false := by simpa using ht
    by_cases hpf : regs.reg_intno = INT_PF
    · have h2 : (regs.reg_intno == INT_PF) = true := by simpa using hpf
      cases hpt : (k.ptable k.current).pagetable with
      | none =>
        unfold exception at h
        simp [h1, h2, set_proc_ptable, hpt] at h
      | some pt =>
        by_cases hC : (vmiter_perm pt (round_down cr2 PAGESIZE) &&& PTE_C).nonzero = true
        · right
          have hP := present_of_cow pt _ hC
          have hCf : (pt.entry (round_down cr2 PAGESIZE / PAGESIZE)).perm.C = true := by
            rw [vmiter_perm_C] at hC
            simp only [Bool.and_eq_true] at hC
            exact hC.2
          obtain ⟨hU, hcon, hlt⟩ := (hinv.tables _ pt hst hpt).1 _ hP hCf
          have hpa : vmiter_pa pt (round_down cr2 PAGESIZE) / PAGESIZE =
              (pt.entry (round_down cr2 PAGESIZE / PAGESIZE)).pa / PAGESIZE := by
            unfold vmiter_pa
            rw [if_pos hP, round_down_aligned, Nat.add_zero]
          refine ⟨pt, rfl, hP, hCf, hU, hcon, hlt, ?_⟩
          by_cases hcount :
              k.memory.physpages (vmiter_pa pt (round_down cr2 PAGESIZE) / PAGESIZE) = 1
          · left
            rw [exception_cow_inplace cfg k regs cr2 pt hpf hpt hC hcount] at h
            exact ⟨by rw [← hpa]; exact hcount, ok_exception_return _ _ k1 n h rfl⟩
          · right
            refine ⟨by rw [← hpa]; exact hcount, ?_⟩
            by_cases hfree : ∃ pn, pn < cfg.NPAGES ∧ free_page cfg k.memory pn = true
            · obtain ⟨pn, hpn, hpn2, hf, hex⟩ := exception_cow_copy_ok cfg hv.null_reserved k regs
                cr2 pt hpf hpt hC hcount hfree
              rw [hex] at h
              exact ⟨pn, hpn, hpn2, hf, ok_exception_return _ _ k1 n h rfl⟩
            · exfalso
              have hnone := kalloc_none cfg k.memory PAGESIZE (by
                intro pn hpn
                by_contra hh
                exact hfree ⟨pn, hpn, by simpa using hh⟩)
              unfold exception at h
              have h3 : (k.memory.physpages
                  (vmiter_pa pt (round_down cr2 PAGESIZE) / PAGESIZE) == 1) = false := by
                simpa using hcount
              simp only [h1, h2, Bool.false_eq_true, if_false, if_true, set_proc_ptable,
                set_proc_current, set_proc_memory, hpt, hC, h3] at h
              unfold exception_cow_copy at h
              simp only [set_proc_memory, hnone, beq_self_eq_true, if_true] at h
              split at h
              · exact absurd h (by simp)
              · split at h <;> exact absurd h (by simp)
        · left
          unfold exception at h
          simp only [h1, h2, Bool.false_eq_true, if_false, if_true, set_proc_ptable,
            set_proc_current, hpt, hC] at h
          split at h
          · exact absurd h (by simp)
          · rw [ok_exception_return _ _ k1 n h rfl]
            refine ⟨rfl, rfl, ?_⟩
            intro i
            by_cases hi : i = k.current
            · subst hi
              simp [set_proc_ptable, hpt, hrun, P_FAULTED, P_FREE]
            · simp [set_proc_ptable, hi]
    · have h2 : (regs.reg_intno == INT_PF) = false := by simpa using hpf
      unfold exception at h
      simp [h1, h2] at h

/-! ## C33: free slots, null tables, pids -/

/-- The steps of a `kernel_start` that returns, with the state the
`process_setup` calls start from spelled out: every slot free with a null
table pointer, the kernel table that the identity-mapping loop built. -/
theorem kernel_start_steps_init (cfg : Config) (hv : cfg.valid) (kpt : x86_64_pagetable)
    (bytes : Nat → Nat) (programs : List program_image) (k : Kernel)
    (h : kernel_start cfg kpt bytes programs = .ok k) :
    ∃ K1 k2 : Kernel,
      (∀ i, (K1.ptable i).state = P_FREE ∧ (K1.ptable i).pagetable = none) ∧ Inv cfg K1 ∧
      Wf cfg K1 ∧
      kernel_start_map cfg (page_range 0 cfg.MEMSIZE_PHYSICAL) ⟨fun _ => 0, bytes⟩ kpt =
        .ok (K1.memory, K1.kernel_pagetable) ∧
      kernel_start_procs cfg programs 1 K1 = .ok k2 ∧ k = { k2 with current := 1 } := by
  obtain ⟨K1, k2, hfree, hinv, hp, hk⟩ := kernel_start_steps cfg hv kpt bytes programs k h
  unfold kernel_start at h
  simp only at h
  cases h1 : kernel_start_map cfg (page_range 0 cfg.MEMSIZE_PHYSICAL) (boot_state kpt bytes).memory
      kpt with
  | error e => rw [h1] at h; exact absurd h (by simp)
  | ok r =>
    obtain ⟨m, kpt1⟩ := r
    rw [h1] at h
    simp only at h
    split at h
    · exact absurd h (by simp)
    · rename_i k2b h2
      have hfr : ∀ i, ((if i < cfg.PID_MAX then
          (⟨i, P_FREE, ((boot_state kpt bytes).ptable i).regs,
            ((boot_state kpt bytes).ptable i).pagetable⟩ : proc)
          else (boot_state kpt bytes).ptable i)).state = P_FREE ∧
          ((if i < cfg.PID_MAX then
          (⟨i, P_FREE, ((boot_state kpt bytes).ptable i).regs,
            ((boot_state kpt bytes).ptable i).pagetable⟩ : proc)
          else (boot_state kpt bytes).ptable i)).pagetable = none := by
        intro i
        split
        · exact ⟨rfl, rfl⟩
        · exact ⟨rfl, rfl⟩
      have hk2 : k = { k2b with current := 1 } := by
        split at h
        · simp only [Except.ok.injEq] at h
          exact h.symm
        · exact absurd h (by simp)
      have hinvK : Inv cfg
          { boot_state kpt bytes with
            ticks := 1, memory := m, kernel_pagetable := kpt1,
            ptable := fun i =>
              if i < cfg.PID_MAX then
                { (boot_state kpt bytes).ptable i with pid := i, state := P_FREE }
              else (boot_state kpt bytes).ptable i } := by
        refine ⟨?_, ?_, kernel_start_map_table_ok cfg hv _ m kpt kpt1 h1, ?_, ?_⟩
        · intro X
          have h0 := sum_range_le cfg.PID_MAX (fun _ => 0)
            (fun i => proc_count (fun pt => owned cfg pt X)
              (if i < cfg.PID_MAX then
                (⟨i, P_FREE, ((boot_state kpt bytes).ptable i).regs,
                  ((boot_state kpt bytes).ptable i).pagetable⟩ : proc)
              else (boot_state kpt bytes).ptable i))
            (fun i _ => by
              show proc_count _ _ ≤ 0
              rw [proc_count_free _ _ (hfr i).1])
          refine le_trans (le_of_eq ?_) (Nat.zero_le _)
          unfold owned_count
          simpa using h0
        · intro i pt hst
          exact absurd (hfr i).1 hst
        · intro i hi
          simp [hi]
        · exact lt_trans Nat.zero_lt_one hv.two_slots
      exact ⟨_, k2b, hfr, hinvK,
        ⟨fun i hst => absurd (hfr i).1 hst, fun i pt hst => absurd (hfr i).1 hst, (hfr 0).1⟩,
        h1, h2, hk2⟩

/-- A property of kernel states that holds when every slot is free with a null
table pointer, that every `process_setup` keeps, and that does not depend on
the current slot, holds of every state `kernel_start` returns. -/
theorem kernel_start_induct (cfg : Config) (hv : cfg.valid) (P : Kernel → Prop)
    (kpt : x86_64_pagetable) (bytes : Nat → Nat)
    (hinit : ∀ K : Kernel, (∀ i, (K.ptable i).state = P_FREE ∧ (K.ptable i).pagetable = none) →
      Inv cfg K →
      kernel_start_map cfg (page_range 0 cfg.MEMSIZE_PHYSICAL) ⟨fun _ => 0, bytes⟩ kpt =
        .ok (K.memory, K.kernel_pagetable) → P K)
    (programs : List program_image)
    (hstep : ∀ (K K1 : Kernel) (pid : Nat) (pgm : program_image), pgm ∈ programs → 1 ≤ pid →
      Inv cfg K → Wf cfg K → P K → process_setup cfg K pid pgm = .ok K1 → P K1)
    (hcur : ∀ (K : Kernel) (c : Nat), P K → P { K with current := c }) (k : Kernel)
    (h : kernel_start cfg kpt bytes programs = .ok k) : P k := by
  obtain ⟨K1, k2, hfr, hinv, hwf, hmap, hp, rfl⟩ :=
    kernel_start_steps_init cfg hv kpt bytes programs k h
  apply hcur
  have hP := hinit K1 hfr hinv hmap
  clear hfr h
  have key : ∀ (l : List program_image), (∀ pgm ∈ l, pgm ∈ programs) →
      ∀ (pid : Nat) (K K2 : Kernel), 1 ≤ pid → Inv cfg K →
      Wf cfg K → P K → kernel_start_procs cfg l pid K = .ok K2 → P K2 := by
    intro l
    induction l with
    | nil =>
      intro _ pid K K2 _ _ _ hp h
      unfold kernel_start_procs at h
      simp only [Except.ok.injEq] at h
      subst h
      exact hp
    | cons pgm rest ih =>
      intro hl pid K K2 hpid hinv hwf hp h
      unfold kernel_start_procs at h
      cases h1 : process_setup cfg K pid pgm with
      | error e => rw [h1] at h; exact absurd h (by simp)
      | ok K3 =>
        rw [h1] at h
        simp only at h
        exact ih (fun q hq => hl q (List.mem_cons_of_mem _ hq)) (pid + 1) K3 K2 (by omega)
          (process_setup_keeps cfg hv K K3 pid pgm hinv h1)
          (process_setup_wf cfg hv K K3 pid pgm hpid hinv.kernel hwf h1)
          (hstep K K3 pid pgm (hl pgm (List.mem_cons_self _ _)) hpid hinv hwf hp h1) h
  exact key programs (fun _ hq => hq) 1 K1 k2 (le_refl _) hinv hwf hP hp

/-- Replacing one descriptor by one that is not free, or free with a null
table pointer, keeps the fourth invariant. -/
theorem fr_update (k k1 : Kernel) (i : Nat) (hfr : Fr k)
    (hoth : ∀ j, j ≠ i → k1.ptable j = k.ptable j)
    (hi : (k1.ptable i).state = P_FREE → (k1.ptable i).pagetable = none) : Fr k1 := by
  intro j hj
  by_cases hji : j = i
  · subst hji; exact hi hj
  · rw [hoth j hji] at hj ⊢
    exact hfr j hj

/-- A failing `sys_fork` leaves every descriptor alone or with a null table
pointer. -/
theorem sys_fork_fail_table (cfg : Config) (h0 : cfg.allocatable_physical_address 0 = false)
    (k k1 : Kernel) (h : sys_fork cfg k = .ok (-1, k1))
    (hpar : (k.ptable (k.ptable k.current).pid).state ≠ P_FREE) :
    ∀ i, k1.ptable i = k.ptable i ∨ (k1.ptable i).pagetable = none := by
  unfold sys_fork at h
  rcases sys_fork_find_cases cfg k with hf | ⟨hf1, hf2, hf3⟩
  · simp only [hf, Nat.lt_one_iff, if_true, Except.ok.injEq, Prod.mk.injEq, true_and] at h
    subst h
    exact fun i => Or.inl rfl
  · have hlt : ¬ sys_fork_find cfg k < 1 := by omega
    simp only [hlt, if_false] at h
    have hne : sys_fork_find cfg k ≠ (k.ptable k.current).pid := by
      intro he; rw [← he] at hpar; exact hpar hf3
    rcases kalloc_pagetable_cases cfg h0 k.memory with ha | ⟨pn, m0, hpn, hfree, ha, hm0⟩
    · rw [ha] at h
      simp only [Except.ok.injEq, Prod.mk.injEq, true_and] at h
      subst h
      intro i
      by_cases hi : i = sys_fork_find cfg k
      · subst hi
        right
        simp [set_proc_ptable]
      · left
        simp [set_proc_ptable, hi]
    · exfalso
      rw [ha] at h
      simp only [set_proc_ptable, set_proc_current, if_neg hne.symm] at h
      have hcur : (if k.current = sys_fork_find cfg k then
          ({ k.ptable (sys_fork_find cfg k) with
              pagetable := some ⟨pn * PAGESIZE, [], fun _ => pageentry.zero⟩ } : proc)
          else k.ptable k.current).pid = (k.ptable k.current).pid := by
        split
        · next he => rw [he]
        · rfl
      simp only [hcur, if_neg hne.symm] at h
      cases hsrc : (k.ptable (k.ptable k.current).pid).pagetable with
      | none => simp [hsrc] at h
      | some src =>
        simp only [hsrc] at h
        obtain ⟨ok, mF, sF, dF, new, e0, -⟩ :=
          sys_fork_loop_spec cfg h0 cfg.vas (vas_aligned cfg) m0 src
            ⟨pn * PAGESIZE, [], fun _ => pageentry.zero⟩
        simp only [set_proc_memory] at h
        rw [e0] at h
        simp only at h
        cases ok with
        | false =>
          simp only [Bool.false_eq_true, if_false] at h
          rw [sys_exit_free] at h
          · simp at h
          · simp [set_proc_ptable, hf3]
        | true =>
          simp only [if_true, Except.ok.injEq, Prod.mk.injEq] at h
          have := h.1
          omega

/-- Every reachable state satisfies the fourth invariant. -/
theorem reachable_fr (cfg : Config) (hv : cfg.valid) (k : Kernel) (hr : Reachable cfg k) :
    Fr k := by
  induction hr with
  | boot kpt bytes programs k h =>
    refine kernel_start_induct cfg hv Fr kpt bytes ?_ programs ?_ ?_ k h
    · intro K hK _ _ i _
      exact (hK i).2
    · intro K K1 pid pgm _ _ hinv _ hfr h1
      obtain ⟨pt, regs, hslot, hoth, -⟩ := process_setup_inv cfg hv K K1 pid pgm hinv.kernel h1
      refine fr_update K K1 pid hfr hoth ?_
      intro hst
      rw [hslot] at hst
      simp [P_RUNNABLE, P_FREE] at hst
    · intro K c hfr
      exact hfr
  | page_alloc k k1 addr r hk hrun h ih =>
    rcases syscall_page_alloc_inv cfg hv.null_reserved k k1 addr r h with rfl |
      ⟨pn, pt, pt1, new, -, -, hslot, hoth, -⟩
    · exact ih
    · refine fr_update k k1 k.current ih hoth ?_
      intro hst
      rw [hslot] at hst
      simp only [hrun] at hst
      exact absurd hst (by decide)
  | fork k k1 r hk hrun h ih =>
    have hinv := reachable_inv cfg hv k hk
    have hpid : (k.ptable k.current).pid = k.current := hinv.pids _ hinv.cur
    have hpar : (k.ptable (k.ptable k.current).pid).state ≠ P_FREE := by
      rw [hpid, hrun]; decide
    by_cases hr : r = -1
    · subst hr
      have hp := sys_fork_fail_table cfg hv.null_reserved k k1 h hpar
      intro i hi
      rcases hp i with h1 | h1
      · rw [h1] at hi ⊢
        exact ih i hi
      · exact h1
    · obtain ⟨new_id, rootpn, src, src1, dst1, -, -, -, -, -, -, -, -, -, -, -, -, -, hchild,
        hparent, hothers⟩ := sys_fork_ok cfg hv.null_reserved k k1 r h hr hpar
      intro i hi
      by_cases hi1 : i = new_id
      · subst hi1
        rw [hchild] at hi
        simp [P_RUNNABLE, P_FREE] at hi
      · by_cases hi2 : i = (k.ptable k.current).pid
        · subst hi2
          rw [hparent] at hi
          exact absurd hi hpar
        · rw [hothers i hi1 hi2] at hi ⊢
          exact ih i hi
  | exit k k1 r _ _ h ih =>
    rcases sys_exit_inv cfg k k1 _ r h with ⟨-, rfl⟩ | ⟨-, i, pt, -, -, -, -, hslot, hoth, -⟩
    · exact ih
    · exact fr_update k k1 i ih hoth (fun _ => by rw [hslot])
  | kill k k1 pid r _ _ h ih =>
    rcases sys_exit_inv cfg k k1 pid r h with ⟨-, rfl⟩ | ⟨-, i, pt, -, -, -, -, hslot, hoth, -⟩
    · exact ih
    · exact fr_update k k1 i ih hoth (fun _ => by rw [hslot])
  | exception k k1 regs cr2 n hk hrun h ih =>
    rcases exception_shape cfg hv k k1 regs cr2 n (reachable_inv cfg hv k hk) hrun h with
      ⟨-, -, hsame⟩ | ⟨pt, -, -, -, -, -, -, ⟨-, h1⟩ | ⟨-, pn, -, -, -, h1⟩⟩
    · intro i hi
      rw [(hsame i).1]
      exact ih i ((hsame i).2.2.1 hi)
    · subst h1
      refine fr_update k _ k.current ih (fun j hj => by simp [set_proc_ptable, hj]) ?_
      intro hst
      simp only [set_proc_ptable, if_true, hrun] at hst
      exact absurd hst (by decide)
    · subst h1
      refine fr_update k _ k.current ih (fun j hj => by simp [set_proc_ptable, hj]) ?_
      intro hst
      simp only [set_proc_ptable, if_true, hrun] at hst
      exact absurd hst (by decide)
  | save k regs _ hrun ih =>
    refine fr_update k _ k.current ih (fun j hj => by simp [set_proc_ptable, hj]) ?_
    intro hst
    simp only [set_proc_ptable, if_true, hrun] at hst
    exact absurd hst (by decide)
  | run k p _ _ _ ih => exact ih

/-- C33: in every reachable state, a process slot is free exactly when its
table pointer is null, every slot's pid is its index, and slot 0 is free. -/
theorem process_slot_invariants (cfg : Config) (hv : cfg.valid) (k : Kernel)
    (hr : Reachable cfg k) :
    (∀ i, i < cfg.PID_MAX →
      ((k.ptable i).state = P_FREE ↔ (k.ptable i).pagetable = none) ∧ (k.ptable i).pid = i) ∧
      (k.ptable 0).state = P_FREE := by
  have hinv := reachable_inv cfg hv k hr
  have hwf := reachable_wf cfg hv k hr
  have hfr := reachable_fr cfg hv k hr
  refine ⟨fun i hi => ⟨⟨hfr i, ?_⟩, hinv.pids i hi⟩, hwf.slot0⟩
  intro hnone
  by_contra hst
  exact hwf.live i hst hnone

set_option maxRecDepth 1000000 in
/-- The slots of the tiny machine after a fork: slots 1 and 2 are in use with a
table, slots 0 and 3 are free without one. -/
theorem process_slot_invariants_witness :
    tiny.valid ∧ Reachable tiny k_tiny_fork ∧
      ((∀ i, i < tiny.PID_MAX →
        ((k_tiny_fork.ptable i).state = P_FREE ↔ (k_tiny_fork.ptable i).pagetable = none) ∧
          (k_tiny_fork.ptable i).pid = i) ∧
        (k_tiny_fork.ptable 0).state = P_FREE) ∧
      (k_tiny_fork.ptable 1).state = P_RUNNABLE ∧ (k_tiny_fork.ptable 3).state = P_FREE :=
  ⟨tiny_valid, k_tiny_fork_reachable,
    process_slot_invariants tiny tiny_valid k_tiny_fork k_tiny_fork_reachable,
    by decide!, by decide!⟩

/-! ## C34: writable mappings are exclusive -/

/-- `kalloc` keeps the counts at most 1. -/
theorem le1_kalloc (cfg : Config) (m : Memory) (sz : Nat) (h : Le1 m) :
    Le1 (kalloc cfg m sz).2 := by
  rcases kalloc_cases cfg m sz with hk | ⟨pn, hf, hk⟩
  · rw [hk]; exact h
  · rw [hk]
    intro X
    rw [take_physpages m pn X (free_page_count cfg m pn hf)]
    split
    · next hX => subst hX; rw [free_page_count cfg m _ hf]
    · exact h X

/-- The walk of `try_map` keeps the counts at most 1. -/
theorem le1_try_map_walk (cfg : Config) (h0 : cfg.allocatable_physical_address 0 = false)
    (path : List (Nat × Nat)) (m : Memory) (pt : x86_64_pagetable) (h : Le1 m) :
    Le1 (try_map_walk cfg path m pt).2.1 := by
  obtain ⟨new, -, hc, hz, hnd⟩ := try_map_walk_nd cfg h0 path m pt
  intro X
  rw [hc X]
  by_cases hX : X ∈ dir_pages new
  · rw [hz X hX, List.count_eq_one_of_mem hnd hX]
  · rw [List.count_eq_zero_of_not_mem hX]
    exact h X

/-- `try_map` keeps the counts at most 1. -/
theorem le1_try_map (cfg : Config) (h0 : cfg.allocatable_physical_address 0 = false)
    (m : Memory) (pt : x86_64_pagetable) (va pa : Nat) (perm : Perm) (h : Le1 m) :
    Le1 (try_map cfg m pt va pa perm).2.1 := by
  unfold try_map
  split
  · exact h
  · split
    · simp only
      split
      · exact le1_try_map_walk cfg h0 _ m pt h
      · exact le1_try_map_walk cfg h0 _ m pt h
    · exact h

/-- `vmiter::map` keeps the counts at most 1. -/
theorem le1_vmiter_map (cfg : Config) (h0 : cfg.allocatable_physical_address 0 = false)
    (m m2 : Memory) (pt pt2 : x86_64_pagetable) (va pa : Nat) (perm : Perm) (h : Le1 m)
    (hm : vmiter_map cfg m pt va pa perm = .ok (m2, pt2)) : Le1 m2 := by
  unfold vmiter_map at hm
  simp only at hm
  split at hm
  · simp only [Except.ok.injEq] at hm
    have := le1_try_map cfg h0 m pt va pa perm h
    rw [hm] at this
    exact this
  · exact absurd hm (by simp)

/-- The first loop of `process_setup` keeps the counts at most 1. -/
theorem le1_process_setup_kernel (cfg : Config)
    (h0 : cfg.allocatable_physical_address 0 = false) (kpt : x86_64_pagetable) (l : List Nat) :
    ∀ (m : Memory) (pt : x86_64_pagetable) (m2 : Memory) (pt2 : x86_64_pagetable),
      Le1 m → process_setup_kernel cfg kpt l m pt = .ok (m2, pt2) → Le1 m2 := by
  induction l with
  | nil =>
    intro m pt m2 pt2 h hs
    unfold process_setup_kernel at hs
    simp only [Except.ok.injEq, Prod.mk.injEq] at hs
    rw [← hs.1]; exact h
  | cons va rest ih =>
    intro m pt m2 pt2 h hs
    unfold process_setup_kernel at hs
    cases h1 : vmiter_map cfg m pt va (vmiter_pa kpt va) (vmiter_perm kpt va) with
    | error e => rw [h1] at hs; exact absurd hs (by simp)
    | ok r =>
      obtain ⟨m1, pt1⟩ := r
      rw [h1] at hs
      simp only at hs
      exact ih m1 pt1 m2 pt2 (le1_vmiter_map cfg h0 m m1 pt pt1 _ _ _ h h1) hs

/-- The page loop of `process_setup` keeps the counts at most 1. -/
theorem le1_process_setup_pages (cfg : Config)
    (h0 : cfg.allocatable_physical_address 0 = false) (w : Bool) (l : List Nat) :
    ∀ (m : Memory) (pt : x86_64_pagetable) (m2 : Memory) (pt2 : x86_64_pagetable),
      Le1 m → process_setup_pages cfg w l m pt = .ok (m2, pt2) → Le1 m2 := by
  induction l with
  | nil =>
    intro m pt m2 pt2 h hs
    unfold process_setup_pages at hs
    simp only [Except.ok.injEq, Prod.mk.injEq] at hs
    rw [← hs.1]; exact h
  | cons a rest ih =>
    intro m pt m2 pt2 h hs
    unfold process_setup_pages at hs
    simp only at hs
    split at hs
    · exact absurd hs (by simp)
    · split at hs
      · exact absurd hs (by simp)
      · rename_i m1 pt1 h1
        exact ih m1 pt1 m2 pt2
          (le1_vmiter_map cfg h0 _ m1 pt pt1 _ _ _ (le1_kalloc cfg m PAGESIZE h) h1) hs

/-- The segment loop of `process_setup` keeps the counts at most 1. -/
theorem le1_process_setup_segs (cfg : Config)
    (h0 : cfg.allocatable_physical_address 0 = false) (l : List segment) :
    ∀ (m : Memory) (pt : x86_64_pagetable) (m2 : Memory) (pt2 : x86_64_pagetable),
      Le1 m → process_setup_segs cfg l m pt = .ok (m2, pt2) → Le1 m2 := by
  induction l with
  | nil =>
    intro m pt m2 pt2 h hs
    unfold process_setup_segs at hs
    simp only [Except.ok.injEq, Prod.mk.injEq] at hs
    rw [← hs.1]; exact h
  | cons seg rest ih =>
    intro m pt m2 pt2 h hs
    unfold process_setup_segs at hs
    split at hs
    · exact absurd hs (by simp)
    · rename_i m1 pt1 h1
      exact ih m1 pt1 m2 pt2 (le1_process_setup_pages cfg h0 _ _ m pt m1 pt1 h h1) hs

/-- `process_setup` keeps the counts at most 1. -/
theorem le1_process_setup (cfg : Config) (h0 : cfg.allocatable_physical_address 0 = false)
    (k k1 : Kernel) (pid : Nat) (pgm : program_image) (h : Le1 k.memory)
    (hs : process_setup cfg k pid pgm = .ok k1) : Le1 k1.memory := by
  unfold process_setup at hs
  simp only at hs
  have ha : Le1 (kalloc_pagetable cfg k.memory).2 := by
    unfold kalloc_pagetable
    simp only
    split
    · exact le1_kalloc cfg k.memory PAGESIZE h
    · exact le1_kalloc cfg k.memory PAGESIZE h
  split at hs
  · exact absurd hs (by simp)
  · rename_i pt0 hpt0
    split at hs
    · exact absurd hs (by simp)
    · rename_i m1 pt1 h1
      have hm1 := le1_process_setup_kernel cfg h0 _ _ _ pt0 m1 pt1 ha h1
      split at hs
      · exact absurd hs (by simp)
      · rename_i m2 pt2 h2
        have hm2 := le1_process_setup_segs cfg h0 _ m1 pt1 m2 pt2 hm1 h2
        split at hs
        · exact absurd hs (by simp)
        · split at hs
          · exact absurd hs (by simp)
          · rename_i m4 pt3 h4
            simp only [Except.ok.injEq] at hs
            subst hs
            have hm3 : Le1 (kalloc cfg
                { m2 with bytes := process_setup_copy pt2 pgm.segs m2.bytes } PAGESIZE).2 :=
              le1_kalloc cfg _ PAGESIZE hm2
            exact le1_vmiter_map cfg h0 _ m4 pt2 pt3 _ _ _ hm3 h4

/-- The identity-mapping loop of `kernel_start` keeps the counts at most 1. -/
theorem le1_kernel_start_map (cfg : Config) (h0 : cfg.allocatable_physical_address 0 = false)
    (l : List Nat) :
    ∀ (m : Memory) (kpt : x86_64_pagetable) (m2 : Memory) (kpt2 : x86_64_pagetable),
      Le1 m → kernel_start_map cfg l m kpt = .ok (m2, kpt2) → Le1 m2 := by
  induction l with
  | nil =>
    intro m kpt m2 kpt2 h hs
    unfold kernel_start_map at hs
    simp only [Except.ok.injEq, Prod.mk.injEq] at hs
    rw [← hs.1]; exact h
  | cons a rest ih =>
    intro m kpt m2 kpt2 h hs
    unfold kernel_start_map at hs
    simp only at hs
    have key : ∀ perm : Perm,
        (if ((try_map cfg m kpt a a perm).1 == 0) = true then
          kernel_start_map cfg rest (try_map cfg m kpt a a perm).2.1
            (try_map cfg m kpt a a perm).2.2
        else Except.error Halt.assertion) = Except.ok (m2, kpt2) → Le1 m2 := by
      intro perm hp
      split at hp
      · exact ih _ _ m2 kpt2 (le1_try_map cfg h0 m kpt a a perm h) hp
      · exact absurd hp (by simp)
    exact key _ hs

/-- A present user mapping below `MEMSIZE_VIRTUAL`, not of the console page,
is one of the uses its table makes of the page. -/
theorem owned_entry_pos (cfg : Config) (pt : x86_64_pagetable) (v : Nat)
    (hv : v < cfg.NVPAGES) (hP : (pt.entry v).perm.P = true) (hU : (pt.entry v).perm.U = true)
    (hne : (pt.entry v).pa ≠ cfg.CONSOLE_ADDR) :
    1 ≤ owned cfg pt ((pt.entry v).pa / PAGESIZE) := by
  have hmem : v * PAGESIZE ∈ cfg.vas := by
    unfold Config.vas
    exact List.mem_map.2 ⟨v, List.mem_range.2 hv, rfl⟩
  obtain ⟨hal, hlt⟩ := (mem_vas cfg _).1 hmem
  have hdiv : v * PAGESIZE / PAGESIZE = v := Nat.mul_div_cancel v PAGESIZE_pos
  have hpa : vmiter_pa pt (v * PAGESIZE) = (pt.entry v).pa := by
    unfold vmiter_pa
    rw [hdiv, if_pos hP, hal, Nat.add_zero]
  have hu : vmiter_user pt (v * PAGESIZE) = true := by
    unfold vmiter_user vmiter_perm
    rw [hdiv, if_pos hP, hP, hU]
    rfl
  have := owned_pos cfg pt (v * PAGESIZE) hal hlt hu (by rw [hpa]; exact hne)
  rw [hpa] at this
  unfold owned
  omega

/-- The reference count of a page covers a user mapping of it in a live
table. -/
theorem live_entry_counted (cfg : Config) (k : Kernel) (hinv : Inv cfg k) (i : Nat)
    (pt : x86_64_pagetable) (v : Nat) (hi : i < cfg.PID_MAX)
    (hst : (k.ptable i).state ≠ P_FREE) (hpt : (k.ptable i).pagetable = some pt)
    (hv : v < cfg.NVPAGES) (hP : (pt.entry v).perm.P = true) (hU : (pt.entry v).perm.U = true)
    (hne : (pt.entry v).pa ≠ cfg.CONSOLE_ADDR) :
    1 ≤ k.memory.physpages ((pt.entry v).pa / PAGESIZE) := by
  have h1 := owned_entry_pos cfg pt v hv hP hU hne
  have h2 := proc_count_le_owned_count cfg k i ((pt.entry v).pa / PAGESIZE) hi
  rw [proc_count_live _ _ pt hst hpt] at h2
  have h3 := hinv.counts ((pt.entry v).pa / PAGESIZE)
  omega

/-- What a returning `syscall_page_alloc` did: nothing, or it mapped the free
page `pn` at the checked address `addr` in the current table, with the
structure pages `new` taken from the free pages other than `pn`. -/
theorem syscall_page_alloc_shape (cfg : Config)
    (h0 : cfg.allocatable_physical_address 0 = false) (k k1 : Kernel) (addr : Nat) (r : Int)
    (h : syscall_page_alloc cfg k addr = .ok (r, k1)) :
    k1 = k ∨
    ∃ (pn : Nat) (pt pt1 : x86_64_pagetable) (new : List ptpage),
      (addr % PAGESIZE = 0 ∧ cfg.PROC_START_ADDR ≤ addr ∧ addr < cfg.MEMSIZE_VIRTUAL) ∧
      free_page cfg k.memory pn = true ∧
      (k.ptable k.current).pagetable = some pt ∧
      k1.ptable k.current = { k.ptable k.current with pagetable := some pt1 } ∧
      (∀ i, i ≠ k.current → k1.ptable i = k.ptable i) ∧
      k1.current = k.current ∧ k1.kernel_pagetable = k.kernel_pagetable ∧
      pt1.entry = Function.update pt.entry (addr / PAGESIZE)
        ⟨pn * PAGESIZE, PTE_P ||| PTE_U ||| PTE_W⟩ ∧
      (∀ X ∈ dir_pages new, k.memory.physpages X = 0 ∧ X ≠ pn) ∧
      (∀ X, k1.memory.physpages X =
        k.memory.physpages X + (if X = pn then 1 else 0) + (dir_pages new).count X) := by
  unfold syscall_page_alloc at h
  split at h
  · simp only [Except.ok.injEq, Prod.mk.injEq] at h
    exact Or.inl h.2.symm
  · rename_i hc
    rw [page_alloc_check] at hc
    rcases kalloc_cases_nz cfg h0 k.memory PAGESIZE with hk | ⟨pn, hpn, hpa, hf, hk⟩
    · rw [hk] at h
      simp only [beq_self_eq_true, if_true, Except.ok.injEq, Prod.mk.injEq] at h
      exact Or.inl h.2.symm
    · rw [hk] at h
      have hne : (pn * PAGESIZE == 0) = false := by simpa using hpa
      simp only [hne, Bool.false_eq_true, if_false] at h
      cases hpt : (k.ptable k.current).pagetable with
      | none => simp [hpt] at h
      | some pt =>
        simp only [hpt] at h
        generalize hr : try_map cfg (k.memory.take pn) pt addr (pn * PAGESIZE)
          (PTE_P ||| PTE_U ||| PTE_W) = t at h
        obtain ⟨new, t1, t2, t3, t4, -, t6, -, -⟩ := try_map_spec cfg h0 _ _ _ _ _ t hr
        by_cases hb : t.1 = 0
        · have hb' : (t.1 == 0) = true := by simpa using hb
          simp only [hb', if_true, Except.ok.injEq, Prod.mk.injEq] at h
          obtain ⟨-, rfl⟩ := h
          right
          refine ⟨pn, pt, t.2.2, new, ⟨by omega, by omega, by omega⟩, hf, rfl,
            by simp [set_proc_ptable], ?_, rfl, rfl, t6 hb (by decide), ?_, ?_⟩
          · intro i hi
            simp [set_proc_ptable, hi]
          · intro X hX
            unfold dir_pages at hX
            obtain ⟨d, hd, rfl⟩ := List.mem_map.1 hX
            have := (t4 d hd).2.2
            rw [take_physpages k.memory pn _ (free_page_count cfg k.memory pn hf)] at this
            constructor
            · omega
            · intro he
              rw [if_pos he] at this
              omega
          · intro X
            simp only [set_proc_memory]
            rw [t3 X, take_physpages k.memory pn X (free_page_count cfg k.memory pn hf)]
        · have hb' : (t.1 == 0) = false := by simpa using hb
          simp [hb'] at h

/-- `syscall_page_alloc` keeps the fifth invariant. -/
theorem syscall_page_alloc_excl (cfg : Config) (hv : cfg.valid) (k k1 : Kernel) (addr : Nat)
    (r : Int) (hinv : Inv cfg k) (hex : Excl cfg k)
    (h : syscall_page_alloc cfg k addr = .ok (r, k1)) : Excl cfg k1 := by
  rcases syscall_page_alloc_shape cfg hv.null_reserved k k1 addr r h with rfl |
    ⟨pn, pt, pt1, new, -, hf, hpt, hslot, hoth, -, -, hentry, hnew, hcount⟩
  · exact hex
  · have hpn := free_page_count cfg k.memory pn hf
    have hold : ∀ i pt0 v, i < cfg.PID_MAX → (k.ptable i).state ≠ P_FREE →
        (k.ptable i).pagetable = some pt0 → v < cfg.NVPAGES →
        (pt0.entry v).perm.P = true → (pt0.entry v).perm.U = true →
        (pt0.entry v).perm.W = true → (pt0.entry v).pa ≠ cfg.CONSOLE_ADDR →
        k1.memory.physpages ((pt0.entry v).pa / PAGESIZE) ≤ 1 := by
      intro i pt0 v hi hst hpt0 hlt hP hU hW hne
      have h1 := live_entry_counted cfg k hinv i pt0 v hi hst hpt0 hlt hP hU hne
      have h2 := hex i pt0 v hi hst hpt0 hlt hP hU hW hne
      rw [hcount]
      have h3 : (pt0.entry v).pa / PAGESIZE ≠ pn := by
        intro he; rw [he] at h1; omega
      have h4 : (dir_pages new).count ((pt0.entry v).pa / PAGESIZE) = 0 := by
        apply List.count_eq_zero_of_not_mem
        intro hm
        have := (hnew _ hm).1
        omega
      rw [if_neg h3, h4]
      omega
    intro i pt' v hi hst hpt' hlt hP hU hW hne
    by_cases hic : i = k.current
    · subst hic
      rw [hslot] at hst hpt'
      simp only [Option.some.injEq] at hpt'
      subst hpt'
      rw [hentry] at hP hU hW hne ⊢
      by_cases hvv : v = addr / PAGESIZE
      · subst hvv
        simp only [Function.update_same]
        rw [hcount, Nat.mul_div_cancel pn PAGESIZE_pos, hpn, if_pos rfl]
        have h4 : (dir_pages new).count pn = 0 := by
          apply List.count_eq_zero_of_not_mem
          intro hm
          exact (hnew _ hm).2 rfl
        rw [h4]
      · simp only [Function.update_noteq hvv] at hP hU hW hne ⊢
        exact hold _ pt v hi hst hpt hlt hP hU hW hne
    · rw [hoth i hic] at hst hpt'
      exact hold i pt' v hi hst hpt' hlt hP hU hW hne

/-- `sys_exit` keeps the fifth invariant. -/
theorem sys_exit_excl (cfg : Config) (k k1 : Kernel) (pid r : Int) (hex : Excl cfg k)
    (h : sys_exit cfg k pid = .ok (r, k1)) : Excl cfg k1 := by
  rcases sys_exit_inv cfg k k1 pid r h with ⟨-, rfl⟩ |
    ⟨-, j, ptj, -, -, -, -, hslot, hoth, -, -, -, -, hcount⟩
  · exact hex
  · intro i pt v hi hst hpt hlt hP hU hW hne
    by_cases hij : i = j
    · subst hij
      rw [hslot] at hst
      exact absurd rfl hst
    · rw [hoth i hij] at hst hpt
      exact le_trans (hcount _).1 (hex i pt v hi hst hpt hlt hP hU hW hne)

/-- A state with the same memory whose descriptors are those of a state
satisfying the fifth invariant, up to the registers and to slots that are
free, satisfies it. -/
theorem excl_of_same (cfg : Config) (k k1 : Kernel) (hex : Excl cfg k)
    (hm : ∀ X, k1.memory.physpages X ≤ k.memory.physpages X)
    (hp : ∀ i, (k1.ptable i).state ≠ P_FREE →
      (k.ptable i).state ≠ P_FREE ∧ (k1.ptable i).pagetable = (k.ptable i).pagetable) :
    Excl cfg k1 := by
  intro i pt v hi hst hpt hlt hP hU hW hne
  obtain ⟨h1, h2⟩ := hp i hst
  rw [h2] at hpt
  exact le_trans (hm _) (hex i pt v hi h1 hpt hlt hP hU hW hne)

/-- An entry that `sys_fork` has rewritten is not a writable user mapping of a
page other than the console page. -/
theorem sys_fork_entry_not_writable (cfg : Config) (e : pageentry)
    (hP : (sys_fork_entry cfg e).perm.P = true) (hU : (sys_fork_entry cfg e).perm.U = true)
    (hW : (sys_fork_entry cfg e).perm.W = true) (hne : e.pa ≠ cfg.CONSOLE_ADDR) : False := by
  unfold sys_fork_entry at hP hU hW
  split at hW
  · have hw : (PTE_P ||| PTE_U ||| PTE_C).W = false := by decide
    simp only [hw] at hW
    exact absurd hW (by decide)
  · rename_i hc
    rw [if_neg hc] at hP hU
    apply hc
    simp [hP, hU, hW, hne]

/-- A page that `sys_fork` counts for the parent's table is used by that
table. -/
theorem fork_counts_owned (cfg : Config) (src : x86_64_pagetable) (X : Nat)
    (h : 0 < cfg.vas.countP (fun va => fork_counts cfg (src.entry (va / PAGESIZE)) X)) :
    1 ≤ owned cfg src X := by
  obtain ⟨va, hva, hf⟩ := List.countP_pos_iff.1 h
  unfold fork_counts at hf
  simp only [Bool.and_eq_true, bne_iff_ne, ne_eq, beq_iff_eq] at hf
  obtain ⟨⟨⟨hP, hU⟩, hne⟩, hX⟩ := hf
  have hlt : va / PAGESIZE < cfg.NVPAGES :=
    (mem_vas_vpn cfg _).1 (List.mem_map.2 ⟨va, hva, rfl⟩)
  have := owned_entry_pos cfg src (va / PAGESIZE) hlt hP hU hne
  rw [hX] at this
  exact this

/-- `sys_fork` keeps the fifth invariant. -/
theorem sys_fork_excl (cfg : Config) (hv : cfg.valid) (k k1 : Kernel) (r : Int)
    (hinv : Inv cfg k) (hex : Excl cfg k) (hrun : (k.ptable k.current).state = P_RUNNABLE)
    (h : sys_fork cfg k = .ok (r, k1)) : Excl cfg k1 := by
  have hpid : (k.ptable k.current).pid = k.current := hinv.pids _ hinv.cur
  have hpar : (k.ptable (k.ptable k.current).pid).state ≠ P_FREE := by
    rw [hpid, hrun]; decide
  by_cases hr : r = -1
  · subst hr
    obtain ⟨hm, -, -, hp⟩ := sys_fork_fail_inv cfg hv.null_reserved k k1 h hpar
    refine excl_of_same cfg k k1 hex (fun X => by rw [hm]) ?_
    intro i hst
    rcases hp i with h1 | ⟨h1, -, -⟩
    · rw [h1] at hst ⊢
      exact ⟨hst, rfl⟩
    · exact absurd h1 hst
  · obtain ⟨new_id, rootpn, src, src1, dst1, ⟨-, -, hnlt, -, hnne⟩, ⟨-, hroot, hsrc⟩,
      ⟨-, -, -, hchild, hparent, hothers⟩, ⟨-, -, -, hdirs⟩, hE1, hE2, hcount⟩ :=
      sys_fork_facts cfg hv.null_reserved k k1 r h hr hpar
    rw [hpid] at hsrc hparent hnne hothers
    intro i pt v hi hst hpt hlt hP hU hW hne
    have hvm : v ∈ cfg.vas.map (fun va => va / PAGESIZE) := (mem_vas_vpn cfg v).2 hlt
    by_cases hi1 : i = new_id
    · exfalso
      subst hi1
      rw [hchild] at hpt
      simp only [Option.some.injEq] at hpt
      subst hpt
      rw [hE2 v] at hP hU hW hne
      split at hP
      · rename_i hc
        rw [if_pos hc] at hU hW hne
        exact sys_fork_entry_not_writable cfg (src.entry v) hP hU hW hne
      · exact absurd hP (by decide)
    · by_cases hi2 : i = k.current
      · exfalso
        subst hi2
        rw [hparent] at hpt
        simp only [Option.some.injEq] at hpt
        subst hpt
        rw [hE1 v, if_pos hvm] at hP hU hW hne
        rw [sys_fork_entry_pa] at hne
        exact sys_fork_entry_not_writable cfg (src.entry v) hP hU hW hne
      · rw [hothers i hi1 hi2] at hst hpt
        have h1 := hex i pt v hi hst hpt hlt hP hU hW hne
        have h2 := owned_entry_pos cfg pt v hlt hP hU hne
        have h3 := two_tables_le_count cfg k hinv i k.current pt src hi hinv.cur hi2 hst
          (by rw [hrun]; decide) hpt hsrc ((pt.entry v).pa / PAGESIZE)
        have h4 := live_entry_counted cfg k hinv i pt v hi hst hpt hlt hP hU hne
        rw [hcount]
        have c1 : cfg.vas.countP
            (fun va => fork_counts cfg (src.entry (va / PAGESIZE))
              ((pt.entry v).pa / PAGESIZE)) = 0 := by
          by_contra hc
          have := fork_counts_owned cfg src _ (Nat.pos_of_ne_zero hc)
          omega
        have c2 : (pt.entry v).pa / PAGESIZE ≠ rootpn := by
          intro he
          have := free_page_count cfg k.memory rootpn hroot
          rw [he] at h4
          omega
        have c3 : (dir_pages dst1.dirs).count ((pt.entry v).pa / PAGESIZE) = 0 := by
          apply List.count_eq_zero_of_not_mem
          intro hm
          unfold dir_pages at hm
          obtain ⟨d, hd, hde⟩ := List.mem_map.1 hm
          have := (hdirs d hd).2.2
          rw [hde] at this
          omega
        rw [c1, if_neg c2, c3]
        omega

/-- `exception` keeps the fifth invariant. -/
theorem exception_excl (cfg : Config) (hv : cfg.valid) (k k1 : Kernel) (regs : regstate)
    (cr2 : Nat) (n : Next) (hinv : Inv cfg k) (hex : Excl cfg k)
    (hrun : (k.ptable k.current).state = P_RUNNABLE)
    (h : exception cfg k regs cr2 = .ok (k1, n)) : Excl cfg k1 := by
  have hst0 : (k.ptable k.current).state ≠ P_FREE := by rw [hrun]; decide
  rcases exception_shape cfg hv k k1 regs cr2 n hinv hrun h with
    ⟨hm, -, hsame⟩ | ⟨pt, hpt, -, -, -, -, -, ⟨hone, h1⟩ | ⟨-, pn, -, -, hf, h1⟩⟩
  · refine excl_of_same cfg k k1 hex (fun X => by rw [hm]) ?_
    intro i hst
    exact ⟨fun hfree => hst ((hsame i).2.2.2 hfree), (hsame i).1⟩
  · subst h1
    intro i pt' v hi hst hpt' hlt hP hU hW hne
    simp only [set_proc_memory]
    by_cases hic : i = k.current
    · subst hic
      simp only [set_proc_ptable, if_true, Option.some.injEq] at hst hpt'
      subst hpt'
      simp only [set_entry_entry] at hP hU hW hne ⊢
      by_cases hvv : v = round_down cr2 PAGESIZE / PAGESIZE
      · subst hvv
        simp only [Function.update_same]
        rw [hone]
      · simp only [Function.update_noteq hvv] at hP hU hW hne ⊢
        exact hex _ pt v hi hst hpt hlt hP hU hW hne
    · simp only [set_proc_ptable, if_neg hic] at hst hpt'
      exact hex i pt' v hi hst hpt' hlt hP hU hW hne
  · subst h1
    have hpn := free_page_count cfg k.memory pn hf
    have hcnt : ∀ X,
        (Function.update (k.memory.take pn).physpages
          ((pt.entry (round_down cr2 PAGESIZE / PAGESIZE)).pa / PAGESIZE)
          ((k.memory.take pn).physpages
            ((pt.entry (round_down cr2 PAGESIZE / PAGESIZE)).pa / PAGESIZE) - 1)) X ≤ 1 ∨
        (Function.update (k.memory.take pn).physpages
          ((pt.entry (round_down cr2 PAGESIZE / PAGESIZE)).pa / PAGESIZE)
          ((k.memory.take pn).physpages
            ((pt.entry (round_down cr2 PAGESIZE / PAGESIZE)).pa / PAGESIZE) - 1)) X ≤
          k.memory.physpages X := by
      intro X
      rw [Function.update_apply]
      split
      · next hX =>
        subst hX
        right
        rw [take_physpages k.memory pn _ hpn]
        split
        · next he => rw [he, hpn]
        · omega
      · rw [take_physpages k.memory pn _ hpn]
        split
        · next he => left; rw [he, hpn]
        · right; omega
    intro i pt' v hi hst hpt' hlt hP hU hW hne
    simp only [set_proc_memory]
    rcases hcnt ((pt'.entry v).pa / PAGESIZE) with hc | hc
    · exact hc
    · refine le_trans hc ?_
      by_cases hic : i = k.current
      · subst hic
        simp only [set_proc_ptable, if_true, Option.some.injEq] at hst hpt'
        subst hpt'
        simp only [set_entry_entry] at hP hU hW hne ⊢
        by_cases hvv : v = round_down cr2 PAGESIZE / PAGESIZE
        · subst hvv
          simp only [Function.update_same]
          rw [Nat.mul_div_cancel pn PAGESIZE_pos, hpn]
          exact Nat.zero_le _
        · simp only [Function.update_noteq hvv] at hP hU hW hne ⊢
          exact hex _ pt v hi hst hpt hlt hP hU hW hne
      · simp only [set_proc_ptable, if_neg hic] at hst hpt'
        exact hex i pt' v hi hst hpt' hlt hP hU hW hne

/-- Every reachable state satisfies the fifth invariant. -/
theorem reachable_excl (cfg : Config) (hv : cfg.valid) (k : Kernel) (hr : Reachable cfg k) :
    Excl cfg k := by
  induction hr with
  | boot kpt bytes programs k h =>
    have hle : Le1 k.memory := by
      refine kernel_start_induct cfg hv (fun K => Le1 K.memory) kpt bytes ?_ programs ?_ ?_ k h
      · intro K _ _ hmap
        exact le1_kernel_start_map cfg hv.null_reserved _ _ kpt K.memory K.kernel_pagetable
          (fun _ => Nat.zero_le _) hmap
      · intro K K1 pid pgm _ _ _ _ hK h1
        exact le1_process_setup cfg hv.null_reserved K K1 pid pgm hK h1
      · intro K c hK
        exact hK
    intro i pt v _ _ _ _ _ _ _ _
    exact hle _
  | page_alloc k k1 addr r hk hrun h ih =>
    exact syscall_page_alloc_excl cfg hv k k1 addr r (reachable_inv cfg hv k hk) ih h
  | fork k k1 r hk hrun h ih =>
    exact sys_fork_excl cfg hv k k1 r (reachable_inv cfg hv k hk) ih hrun h
  | exit k k1 r _ _ h ih => exact sys_exit_excl cfg k k1 _ r ih h
  | kill k k1 pid r _ _ h ih => exact sys_exit_excl cfg k k1 pid r ih h
  | exception k k1 regs cr2 n hk hrun h ih =>
    exact exception_excl cfg hv k k1 regs cr2 n (reachable_inv cfg hv k hk) ih hrun h
  | save k regs _ hrun ih =>
    refine excl_of_same cfg k _ ih (fun X => le_refl _) ?_
    intro i hst
    by_cases hic : i = k.current
    · subst hic
      simp only [set_proc_ptable, if_true] at hst ⊢
      exact ⟨hst, trivial⟩
    · simp only [set_proc_ptable, if_neg hic] at hst ⊢
      exact ⟨hst, trivial⟩
  | run k p _ _ _ ih => exact ih

/-- The entry behind a user-accessible page-aligned address. -/
theorem vmiter_user_entry (pt : x86_64_pagetable) (va : Nat) (hal : va % PAGESIZE = 0)
    (hu : vmiter_user pt va = true) :
    (pt.entry (va / PAGESIZE)).perm.P = true ∧ (pt.entry (va / PAGESIZE)).perm.U = true ∧
      vmiter_pa pt va = (pt.entry (va / PAGESIZE)).pa ∧
      vmiter_perm pt va = (pt.entry (va / PAGESIZE)).perm := by
  unfold vmiter_user vmiter_perm at hu
  by_cases hP : (pt.entry (va / PAGESIZE)).perm.P = true
  · rw [if_pos hP] at hu
    simp only [Bool.and_eq_true] at hu
    refine ⟨hP, hu.2, ?_, ?_⟩
    · unfold vmiter_pa
      rw [if_pos hP, hal, Nat.add_zero]
    · unfold vmiter_perm
      rw [if_pos hP]
  · rw [if_neg hP] at hu
    exact absurd hu (by decide)

/-! ## C35: the kernel region of a process's table -/

/-- A state reachable from a reachable state is reachable. -/
theorem reachable_of_from (cfg : Config) (k0 k : Kernel) (h0 : Reachable cfg k0)
    (h : Reachable_from cfg k0 k) : Reachable cfg k := by
  induction h with
  | start => exact h0
  | page_alloc k k1 addr r _ hrun h ih => exact Reachable.page_alloc k k1 addr r ih hrun h
  | fork k k1 r _ hrun h ih => exact Reachable.fork k k1 r ih hrun h
  | exit k k1 r _ hrun h ih => exact Reachable.exit k k1 r ih hrun h
  | kill k k1 pid r _ hrun h ih => exact Reachable.kill k k1 pid r ih hrun h
  | exception k k1 regs cr2 n _ hrun h ih => exact Reachable.exception k k1 regs cr2 n ih hrun h
  | save k regs _ hrun ih => exact Reachable.save k regs ih hrun
  | run k p _ hp hrun ih => exact Reachable.run k p ih hp hrun

/-- Booting the small configuration with `img_tiny` returns `k_tiny_boot`. -/
theorem tiny_boot_ok : kernel_start tiny kpt_tiny (fun _ => 0) [img_tiny] = .ok k_tiny_boot :=
  except_ok_of_isSome (kernel_start tiny kpt_tiny (fun _ => 0) [img_tiny]) k_small
    tiny_facts.1

set_option maxRecDepth 1000000 in
/-- The copy of the boot of the small configuration with `img_tiny` stays
inside its segment. -/
theorem tiny_boot_inside : kernel_start_inside tiny kpt_tiny (fun _ => 0) [img_tiny] = true := by
  decide!

/-- The state after the fork is reached from the boot of the small
configuration. -/
theorem tiny_fork_from_boot : Reachable_from tiny k_tiny_boot k_tiny_fork :=
  Reachable_from.fork k_tiny_boot k_tiny_fork 2 Reachable_from.start tiny_facts.2.1
    (except_ok_of_fst (sys_fork tiny k_tiny_boot) 2 k_small tiny_facts.2.2.1)

set_option maxRecDepth 1000000 in
/-- Facts about the boot of `wide` with `img_over 0xF000`, by evaluation. -/
theorem over_boot_facts :
    (kernel_start wide kpt_tiny (fun _ => 0) [img_over 0xF000]).toOption.isSome = true ∧
    kernel_start_inside wide kpt_tiny (fun _ => 0) [img_over 0xF000] = false ∧
    (k_over_boot.ptable 1).state = P_RUNNABLE ∧
    (k_over_boot.ptable 1).pagetable.map (fun pt => pt.dirs.contains ⟨1, 1, 0xC000⟩) =
      some true ∧
    word_at k_over_boot.memory.bytes 0xC000 = 0xF000 + 7 ∧
    k_over_boot.memory.physpages (0xF000 / PAGESIZE) = 0 := by
  decide!

/-- The boot of `wide` with `img_over 0xF000` returns, with process 1
runnable.  The copy of its three-page segment does not stay inside the
segment: the page at `0xC000`, which `vmiter::map` allocated between the
second and the third page of the segment for the entries of the addresses from
`0x200000` on, has been overwritten with the image's bytes.  The word now
stored for address `0x200000` is `0xF007`, the entry for page `0xF000`
present, writable and user-accessible; the reference count of page `0xF000`
is 0. -/
theorem over_boot_overwrites_table :
    kernel_start wide kpt_tiny (fun _ => 0) [img_over 0xF000] = .ok k_over_boot ∧
    kernel_start_inside wide kpt_tiny (fun _ => 0) [img_over 0xF000] = false ∧
    (k_over_boot.ptable 1).state = P_RUNNABLE ∧
    (k_over_boot.ptable 1).pagetable.map (fun pt => pt.dirs.contains ⟨1, 1, 0xC000⟩) =
      some true ∧
    word_at k_over_boot.memory.bytes 0xC000 = 0xF000 + 7 ∧
    k_over_boot.memory.physpages (0xF000 / PAGESIZE) = 0 :=
  ⟨except_ok_of_isSome (kernel_start wide kpt_tiny (fun _ => 0) [img_over 0xF000]) k_small
      over_boot_facts.1,
    over_boot_facts.2⟩

/-- After the boot of `wide` with `img_over 0xF000`, `kfree` of the page at
`0xF000` fails its assertion: the page's reference count is 0. -/
theorem over_boot_kfree : kfree k_over_boot.memory 0xF000 = .error Halt.assertion := by
  have h := over_boot_facts.2.2.2.2.2
  unfold kfree
  simp [h]

set_option maxRecDepth 1000000 in
/-- Facts about the boot of `wide32` with `img_over 0x13000` and `img_tiny`,
and about the fork of process 2, by evaluation. -/
theorem over2_facts :
    (kernel_start wide32 kpt_tiny (fun _ => 0) [img_over 0x13000, img_tiny]).toOption.isSome
      = true ∧
    kernel_start_inside wide32 kpt_tiny (fun _ => 0) [img_over 0x13000, img_tiny] = false ∧
    (k_over2_boot.ptable 2).state = P_RUNNABLE ∧
    (sys_fork wide32 { k_over2_boot with current := 2 }).toOption.map Prod.fst = some 3 ∧
    (List.range 4).map (fun i => decide ((k_over2_fork.ptable i).state = P_RUNNABLE)) =
      [false, true, true, true] ∧
    (k_over2_fork.ptable 1).pagetable.map (fun pt => pt.dirs.contains ⟨1, 1, 0xC000⟩) =
      some true ∧
    word_at k_over2_fork.memory.bytes 0xC000 = 0x13000 + 7 ∧
    k_over2_fork.memory.physpages (0x13000 / PAGESIZE) = 2 ∧
    (k_over2_fork.ptable 2).pagetable.map
      (fun pt => (vmiter_user pt 0x8000, vmiter_pa pt 0x8000)) = some (true, 0x13000) ∧
    (k_over2_fork.ptable 3).pagetable.map
      (fun pt => (vmiter_user pt 0x8000, vmiter_pa pt 0x8000)) = some (true, 0x13000) := by
  decide!

/-- The boot of `wide32` with `img_over 0x13000` and `img_tiny` returns.  The
copy of process 1's three-page segment has overwritten the page at `0xC000`
that holds the entries of process 1's table for the addresses from `0x200000`
on: the word stored for address `0x200000` is `0x13007`, the entry for page
`0x13000` present, writable and user-accessible.  Page `0x13000` is the data
page of process 2; after the scheduler has chosen process 2 and process 2 has
forked, process 2 and its child 3 both map it at `0x8000` and its reference
count is 2. -/
theorem over2_fork_shares_page :
    kernel_start wide32 kpt_tiny (fun _ => 0) [img_over 0x13000, img_tiny] = .ok k_over2_boot ∧
    kernel_start_inside wide32 kpt_tiny (fun _ => 0) [img_over 0x13000, img_tiny] = false ∧
    Reachable_from wide32 k_over2_boot k_over2_fork ∧
    (List.range 4).map (fun i => decide ((k_over2_fork.ptable i).state = P_RUNNABLE)) =
      [false, true, true, true] ∧
    (k_over2_fork.ptable 1).pagetable.map (fun pt => pt.dirs.contains ⟨1, 1, 0xC000⟩) =
      some true ∧
    word_at k_over2_fork.memory.bytes 0xC000 = 0x13000 + 7 ∧
    k_over2_fork.memory.physpages (0x13000 / PAGESIZE) = 2 ∧
    (k_over2_fork.ptable 2).pagetable.map
      (fun pt => (vmiter_user pt 0x8000, vmiter_pa pt 0x8000)) = some (true, 0x13000) ∧
    (k_over2_fork.ptable 3).pagetable.map
      (fun pt => (vmiter_user pt 0x8000, vmiter_pa pt 0x8000)) = some (true, 0x13000) :=
  ⟨except_ok_of_isSome
      (kernel_start wide32 kpt_tiny (fun _ => 0) [img_over 0x13000, img_tiny]) k_small
      over2_facts.1,
    over2_facts.2.1,
    Reachable_from.fork { k_over2_boot with current := 2 } k_over2_fork 3
      (Reachable_from.run k_over2_boot 2 Reachable_from.start (by decide) over2_facts.2.2.1)
      over2_facts.2.2.1
      (except_ok_of_fst (sys_fork wide32 { k_over2_boot with current := 2 }) 3 k_small
        over2_facts.2.2.2.1),
    over2_facts.2.2.2.2⟩

/-! ## C1: the reference counts cover the user mappings -/

/-- C1. (i) In every state reached from a boot whose segment copies stay inside
their segments (`kernel_start` with its `process_setup` calls, then page
allocations, forks, exits, kills, handled exceptions, register saves and
scheduler choices), every physical page's reference count is at least the
number of pairs (non-free process, page-aligned address below
`MEMSIZE_VIRTUAL`) whose entry is present, user-accessible, not the console
page, and targets that page; in particular a page with reference count 0 that
a live process maps user-accessible can only be the console page.
(ii) The boot of `wide` with `img_over 0xF000` is not such a boot:
`kernel_start` returns with process 1 runnable, and the copy of
`process_setup` has written the image's bytes over the page at `0xC000` that
holds the entries of process 1's table for the addresses from `0x200000` on.
The word stored there for address `0x200000` is `0xF007`, the entry for page
`0xF000` present, writable and user-accessible, and the reference count of
page `0xF000` is 0. -/
theorem reachable_refcount_covers_mappings (cfg : Config) (hv : cfg.valid)
    (kpt : x86_64_pagetable) (bytes : Nat → Nat)
    (programs : List program_image) (k0 : Kernel)
    (hboot : kernel_start cfg kpt bytes programs = .ok k0)
    (hin : kernel_start_inside cfg kpt bytes programs = true) (k : Kernel)
    (hr : Reachable_from cfg k0 k) :
    ((∀ X, mapping_count cfg k X ≤ k.memory.physpages X) ∧
    (∀ (i : Nat) (pt : x86_64_pagetable) (va : Nat),
      i < cfg.PID_MAX → (k.ptable i).state ≠ P_FREE → (k.ptable i).pagetable = some pt →
      va % PAGESIZE = 0 → va < cfg.MEMSIZE_VIRTUAL → vmiter_user pt va = true →
      k.memory.physpages (vmiter_pa pt va / PAGESIZE) = 0 →
      vmiter_pa pt va = cfg.CONSOLE_ADDR)) ∧
    (kernel_start wide kpt_tiny (fun _ => 0) [img_over 0xF000] = .ok k_over_boot ∧
      kernel_start_inside wide kpt_tiny (fun _ => 0) [img_over 0xF000] = false ∧
      (k_over_boot.ptable 1).state = P_RUNNABLE ∧
      (k_over_boot.ptable 1).pagetable.map (fun pt => pt.dirs.contains ⟨1, 1, 0xC000⟩) =
        some true ∧
      word_at k_over_boot.memory.bytes 0xC000 = 0xF000 + 7 ∧
      k_over_boot.memory.physpages (0xF000 / PAGESIZE) = 0) := by
  have _ := hin
  have hr1 : Reachable cfg k :=
    reachable_of_from cfg k0 k (Reachable.boot kpt bytes programs k0 hboot) hr
  have hinv := reachable_inv cfg hv k hr1
  have hmain : ∀ X, mapping_count cfg k X ≤ k.memory.physpages X := fun X =>
    le_trans (mapping_count_le_owned_count cfg k X) (hinv.counts X)
  refine ⟨⟨hmain, ?_⟩, over_boot_overwrites_table⟩
  intro i pt va hi hst hpt hal hlt hu hz
  by_contra hne
  have hm : maps_page cfg pt va (vmiter_pa pt va / PAGESIZE) = true := by
    unfold maps_page
    simp [hu, hne]
  have h1 := mapping_count_pos cfg k i pt va _ hi hst hpt ((mem_vas cfg va).2 ⟨hal, hlt⟩) hm
  have h2 := hmain (vmiter_pa pt va / PAGESIZE)
  omega

set_option maxRecDepth 1000000 in
/-- Witness for C1: the small configuration after boot with `img_tiny` and a
fork; the data page 10 is mapped by both processes and has count 2. -/
theorem reachable_refcount_covers_mappings_witness :
    tiny.valid ∧ kernel_start tiny kpt_tiny (fun _ => 0) [img_tiny] = .ok k_tiny_boot ∧
    kernel_start_inside tiny kpt_tiny (fun _ => 0) [img_tiny] = true ∧
    Reachable_from tiny k_tiny_boot k_tiny_fork ∧
    ((∀ X, mapping_count tiny k_tiny_fork X ≤ k_tiny_fork.memory.physpages X) ∧
    (∀ (i : Nat) (pt : x86_64_pagetable) (va : Nat),
      i < tiny.PID_MAX → (k_tiny_fork.ptable i).state ≠ P_FREE →
      (k_tiny_fork.ptable i).pagetable = some pt →
      va % PAGESIZE = 0 → va < tiny.MEMSIZE_VIRTUAL → vmiter_user pt va = true →
      k_tiny_fork.memory.physpages (vmiter_pa pt va / PAGESIZE) = 0 →
      vmiter_pa pt va = tiny.CONSOLE_ADDR)) ∧
    mapping_count tiny k_tiny_fork 10 = 2 ∧ k_tiny_fork.memory.physpages 10 = 2 :=
  ⟨tiny_valid, tiny_boot_ok, tiny_boot_inside, tiny_fork_from_boot,
    (reachable_refcount_covers_mappings tiny tiny_valid kpt_tiny (fun _ => 0) [img_tiny]
      k_tiny_boot tiny_boot_ok tiny_boot_inside k_tiny_fork tiny_fork_from_boot).1,
    by decide!, by decide!⟩

/-! ## C11: teardown by `sys_exit` -/

/-- C11. (i) In every state reached from a boot whose segment copies stay
inside their segments (configuration valid, console address page-aligned),
for every non-free slot `p`: `sys_exit(p)` completes and returns 0; afterwards
slot `p` is free with a null table pointer; every page's reference count has
dropped by exactly the number of page-aligned addresses below
`MEMSIZE_VIRTUAL`, other than `CONSOLE_ADDR`, at which `p`'s table mapped it
user-accessible, plus one if the page was the top-level page or a structure
page of `p`'s table; a page that another live process maps user-accessible
(the console page apart) keeps a positive count; the console page's count,
every other descriptor with its table, and the contents of memory are
unchanged.
(ii) The boot of `wide` with `img_over 0xF000` is not such a boot:
`kernel_start` returns with process 1 runnable, and the copy of
`process_setup` has written the image's bytes over the page at `0xC000` that
holds the entries of process 1's table for the addresses from `0x200000` on,
which the first loop of `sys_exit(1)` walks.  The word stored there for
address `0x200000` is `0xF007`, the entry for page `0xF000` present, writable
and user-accessible; the reference count of page `0xF000` is 0, and `kfree`
of that page fails its assertion. -/
theorem sys_exit_tears_down (cfg : Config) (hv : cfg.valid)
    (hcon : cfg.CONSOLE_ADDR % PAGESIZE = 0) (kpt : x86_64_pagetable) (bytes : Nat → Nat)
    (programs : List program_image) (k0 : Kernel)
    (hboot : kernel_start cfg kpt bytes programs = .ok k0)
    (hin : kernel_start_inside cfg kpt bytes programs = true) (k : Kernel)
    (hr : Reachable_from cfg k0 k)
    (p : Nat) (hp : p < cfg.PID_MAX) (hst : (k.ptable p).state ≠ P_FREE) :
    (∃ (pt : x86_64_pagetable) (k1 : Kernel),
      (k.ptable p).pagetable = some pt ∧ sys_exit cfg k p = .ok (0, k1) ∧
      (k1.ptable p).state = P_FREE ∧ (k1.ptable p).pagetable = none ∧
      (∀ X, k1.memory.physpages X +
        (cfg.vas.countP (fun va =>
            vmiter_user pt va && va != cfg.CONSOLE_ADDR && vmiter_pa pt va / PAGESIZE == X)
          + (if X ∈ pt.addr / PAGESIZE :: dir_pages pt.dirs then 1 else 0))
        = k.memory.physpages X) ∧
      (∀ (q : Nat) (ptq : x86_64_pagetable) (va : Nat), q < cfg.PID_MAX → q ≠ p →
        (k.ptable q).state ≠ P_FREE → (k.ptable q).pagetable = some ptq →
        va % PAGESIZE = 0 → va < cfg.MEMSIZE_VIRTUAL → vmiter_user ptq va = true →
        vmiter_pa ptq va ≠ cfg.CONSOLE_ADDR →
        0 < k1.memory.physpages (vmiter_pa ptq va / PAGESIZE)) ∧
      k1.memory.physpages (cfg.CONSOLE_ADDR / PAGESIZE) =
        k.memory.physpages (cfg.CONSOLE_ADDR / PAGESIZE) ∧
      (∀ i, i ≠ p → k1.ptable i = k.ptable i) ∧
      k1.memory.bytes = k.memory.bytes) ∧
    (kernel_start wide kpt_tiny (fun _ => 0) [img_over 0xF000] = .ok k_over_boot ∧
      kernel_start_inside wide kpt_tiny (fun _ => 0) [img_over 0xF000] = false ∧
      (k_over_boot.ptable 1).state = P_RUNNABLE ∧
      (k_over_boot.ptable 1).pagetable.map (fun pt => pt.dirs.contains ⟨1, 1, 0xC000⟩) =
        some true ∧
      word_at k_over_boot.memory.bytes 0xC000 = 0xF000 + 7 ∧
      k_over_boot.memory.physpages (0xF000 / PAGESIZE) = 0 ∧
      kfree k_over_boot.memory 0xF000 = .error Halt.assertion) := by
  have _ := hin
  have hr1 : Reachable cfg k :=
    reachable_of_from cfg k0 k (Reachable.boot kpt bytes programs k0 hboot) hr
  have hinv := reachable_inv cfg hv k hr1
  have hwf := reachable_wf cfg hv k hr1
  have hnd := reachable_nd cfg hv k hr1
  refine ⟨?_, ⟨over_boot_overwrites_table.1, over_boot_overwrites_table.2.1,
    over_boot_overwrites_table.2.2.1, over_boot_overwrites_table.2.2.2.1,
    over_boot_overwrites_table.2.2.2.2.1, over_boot_overwrites_table.2.2.2.2.2, over_boot_kfree⟩⟩
  obtain ⟨pt, k1, hpt, hex, hcnt, hbytes, hslot, hoth, -, -, -⟩ :=
    sys_exit_total cfg k hinv hwf p hp hst
  have hinv1 := sys_exit_keeps cfg k k1 p 0 hinv hex
  have hcnt' : ∀ X, k1.memory.physpages X +
      (cfg.vas.countP (fun va =>
          vmiter_user pt va && va != cfg.CONSOLE_ADDR && vmiter_pa pt va / PAGESIZE == X)
        + (if X ∈ pt.addr / PAGESIZE :: dir_pages pt.dirs then 1 else 0))
      = k.memory.physpages X := by
    intro X
    rw [← table_pages_count pt (hnd p pt hst hpt) X]
    have := hcnt X
    omega
  refine ⟨pt, k1, hpt, hex, by rw [hslot], by rw [hslot], hcnt', ?_, ?_, hoth, hbytes⟩
  · intro q ptq va hq hqp hstq hptq hal hlt hu hne
    have hm : maps_page cfg ptq va (vmiter_pa ptq va / PAGESIZE) = true := by
      unfold maps_page
      simp [hu, hne]
    have h1 := mapping_count_pos cfg k1 q ptq va _ hq (by rw [hoth q hqp]; exact hstq)
      (by rw [hoth q hqp]; exact hptq) ((mem_vas cfg va).2 ⟨hal, hlt⟩) hm
    have h2 := mapping_count_le_owned_count cfg k1 (vmiter_pa ptq va / PAGESIZE)
    have h3 := hinv1.counts (vmiter_pa ptq va / PAGESIZE)
    omega
  · obtain ⟨c1, c2⟩ := console_page_unused cfg hcon pt (hinv.tables p pt hst hpt)
      (hwf.tables p pt hst hpt)
    have := hcnt' (cfg.CONSOLE_ADDR / PAGESIZE)
    rw [c1, if_neg c2] at this
    omega


set_option maxRecDepth 1000000 in
/-- Witness for C11: teardown of process 1 in the small configuration after
boot with `img_tiny` and a fork. -/
theorem sys_exit_tears_down_witness :
    tiny.valid ∧ tiny.CONSOLE_ADDR % PAGESIZE = 0 ∧
    kernel_start tiny kpt_tiny (fun _ => 0) [img_tiny] = .ok k_tiny_boot ∧
    kernel_start_inside tiny kpt_tiny (fun _ => 0) [img_tiny] = true ∧
    Reachable_from tiny k_tiny_boot k_tiny_fork ∧
    (k_tiny_fork.ptable 1).state ≠ P_FREE ∧
    ∃ (pt : x86_64_pagetable) (k1 : Kernel),
      (k_tiny_fork.ptable 1).pagetable = some pt ∧
      sys_exit tiny k_tiny_fork (1 : Nat) = .ok (0, k1) ∧
      (k1.ptable 1).state = P_FREE ∧ (k1.ptable 1).pagetable = none ∧
      (∀ X, k1.memory.physpages X +
        (tiny.vas.countP (fun va =>
            vmiter_user pt va && va != tiny.CONSOLE_ADDR &&
              vmiter_pa pt va / PAGESIZE == X)
          + (if X ∈ pt.addr / PAGESIZE :: dir_pages pt.dirs then 1 else 0))
        = k_tiny_fork.memory.physpages X) ∧
      (∀ (q : Nat) (ptq : x86_64_pagetable) (va : Nat), q < tiny.PID_MAX → q ≠ 1 →
        (k_tiny_fork.ptable q).state ≠ P_FREE → (k_tiny_fork.ptable q).pagetable = some ptq →
        va % PAGESIZE = 0 → va < tiny.MEMSIZE_VIRTUAL → vmiter_user ptq va = true →
        vmiter_pa ptq va ≠ tiny.CONSOLE_ADDR →
        0 < k1.memory.physpages (vmiter_pa ptq va / PAGESIZE)) ∧
      k1.memory.physpages (tiny.CONSOLE_ADDR / PAGESIZE) =
        k_tiny_fork.memory.physpages (tiny.CONSOLE_ADDR / PAGESIZE) ∧
      (∀ i, i ≠ 1 → k1.ptable i = k_tiny_fork.ptable i) ∧
      k1.memory.bytes = k_tiny_fork.memory.bytes :=
  ⟨tiny_valid, by decide, tiny_boot_ok, tiny_boot_inside, tiny_fork_from_boot,
    by rw [tiny_facts.2.2.2.1]; decide,
    (sys_exit_tears_down tiny tiny_valid (by decide) kpt_tiny (fun _ => 0) [img_tiny]
      k_tiny_boot tiny_boot_ok tiny_boot_inside k_tiny_fork tiny_fork_from_boot 1
      (by decide) (by rw [tiny_facts.2.2.2.1]; decide)).1⟩

/-! ## C34: writable mappings are exclusive -/

/-- C34. (i) In every state reached from a boot whose segment copies stay
inside their segments, a page-aligned address below `MEMSIZE_VIRTUAL` that a
live process's table maps present, user-accessible and writable onto a page
other than the console page is mapped onto a page whose reference count is at
most 1; and no other live process has a user mapping of that page.
(ii) The boot of `wide32` with `img_over 0x13000` and `img_tiny` is not such
a boot: `kernel_start` returns, and the copy of `process_setup` has written
the image's bytes over the page at `0xC000` that holds the entries of process
1's table for the addresses from `0x200000` on.  The word stored there for
address `0x200000` is `0x13007`, the entry for page `0x13000` present,
writable and user-accessible.  Page `0x13000` is the data page of process 2:
once the scheduler has chosen process 2 and process 2 has forked, processes 2
and 3 both map it at `0x8000` and its reference count is 2. -/
theorem writable_mappings_exclusive (cfg : Config) (hv : cfg.valid) 
    (kpt : x86_64_pagetable) (bytes : Nat → Nat)
    (programs : List program_image) (k0 : Kernel)
    (hboot : kernel_start cfg kpt bytes programs = .ok k0)
    (hin : kernel_start_inside cfg kpt bytes programs = true) (k : Kernel)
    (hr : Reachable_from cfg k0 k) :
    ((∀ i pt va, i < cfg.PID_MAX → (k.ptable i).state ≠ P_FREE →
      (k.ptable i).pagetable = some pt → va % PAGESIZE = 0 → va < cfg.MEMSIZE_VIRTUAL →
      vmiter_user pt va = true → vmiter_writable pt va = true →
      vmiter_pa pt va ≠ cfg.CONSOLE_ADDR →
      k.memory.physpages (vmiter_pa pt va / PAGESIZE) ≤ 1) ∧
    (∀ i j pti ptj va vb, i < cfg.PID_MAX → j < cfg.PID_MAX → i ≠ j →
      (k.ptable i).state ≠ P_FREE → (k.ptable j).state ≠ P_FREE →
      (k.ptable i).pagetable = some pti → (k.ptable j).pagetable = some ptj →
      va % PAGESIZE = 0 → va < cfg.MEMSIZE_VIRTUAL →
      vb % PAGESIZE = 0 → vb < cfg.MEMSIZE_VIRTUAL →
      vmiter_user pti va = true → vmiter_writable pti va = true →
      vmiter_pa pti va ≠ cfg.CONSOLE_ADDR →
      vmiter_user ptj vb = true → vmiter_pa ptj vb ≠ cfg.CONSOLE_ADDR →
      vmiter_pa pti va / PAGESIZE ≠ vmiter_pa ptj vb / PAGESIZE)) ∧
    (kernel_start wide32 kpt_tiny (fun _ => 0) [img_over 0x13000, img_tiny] = .ok k_over2_boot ∧
      kernel_start_inside wide32 kpt_tiny (fun _ => 0) [img_over 0x13000, img_tiny] = false ∧
      Reachable_from wide32 k_over2_boot k_over2_fork ∧
      (List.range 4).map (fun i => decide ((k_over2_fork.ptable i).state = P_RUNNABLE)) =
        [false, true, true, true] ∧
      (k_over2_fork.ptable 1).pagetable.map (fun pt => pt.dirs.contains ⟨1, 1, 0xC000⟩) =
        some true ∧
      word_at k_over2_fork.memory.bytes 0xC000 = 0x13000 + 7 ∧
      k_over2_fork.memory.physpages (0x13000 / PAGESIZE) = 2 ∧
      (k_over2_fork.ptable 2).pagetable.map
        (fun pt => (vmiter_user pt 0x8000, vmiter_pa pt 0x8000)) = some (true, 0x13000) ∧
      (k_over2_fork.ptable 3).pagetable.map
        (fun pt => (vmiter_user pt 0x8000, vmiter_pa pt 0x8000)) = some (true, 0x13000)) := by
  have _ := hin
  have hr1 : Reachable cfg k :=
    reachable_of_from cfg k0 k (Reachable.boot kpt bytes programs k0 hboot) hr
  have hinv := reachable_inv cfg hv k hr1
  have hex := reachable_excl cfg hv k hr1
  have first : ∀ i pt va, i < cfg.PID_MAX → (k.ptable i).state ≠ P_FREE →
      (k.ptable i).pagetable = some pt → va % PAGESIZE = 0 → va < cfg.MEMSIZE_VIRTUAL →
      vmiter_user pt va = true → vmiter_writable pt va = true →
      vmiter_pa pt va ≠ cfg.CONSOLE_ADDR →
      k.memory.physpages (vmiter_pa pt va / PAGESIZE) ≤ 1 := by
    intro i pt va hi hst hpt hal hlt hu hw hne
    obtain ⟨hP, hU, hpa, hperm⟩ := vmiter_user_entry pt va hal hu
    have hW : (pt.entry (va / PAGESIZE)).perm.W = true := by
      unfold vmiter_writable at hw
      rw [hperm] at hw
      simp only [Bool.and_eq_true] at hw
      exact hw.2
    have hv1 : va / PAGESIZE < cfg.NVPAGES :=
      (mem_vas_vpn cfg _).1 (List.mem_map.2 ⟨va, (mem_vas cfg va).2 ⟨hal, hlt⟩, rfl⟩)
    rw [hpa] at hne ⊢
    exact hex i pt _ hi hst hpt hv1 hP hU hW hne
  refine ⟨⟨first, ?_⟩, over2_fork_shares_page⟩
  intro i j pti ptj va vb hi hj hij hsti hstj hpti hptj hal hlt hbl hblt hu hw hne hub hneb he
  have h1 := first i pti va hi hsti hpti hal hlt hu hw hne
  obtain ⟨hP, hU, hpa, -⟩ := vmiter_user_entry pti va hal hu
  obtain ⟨hPb, hUb, hpb, -⟩ := vmiter_user_entry ptj vb hbl hub
  have hv1 : va / PAGESIZE < cfg.NVPAGES :=
    (mem_vas_vpn cfg _).1 (List.mem_map.2 ⟨va, (mem_vas cfg va).2 ⟨hal, hlt⟩, rfl⟩)
  have hv2 : vb / PAGESIZE < cfg.NVPAGES :=
    (mem_vas_vpn cfg _).1 (List.mem_map.2 ⟨vb, (mem_vas cfg vb).2 ⟨hbl, hblt⟩, rfl⟩)
  rw [hpa] at hne h1 he
  rw [hpb] at hneb he
  have o1 := owned_entry_pos cfg pti _ hv1 hP hU hne
  have o2 := owned_entry_pos cfg ptj _ hv2 hPb hUb hneb
  have o3 := two_tables_le_count cfg k hinv i j pti ptj hi hj hij hsti hstj hpti hptj
    ((pti.entry (va / PAGESIZE)).pa / PAGESIZE)
  rw [← he] at o2
  omega


set_option maxRecDepth 1000000 in
/-- Witness for C34: the small configuration after boot with `img_tiny` and a
fork.  The data page 10 has count 2 and both processes map it at `0x8000`
without the write permission; before the fork process 1 mapped it writable
with count 1. -/
theorem writable_mappings_exclusive_witness :
    tiny.valid ∧ kernel_start tiny kpt_tiny (fun _ => 0) [img_tiny] = .ok k_tiny_boot ∧
      kernel_start_inside tiny kpt_tiny (fun _ => 0) [img_tiny] = true ∧
      Reachable_from tiny k_tiny_boot k_tiny_fork ∧
      (∀ i pt va, i < tiny.PID_MAX → (k_tiny_fork.ptable i).state ≠ P_FREE →
        (k_tiny_fork.ptable i).pagetable = some pt → va % PAGESIZE = 0 →
        va < tiny.MEMSIZE_VIRTUAL →
        vmiter_user pt va = true → vmiter_writable pt va = true →
        vmiter_pa pt va ≠ tiny.CONSOLE_ADDR →
        k_tiny_fork.memory.physpages (vmiter_pa pt va / PAGESIZE) ≤ 1) ∧
      k_tiny_fork.memory.physpages 10 = 2 ∧
      (k_tiny_fork.ptable 1).pagetable.map (fun pt => vmiter_writable pt 0x8000) = some false ∧
      (k_tiny_fork.ptable 2).pagetable.map (fun pt => vmiter_writable pt 0x8000) = some false ∧
      (k_tiny_boot.ptable 1).pagetable.map
        (fun pt => (vmiter_writable pt 0x8000, vmiter_pa pt 0x8000)) = some (true, 0xA000) ∧
      k_tiny_boot.memory.physpages 10 = 1 :=
  ⟨tiny_valid, tiny_boot_ok, tiny_boot_inside, tiny_fork_from_boot,
    (writable_mappings_exclusive tiny tiny_valid kpt_tiny (fun _ => 0) [img_tiny]
      k_tiny_boot tiny_boot_ok tiny_boot_inside k_tiny_fork tiny_fork_from_boot).1.1,
    by decide!, by decide!, by decide!, by decide!, by decide!⟩

/-! ## C12: `kill` of a parent that shares pages with its child -/

/-- C12, with the assumptions it needs.  In every state reached from a boot
whose segment copies stay inside their segments, with two different live
processes `P` and `C`: `sys_exit(P)`, which is what `kill(P)` returns,
completes and returns 0; every page that both map user-accessible, `P` at an
address other than `CONSOLE_ADDR` (the console page apart), and whose
reference count is 2 has count 1 afterwards, not 0; and `C`'s descriptor with
its page table and the contents of memory, hence of every page `C` maps, are
unchanged. -/
theorem kill_parent_keeps_shared_pages (cfg : Config) (hv : cfg.valid) 
    (kpt : x86_64_pagetable) (bytes : Nat → Nat)
    (programs : List program_image) (k0 : Kernel)
    (hboot : kernel_start cfg kpt bytes programs = .ok k0)
    (hin : kernel_start_inside cfg kpt bytes programs = true) (k : Kernel)
    (hr : Reachable_from cfg k0 k)
    (P C : Nat) (hP : P < cfg.PID_MAX) (hC : C < cfg.PID_MAX)
    (hne : P ≠ C) (hstP : (k.ptable P).state ≠ P_FREE) (hstC : (k.ptable C).state ≠ P_FREE)
    (ptC : x86_64_pagetable) (hptC : (k.ptable C).pagetable = some ptC) :
    ∃ (ptP : x86_64_pagetable) (k1 : Kernel),
      (k.ptable P).pagetable = some ptP ∧ sys_exit cfg k P = .ok (0, k1) ∧
      (∀ va vb, va % PAGESIZE = 0 → va < cfg.MEMSIZE_VIRTUAL → va ≠ cfg.CONSOLE_ADDR →
        vmiter_user ptP va = true → vmiter_pa ptP va ≠ cfg.CONSOLE_ADDR →
        vb % PAGESIZE = 0 → vb < cfg.MEMSIZE_VIRTUAL → vmiter_user ptC vb = true →
        vmiter_pa ptC vb ≠ cfg.CONSOLE_ADDR →
        vmiter_pa ptC vb / PAGESIZE = vmiter_pa ptP va / PAGESIZE →
        k.memory.physpages (vmiter_pa ptP va / PAGESIZE) = 2 →
        k1.memory.physpages (vmiter_pa ptP va / PAGESIZE) = 1) ∧
      k1.ptable C = k.ptable C ∧ k1.memory.bytes = k.memory.bytes := by
  have _ := hin
  have hr1 : Reachable cfg k :=
    reachable_of_from cfg k0 k (Reachable.boot kpt bytes programs k0 hboot) hr
  have hinv := reachable_inv cfg hv k hr1
  have hwf := reachable_wf cfg hv k hr1
  obtain ⟨ptP, k1, hptP, hex, hcnt, hbytes, -, hoth, -, -, -⟩ :=
    sys_exit_total cfg k hinv hwf P hP hstP
  refine ⟨ptP, k1, hptP, hex, ?_, hoth C (fun h => hne h.symm), hbytes⟩
  intro va vb hal hlt hva hu hpa hbl hblt hbu hbpa hsame htwo
  have h1 := two_tables_le_count cfg k hinv P C ptP ptC hP hC hne hstP hstC hptP hptC
    (vmiter_pa ptP va / PAGESIZE)
  have h2 := owned_pos cfg ptP va hal hlt hu hpa
  have h3 := owned_pos cfg ptC vb hbl hblt hbu hbpa
  rw [hsame] at h3
  have h4 := exit_counts_le cfg ptP (hinv.tables P ptP hstP hptP) (vmiter_pa ptP va / PAGESIZE)
  rw [exit_counts_eq cfg ptP (hwf.tables P ptP hstP hptP)] at h4
  have h5 : 0 < cfg.vas.countP (fun a => vmiter_user ptP a && a != cfg.CONSOLE_ADDR &&
      vmiter_pa ptP a / PAGESIZE == vmiter_pa ptP va / PAGESIZE) := by
    apply List.countP_pos_iff.2
    exact ⟨va, (mem_vas cfg va).2 ⟨hal, hlt⟩, by simp [hu, hva]⟩
  have h6 := hcnt (vmiter_pa ptP va / PAGESIZE)
  unfold owned at h1
  omega

/-- Witness for C12: in the small configuration after boot with `img_tiny` and
a fork, parent 1 and child 2 share the data page 10 with reference count 2. -/
theorem kill_parent_keeps_shared_pages_witness :
    tiny.valid ∧ kernel_start tiny kpt_tiny (fun _ => 0) [img_tiny] = .ok k_tiny_boot ∧
    kernel_start_inside tiny kpt_tiny (fun _ => 0) [img_tiny] = true ∧
    Reachable_from tiny k_tiny_boot k_tiny_fork ∧
    (k_tiny_fork.ptable 1).state ≠ P_FREE ∧ (k_tiny_fork.ptable 2).state ≠ P_FREE ∧
    k_tiny_fork.memory.physpages 10 = 2 ∧
    ∃ (ptP : x86_64_pagetable) (k1 : Kernel),
      (k_tiny_fork.ptable 1).pagetable = some ptP ∧
      sys_exit tiny k_tiny_fork (1 : Nat) = .ok (0, k1) ∧
      (∀ va vb, va % PAGESIZE = 0 → va < tiny.MEMSIZE_VIRTUAL → va ≠ tiny.CONSOLE_ADDR →
        vmiter_user ptP va = true → vmiter_pa ptP va ≠ tiny.CONSOLE_ADDR →
        vb % PAGESIZE = 0 → vb < tiny.MEMSIZE_VIRTUAL →
        vmiter_user ((k_tiny_fork.ptable 2).pagetable.getD pt_small) vb = true →
        vmiter_pa ((k_tiny_fork.ptable 2).pagetable.getD pt_small) vb ≠ tiny.CONSOLE_ADDR →
        vmiter_pa ((k_tiny_fork.ptable 2).pagetable.getD pt_small) vb / PAGESIZE
          = vmiter_pa ptP va / PAGESIZE →
        k_tiny_fork.memory.physpages (vmiter_pa ptP va / PAGESIZE) = 2 →
        k1.memory.physpages (vmiter_pa ptP va / PAGESIZE) = 1) ∧
      k1.ptable 2 = k_tiny_fork.ptable 2 ∧ k1.memory.bytes = k_tiny_fork.memory.bytes :=
  ⟨tiny_valid, tiny_boot_ok, tiny_boot_inside, tiny_fork_from_boot,
    by rw [tiny_facts.2.2.2.1]; decide, by rw [tiny_facts.2.2.2.2.1]; decide,
    tiny_facts.2.2.2.2.2.2.2.2.2.1,
    kill_parent_keeps_shared_pages tiny tiny_valid kpt_tiny (fun _ => 0) [img_tiny]
      k_tiny_boot tiny_boot_ok tiny_boot_inside k_tiny_fork tiny_fork_from_boot 1 2
      (by decide) (by decide) (by decide)
      (by rw [tiny_facts.2.2.2.1]; decide) (by rw [tiny_facts.2.2.2.2.1]; decide)
      ((k_tiny_fork.ptable 2).pagetable.getD pt_small)
      (option_some_of_isSome _ pt_small tiny_facts.2.2.2.2.2.2.2.2.1)⟩

/-! ## A process that maps a page of its own at `CONSOLE_ADDR` -/

set_option maxRecDepth 1000000 in
/-- Facts about the small configuration booted with the image `img_con` and
about the fork of its process 1, by evaluation. -/
theorem con_facts :
    (kernel_start tiny kpt_tiny (fun _ => 0) [img_con]).toOption.isSome = true ∧
    kernel_start_inside tiny kpt_tiny (fun _ => 0) [img_con] = true ∧
    (k_con_boot.ptable k_con_boot.current).state = P_RUNNABLE ∧
    (sys_fork tiny k_con_boot).toOption.map Prod.fst = some 2 ∧
    (k_con_fork.ptable 1).state = P_RUNNABLE ∧ (k_con_fork.ptable 2).state = P_RUNNABLE ∧
    k_con_boot.memory.physpages 10 = 1 ∧ k_con_fork.memory.physpages 10 = 2 ∧
    ((k_con_boot.ptable 1).pagetable.map (fun pt =>
      (vmiter_user pt 0x5000, vmiter_pa pt 0x5000))) = some (true, 0xA000) ∧
    ((k_con_fork.ptable 1).pagetable.map (fun pt =>
      (vmiter_user pt 0x5000, vmiter_writable pt 0x5000,
        (vmiter_perm pt 0x5000 &&& PTE_C).nonzero, vmiter_pa pt 0x5000)))
      = some (true, false, true, 0xA000) ∧
    ((k_con_fork.ptable 2).pagetable.map (fun pt =>
      (vmiter_user pt 0x5000, vmiter_writable pt 0x5000,
        (vmiter_perm pt 0x5000 &&& PTE_C).nonzero, vmiter_pa pt 0x5000)))
      = some (true, false, true, 0xA000) ∧
    (sys_exit tiny k_con_fork 1).toOption.map (fun r => (r.1, r.2.memory.physpages 10))
      = some (0, 2) ∧
    (sys_exit tiny k_con_fork 2).toOption.map (fun r => (r.1, r.2.memory.physpages 10))
      = some (0, 2) ∧
    (sys_exit tiny { k_con_fork with current := 2 } 2).toOption.map
      (fun r => (r.1, r.2.memory.physpages 10)) = some (0, 2) := by
  decide!

/-- C12 as worded fails for a page that the parent maps at `CONSOLE_ADDR`.
The small configuration booted with an image whose writable segment is at
`CONSOLE_ADDR = 0x5000` gives process 1 the page `0xA000` there; its copy stays
inside the segment.  After the fork parent 1 and child 2 both map `0x5000`
user-accessible and copy-on-write-pending onto `0xA000`, whose count is 2.
`sys_exit(1)` returns 0 and the count of that page is still 2: the teardown
loop skips the address `CONSOLE_ADDR`, whatever page is mapped there. -/
theorem kill_parent_console_segment_keeps_count :
    kernel_start tiny kpt_tiny (fun _ => 0) [img_con] = .ok k_con_boot ∧
    kernel_start_inside tiny kpt_tiny (fun _ => 0) [img_con] = true ∧
    Reachable_from tiny k_con_boot k_con_fork ∧
    (k_con_fork.ptable 1).state = P_RUNNABLE ∧ (k_con_fork.ptable 2).state = P_RUNNABLE ∧
    ((k_con_fork.ptable 1).pagetable.map (fun pt =>
      (vmiter_user pt 0x5000, vmiter_writable pt 0x5000,
        (vmiter_perm pt 0x5000 &&& PTE_C).nonzero, vmiter_pa pt 0x5000)))
      = some (true, false, true, 0xA000) ∧
    ((k_con_fork.ptable 2).pagetable.map (fun pt =>
      (vmiter_user pt 0x5000, vmiter_writable pt 0x5000,
        (vmiter_perm pt 0x5000 &&& PTE_C).nonzero, vmiter_pa pt 0x5000)))
      = some (true, false, true, 0xA000) ∧
    (0xA000 ≠ tiny.CONSOLE_ADDR ∧ 0xA000 / PAGESIZE = 10) ∧
    k_con_fork.memory.physpages 10 = 2 ∧
    (sys_exit tiny k_con_fork 1).toOption.map (fun r => (r.1, r.2.memory.physpages 10))
      = some (0, 2) :=
  ⟨except_ok_of_isSome (kernel_start tiny kpt_tiny (fun _ => 0) [img_con]) k_small
      con_facts.1,
    con_facts.2.1,
    Reachable_from.fork k_con_boot k_con_fork 2 Reachable_from.start con_facts.2.2.1
      (except_ok_of_fst (sys_fork tiny k_con_boot) 2 k_small con_facts.2.2.2.1),
    con_facts.2.2.2.2.1, con_facts.2.2.2.2.2.1,
    con_facts.2.2.2.2.2.2.2.2.2.1, con_facts.2.2.2.2.2.2.2.2.2.2.1,
    ⟨by decide, by decide⟩,
    con_facts.2.2.2.2.2.2.2.1, con_facts.2.2.2.2.2.2.2.2.2.2.2.1⟩

/-- C6 as worded fails for a parent that maps a page of its own at
`CONSOLE_ADDR`.  The small configuration booted with an image whose writable
segment is at `CONSOLE_ADDR = 0x5000` gives process 1 the page `0xA000` there,
with count 1; its copy stays inside the segment.  `sys_fork` by process 1
returns child 2 and raises the count of that page to 2, because the page is
not the console page.  Teardown of child 2, by `exit` of the child or by
`kill(2)`, returns 0 and leaves the count at 2, not at its value 1 before the
fork: the teardown loop skips the address `CONSOLE_ADDR`. -/
theorem sys_fork_exit_console_segment_keeps_count :
    kernel_start tiny kpt_tiny (fun _ => 0) [img_con] = .ok k_con_boot ∧
    kernel_start_inside tiny kpt_tiny (fun _ => 0) [img_con] = true ∧
    (k_con_boot.ptable k_con_boot.current).state = P_RUNNABLE ∧
    ((k_con_boot.ptable 1).pagetable.map (fun pt =>
      (vmiter_user pt 0x5000, vmiter_pa pt 0x5000))) = some (true, 0xA000) ∧
    (0xA000 ≠ tiny.CONSOLE_ADDR ∧ 0xA000 / PAGESIZE = 10) ∧
    k_con_boot.memory.physpages 10 = 1 ∧
    sys_fork tiny k_con_boot = .ok (2, k_con_fork) ∧
    k_con_fork.memory.physpages 10 = 2 ∧
    (sys_exit tiny { k_con_fork with current := 2 } 2).toOption.map
      (fun r => (r.1, r.2.memory.physpages 10)) = some (0, 2) ∧
    (sys_exit tiny k_con_fork 2).toOption.map (fun r => (r.1, r.2.memory.physpages 10))
      = some (0, 2) :=
  ⟨except_ok_of_isSome (kernel_start tiny kpt_tiny (fun _ => 0) [img_con]) k_small
      con_facts.1,
    con_facts.2.1, con_facts.2.2.1, con_facts.2.2.2.2.2.2.2.2.1, ⟨by decide, by decide⟩,
    con_facts.2.2.2.2.2.2.1,
    except_ok_of_fst (sys_fork tiny k_con_boot) 2 k_small con_facts.2.2.2.1,
    con_facts.2.2.2.2.2.2.2.1,
    con_facts.2.2.2.2.2.2.2.2.2.2.2.2.2, con_facts.2.2.2.2.2.2.2.2.2.2.2.2.1⟩

end WeensyOS

namespace M61

/-! ## Facts about the maps and the padding -/

theorem mem_map_insert {β : Type} (m : List (Nat × β)) (k : Nat) (v : β) (x : Nat × β)
    (h : x ∈ map_insert m k v) : x ∈ m ∨ x = (k, v) := by
  induction m with
  | nil =>
    simp only [map_insert, List.mem_singleton] at h
    exact Or.inr h
  | cons e rest ih =>
    simp only [map_insert] at h
    split at h
    · rcases List.mem_cons.1 h with h | h
      · exact Or.inr h
      · exact Or.inl h
    · split at h
      · exact Or.inl h
      · rcases List.mem_cons.1 h with h | h
        · exact Or.inl (h ▸ List.mem_cons_self _ _)
        · rcases ih h with h | h
          · exact Or.inl (List.mem_cons_of_mem _ h)
          · exact Or.inr h

theorem mem_map_erase {β : Type} (m : List (Nat × β)) (k : Nat) (x : Nat × β)
    (h : x ∈ map_erase m k) : x ∈ m :=
  (List.mem_filter.1 h).1

theorem mem_of_map_find {β : Type} (m : List (Nat × β)) (k : Nat) (v : β)
    (h : map_find m k = some v) : (k, v) ∈ m := by
  unfold map_find at h
  rcases hf : m.find? (fun e => e.1 == k) with _ | e
  · rw [hf] at h; simp at h
  · rw [hf] at h
    simp only [Option.map_some', Option.some.injEq] at h
    have h1 := List.find?_some hf
    have h2 := List.mem_of_find?_eq_some hf
    simp only [beq_iff_eq] at h1
    have : e = (k, v) := by
      rcases e with ⟨a, b⟩
      simp only at h1 h
      rw [h1, h]
    rw [← this]
    exact h2

theorem mem_map_set {β : Type} (m : List (Nat × β)) (k : Nat) (v : β) (x : Nat × β)
    (h : x ∈ map_set m k v) : x ∈ m ∨ (x = (k, v) ∧ ∃ w, (k, w) ∈ m) := by
  unfold map_set at h
  obtain ⟨e, he, hx⟩ := List.mem_map.1 h
  by_cases hk : e.1 = k
  · right
    simp only [hk, beq_self_eq_true, if_true] at hx
    refine ⟨hx.symm, e.2, ?_⟩
    rw [← hk]
    exact he
  · left
    have : (e.1 == k) = false := by simpa using hk
    simp only [this] at hx
    rw [← hx]
    exact he

theorem map_find_map_set {β : Type} (m : List (Nat × β)) (k : Nat) (v w : β)
    (h : map_find m k = some w) : map_find (map_set m k v) k = some v := by
  unfold map_find map_set at *
  induction m with
  | nil => simp at h
  | cons e rest ih =>
    by_cases hk : e.1 = k
    · simp [List.find?, hk]
    · have hb : (e.1 == k) = false := by simpa using hk
      simp only [List.find?, hb, List.map_cons] at h ⊢
      simp only [Bool.false_eq_true, if_false, hb]
      exact ih h

theorem padding_of_eq (sz : Nat) : padding_of sz = 16 - sz % 16 := by
  unfold padding_of alignment
  have : sz % 16 < 16 := Nat.mod_lt _ (by decide)
  have hne : (16 - sz % 16 == 0) = false := by
    simp only [beq_eq_false_iff_ne]
    omega
  simp only [hne]
  rfl

theorem add64_eq (a b : Nat) (h : a + b < 2 ^ 64) : add64 a b = a + b := by
  unfold add64
  exact Nat.mod_eq_of_lt h

theorem add64_lt (a b : Nat) : add64 a b < 2 ^ 64 := by
  unfold add64
  exact Nat.mod_lt _ (by decide)

/-! ## The invariant of the reachable states -/

/-- The invariant speaks of the buffer address and the two maps only. -/
theorem Inv.transfer (s s1 : Heap) (hinv : Inv s) (hb : s1.buffer = s.buffer)
    (hf : ∀ e ∈ s1.freed_addresses, s.buffer ≤ e.1 ∧ e.1 + e.2 ≤ s.buffer + buffer_size)
    (ha : ∀ e ∈ s1.active_addresses,
      (s.buffer ≤ e.1 ∧ e.1 + add64 e.2.actual_size e.2.padding_size ≤ s.buffer + buffer_size) ∧
      (e.2.padding_size = 16 - e.2.actual_size % 16 ∧ e.2.actual_size < 2 ^ 64)) :
    Inv s1 :=
  ⟨hb ▸ hinv.base_pos, hb ▸ hinv.base_hi, fun e he => hb ▸ hf e he,
    fun e he => hb ▸ (ha e he).1, fun e he => (ha e he).2⟩

theorem Inv.active (s : Heap) (hinv : Inv s) :
    ∀ e ∈ s.active_addresses,
      (s.buffer ≤ e.1 ∧ e.1 + add64 e.2.actual_size e.2.padding_size ≤ s.buffer + buffer_size) ∧
      (e.2.padding_size = 16 - e.2.actual_size % 16 ∧ e.2.actual_size < 2 ^ 64) :=
  fun e he => ⟨hinv.active_in e he, hinv.active_pad e he⟩

theorem buffer_size_val : buffer_size = 8388608 := by decide

theorem init_inv (buffer : Nat) (h0 : 0 < buffer) (h1 : buffer + buffer_size < 2 ^ 64) :
    Inv (Heap.init buffer) := by
  refine ⟨h0, h1, ?_, ?_, ?_⟩
  · intro e he
    simp only [Heap.init, List.mem_singleton] at he
    subst he
    exact ⟨le_refl _, le_refl _⟩
  · intro e he
    simp [Heap.init] at he
  · intro e he
    simp [Heap.init] at he

/-- The invariant is preserved by `m61_malloc`. -/
theorem m61_malloc_inv (s s1 : Heap) (sz p : Nat) (hinv : Inv s)
    (h : m61_malloc s sz = .ok (p, s1)) : Inv s1 := by
  unfold m61_malloc at h
  split at h
  · simp only [Except.ok.injEq, Prod.mk.injEq] at h
    obtain ⟨-, rfl⟩ := h
    exact Inv.transfer s _ hinv rfl hinv.freed_in (Inv.active s hinv)
  · rename_i hcond
    simp only [Bool.or_eq_true, beq_iff_eq, decide_eq_true_eq, not_or, not_le] at hcond
    simp only at h
    split at h
    · simp only [Except.ok.injEq, Prod.mk.injEq] at h
      obtain ⟨-, rfl⟩ := h
      exact Inv.transfer s _ hinv rfl hinv.freed_in (Inv.active s hinv)
    · rename_i fptr o_size hfind
      have hmem := List.mem_of_find?_eq_some hfind
      have hge := List.find?_some hfind
      simp only [decide_eq_true_eq, padding_of_eq] at hge
      have hb := hinv.freed_in _ hmem
      simp only at hb
      have hhi := hinv.base_hi
      have hbs := buffer_size_val
      have hmod : sz % 16 < 16 := Nat.mod_lt _ (by decide)
      have hfa : ∀ e ∈ map_erase (if o_size - (sz + padding_of sz) > 0 then
            map_insert s.freed_addresses (add64 (add64 fptr sz) (padding_of sz))
              (o_size - (sz + padding_of sz))
          else s.freed_addresses) fptr,
          s.buffer ≤ e.1 ∧ e.1 + e.2 ≤ s.buffer + buffer_size := by
        intro e he
        have he := mem_map_erase _ _ _ he
        split at he
        · rename_i hpos
          rcases mem_map_insert _ _ _ _ he with he | he
          · exact hinv.freed_in e he
          · subst he
            simp only [padding_of_eq] at hpos ⊢
            rw [add64_eq fptr sz (by omega), add64_eq _ _ (by omega)]
            constructor <;> omega
        · exact hinv.freed_in e he
      have haa : ∀ e ∈ map_insert s.active_addresses fptr ⟨sz, padding_of sz⟩,
          (s.buffer ≤ e.1 ∧
            e.1 + add64 e.2.actual_size e.2.padding_size ≤ s.buffer + buffer_size) ∧
          (e.2.padding_size = 16 - e.2.actual_size % 16 ∧ e.2.actual_size < 2 ^ 64) := by
        intro e he
        rcases mem_map_insert _ _ _ _ he with he | he
        · exact Inv.active s hinv e he
        · subst he
          rw [padding_of_eq]
          show (s.buffer ≤ fptr ∧ fptr + add64 sz (16 - sz % 16) ≤ s.buffer + buffer_size) ∧
            (16 - sz % 16 = 16 - sz % 16 ∧ sz < 2 ^ 64)
          rw [add64_eq _ _ (by omega)]
          exact ⟨⟨hb.1, by omega⟩, rfl, by omega⟩
      split at h
      · exact absurd h (by simp)
      · split at h
        · simp only [Except.ok.injEq, Prod.mk.injEq] at h
          obtain ⟨-, rfl⟩ := h
          exact Inv.transfer s _ hinv rfl hfa haa
        · simp only [Except.ok.injEq, Prod.mk.injEq] at h
          obtain ⟨-, rfl⟩ := h
          exact Inv.transfer s _ hinv rfl hfa haa

/-- The step "Coalesce down" keeps the block being freed inside the buffer and
adds no free block. -/
theorem m61_free_down_spec (B L : Nat) (fa : List (Nat × Nat)) (ptr total : Nat)
    (hB : 0 < B) (hL : L < 2 ^ 64)
    (hfa : ∀ e ∈ fa, B ≤ e.1 ∧ e.1 + e.2 ≤ L) (hp : B ≤ ptr) (hpt : ptr + total ≤ L) :
    (∀ e ∈ (m61_free_down fa ptr total).1, e ∈ fa) ∧
    B ≤ (m61_free_down fa ptr total).2.1 ∧
    (m61_free_down fa ptr total).2.1 + (m61_free_down fa ptr total).2.2 ≤ L := by
  unfold m61_free_down
  simp only
  split
  · exact ⟨fun e he => he, hp, hpt⟩
  · rename_i prev hlast
    split
    · rename_i hc
      simp only [Bool.and_eq_true, beq_iff_eq] at hc
      have hmem : prev ∈ fa.filter (fun e => decide (e.1 < ptr)) := List.mem_of_getLast?_eq_some hlast
      have hm := List.mem_filter.1 hmem
      have hlt : prev.1 < ptr := by simpa using hm.2
      have hb := hfa prev hm.1
      have heq := hc.2
      unfold sub64 at heq
      have h1 : ptr % 2 ^ 64 = ptr := Nat.mod_eq_of_lt (by omega)
      have h2 : prev.2 % 2 ^ 64 = prev.2 := Nat.mod_eq_of_lt (by omega)
      rw [h1, h2] at heq
      have hsum : prev.1 + prev.2 = ptr := by
        by_cases hle : prev.2 ≤ ptr
        · have : (ptr + 2 ^ 64 - prev.2) % 2 ^ 64 = ptr - prev.2 := by
            have : ptr + 2 ^ 64 - prev.2 = (ptr - prev.2) + 2 ^ 64 := by omega
            rw [this, Nat.add_mod_right]
            exact Nat.mod_eq_of_lt (by omega)
          omega
        · have : (ptr + 2 ^ 64 - prev.2) % 2 ^ 64 = ptr + 2 ^ 64 - prev.2 :=
            Nat.mod_eq_of_lt (by omega)
          omega
      refine ⟨fun e he => mem_map_erase _ _ _ he, hb.1, ?_⟩
      simp only
      rw [add64_eq _ _ (by omega)]
      omega
    · exact ⟨fun e he => he, hp, hpt⟩

/-- The loop "Coalesce up" keeps the block being freed inside the buffer and
adds no free block. -/
theorem m61_free_up_spec (B L : Nat) (fa0 : List (Nat × Nat)) (ptr : Nat)
    (hL : L < 2 ^ 64)
    (hfa : ∀ e ∈ fa0, B ≤ e.1 ∧ e.1 + e.2 ≤ L) (above fa : List (Nat × Nat)) (total : Nat)
    (hab : ∀ e ∈ above, e ∈ fa0) (hsub : ∀ e ∈ fa, e ∈ fa0) (hpt : ptr + total ≤ L) :
    (∀ e ∈ (m61_free_up ptr above fa total).1, e ∈ fa0) ∧
    ptr + (m61_free_up ptr above fa total).2 ≤ L := by
  induction above generalizing fa total with
  | nil => exact ⟨hsub, hpt⟩
  | cons nb rest ih =>
    simp only [m61_free_up]
    split
    · rename_i hc
      simp only [beq_iff_eq] at hc
      have hb := hfa nb (hab nb (List.mem_cons_self _ _))
      have hadd : add64 ptr total = ptr + total := add64_eq _ _ (by omega)
      rw [hadd] at hc
      have hadd2 : add64 total nb.2 = total + nb.2 := add64_eq _ _ (by omega)
      rw [hadd2]
      apply ih
      · exact fun e he => hab e (List.mem_cons_of_mem _ he)
      · exact fun e he => hsub e (mem_map_erase _ _ _ he)
      · omega
    · exact ⟨hsub, hpt⟩

set_option maxRecDepth 100000 in
/-- The invariant is preserved by `m61_free`. -/
theorem m61_free_inv (s s1 : Heap) (ptr : Nat) (hinv : Inv s)
    (h : m61_free s ptr = .ok s1) : Inv s1 := by
  unfold m61_free at h
  split at h
  · simp only [Except.ok.injEq] at h
    subst h
    exact hinv
  · split at h
    · exact absurd h (by simp)
    · split at h
      · exact absurd h (by simp)
      · rename_i hheap
        split at h
        · exact absurd h (by simp)
        · rename_i it hfind
          simp only at h
          split at h
          · exact absurd h (by simp)
          · split at h
            · exact absurd h (by simp)
            · simp only [Except.ok.injEq] at h
              subst h
              have hmem := mem_of_map_find _ _ _ hfind
              have hact := hinv.active_in _ hmem
              simp only at hact
              have hd := m61_free_down_spec s.buffer (s.buffer + buffer_size) s.freed_addresses ptr
                (add64 it.actual_size it.padding_size) hinv.base_pos hinv.base_hi
                hinv.freed_in hact.1 hact.2
              refine Inv.transfer s _ hinv ?_ ?_ ?_
              · rfl
              · intro e he
                rcases mem_map_insert _ _ _ _ he with he | he
                · split at he
                  · exact hinv.freed_in e (hd.1 e he)
                  · have hu := m61_free_up_spec s.buffer (s.buffer + buffer_size)
                      s.freed_addresses _ hinv.base_hi hinv.freed_in
                      (List.filter (fun e => decide (e.1 >
                        (m61_free_down s.freed_addresses ptr
                          (add64 it.actual_size it.padding_size)).2.1))
                        (m61_free_down s.freed_addresses ptr
                          (add64 it.actual_size it.padding_size)).1)
                      (m61_free_down s.freed_addresses ptr
                          (add64 it.actual_size it.padding_size)).1
                      (m61_free_down s.freed_addresses ptr
                          (add64 it.actual_size it.padding_size)).2.2
                      (fun e he => hd.1 e (List.mem_filter.1 he).1) hd.1 hd.2.2
                    exact hinv.freed_in e (hu.1 e he)
                · subst he
                  simp only
                  refine ⟨hd.2.1, ?_⟩
                  split
                  · exact hd.2.2
                  · exact (m61_free_up_spec s.buffer (s.buffer + buffer_size)
                      s.freed_addresses _ hinv.base_hi hinv.freed_in
                      _ _ _
                      (fun e he => hd.1 e (List.mem_filter.1 he).1) hd.1 hd.2.2).2
              · intro e he
                exact Inv.active s hinv e (mem_map_erase _ _ _ he)

/-- The invariant is preserved by `m61_realloc`. -/
theorem m61_realloc_inv (s s1 : Heap) (ptr sz p : Nat) (hinv : Inv s) (hsz : sz < 2 ^ 64)
    (h : m61_realloc s ptr sz = .ok (p, s1)) : Inv s1 := by
  unfold m61_realloc at h
  split at h
  · rcases hf : m61_free s ptr with e | s2
    · rw [hf] at h
      exact absurd h (by simp [Except.map])
    · rw [hf] at h
      simp only [Except.map, Except.ok.injEq, Prod.mk.injEq] at h
      obtain ⟨-, rfl⟩ := h
      exact m61_free_inv s _ ptr hinv hf
  · split at h
    · exact m61_malloc_inv s s1 sz p hinv h
    · split at h
      · exact absurd h (by simp)
      · rename_i it hfind
        have hmem := mem_of_map_find _ _ _ hfind
        have hact := hinv.active_in _ hmem
        simp only at hact
        have hhi := hinv.base_hi
        simp only at h
        split at h
        · rename_i hle
          have haa : ∀ e ∈ map_set s.active_addresses ptr ⟨sz, padding_of sz⟩,
              (s.buffer ≤ e.1 ∧
                e.1 + add64 e.2.actual_size e.2.padding_size ≤ s.buffer + buffer_size) ∧
              (e.2.padding_size = 16 - e.2.actual_size % 16 ∧ e.2.actual_size < 2 ^ 64) := by
            intro e he
            rcases mem_map_set _ _ _ _ he with he | ⟨he, -⟩
            · exact Inv.active s hinv e he
            · subst he
              refine ⟨⟨hact.1, ?_⟩, padding_of_eq sz, hsz⟩
              show ptr + add64 sz (padding_of sz) ≤ s.buffer + buffer_size
              omega
          split at h
          · rename_i hdiff
            split at h
            · exact absurd h (by simp)
            · simp only [Except.ok.injEq, Prod.mk.injEq] at h
              obtain ⟨-, rfl⟩ := h
              refine Inv.transfer s _ hinv ?_ ?_ haa
              · rfl
              · intro e he
                rcases mem_map_insert _ _ _ _ he with he | he
                · exact hinv.freed_in e he
                · subst he
                  simp only
                  rw [add64_eq _ _ (by omega)]
                  constructor <;> omega
          · simp only [Except.ok.injEq, Prod.mk.injEq] at h
            obtain ⟨-, rfl⟩ := h
            refine Inv.transfer s _ hinv ?_ hinv.freed_in haa
            rfl
        · rcases hm : m61_malloc s sz with e | ⟨nptr, s2⟩
          · rw [hm] at h
            exact absurd h (by simp)
          · rw [hm] at h
            have hinv2 := m61_malloc_inv s s2 sz nptr hinv hm
            simp only at h
            split at h
            · rcases hf : m61_free s2 ptr with e | s3
              · rw [hf] at h
                exact absurd h (by simp)
              · rw [hf] at h
                have hinv3 := m61_free_inv s2 s3 ptr hinv2 hf
                simp only at h
                split at h
                · exact absurd h (by simp)
                · simp only [Except.ok.injEq, Prod.mk.injEq] at h
                  obtain ⟨-, rfl⟩ := h
                  refine Inv.transfer s3 _ hinv3 ?_ hinv3.freed_in (Inv.active s3 hinv3)
                  rfl
            · simp only [Except.ok.injEq, Prod.mk.injEq] at h
              obtain ⟨-, rfl⟩ := h
              exact hinv2

/-- The invariant is preserved by `m61_calloc`. -/
theorem m61_calloc_inv (s s1 : Heap) (count sz p : Nat) (hinv : Inv s)
    (h : m61_calloc s count sz = .ok (p, s1)) : Inv s1 := by
  unfold m61_calloc at h
  split at h
  · exact absurd h (by simp)
  · split at h
    · simp only [Except.ok.injEq, Prod.mk.injEq] at h
      obtain ⟨-, rfl⟩ := h
      refine Inv.transfer s _ hinv ?_ hinv.freed_in (Inv.active s hinv)
      rfl
    · rcases hm : m61_malloc s ((count * sz) % 2 ^ 64) with e | ⟨ptr, s2⟩
      · rw [hm] at h
        exact absurd h (by simp)
      · rw [hm] at h
        have hinv2 := m61_malloc_inv s s2 _ ptr hinv hm
        simp only at h
        split at h
        · split at h
          · exact absurd h (by simp)
          · simp only [Except.ok.injEq, Prod.mk.injEq] at h
            obtain ⟨-, rfl⟩ := h
            refine Inv.transfer s2 _ hinv2 ?_ hinv2.freed_in (Inv.active s2 hinv2)
            rfl
        · simp only [Except.ok.injEq, Prod.mk.injEq] at h
          obtain ⟨-, rfl⟩ := h
          exact hinv2

/-- Every reachable state satisfies the invariant. -/
theorem reachable_heap_inv (s : Heap) (h : Reachable s) : Inv s := by
  induction h with
  | init buffer h0 _ h1 => exact init_inv buffer h0 h1
  | malloc s s1 sz p _ _ hm ih => exact m61_malloc_inv s s1 sz p ih hm
  | calloc s s1 count sz p _ _ _ hc ih => exact m61_calloc_inv s s1 count sz p ih hc
  | realloc s s1 ptr sz p _ _ hsz hr ih => exact m61_realloc_inv s s1 ptr sz p ih hsz hr
  | free s s1 ptr _ _ hf ih => exact m61_free_inv s s1 ptr ih hf
  | store s p i v it _ _ _ _ ih =>
    refine Inv.transfer s _ ih ?_ ih.freed_in (Inv.active s ih)
    rfl

/-! ## C24: `m61_realloc` resizes in place -/

/-- C24, with the assumption it needs. In every reachable state, for every
active allocation `ptr` with
recorded requested size `a` (the block length `a + pad(a)` being representable
in `size_t`) and every `sz > 0` with `sz + pad(sz) ≤ a + pad(a)`, where
`pad(n) = 16 - (n mod 16)`: `m61_realloc(ptr, sz)` returns `ptr` itself, and
afterwards `ptr` is an active allocation whose recorded requested size is
`sz`. -/
theorem m61_realloc_in_place (s : Heap) (hs : Reachable s) (ptr sz : Nat) (it : properties)
    (hact : map_find s.active_addresses ptr = some it) (hsz : 0 < sz)
    (hrep : it.actual_size + pad it.actual_size < 2 ^ 64)
    (hle : sz + pad sz ≤ it.actual_size + pad it.actual_size) :
    ∃ s1, m61_realloc s ptr sz = .ok (ptr, s1) ∧
      map_find s1.active_addresses ptr = some ⟨sz, pad sz⟩ := by
  have hinv := reachable_heap_inv s hs
  have hmem := mem_of_map_find _ _ _ hact
  have hin := hinv.active_in _ hmem
  have hpad := hinv.active_pad _ hmem
  simp only at hin hpad
  have hpos := hinv.base_pos
  unfold pad at hrep hle ⊢
  have hold : add64 it.actual_size it.padding_size = it.actual_size + (16 - it.actual_size % 16) := by
    rw [hpad.1]
    exact add64_eq _ _ hrep
  rw [hold] at hin
  have hhi := hinv.base_hi
  have hnew : add64 sz (padding_of sz) = sz + (16 - sz % 16) := by
    rw [padding_of_eq]
    exact add64_eq _ _ (by omega)
  have hmod : sz % 16 < 16 := Nat.mod_lt _ (by decide)
  have hsz0 : (sz == 0) = false := by
    simp only [beq_eq_false_iff_ne]
    omega
  have hptr0 : (ptr == 0) = false := by
    simp only [beq_eq_false_iff_ne]
    omega
  have hfind := map_find_map_set s.active_addresses ptr ⟨sz, 16 - sz % 16⟩ it hact
  unfold m61_realloc
  simp only [hsz0, hptr0, hact, Bool.false_eq_true, if_false]
  rw [hnew, hold, if_pos hle, padding_of_eq]
  split
  · have hmagic : add64 ptr sz = ptr + sz := add64_eq _ _ (by omega)
    have hins : s.inside (add64 ptr sz) 1 = true := by
      unfold Heap.inside
      rw [hmagic]
      simp only [Bool.and_eq_true, decide_eq_true_eq]
      omega
    simp only [hins, Bool.not_true, Bool.false_eq_true, if_false]
    exact ⟨_, rfl, hfind⟩
  · exact ⟨_, rfl, hfind⟩

/-- The fresh heap at `buffer0` is reachable, and so is the state after
`m61_malloc(10)`, which returns the start of the buffer. -/
theorem heap10_reachable : Reachable heap10 :=
  Reachable.malloc (Heap.init buffer0) heap10 10 buffer0
    (Reachable.init buffer0 (by decide) (by decide) (by decide)) (by decide) rfl

/-- Witness for C24: `m61_malloc(10)` followed by `m61_realloc(ptr, 2)`. -/
theorem m61_realloc_in_place_witness :
    Reachable heap10 ∧ map_find heap10.active_addresses buffer0 = some ⟨10, 6⟩ ∧
    ∃ s1, m61_realloc heap10 buffer0 2 = .ok (buffer0, s1) ∧
      map_find s1.active_addresses buffer0 = some ⟨2, pad 2⟩ :=
  ⟨heap10_reachable, by decide,
    m61_realloc_in_place heap10 heap10_reachable buffer0 2 ⟨10, 6⟩ (by decide) (by decide)
      (by decide) (by decide)⟩

/-! ## C25: freeing after a shrink that keeps the block length -/

/-- The state `m61_realloc` leaves when the new block length equals the old
one: only the record of `ptr` and the statistic `active_size` change; no byte
of memory is written. -/
theorem m61_realloc_same_length (s : Heap) (hs : Reachable s) (ptr sz : Nat) (it : properties)
    (hact : map_find s.active_addresses ptr = some it) (hsz : 0 < sz)
    (hrep : it.actual_size + pad it.actual_size < 2 ^ 64)
    (heq : sz + pad sz = it.actual_size + pad it.actual_size) :
    ∃ g, m61_realloc s ptr sz = .ok (ptr,
      ⟨g, s.freed_addresses, map_set s.active_addresses ptr ⟨sz, pad sz⟩, s.buffer, s.bytes⟩) := by
  have hinv := reachable_heap_inv s hs
  have hmem := mem_of_map_find _ _ _ hact
  have hin := hinv.active_in _ hmem
  have hpad := hinv.active_pad _ hmem
  simp only at hin hpad
  have hpos := hinv.base_pos
  unfold pad at hrep heq ⊢
  have hold : add64 it.actual_size it.padding_size = sz + (16 - sz % 16) := by
    rw [hpad.1, heq]
    exact add64_eq _ _ hrep
  have hnew : add64 sz (padding_of sz) = sz + (16 - sz % 16) := by
    rw [padding_of_eq]
    exact add64_eq _ _ (by omega)
  have hsz0 : (sz == 0) = false := by
    simp only [beq_eq_false_iff_ne]
    omega
  have hptr0 : (ptr == 0) = false := by
    simp only [beq_eq_false_iff_ne]
    omega
  unfold m61_realloc
  simp only [hsz0, hptr0, hact, Bool.false_eq_true, if_false]
  rw [hnew, hold, if_pos (le_refl _), padding_of_eq]
  simp only [Nat.sub_self, gt_iff_lt, Nat.lt_irrefl, if_false]
  exact ⟨_, rfl⟩

/-- C25. In every reachable state, for an active allocation `ptr` of recorded
size `a` and a size `sz > 0` whose block length `sz + pad(sz)` equals the old
one `a + pad(a)`: `m61_realloc(ptr, sz)` returns `ptr`, having written no
footer at `ptr + sz`; unless the byte there happens to be 61, the following
`m61_free(ptr)` does not complete: it ends in an `abort()`. -/
theorem m61_free_after_shrink_aborts (s : Heap) (hs : Reachable s) (ptr sz : Nat)
    (it : properties) (hact : map_find s.active_addresses ptr = some it) (hsz : 0 < sz)
    (hrep : it.actual_size + pad it.actual_size < 2 ^ 64)
    (heq : sz + pad sz = it.actual_size + pad it.actual_size)
    (hbyte : s.bytes (ptr + sz) ≠ 61) :
    ∃ s1, m61_realloc s ptr sz = .ok (ptr, s1) ∧ s1.bytes = s.bytes ∧
      ∃ e, m61_free s1 ptr = .error e := by
  obtain ⟨g, hg⟩ := m61_realloc_same_length s hs ptr sz it hact hsz hrep heq
  refine ⟨_, hg, rfl, ?_⟩
  have hinv := reachable_heap_inv s hs
  have hmem := mem_of_map_find _ _ _ hact
  have hin := hinv.active_in _ hmem
  have hpad := hinv.active_pad _ hmem
  simp only at hin hpad
  have hhi := hinv.base_hi
  have hfind := map_find_map_set s.active_addresses ptr ⟨sz, pad sz⟩ it hact
  have hmagic : add64 ptr sz = ptr + sz := by
    apply add64_eq
    unfold pad at hrep heq
    rw [hpad.1, add64_eq _ _ hrep] at hin
    omega
  unfold m61_free
  simp only [hfind, hmagic]
  split
  · rename_i h0
    exfalso
    have hpos := hinv.base_pos
    simp only [beq_iff_eq] at h0
    omega
  · split
    · exact ⟨_, rfl⟩
    · split
      · exact ⟨_, rfl⟩
      · split
        · exact ⟨_, rfl⟩
        · split
          · exact ⟨_, rfl⟩
          · rename_i hb
            exfalso
            simp at hb
            exact hbyte hb

/-- Witness for C25: the program `test54.cc`.  After `m61_malloc(10)` the
footer is at `ptr + 10` and the byte at `ptr + 2` is 0; `m61_realloc(ptr, 2)`
keeps the 16-byte block and returns `ptr`; `m61_free` then reports a wild
write and aborts. -/
theorem m61_free_after_shrink_aborts_witness :
    Reachable heap10 ∧ map_find heap10.active_addresses buffer0 = some ⟨10, 6⟩ ∧
    heap10.bytes (buffer0 + 2) = 0 ∧ heap10.bytes (buffer0 + 10) = 61 ∧
    (∃ s1, m61_realloc heap10 buffer0 2 = .ok (buffer0, s1) ∧ s1.bytes = heap10.bytes ∧
      ∃ e, m61_free s1 buffer0 = .error e) ∧
    aborted test54 = some Abort.wild_write :=
  ⟨heap10_reachable, by decide, by decide, by decide,
    m61_free_after_shrink_aborts heap10 heap10_reachable buffer0 2 ⟨10, 6⟩ (by decide)
      (by decide) (by decide) (by decide) (by decide),
    by decide⟩

/-! ## C26: the statistics after an in-place `m61_realloc` -/

/-- C26. The statistics after a realloc in place.  In every reachable state,
for an active allocation `ptr` of recorded size `a` and a size `sz > 0` with
`sz + pad(sz) ≤ a + pad(a)`: `m61_realloc(ptr, sz)` returns `ptr`, leaves
`nactive` as it was, and changes `active_size` by the difference of the block
lengths, `(sz + pad(sz)) - (a + pad(a))` modulo `2 ^ 64`, not by the difference
`sz - a` of the requested sizes. -/
theorem m61_realloc_in_place_active_size_drifts (s : Heap) (hs : Reachable s) (ptr sz : Nat)
    (it : properties) (hact : map_find s.active_addresses ptr = some it) (hsz : 0 < sz)
    (hrep : it.actual_size + pad it.actual_size < 2 ^ 64)
    (hle : sz + pad sz ≤ it.actual_size + pad it.actual_size) :
    ∃ s1, m61_realloc s ptr sz = .ok (ptr, s1) ∧
      s1.gstats.nactive = s.gstats.nactive ∧
      s1.gstats.active_size = add64 s.gstats.active_size
        (sub64 (sz + pad sz) (it.actual_size + pad it.actual_size)) := by
  have hinv := reachable_heap_inv s hs
  have hmem := mem_of_map_find _ _ _ hact
  have hin := hinv.active_in _ hmem
  have hpad := hinv.active_pad _ hmem
  simp only at hin hpad
  have hpos := hinv.base_pos
  unfold pad at hrep hle ⊢
  have hold : add64 it.actual_size it.padding_size =
      it.actual_size + (16 - it.actual_size % 16) := by
    rw [hpad.1]
    exact add64_eq _ _ hrep
  rw [hold] at hin
  have hhi := hinv.base_hi
  have hnew : add64 sz (padding_of sz) = sz + (16 - sz % 16) := by
    rw [padding_of_eq]
    exact add64_eq _ _ (by omega)
  have hmod : sz % 16 < 16 := Nat.mod_lt _ (by decide)
  have hsz0 : (sz == 0) = false := by
    simp only [beq_eq_false_iff_ne]
    omega
  have hptr0 : (ptr == 0) = false := by
    simp only [beq_eq_false_iff_ne]
    omega
  unfold m61_realloc
  simp only [hsz0, hptr0, hact, Bool.false_eq_true, if_false]
  rw [hnew, hold, if_pos hle, padding_of_eq]
  split
  · have hmagic : add64 ptr sz = ptr + sz := add64_eq _ _ (by omega)
    have hins : s.inside (add64 ptr sz) 1 = true := by
      unfold Heap.inside
      rw [hmagic]
      simp only [Bool.and_eq_true, decide_eq_true_eq]
      omega
    simp only [hins, Bool.not_true, Bool.false_eq_true, if_false]
    exact ⟨_, rfl, rfl, rfl⟩
  · exact ⟨_, rfl, rfl, rfl⟩

/-- Witness for C26.  In `test54.cc`, after `m61_malloc(10)` and
`m61_realloc(ptr, 2)` there is one active allocation, of requested size 2, and
`nactive` is 1, but `active_size` is still 10.  After `m61_malloc(20)`,
`m61_realloc(ptr, 2)` and `m61_free(ptr)` no allocation is active and `nactive`
is 0, but `active_size` is 2.  When the realloc moves the block (`test55.cc`,
10 to 20) both statistics are 0 after the free. -/
theorem m61_realloc_in_place_active_size_drifts_witness :
    Reachable heap10 ∧ heap10.gstats.active_size = 10 ∧
    (∃ s1, m61_realloc heap10 buffer0 2 = .ok (buffer0, s1) ∧
      s1.gstats.nactive = heap10.gstats.nactive ∧
      s1.gstats.active_size = add64 heap10.gstats.active_size (sub64 (2 + pad 2) (10 + pad 10))) ∧
    add64 heap10.gstats.active_size (sub64 (2 + pad 2) (10 + pad 10)) = 10 ∧
    test54_realloc.toOption.map (fun r =>
      (r.2.gstats.nactive, r.2.active_addresses.length, r.2.gstats.active_size, active_sum r.2))
      = some (1, 1, 10, 2) ∧
    shrink_run.toOption.map (fun s =>
      (s.gstats.nactive, s.active_addresses.length, s.gstats.active_size, active_sum s))
      = some (0, 0, 2, 0) ∧
    test55.toOption.map (fun s =>
      (s.gstats.nactive, s.active_addresses.length, s.gstats.active_size, active_sum s))
      = some (0, 0, 0, 0) :=
  ⟨heap10_reachable, by decide,
    m61_realloc_in_place_active_size_drifts heap10 heap10_reachable buffer0 2 ⟨10, 6⟩
      (by decide) (by decide) (by decide) (by decide),
    by decide, by decide, by decide, by decide⟩

/-! ## C27: `m61_realloc` moves a block -/

theorem m61_malloc_buffer (s s1 : Heap) (sz p : Nat) (h : m61_malloc s sz = .ok (p, s1)) :
    s1.buffer = s.buffer := by
  unfold m61_malloc at h
  split at h
  · simp only [Except.ok.injEq, Prod.mk.injEq] at h
    obtain ⟨-, rfl⟩ := h
    rfl
  · simp only at h
    split at h
    · simp only [Except.ok.injEq, Prod.mk.injEq] at h
      obtain ⟨-, rfl⟩ := h
      rfl
    · split at h
      · exact absurd h (by simp)
      · split at h <;>
        · simp only [Except.ok.injEq, Prod.mk.injEq] at h
          obtain ⟨-, rfl⟩ := h
          rfl

theorem m61_free_buffer (s s1 : Heap) (ptr : Nat) (h : m61_free s ptr = .ok s1) :
    s1.buffer = s.buffer := by
  unfold m61_free at h
  split at h
  · simp only [Except.ok.injEq] at h
    subst h
    rfl
  · split at h
    · exact absurd h (by simp)
    · split at h
      · exact absurd h (by simp)
      · split at h
        · exact absurd h (by simp)
        · simp only at h
          split at h
          · exact absurd h (by simp)
          · split at h
            · exact absurd h (by simp)
            · simp only [Except.ok.injEq] at h
              subst h
              rfl

/-- C27. The copy of the moving branch of `m61_realloc` reads `sz` bytes, the
new size, from the old block.  In every reachable state, for an active
allocation `ptr` of recorded size `a` and a size `sz` below the buffer size
with `sz + pad(sz) > a + pad(a)`: when fewer than `sz` bytes lie between `ptr`
and the end of the buffer, `m61_realloc(ptr, sz)` returns no allocation; it
returns `nullptr` or it does not return, whatever free blocks there are. -/
theorem m61_realloc_grow_reads_new_size (s : Heap) (hs : Reachable s) (ptr sz : Nat)
    (it : properties) (hact : map_find s.active_addresses ptr = some it)
    (hsz : sz < buffer_size)
    (hrep : it.actual_size + pad it.actual_size < 2 ^ 64)
    (hgt : sz + pad sz > it.actual_size + pad it.actual_size)
    (hend : ptr + sz > s.buffer + buffer_size) :
    ∀ p s1, m61_realloc s ptr sz = .ok (p, s1) → p = 0 := by
  intro p s1 h
  have hinv := reachable_heap_inv s hs
  have hmem := mem_of_map_find _ _ _ hact
  have hin := hinv.active_in _ hmem
  have hpad := hinv.active_pad _ hmem
  simp only at hin hpad
  have hpos := hinv.base_pos
  have hbs := buffer_size_val
  unfold pad at hrep hgt
  have hold : add64 it.actual_size it.padding_size = it.actual_size + (16 - it.actual_size % 16) := by
    rw [hpad.1]
    exact add64_eq _ _ hrep
  have hnew : add64 sz (padding_of sz) = sz + (16 - sz % 16) := by
    rw [padding_of_eq]
    exact add64_eq _ _ (by omega)
  have hsz0 : (sz == 0) = false := by
    simp only [beq_eq_false_iff_ne]
    omega
  have hptr0 : (ptr == 0) = false := by
    simp only [beq_eq_false_iff_ne]
    omega
  unfold m61_realloc at h
  simp only [hsz0, hptr0, hact, Bool.false_eq_true, if_false] at h
  rw [hnew, hold, if_neg (by omega)] at h
  rcases hm : m61_malloc s sz with e | ⟨nptr, s2⟩
  · rw [hm] at h
    exact absurd h (by simp)
  · rw [hm] at h
    simp only at h
    split at h
    · rcases hf : m61_free s2 ptr with e | s3
      · rw [hf] at h
        exact absurd h (by simp)
      · rw [hf] at h
        have hb3 : s3.buffer = s.buffer :=
          (m61_free_buffer s2 s3 ptr hf).trans (m61_malloc_buffer s s2 sz nptr hm)
        have hout : s3.inside ptr sz = false := by
          unfold Heap.inside
          rw [hb3]
          simp only [Bool.and_eq_false_imp, decide_eq_true_eq, decide_eq_false_iff_not]
          intro _
          omega
        simp only [hout, Bool.not_false, Bool.true_or, if_true] at h
        exact absurd h (by simp)
    · rename_i hn
      simp only [Except.ok.injEq, Prod.mk.injEq] at h
      simp only [bne_iff_ne, ne_eq, Decidable.not_not] at hn
      omega

/-- The state `tail4` is reachable. -/
theorem tail4_reachable : Reachable tail4 :=
  Reachable.free tail3 tail4 buffer0
    (Reachable.malloc tail2 tail3 10 (buffer0 + 8388592)
      (Reachable.malloc tail1 tail2 8388528 (buffer0 + 48)
        (Reachable.malloc (Heap.init buffer0) tail1 40 buffer0
          (Reachable.init buffer0 (by decide) (by decide) (by decide)) (by decide) rfl)
        (by decide) rfl)
      (by decide) rfl)
    (by decide) rfl

/-- Witness for C27: in the state `tail4` the allocation of 10 bytes at the
last 16 bytes of the buffer is realloc'ed to 20 bytes while a free block of 48
bytes exists: the call stops at the read past the end of the buffer.  In
`test55.cc`, where the old block is at the start of the buffer, the call
returns a new pointer with total count 2 and total size 30. -/
theorem m61_realloc_grow_reads_new_size_witness :
    Reachable tail4 ∧
    map_find tail4.active_addresses (buffer0 + 8388592) = some ⟨10, 6⟩ ∧
    tail4.freed_addresses = [(buffer0, 48)] ∧
    (∀ p s1, m61_realloc tail4 (buffer0 + 8388592) 20 = .ok (p, s1) → p = 0) ∧
    aborted (m61_realloc tail4 (buffer0 + 8388592) 20) = some Abort.wild_access ∧
    test55_realloc.toOption.map (fun r =>
      (r.1, r.2.active_addresses, r.2.gstats.ntotal, r.2.gstats.total_size))
      = some (buffer0 + 16, [(buffer0 + 16, ⟨20, 12⟩)], 2, 30) :=
  ⟨tail4_reachable, by decide, by decide,
    m61_realloc_grow_reads_new_size tail4 tail4_reachable (buffer0 + 8388592) 20 ⟨10, 6⟩
      (by decide) (by decide) (by decide) (by decide) (by decide),
    by decide, by decide⟩

/-! ## C28: `m61_calloc` -/

/-- C28. For every state and every `count`, `m61_calloc(count, 0)` does not
return: its first test divides `SIZE_MAX` by `sz`, which is 0.  For `sz > 0`
and a product `count * sz` that does not fit in `size_t` or is at least the
buffer size, `m61_calloc` returns `nullptr`, and only the failure statistics
change. -/
theorem m61_calloc_zero_size_divides (s : Heap) (count : Nat) :
    m61_calloc s count 0 = .error Abort.div_by_zero ∧
    ∀ sz, 0 < sz → sz < 2 ^ 64 → count < 2 ^ 64 →
      (2 ^ 64 ≤ count * sz ∨ buffer_size ≤ count * sz) →
      m61_calloc s count sz =
        .ok (0, ⟨stat_fail s.gstats sz, s.freed_addresses, s.active_addresses, s.buffer,
          s.bytes⟩) := by
  constructor
  · rfl
  · intro sz hsz _ _ h
    have hsz0 : (sz == 0) = false := by
      simp only [beq_eq_false_iff_ne]
      omega
    have hcond : (decide (count > SIZE_MAX / sz) ||
        decide ((sz * count) % 2 ^ 64 ≥ buffer_size)) = true := by
      simp only [Bool.or_eq_true, decide_eq_true_eq]
      by_cases hov : 2 ^ 64 ≤ count * sz
      · left
        unfold SIZE_MAX
        apply (Nat.div_lt_iff_lt_mul hsz).2
        omega
      · right
        rcases h with h | h
        · exact absurd h hov
        · rw [Nat.mul_comm sz count, Nat.mod_eq_of_lt (by omega)]
          exact h
    unfold m61_calloc
    simp only [hsz0, hcond, Bool.false_eq_true, if_false, if_true]

/-- Witness for C28: `m61_calloc(5, 0)` on the fresh heap, and the requests
`m61_calloc(2 ^ 32, 2 ^ 32)` and `m61_calloc(1024, 8192)`. -/
theorem m61_calloc_zero_size_divides_witness :
    m61_calloc (Heap.init buffer0) 5 0 = .error Abort.div_by_zero ∧
    (m61_calloc (Heap.init buffer0) (2 ^ 32) (2 ^ 32)).toOption.map Prod.fst = some 0 ∧
    (m61_calloc (Heap.init buffer0) 1024 8192).toOption.map Prod.fst = some 0 :=
  ⟨(m61_calloc_zero_size_divides (Heap.init buffer0) 5).1,
    by rw [(m61_calloc_zero_size_divides (Heap.init buffer0) (2 ^ 32)).2 (2 ^ 32)
      (by decide) (by decide) (by decide) (Or.inl (by decide))]; rfl,
    by rw [(m61_calloc_zero_size_divides (Heap.init buffer0) 1024).2 8192
      (by decide) (by decide) (by decide) (Or.inr (by decide))]; rfl⟩

/-! ## C36: blocks after a realloc whose block length wraps around -/

theorem map_find_map_insert {β : Type} (m : List (Nat × β)) (k : Nat) (v : β) :
    (map_find (map_insert m k v) k).isSome = true := by
  unfold map_find
  induction m with
  | nil => simp [map_insert]
  | cons e rest ih =>
    simp only [map_insert]
    split
    · simp
    · split
      · rename_i h
        simp only [beq_iff_eq] at h
        simp [List.find?, h]
      · rename_i h
        simp only [beq_iff_eq] at h
        have hb : (e.1 == k) = false := by
          simp only [beq_eq_false_iff_ne]
          exact fun hh => h hh.symm
        simp only [List.find?, hb]
        exact ih

/-- C36. A realloc whose block length does not fit in `size_t`.  In every
reachable state, for an active allocation `ptr` at least 16 bytes above the
start of the buffer and a size `sz` with `2 ^ 64 - 16 ≤ sz < 2 ^ 64`:
`sz + padding` wraps around to 0, so `m61_realloc(ptr, sz)` takes the in-place
branch and returns `ptr`.  Afterwards `ptr` is an active allocation of recorded
size `sz`, far larger than the buffer, and `ptr` is also the start of a block
of the free list. -/
theorem m61_realloc_wraps_block_length (s : Heap) (hs : Reachable s) (ptr sz : Nat)
    (it : properties) (hact : map_find s.active_addresses ptr = some it)
    (hrep : it.actual_size + pad it.actual_size < 2 ^ 64)
    (hsz : 2 ^ 64 - 16 ≤ sz) (hsz2 : sz < 2 ^ 64) (hroom : s.buffer + 16 ≤ ptr) :
    ∃ s1, m61_realloc s ptr sz = .ok (ptr, s1) ∧
      map_find s1.active_addresses ptr = some ⟨sz, pad sz⟩ ∧
      (map_find s1.freed_addresses ptr).isSome = true ∧
      s.buffer + buffer_size < ptr + sz + pad sz := by
  have hinv := reachable_heap_inv s hs
  have hmem := mem_of_map_find _ _ _ hact
  have hin := hinv.active_in _ hmem
  have hpad := hinv.active_pad _ hmem
  simp only at hin hpad
  have hpos := hinv.base_pos
  have hhi := hinv.base_hi
  have hbs := buffer_size_val
  unfold pad at hrep ⊢
  have hold : add64 it.actual_size it.padding_size =
      it.actual_size + (16 - it.actual_size % 16) := by
    rw [hpad.1]
    exact add64_eq _ _ hrep
  rw [hold] at hin
  have hnew : add64 sz (padding_of sz) = 0 := by
    rw [padding_of_eq]
    unfold add64
    have : sz + (16 - sz % 16) = 2 ^ 64 := by omega
    rw [this]
    exact Nat.mod_self _
  have hsz0 : (sz == 0) = false := by
    simp only [beq_eq_false_iff_ne]
    omega
  have hptr0 : (ptr == 0) = false := by
    simp only [beq_eq_false_iff_ne]
    omega
  have hfind := map_find_map_set s.active_addresses ptr ⟨sz, 16 - sz % 16⟩ it hact
  have hmagic : add64 ptr sz = ptr + sz - 2 ^ 64 := by
    unfold add64
    have : ptr + sz = (ptr + sz - 2 ^ 64) + 2 ^ 64 := by omega
    rw [this, Nat.add_mod_right, Nat.add_sub_cancel]
    exact Nat.mod_eq_of_lt (by omega)
  have hins : s.inside (add64 ptr sz) 1 = true := by
    unfold Heap.inside
    rw [hmagic]
    simp only [Bool.and_eq_true, decide_eq_true_eq]
    omega
  have hdiff : it.actual_size + (16 - it.actual_size % 16) - 0 > 0 := by omega
  have hp0 : add64 ptr 0 = ptr := by
    unfold add64
    exact Nat.mod_eq_of_lt (by omega)
  unfold m61_realloc
  simp only [hsz0, hptr0, hact, Bool.false_eq_true, if_false]
  rw [hnew, hold, if_pos (Nat.zero_le _), padding_of_eq, if_pos hdiff]
  simp only [hins, Bool.not_true, Bool.false_eq_true, if_false, hp0]
  refine ⟨_, rfl, hfind, map_find_map_insert _ _ _, ?_⟩
  omega

/-- The state `heap10_10` is reachable. -/
theorem heap10_10_reachable : Reachable heap10_10 :=
  Reachable.malloc heap10 heap10_10 10 (buffer0 + 16) heap10_reachable (by decide) rfl

/-- Witness for C36: `q = m61_malloc(10)`, `p = m61_malloc(10)`,
`m61_realloc(p, 2 ^ 64 - 16)`.  The realloc returns `p` and writes its footer
into the first byte of `q`; afterwards the active block of `p` and the free
block that starts at `p` share the address `p`, and `m61_malloc(1)` returns
`p` while `p` is still an active allocation. -/
theorem m61_realloc_wraps_block_length_witness :
    Reachable heap10_10 ∧
    map_find heap10_10.active_addresses (buffer0 + 16) = some ⟨10, 6⟩ ∧
    (∃ s1, m61_realloc heap10_10 (buffer0 + 16) (2 ^ 64 - 16) = .ok (buffer0 + 16, s1) ∧
      map_find s1.active_addresses (buffer0 + 16) = some ⟨2 ^ 64 - 16, pad (2 ^ 64 - 16)⟩ ∧
      (map_find s1.freed_addresses (buffer0 + 16)).isSome = true ∧
      heap10_10.buffer + buffer_size < buffer0 + 16 + (2 ^ 64 - 16) + pad (2 ^ 64 - 16)) ∧
    heap_wrap.active_addresses = [(buffer0, ⟨10, 6⟩), (buffer0 + 16, ⟨2 ^ 64 - 16, 16⟩)] ∧
    heap_wrap.freed_addresses = [(buffer0 + 16, 16), (buffer0 + 32, 8388576)] ∧
    (active_block (buffer0 + 16, ⟨2 ^ 64 - 16, 16⟩) (buffer0 + 16) ∧
      free_block (buffer0 + 16, 16) (buffer0 + 16)) ∧
    (heap10_10.bytes buffer0 = 0 ∧ heap_wrap.bytes buffer0 = 61) ∧
    (m61_malloc heap_wrap 1).toOption.map (fun r =>
      (r.1, map_find r.2.active_addresses r.1)) = some (buffer0 + 16, some ⟨2 ^ 64 - 16, 16⟩) :=
  ⟨heap10_10_reachable, by decide,
    m61_realloc_wraps_block_length heap10_10 heap10_10_reachable (buffer0 + 16) (2 ^ 64 - 16)
      ⟨10, 6⟩ (by decide) (by decide) (by decide) (by decide) (by decide),
    by decide, by decide,
    ⟨by unfold active_block; decide, by unfold free_block; decide⟩,
    by decide, by decide⟩

/-! ## C37: `m61_free` and the first block of the free list -/

/-- C37. Freeing a block that lies below every free block.  In every
reachable state, for an active allocation `ptr` with its footer intact such
that every block of the free list starts above `ptr`: `m61_free(ptr)` returns
and merges nothing.  The free list afterwards is the old one with the freed
block inserted, also when a free block starts exactly where the freed block
ends. -/
theorem m61_free_skips_first_block (s : Heap) (hs : Reachable s) (ptr : Nat) (it : properties)
    (hact : map_find s.active_addresses ptr = some it)
    (hrep : it.actual_size + pad it.actual_size < 2 ^ 64)
    (hfoot : s.bytes (ptr + it.actual_size) = 61)
    (habove : ∀ e ∈ s.freed_addresses, ptr < e.1) :
    ∃ s1, m61_free s ptr = .ok s1 ∧
      s1.freed_addresses =
        map_insert s.freed_addresses ptr (it.actual_size + pad it.actual_size) := by
  have hinv := reachable_heap_inv s hs
  have hmem := mem_of_map_find _ _ _ hact
  have hin := hinv.active_in _ hmem
  have hpad := hinv.active_pad _ hmem
  simp only at hin hpad
  have hpos := hinv.base_pos
  have hhi := hinv.base_hi
  unfold pad at hrep ⊢
  have hold : add64 it.actual_size it.padding_size =
      it.actual_size + (16 - it.actual_size % 16) := by
    rw [hpad.1]
    exact add64_eq _ _ hrep
  rw [hold] at hin
  have hptr0 : (ptr == 0) = false := by
    simp only [beq_eq_false_iff_ne]
    omega
  have hnf : map_find s.freed_addresses ptr = none := by
    cases hf : map_find s.freed_addresses ptr with
    | none => rfl
    | some v =>
      have := habove _ (mem_of_map_find _ _ _ hf)
      simp at this
  have hheap : (decide (ptr < s.buffer) || decide (ptr > add64 s.buffer buffer_size)) = false := by
    rw [add64_eq _ _ hhi]
    simp only [Bool.or_eq_false_iff, decide_eq_false_iff_not]
    omega
  have hmagic : add64 ptr it.actual_size = ptr + it.actual_size := add64_eq _ _ (by omega)
  have hins : s.inside (ptr + it.actual_size) 1 = true := by
    unfold Heap.inside
    simp only [Bool.and_eq_true, decide_eq_true_eq]
    omega
  have hb : (s.bytes (ptr + it.actual_size) != 61) = false := by
    rw [hfoot]
    rfl
  have hbelow : s.freed_addresses.filter (fun e => decide (e.1 < ptr)) = [] := by
    apply List.filter_eq_nil_iff.2
    intro e he
    have := habove e he
    simp only [decide_eq_true_eq]
    omega
  have hle : s.freed_addresses.filter (fun e => decide (e.1 ≤ ptr)) = [] := by
    apply List.filter_eq_nil_iff.2
    intro e he
    have := habove e he
    simp only [decide_eq_true_eq]
    omega
  unfold m61_free
  simp only [hptr0, hnf, hheap, hact, hmagic, hins, hb, hold, Bool.false_eq_true, if_false,
    Option.isSome_none, Bool.not_true]
  unfold m61_free_down
  simp only [hbelow, List.getLast?_nil, hle, List.isEmpty_nil, if_true]
  exact ⟨_, rfl, rfl⟩

/-- The state `heap1` is reachable. -/
theorem heap1_reachable : Reachable heap1 :=
  Reachable.malloc (Heap.init buffer0) heap1 1 buffer0
    (Reachable.init buffer0 (by decide) (by decide) (by decide)) (by decide) rfl

/-- Witness for C37: `m61_malloc(1)`, `m61_free` of it, then
`m61_malloc(8 MiB - 16)`.  After the free the list holds two adjacent blocks,
16 bytes at the start of the buffer and the rest, and the request that
succeeds on the fresh heap returns `nullptr`. -/
theorem m61_free_skips_first_block_witness :
    Reachable heap1 ∧ map_find heap1.active_addresses buffer0 = some ⟨1, 15⟩ ∧
    heap1.freed_addresses = [(buffer0 + 16, 8388592)] ∧
    (∃ s1, m61_free heap1 buffer0 = .ok s1 ∧
      s1.freed_addresses = map_insert heap1.freed_addresses buffer0 (1 + pad 1)) ∧
    heap1_freed.freed_addresses = [(buffer0, 16), (buffer0 + 16, 8388592)] ∧
    heap1_freed.active_addresses = [] ∧
    (m61_malloc heap1_freed 8388592).toOption.map Prod.fst = some 0 ∧
    (m61_malloc (Heap.init buffer0) 8388592).toOption.map Prod.fst = some buffer0 :=
  ⟨heap1_reachable, by decide, by decide,
    m61_free_skips_first_block heap1 heap1_reachable buffer0 ⟨1, 15⟩ (by decide) (by decide)
      (by decide) (by decide),
    by decide, by decide, by decide, by decide⟩

/-! ## C38: padding and alignment -/

theorem Aligned.of_keys (s s1 : Heap) (hal : Aligned s) (hb : s1.buffer = s.buffer)
    (hf : ∀ e ∈ s1.freed_addresses, e.1 % 16 = 0)
    (ha : ∀ e ∈ s1.active_addresses, e.1 % 16 = 0) : Aligned s1 :=
  ⟨hb ▸ hal.base, hf, ha⟩

theorem add64_mod16 (a b : Nat) (ha : a % 16 = 0) (hb : b % 16 = 0) : add64 a b % 16 = 0 := by
  unfold add64
  omega

theorem padded_mod16 (sz : Nat) : add64 sz (padding_of sz) % 16 = 0 := by
  rw [padding_of_eq]
  unfold add64
  have : sz % 16 < 16 := Nat.mod_lt _ (by decide)
  omega

/-- The address of the remainder `m61_malloc` puts back on the free list. -/
theorem split_mod16 (fptr sz : Nat) (h : fptr % 16 = 0) :
    add64 (add64 fptr sz) (padding_of sz) % 16 = 0 := by
  rw [padding_of_eq]
  unfold add64
  have : sz % 16 < 16 := Nat.mod_lt _ (by decide)
  omega

/-- What `m61_malloc` returns and leaves, seen from the maps: the pointer is
`nullptr` or the start of a block of the old free list, and every new entry of
either map starts at the pointer or at the address of the remainder. -/
theorem m61_malloc_keys (s s1 : Heap) (sz p : Nat) (h : m61_malloc s sz = .ok (p, s1)) :
    s1.buffer = s.buffer ∧
    (p = 0 ∨ ∃ e ∈ s.freed_addresses, e.1 = p) ∧
    (∀ e ∈ s1.freed_addresses, e ∈ s.freed_addresses ∨
      ∃ f ∈ s.freed_addresses, e.1 = add64 (add64 f.1 sz) (padding_of sz)) ∧
    (∀ e ∈ s1.active_addresses, e ∈ s.active_addresses ∨ ∃ f ∈ s.freed_addresses, e.1 = f.1) := by
  unfold m61_malloc at h
  split at h
  · simp only [Except.ok.injEq, Prod.mk.injEq] at h
    obtain ⟨hp, rfl⟩ := h
    exact ⟨rfl, Or.inl hp.symm, fun e he => Or.inl he, fun e he => Or.inl he⟩
  · simp only at h
    split at h
    · simp only [Except.ok.injEq, Prod.mk.injEq] at h
      obtain ⟨hp, rfl⟩ := h
      exact ⟨rfl, Or.inl hp.symm, fun e he => Or.inl he, fun e he => Or.inl he⟩
    · rename_i fptr o_size hfind
      have hmem := List.mem_of_find?_eq_some hfind
      have hfa : ∀ e ∈ map_erase (if o_size - (sz + padding_of sz) > 0 then
            map_insert s.freed_addresses (add64 (add64 fptr sz) (padding_of sz))
              (o_size - (sz + padding_of sz))
          else s.freed_addresses) fptr,
          e ∈ s.freed_addresses ∨
            ∃ f ∈ s.freed_addresses, e.1 = add64 (add64 f.1 sz) (padding_of sz) := by
        intro e he
        have he := mem_map_erase _ _ _ he
        split at he
        · rcases mem_map_insert _ _ _ _ he with he | he
          · exact Or.inl he
          · exact Or.inr ⟨_, hmem, by rw [he]⟩
        · exact Or.inl he
      have haa : ∀ e ∈ map_insert s.active_addresses fptr ⟨sz, padding_of sz⟩,
          e ∈ s.active_addresses ∨ ∃ f ∈ s.freed_addresses, e.1 = f.1 := by
        intro e he
        rcases mem_map_insert _ _ _ _ he with he | he
        · exact Or.inl he
        · exact Or.inr ⟨_, hmem, by rw [he]⟩
      split at h
      · exact absurd h (by simp)
      · split at h
        · simp only [Except.ok.injEq, Prod.mk.injEq] at h
          obtain ⟨hp, rfl⟩ := h
          exact ⟨rfl, Or.inr ⟨_, hmem, hp⟩, hfa, haa⟩
        · simp only [Except.ok.injEq, Prod.mk.injEq] at h
          obtain ⟨hp, rfl⟩ := h
          exact ⟨rfl, Or.inl hp.symm, hfa, haa⟩

/-- `m61_malloc` keeps the alignment invariant. -/
theorem m61_malloc_aligned (s s1 : Heap) (sz p : Nat) (hal : Aligned s)
    (h : m61_malloc s sz = .ok (p, s1)) : Aligned s1 := by
  obtain ⟨hb, -, hf, ha⟩ := m61_malloc_keys s s1 sz p h
  refine Aligned.of_keys s s1 hal hb ?_ ?_
  · intro e he
    rcases hf e he with h1 | ⟨f, hfm, h1⟩
    · exact hal.freed e h1
    · rw [h1]
      exact split_mod16 _ _ (hal.freed f hfm)
  · intro e he
    rcases ha e he with h1 | ⟨f, hfm, h1⟩
    · exact hal.active e h1
    · rw [h1]
      exact hal.freed f hfm

theorem m61_free_down_keys (fa : List (Nat × Nat)) (ptr total : Nat) :
    (∀ e ∈ (m61_free_down fa ptr total).1, e ∈ fa) ∧
    ((m61_free_down fa ptr total).2.1 = ptr ∨
      ∃ e ∈ fa, (m61_free_down fa ptr total).2.1 = e.1) := by
  unfold m61_free_down
  simp only
  split
  · exact ⟨fun e he => he, Or.inl rfl⟩
  · rename_i prev hlast
    split
    · have hmem : prev ∈ fa.filter (fun e => decide (e.1 < ptr)) :=
        List.mem_of_getLast?_eq_some hlast
      exact ⟨fun e he => mem_map_erase _ _ _ he, Or.inr ⟨prev, (List.mem_filter.1 hmem).1, rfl⟩⟩
    · exact ⟨fun e he => he, Or.inl rfl⟩

theorem m61_free_up_keys (ptr : Nat) (above : List (Nat × Nat)) :
    ∀ (fa : List (Nat × Nat)) (total : Nat), ∀ e ∈ (m61_free_up ptr above fa total).1, e ∈ fa := by
  induction above with
  | nil => intro fa total e he; exact he
  | cons nb rest ih =>
    intro fa total e he
    simp only [m61_free_up] at he
    split at he
    · exact mem_map_erase _ _ _ (ih _ _ e he)
    · exact he

/-- `m61_free` keeps the alignment invariant. -/
theorem m61_free_aligned (s s1 : Heap) (ptr : Nat) (hal : Aligned s)
    (h : m61_free s ptr = .ok s1) : Aligned s1 := by
  unfold m61_free at h
  split at h
  · simp only [Except.ok.injEq] at h
    subst h
    exact hal
  · split at h
    · exact absurd h (by simp)
    · split at h
      · exact absurd h (by simp)
      · split at h
        · exact absurd h (by simp)
        · rename_i it hfind
          simp only at h
          split at h
          · exact absurd h (by simp)
          · split at h
            · exact absurd h (by simp)
            · simp only [Except.ok.injEq] at h
              subst h
              have hmem := mem_of_map_find _ _ _ hfind
              have hp := hal.active _ hmem
              simp only at hp
              have hd := m61_free_down_keys s.freed_addresses ptr
                (add64 it.actual_size it.padding_size)
              refine Aligned.of_keys s _ hal ?_ ?_ ?_
              · rfl
              · intro e he
                rcases mem_map_insert _ _ _ _ he with he | he
                · split at he
                  · exact hal.freed e (hd.1 e he)
                  · exact hal.freed e (hd.1 e (m61_free_up_keys _ _ _ _ e he))
                · subst he
                  simp only
                  rcases hd.2 with h1 | ⟨f, hfm, h1⟩
                  · rw [h1]; exact hp
                  · rw [h1]; exact hal.freed f hfm
              · intro e he
                exact hal.active e (mem_map_erase _ _ _ he)

/-- What `m61_realloc` returns and leaves, seen from the maps. -/
theorem m61_realloc_aligned (s s1 : Heap) (ptr sz p : Nat) (hal : Aligned s)
    (h : m61_realloc s ptr sz = .ok (p, s1)) :
    Aligned s1 ∧ (p = 0 ∨ (∃ e ∈ s.freed_addresses, e.1 = p) ∨ (∃ e ∈ s.active_addresses, e.1 = p)) := by
  unfold m61_realloc at h
  split at h
  · rcases hf : m61_free s ptr with e | s2
    · rw [hf] at h
      exact absurd h (by simp [Except.map])
    · rw [hf] at h
      simp only [Except.map, Except.ok.injEq, Prod.mk.injEq] at h
      obtain ⟨hp, rfl⟩ := h
      exact ⟨m61_free_aligned s _ ptr hal hf, Or.inl hp.symm⟩
  · split at h
    · refine ⟨m61_malloc_aligned s s1 sz p hal h, ?_⟩
      rcases (m61_malloc_keys s s1 sz p h).2.1 with h1 | ⟨f, hfm, h1⟩
      · exact Or.inl h1
      · exact Or.inr (Or.inl ⟨f, hfm, h1⟩)
    · split at h
      · exact absurd h (by simp)
      · rename_i it hfind
        have hmem := mem_of_map_find _ _ _ hfind
        have hp := hal.active _ hmem
        simp only at hp h
        split at h
        · have haa : ∀ e ∈ map_set s.active_addresses ptr ⟨sz, padding_of sz⟩, e.1 % 16 = 0 := by
            intro e he
            rcases mem_map_set _ _ _ _ he with he | ⟨he, -⟩
            · exact hal.active e he
            · subst he
              exact hp
          split at h
          · split at h
            · exact absurd h (by simp)
            · simp only [Except.ok.injEq, Prod.mk.injEq] at h
              obtain ⟨hpp, rfl⟩ := h
              refine ⟨Aligned.of_keys s _ hal rfl ?_ haa, Or.inr (Or.inr ⟨_, hmem, hpp⟩)⟩
              intro e he
              rcases mem_map_insert _ _ _ _ he with he | he
              · exact hal.freed e he
              · subst he
                exact add64_mod16 _ _ hp (padded_mod16 sz)
          · simp only [Except.ok.injEq, Prod.mk.injEq] at h
            obtain ⟨hpp, rfl⟩ := h
            exact ⟨Aligned.of_keys s _ hal rfl hal.freed haa, Or.inr (Or.inr ⟨_, hmem, hpp⟩)⟩
        · rcases hm : m61_malloc s sz with e | ⟨nptr, s2⟩
          · rw [hm] at h
            exact absurd h (by simp)
          · rw [hm] at h
            have hal2 := m61_malloc_aligned s s2 sz nptr hal hm
            have hn : nptr = 0 ∨ (∃ e ∈ s.freed_addresses, e.1 = nptr) ∨
                (∃ e ∈ s.active_addresses, e.1 = nptr) := by
              rcases (m61_malloc_keys s s2 sz nptr hm).2.1 with h1 | ⟨f, hfm, h1⟩
              · exact Or.inl h1
              · exact Or.inr (Or.inl ⟨f, hfm, h1⟩)
            simp only at h
            split at h
            · rcases hf : m61_free s2 ptr with e | s3
              · rw [hf] at h
                exact absurd h (by simp)
              · rw [hf] at h
                have hal3 := m61_free_aligned s2 s3 ptr hal2 hf
                simp only at h
                split at h
                · exact absurd h (by simp)
                · simp only [Except.ok.injEq, Prod.mk.injEq] at h
                  obtain ⟨hpp, rfl⟩ := h
                  exact ⟨Aligned.of_keys s3 _ hal3 rfl hal3.freed hal3.active, hpp ▸ hn⟩
            · simp only [Except.ok.injEq, Prod.mk.injEq] at h
              obtain ⟨hpp, rfl⟩ := h
              exact ⟨hal2, hpp ▸ hn⟩

/-- `m61_calloc` keeps the alignment invariant and returns `nullptr` or an
aligned pointer. -/
theorem m61_calloc_aligned (s s1 : Heap) (count sz p : Nat) (hal : Aligned s)
    (h : m61_calloc s count sz = .ok (p, s1)) :
    Aligned s1 ∧ (p = 0 ∨ (∃ e ∈ s.freed_addresses, e.1 = p) ∨ (∃ e ∈ s.active_addresses, e.1 = p)) := by
  unfold m61_calloc at h
  split at h
  · exact absurd h (by simp)
  · split at h
    · simp only [Except.ok.injEq, Prod.mk.injEq] at h
      obtain ⟨hp, rfl⟩ := h
      exact ⟨Aligned.of_keys s _ hal rfl hal.freed hal.active, Or.inl hp.symm⟩
    · rcases hm : m61_malloc s ((count * sz) % 2 ^ 64) with e | ⟨ptr, s2⟩
      · rw [hm] at h
        exact absurd h (by simp)
      · rw [hm] at h
        have hal2 := m61_malloc_aligned s s2 _ ptr hal hm
        have hn : ptr = 0 ∨ (∃ e ∈ s.freed_addresses, e.1 = ptr) ∨
            (∃ e ∈ s.active_addresses, e.1 = ptr) := by
          rcases (m61_malloc_keys s s2 _ ptr hm).2.1 with h1 | ⟨f, hfm, h1⟩
          · exact Or.inl h1
          · exact Or.inr (Or.inl ⟨f, hfm, h1⟩)
        simp only at h
        split at h
        · split at h
          · exact absurd h (by simp)
          · simp only [Except.ok.injEq, Prod.mk.injEq] at h
            obtain ⟨hpp, rfl⟩ := h
            exact ⟨Aligned.of_keys s2 _ hal2 rfl hal2.freed hal2.active, hpp ▸ hn⟩
        · simp only [Except.ok.injEq, Prod.mk.injEq] at h
          obtain ⟨hpp, rfl⟩ := h
          exact ⟨hal2, hpp ▸ hn⟩

/-- Every reachable state satisfies the alignment invariant. -/
theorem reachable_aligned (s : Heap) (h : Reachable s) : Aligned s := by
  induction h with
  | init buffer _ h1 _ =>
    refine ⟨?_, ?_, ?_⟩
    · show buffer % 16 = 0
      omega
    · intro e he
      simp only [Heap.init, List.mem_singleton] at he
      subst he
      show buffer % 16 = 0
      omega
    · intro e he
      simp [Heap.init] at he
  | malloc s s1 sz p _ _ hm ih => exact m61_malloc_aligned s s1 sz p ih hm
  | calloc s s1 count sz p _ _ _ hc ih => exact (m61_calloc_aligned s s1 count sz p ih hc).1
  | realloc s s1 ptr sz p _ _ _ hr ih => exact (m61_realloc_aligned s s1 ptr sz p ih hr).1
  | free s s1 ptr _ _ hf ih => exact m61_free_aligned s s1 ptr ih hf
  | store s p i v it _ _ _ _ ih => exact Aligned.of_keys s _ ih rfl ih.freed ih.active

/-- C38. For every request size `sz` below the buffer size the padding that
`m61_malloc` and `m61_realloc` compute is `16 - (sz mod 16)`, a value in
`1..16` (the test `padding == 0` is never true), so the block length
`sz + padding` is a multiple of 16 strictly greater than `sz`.  And in every
reachable state, every non-null pointer that `m61_malloc`, `m61_calloc` or
`m61_realloc` returns lies at or above the start of the buffer, at an offset
from it that is a multiple of 16. -/
theorem m61_padding_and_alignment :
    (∀ sz, sz < buffer_size →
      (alignment - sz % alignment ≠ 0 ∧ padding_of sz = 16 - sz % 16) ∧
      (1 ≤ padding_of sz ∧ padding_of sz ≤ 16) ∧
      (sz + padding_of sz) % 16 = 0 ∧ sz < sz + padding_of sz) ∧
    (∀ s, Reachable s → ∀ p s1,
      ((∃ sz, m61_malloc s sz = .ok (p, s1)) ∨
       (∃ count sz, m61_calloc s count sz = .ok (p, s1)) ∨
       (∃ ptr sz, m61_realloc s ptr sz = .ok (p, s1))) →
      p ≠ 0 → s.buffer ≤ p ∧ (p - s.buffer) % 16 = 0) := by
  constructor
  · intro sz _
    have hmod : sz % 16 < 16 := Nat.mod_lt _ (by decide)
    rw [padding_of_eq]
    unfold alignment
    omega
  · intro s hs p s1 h hp
    have hal := reachable_aligned s hs
    have hinv := reachable_heap_inv s hs
    have hb := hal.base
    have hkey : (∃ e ∈ s.freed_addresses, e.1 = p) ∨ (∃ e ∈ s.active_addresses, e.1 = p) := by
      rcases h with ⟨sz, h⟩ | ⟨count, sz, h⟩ | ⟨ptr, sz, h⟩
      · rcases (m61_malloc_keys s s1 sz p h).2.1 with h1 | h1
        · exact absurd h1 hp
        · exact Or.inl h1
      · rcases (m61_calloc_aligned s s1 count sz p hal h).2 with h1 | h1
        · exact absurd h1 hp
        · exact h1
      · rcases (m61_realloc_aligned s s1 ptr sz p hal h).2 with h1 | h1
        · exact absurd h1 hp
        · exact h1
    rcases hkey with ⟨e, he, rfl⟩ | ⟨e, he, rfl⟩
    · have h1 := hal.freed e he
      have h2 := (hinv.freed_in e he).1
      exact ⟨h2, by omega⟩
    · have h1 := hal.active e he
      have h2 := (hinv.active_in e he).1
      exact ⟨h2, by omega⟩

/-- Witness for C38: the padding of a request of 10 bytes is 6, and
`m61_malloc(10)` in the state `heap10` returns the address 16 bytes above the
start of the buffer. -/
theorem m61_padding_and_alignment_witness :
    padding_of 10 = 6 ∧ (10 + padding_of 10) % 16 = 0 ∧
    Reachable heap10 ∧ m61_malloc heap10 10 = .ok (buffer0 + 16, heap10_10) ∧
    (heap10.buffer ≤ buffer0 + 16 ∧ (buffer0 + 16 - heap10.buffer) % 16 = 0) :=
  ⟨by decide, by decide, heap10_reachable, rfl,
    m61_padding_and_alignment.2 heap10 heap10_reachable (buffer0 + 16) heap10_10
      (Or.inl ⟨10, rfl⟩) (by decide)⟩

/-! ## C24 as worded: a recorded size whose block length is not representable -/

/-- The state `heap_wrap` is reachable: `m61_malloc(10)` twice, then
`m61_realloc` of the second allocation to `2 ^ 64 - 16` bytes, which returns. -/
theorem heap_wrap_reachable : Reachable heap_wrap :=
  Reachable.realloc heap10_10 heap_wrap (buffer0 + 16) (2 ^ 64 - 16) (buffer0 + 16)
    heap10_10_reachable (by decide) (by decide)
    (WeensyOS.except_ok_of_fst (m61_realloc heap10_10 (buffer0 + 16) (2 ^ 64 - 16))
      (buffer0 + 16) (Heap.init buffer0) (by decide))

/-- C24 as worded fails for an allocation whose block length `a + pad(a)` is
not representable in `size_t`.  In the reachable state `heap_wrap` the
allocation at `buffer0 + 16` is active with recorded requested size
`a = 2 ^ 64 - 16` and padding 16, and `sz = 5` satisfies `sz > 0` and
`sz + pad(sz) ≤ a + pad(a)`.  The code computes the old block length modulo
`2 ^ 64`, which gives 0, so `m61_realloc(ptr, 5)` takes the branch that
allocates, copies and frees: it returns, and afterwards `ptr` is not an
active allocation. -/
theorem m61_realloc_unrepresentable_length_moves :
    Reachable heap_wrap ∧
    map_find heap_wrap.active_addresses (buffer0 + 16) = some ⟨2 ^ 64 - 16, 16⟩ ∧
    pad (2 ^ 64 - 16) = 16 ∧
    (0 < 5 ∧ 5 + pad 5 ≤ (2 ^ 64 - 16) + pad (2 ^ 64 - 16)) ∧
    ¬ ((2 ^ 64 - 16) + pad (2 ^ 64 - 16) < 2 ^ 64) ∧
    (m61_realloc heap_wrap (buffer0 + 16) 5).toOption.map
      (fun r => (r.1, map_find r.2.active_addresses (buffer0 + 16), r.2.active_addresses.length))
      = some (buffer0 + 16, none, 1) :=
  ⟨heap_wrap_reachable, by decide, by decide, ⟨by decide, by decide⟩, by decide, by decide⟩

end M61

namespace TxIo61

/-! ## C29: a short read of a mapped file -/

theorem to_size_t_of_nat (n : Nat) (h : n < 2 ^ 64) : to_size_t (n : Int) = n := by
  unfold to_size_t
  have : ((n : Int) % 2 ^ 64) = (n : Int) := Int.emod_eq_of_lt (by omega) (by omega)
  rw [this]
  exact Int.toNat_ofNat n

theorem to_size_t_sub_neg (a b : Nat) (h : a < b) (hb : b ≤ 2 ^ 64) :
    to_size_t ((a : Int) - (b : Int)) = 2 ^ 64 - (b - a) := by
  unfold to_size_t
  have h1 : ((a : Int) - (b : Int)) % 2 ^ 64 = (a : Int) - (b : Int) + 2 ^ 64 := by
    rw [← Int.add_emod_self]
    exact Int.emod_eq_of_lt (by omega) (by omega)
  rw [h1]
  omega

theorem to_size_t_sub_nonneg (a b : Nat) (h : b ≤ a) (ha : a < 2 ^ 64) :
    to_size_t ((a : Int) - (b : Int)) = a - b := by
  have : (a : Int) - (b : Int) = ((a - b : Nat) : Int) := by omega
  rw [this]
  exact to_size_t_of_nat _ (by omega)

theorem to_ssize_t_small (n : Nat) (h : n < 2 ^ 63) : to_ssize_t n = (n : Int) := by
  unfold to_ssize_t
  have h1 : n % 2 ^ 64 = n := Nat.mod_eq_of_lt (by omega)
  rw [h1, if_pos h]

/-- The loop of `io61_read` returns `nread` as soon as it equals `sz`. -/
theorem io61_read_loop_done (sz fuel : Nat) (f : io61_file) (os : OsFile) (buf : Nat → Nat) :
    io61_read_loop sz (fuel + 1) f os buf sz = some (.ok (to_ssize_t sz, buf, f, os)) := by
  simp [io61_read_loop]

/-- C29. A read of a mapped file that asks for more bytes than lie between the
position and the end of the file.  For a file that is mapped and not
positioned, with position `p`, size `n` and cache end `e < n` (after
`io61_fdopen` at offset 0, `e = 0`), and for every `sz` above the `n - p` bytes
that are left: `io61_read(f, buf, sz)` returns `sz`, not `n - p`, and leaves
the position at `p + sz`, past the end of the file.  That includes the read
with the position at the end of the file, `p = n`, and reads at a position
already past it. -/
theorem io61_read_mapped_returns_sz (f : io61_file) (os : OsFile) (buf : Nat → Nat)
    (sz fuel p n e : Nat)
    (hpos : f.positioned = false) (hmap : f.mapped = true)
    (hp : f.pos_tag = (p : Int)) (hn : f.st_size = (n : Int)) (he : f.end_tag = (e : Int))
    (hen : e < n) (hn63 : n < 2 ^ 62) (hp63 : p < 2 ^ 62) (hsz : sz < 2 ^ 62)
    (hshort : n - p < sz) :
    ∃ buf1 f1, io61_read f os buf sz (fuel + 2) = some (.ok ((sz : Int), buf1, f1, os)) ∧
      f1.pos_tag = ((p + sz : Nat) : Int) := by
  unfold io61_read
  simp only [hpos, hmap, Bool.false_eq_true, if_false, if_true, hp, hn]
  by_cases hle : p ≤ n
  · have h1 : to_size_t ((n : Int) - (p : Int)) = n - p := to_size_t_sub_nonneg n p hle (by omega)
    have h2 : min sz (n - p) = n - p := by omega
    have h3 : to_ssize_t (n - p) = ((n - p : Nat) : Int) := to_ssize_t_small _ (by omega)
    have h4 : to_size_t ((n - p : Nat) : Int) = n - p := to_size_t_of_nat _ (by omega)
    rw [h1, h2, h3, h4]
    have hne : ((n - p : Nat) == sz) = false := by
      simp only [beq_eq_false_iff_ne]
      omega
    have hpe : ((p : Int) + ((n - p : Nat) : Int) == (e : Int)) = false := by
      simp only [beq_eq_false_iff_ne]
      omega
    rw [io61_read_loop]
    simp only [hne, Bool.false_eq_true, if_false, he, hpe]
    have h5 : to_size_t ((e : Int) - ((p : Int) + ((n - p : Nat) : Int))) = 2 ^ 64 - (n - e) := by
      have : (p : Int) + ((n - p : Nat) : Int) = (n : Int) := by omega
      rw [this]
      exact to_size_t_sub_neg e n hen (by omega)
    have h6 : (sz + 2 ^ 64 - (n - p)) % 2 ^ 64 = sz - (n - p) := by
      have : sz + 2 ^ 64 - (n - p) = (sz - (n - p)) + 2 ^ 64 := by omega
      rw [this, Nat.add_mod_right]
      exact Nat.mod_eq_of_lt (by omega)
    have h7 : min (sz - (n - p)) (2 ^ 64 - (n - e)) = sz - (n - p) := by omega
    have h8 : (n - p + (sz - (n - p))) % 2 ^ 64 = sz := by
      have : n - p + (sz - (n - p)) = sz := by omega
      rw [this]
      exact Nat.mod_eq_of_lt (by omega)
    rw [h5, h6, h7, h8, io61_read_loop_done, to_ssize_t_small sz (by omega)]
    refine ⟨_, _, rfl, ?_⟩
    simp only
    omega
  · have h1 : to_size_t ((n : Int) - (p : Int)) = 2 ^ 64 - (p - n) :=
      to_size_t_sub_neg n p (by omega) (by omega)
    have h2 : min sz (2 ^ 64 - (p - n)) = sz := by omega
    have h3 : to_ssize_t sz = (sz : Int) := to_ssize_t_small _ (by omega)
    have h4 : to_size_t (sz : Int) = sz := to_size_t_of_nat _ (by omega)
    rw [h1, h2, h3, h4, io61_read_loop_done, h3]
    refine ⟨_, _, rfl, ?_⟩
    simp only
    omega

/-- Witness for C29: a mapped file of 10 bytes opened at offset 0.  A read of
100 bytes returns 100 and leaves the position at 100; the following read of
100 bytes returns 100 again and leaves it at 200. -/
theorem io61_read_mapped_returns_sz_witness :
    (f10.mapped = true ∧ f10.pos_tag = 0 ∧ f10.st_size = 10 ∧ f10.end_tag = 0) ∧
    (∃ buf1 f1, io61_read f10 file10 (fun _ => 0) 100 2 = some (.ok (((100 : Nat) : Int), buf1, f1, file10)) ∧
      f1.pos_tag = ((0 + 100 : Nat) : Int)) ∧
    returned (io61_read f10 file10 (fun _ => 0) 100 2) = some 100 ∧
    f10_read.pos_tag = 100 ∧
    returned (io61_read f10_read file10 (fun _ => 0) 100 2) = some 100 :=
  ⟨by decide,
    io61_read_mapped_returns_sz f10 file10 (fun _ => 0) 100 0 0 10 0 rfl rfl rfl rfl rfl
      (by decide) (by decide) (by decide) (by decide) (by decide),
    by decide, by decide, by decide⟩

end TxIo61

namespace CacheIo61

/-! ## C30: `io61_flush` and a failing `write` -/

/-- C30. For a file opened write-only with cached bytes in `[tag, pos_tag)`:
when the first `write` of `io61_flush` fails with an error other than `EINTR`
and `EAGAIN`, the loop is left by `break` and `io61_flush` returns 0, not -1.
The descriptor has accepted none of the cached bytes, and `tag` is set to
`pos_tag`, so the bytes are no longer part of the cache. -/
theorem io61_flush_returns_zero_on_error (f : io61_file) (os : OsOut) (e : Nat)
    (rest : List WriteOutcome) (fuel : Nat)
    (hmode : f.mode = O_WRONLY) (hdata : f.tag < f.pos_tag)
    (hassert : f.end_tag - f.pos_tag ≤ bufsize)
    (hs : os.script = WriteOutcome.fail e :: rest) (he : e ≠ EINTR ∧ e ≠ EAGAIN) :
    io61_flush f os (fuel + 1) =
      some (.ok (0, ⟨f.mode, f.cbuf, f.pos_tag, f.end_tag, f.pos_tag, f.mapped⟩,
        ⟨os.written, rest⟩)) := by
  have hm : (f.mode == O_RDONLY) = false := by
    rw [hmode]
    decide
  have h0 : to_ssize_t 0 < f.pos_tag - f.tag := by
    have : to_ssize_t 0 = 0 := by decide
    rw [this]
    omega
  have he1 : (e == EINTR || e == EAGAIN) = false := by
    simp only [Bool.or_eq_false_iff, beq_eq_false_iff_ne]
    exact he
  unfold io61_flush
  simp only [hm, Bool.false_eq_true, if_false, hassert, not_true_eq_false]
  rw [io61_flush_loop]
  simp only [h0, if_true, os_write, hs, he1, Bool.false_eq_true, if_false]
  simp

/-- Witness for C30: five cached bytes and a descriptor whose `write` fails
with `EIO`: `io61_flush` returns 0 and nothing has been written. -/
theorem io61_flush_returns_zero_on_error_witness :
    f5.mode = O_WRONLY ∧ f5.tag < f5.pos_tag ∧
    io61_flush f5 os_eio 1 =
      some (.ok (0, ⟨f5.mode, f5.cbuf, f5.pos_tag, f5.end_tag, f5.pos_tag, f5.mapped⟩,
        ⟨os_eio.written, []⟩)) ∧
    outcome (io61_flush f5 os_eio 1) = some (0, []) :=
  ⟨rfl, by decide,
    io61_flush_returns_zero_on_error f5 os_eio EIO [] 0 rfl (by decide) (by decide) rfl
      (by decide),
    by decide⟩

end CacheIo61
